import Mathlib

/-! The cached entries chunker.

A shallow embedding of `engine/chunker/cached_chunker.go`: the chunker that turns an iterator of
multihashes into a chain of content-addressed entry chunks, keeps the chains in an LRU cache and
keeps the chunks, the root markers and the overlap counters in a datastore.

The datastore, the LRU cache and the link system are libraries the chunker is written against;
they are modelled here as far as the chunker uses them.
-/

namespace Chunker

/-! ## Data model -/

/-- A multihash, an opaque byte string. -/
abbrev Digest := List Nat

/-- Modelled from the spec: the link system (an external library) gives every serialised entry
chunk a content address, which the spec takes to be collision-free. A link is therefore
represented by the chunk it addresses: the entries of the chunk and the link of its successor. -/
inductive Link where
  | tail (entries : List Digest)
  | cons (entries : List Digest) (next : Link)
deriving DecidableEq, Repr

/-- The link of the entry chunk with the given entries and successor (`lsys.Store` hashing the
encoded node). -/
def Link.ofNode (entries : List Digest) (next : Option Link) : Link :=
  match next with
  | none => .tail entries
  | some n => .cons entries n

/-- The entries of the chunk a link addresses. -/
def Link.entries : Link → List Digest
  | .tail es => es
  | .cons es _ => es

/-- The successor recorded in the chunk a link addresses. -/
def Link.next : Link → Option Link
  | .tail _ => none
  | .cons _ n => some n

/-- The number of chunks of the chain that starts at a link. -/
def Link.depth : Link → Nat
  | .tail _ => 1
  | .cons _ n => n.depth + 1

/-- The links of the chain that starts at a link, the link itself first. -/
def Link.chain : Link → List Link
  | .tail es => [.tail es]
  | .cons es n => .cons es n :: n.chain

/-- A datastore key: `dsKey l`, `/root/<l>`, `/overlap/<l>`, a key under `/root/` whose last
component is not a CID, or any other key. -/
inductive Key where
  | chunk (l : Link)
  | root (l : Link)
  | overlap (l : Link)
  | rootRaw (name : String)
  | other (name : String)
deriving DecidableEq, Repr

/-- A datastore value: the canonical serialisation of an entry chunk, or any other byte string. -/
inductive Value where
  | node (entries : List Digest) (next : Option Link)
  | raw (bytes : List Nat)
deriving DecidableEq, Repr

/-- The errors of the model. `panic` stands for a Go run-time panic, `fuel` for a traversal cut
short by the model's step bound. -/
inductive Error where
  | notFound
  | store
  | decode
  | hashMismatch
  | invalidCacheKey
  | notPrefixedKey
  | cidDecode
  | panic
  | fuel
deriving DecidableEq, Repr

/-! ## The datastore -/

/-- The value bound to a key in an association list. -/
def lookup : List (Key × Value) → Key → Option Value
  | [], _ => none
  | (k', v) :: s, k => if k' = k then some v else lookup s k

/-- Bind a key to a value, in place when the key is bound already. -/
def insert : List (Key × Value) → Key → Value → List (Key × Value)
  | [], k, v => [(k, v)]
  | (k', v') :: s, k, v => if k' = k then (k, v) :: s else (k', v') :: insert s k v

/-- Unbind a key. -/
def remove : List (Key × Value) → Key → List (Key × Value)
  | [], _ => []
  | (k', v) :: s, k => if k' = k then remove s k else (k', v) :: remove s k

/-- The order in which an unordered collection is enumerated (a datastore query, Go's `range` over
a map) is unspecified: each pick says which of the remaining items comes next. -/
def rangeOrder {α : Type} : List Nat → List α → List α
  | [], xs => xs
  | p :: ps, xs =>
    match xs[p % xs.length]? with
    | none => []
    | some x => x :: rangeOrder ps (xs.eraseIdx (p % xs.length))

/-- Modelled from the spec: the backing store (go-datastore, an external library) with `has`,
`get`, `put`, `delete`, `query` and `sync`. `faults` schedules the failures of the coming
operations, one flag per operation; a store whose schedule is empty never fails. -/
structure Datastore where
  data : List (Key × Value)
  faults : List Bool
deriving DecidableEq, Repr

/-- Whether the coming operation fails. -/
def Datastore.failing (ds : Datastore) : Bool := ds.faults.headD false

/-- The store once the coming operation has used its flag. -/
def Datastore.spend (ds : Datastore) : Datastore := ⟨ds.data, ds.faults.tail⟩

def Datastore.Has (ds : Datastore) (k : Key) : Except Error Bool × Datastore :=
  if ds.failing then (.error .store, ds.spend)
  else (.ok (lookup ds.data k).isSome, ds.spend)

def Datastore.Get (ds : Datastore) (k : Key) : Except Error Value × Datastore :=
  if ds.failing then (.error .store, ds.spend)
  else
    match lookup ds.data k with
    | none => (.error .notFound, ds.spend)
    | some v => (.ok v, ds.spend)

def Datastore.Put (ds : Datastore) (k : Key) (v : Value) : Option Error × Datastore :=
  if ds.failing then (some .store, ds.spend)
  else (none, ⟨insert ds.data k v, ds.faults.tail⟩)

def Datastore.Delete (ds : Datastore) (k : Key) : Option Error × Datastore :=
  if ds.failing then (some .store, ds.spend)
  else (none, ⟨remove ds.data k, ds.faults.tail⟩)

def Datastore.Sync (ds : Datastore) : Option Error × Datastore :=
  if ds.failing then (some .store, ds.spend) else (none, ds.spend)

/-- A keys-only query: the keys that satisfy the prefix test, in the order the store yields
them. -/
def Datastore.Query (ds : Datastore) (pre : Key → Bool) (picks : List Nat) :
    Except Error (List Key) × Datastore :=
  if ds.failing then (.error .store, ds.spend)
  else (.ok (rangeOrder picks ((ds.data.map Prod.fst).filter pre)), ds.spend)

/-- The keys below `rootKeyPrefix`. -/
def underRoot : Key → Bool
  | .root _ => true
  | .rootRaw _ => true
  | _ => false

/-! ## Overlap counters -/

/-- The bytes written by `binary.LittleEndian.PutUint64`. -/
def putUint64 (n : Nat) : List Nat :=
  [n % 256, n / 256 % 256, n / 65536 % 256, n / 16777216 % 256, n / 4294967296 % 256,
   n / 1099511627776 % 256, n / 281474976710656 % 256, n / 72057594037927936 % 256]

/-- The number read by `binary.LittleEndian.Uint64`; `none` where Go panics on a slice shorter
than eight bytes. -/
def uint64 : List Nat → Option Nat
  | b0 :: b1 :: b2 :: b3 :: b4 :: b5 :: b6 :: b7 :: _ =>
    some (b0 + 256 * b1 + 65536 * b2 + 16777216 * b3 + 4294967296 * b4 + 1099511627776 * b5
      + 281474976710656 * b6 + 72057594037927936 * b7)
  | _ => none

/-- Modelled from the spec: the bytes of a serialised entry chunk. The block codec is an
external library (it writes the chunk as a DAG-JSON map with the keys `Entries` and `Next`); the
bytes modelled are the opening of that map followed by the multihashes of the chunk and of its
successors. The chunker looks at these bytes only when it finds a chunk under an overlap key. -/
def encodeChunk (entries : List Digest) (next : Option Link) : List Nat :=
  [123, 34, 69, 110, 116, 114, 105, 101, 115, 34, 58] ++ entries.flatten ++
    (match next with
      | none => []
      | some l => 44 :: (l.chain.map Link.entries).flatten.flatten)

/-- The counter `binary.LittleEndian.Uint64` reads from a value: the first eight bytes of
whatever is stored, a serialised entry chunk included. -/
def Value.counter : Value → Option Nat
  | .raw bytes => uint64 bytes
  | .node es nx => uint64 (encodeChunk es nx)

/-- The value after `PutUint64` has overwritten its first eight bytes. -/
def Value.withCounter : Value → Nat → Value
  | .raw bytes, n => .raw (putUint64 n ++ bytes.drop 8)
  | .node es nx, n => .raw (putUint64 n ++ (encodeChunk es nx).drop 8)

def incrementOverlap (ds : Datastore) (lnk : Link) : Option Error × Datastore :=
  match ds.Get (.overlap lnk) with
  | (.error .notFound, ds) => ds.Put (.overlap lnk) (.raw (putUint64 1))
  | (.error e, ds) => (some e, ds)
  | (.ok oVal, ds) =>
    match oVal.counter with
    | none => (some .panic, ds)
    | some c => ds.Put (.overlap lnk) (oVal.withCounter ((c + 1) % 2 ^ 64))

def decrementOverlap (ds : Datastore) (lnk : Link) : Option Error × Datastore :=
  match ds.Get (.overlap lnk) with
  | (.error .notFound, ds) => (none, ds)
  | (.error e, ds) => (some e, ds)
  | (.ok oVal, ds) =>
    match oVal.counter with
    | none => (some .panic, ds)
    | some c =>
      let count := (c + 2 ^ 64 - 1) % 2 ^ 64
      if count < 1 then ds.Delete (.overlap lnk)
      else ds.Put (.overlap lnk) (oVal.withCounter count)

def countOverlap (ds : Datastore) (link : Link) : Except Error Nat × Datastore :=
  match ds.Get (.overlap link) with
  | (.error .notFound, ds) => (.ok 0, ds)
  | (.error e, ds) => (.error e, ds)
  | (.ok oVal, ds) =>
    match oVal.counter with
    | none => (.error .panic, ds)
    | some c => (.ok c, ds)

/-! ## The link system -/

/-- The commit function handed out by `storageWriteOpener`: a block that is in the store already
has its overlap counter raised, a new one is written. -/
def storageWriteCommit (ds : Datastore) (lnk : Link) (buf : Value) : Option Error × Datastore :=
  match ds.Has (.chunk lnk) with
  | (.error e, ds) => (some e, ds)
  | (.ok true, ds) => incrementOverlap ds lnk
  | (.ok false, ds) => ds.Put (.chunk lnk) buf

def storageReadOpener (ds : Datastore) (lnk : Link) : Except Error Value × Datastore :=
  ds.Get (.chunk lnk)

/-- The call `lsys.Store` on the node built by `newEntriesChunkNode mhs next`: the node is
encoded and hashed, and the commit function is run on its link. The link is returned also when
the commit fails (the callers drop it then). -/
def lsysStore (ds : Datastore) (mhs : List Digest) (next : Option Link) :
    (Link × Option Error) × Datastore :=
  match storageWriteCommit ds (Link.ofNode mhs next) (.node mhs next) with
  | (err, ds) => ((Link.ofNode mhs next, err), ds)

/-- The call `lsys.Load` followed by `schema.UnwrapEntryChunk`: the bytes are read, decoded and
checked against the hash in the link. -/
def lsysLoad (ds : Datastore) (lnk : Link) :
    Except Error (List Digest × Option Link) × Datastore :=
  match storageReadOpener ds lnk with
  | (.error e, ds) => (.error e, ds)
  | (.ok (.raw _), ds) => (.error .decode, ds)
  | (.ok (.node entries next), ds) =>
    if Link.ofNode entries next = lnk then (.ok (entries, next), ds)
    else (.error .hashMismatch, ds)

/-! ## The chunker and its LRU cache -/

/-- Modelled from the spec: the LRU index (groupcache's `lru.Cache`, an external library): the
entries from the most recently added to the oldest, and the bound on their number (0 for no
bound). A key is a root link, or nil. -/
structure LRU where
  MaxEntries : Int
  ll : List (Option Link × List Link)
deriving DecidableEq, Repr

structure CachedEntriesChunker where
  ds : Datastore
  chunkSize : Int
  cache : LRU
  onEvictedErr : Option Error
deriving DecidableEq, Repr

/-- The loop of `onEvicted` over the links of the evicted chain; it stops at the first error. -/
def evictLinks : List Link → Datastore → Option Error × Datastore
  | [], ds => (none, ds)
  | link :: rest, ds =>
    match countOverlap ds link with
    | (.error e, ds) => (some e, ds)
    | (.ok count, ds) =>
      if count = 0 then
        match ds.Delete (.chunk link) with
        | (some e, ds) => (some e, ds)
        | (none, ds) => evictLinks rest ds
      else
        match decrementOverlap ds link with
        | (some e, ds) => (some e, ds)
        | (none, ds) => evictLinks rest ds

/-- The eviction handler. The flag says whether the handler panicked; an error is left in
`onEvictedErr`. -/
def onEvicted (ls : CachedEntriesChunker) (k : Option Link) (val : List Link) :
    Bool × CachedEntriesChunker :=
  match k with
  | none => (false, { ls with onEvictedErr := some .invalidCacheKey })
  | some chunkRoot =>
    match evictLinks val ls.ds with
    | (some .panic, ds) => (true, { ls with ds := ds })
    | (some e, ds) => (false, { ls with ds := ds, onEvictedErr := some e })
    | (none, ds) =>
      match ds.Delete (.root chunkRoot) with
      | (some e, ds) => (false, { ls with ds := ds, onEvictedErr := some e })
      | (none, ds) => (false, { ls with ds := ds })

/-- The call `cache.RemoveOldest`: the last entry leaves the list and the handler runs on it. -/
def removeOldest (ls : CachedEntriesChunker) : Bool × CachedEntriesChunker :=
  match ls.cache.ll.getLast? with
  | none => (false, ls)
  | some (k, v) => onEvicted { ls with cache := ⟨ls.cache.MaxEntries, ls.cache.ll.dropLast⟩ } k v

/-- The call `cache.Add`: a key that is cached moves to the front with its new value; a new key
goes to the front and the oldest entry is removed when the bound is exceeded. -/
def cacheAdd (ls : CachedEntriesChunker) (key : Option Link) (value : List Link) :
    Bool × CachedEntriesChunker :=
  if ls.cache.ll.any (fun e => decide (e.1 = key)) then
    (false, { ls with cache := ⟨ls.cache.MaxEntries,
      (key, value) :: ls.cache.ll.filter (fun e => decide (e.1 ≠ key))⟩ })
  else
    let ls := { ls with cache := ⟨ls.cache.MaxEntries, (key, value) :: ls.cache.ll⟩ }
    if ls.cache.MaxEntries ≠ 0 ∧ (ls.cache.ll.length : Int) > ls.cache.MaxEntries then
      removeOldest ls
    else (false, ls)

/-- The handler run on each entry in turn, as `cache.Clear` does; a panic ends the loop. -/
def evictEach : List (Option Link × List Link) → CachedEntriesChunker → Bool × CachedEntriesChunker
  | [], ls => (false, ls)
  | (k, v) :: rest, ls =>
    match onEvicted ls k v with
    | (true, ls) => (true, ls)
    | (false, ls) => evictEach rest ls

/-- The call `cache.Clear`: the handler runs on every entry, in the order in which Go ranges over
the map, and the cache is emptied. -/
def cacheClear (ls : CachedEntriesChunker) (picks : List Nat) : Bool × CachedEntriesChunker :=
  match evictEach (rangeOrder picks ls.cache.ll) ls with
  | (true, ls) => (true, ls)
  | (false, ls) => (false, { ls with cache := ⟨ls.cache.MaxEntries, []⟩ })

def performOnCache (ls : CachedEntriesChunker)
    (action : CachedEntriesChunker → Bool × CachedEntriesChunker) :
    Option Error × CachedEntriesChunker :=
  match action ls with
  | (true, ls) => (some .panic, { ls with onEvictedErr := none })
  | (false, ls) => (ls.onEvictedErr, { ls with onEvictedErr := none })

/-- The loop of `Chunk` over the multihashes of the iterator. It returns the buffer `mhs`, the
link `next` and the list `chunkLinks` as they stand at the end of the stream. -/
def chunkLoop (chunkSize : Int) :
    List Digest → List Digest → Option Link → List Link → Datastore →
      Except Error (List Digest × Option Link × List Link) × Datastore
  | [], mhs, next, chunkLinks, ds => (.ok (mhs, next, chunkLinks), ds)
  | mh :: rest, mhs, next, chunkLinks, ds =>
    if (((mhs ++ [mh]).length : Nat) : Int) ≥ chunkSize then
      match lsysStore ds (mhs ++ [mh]) next with
      | ((_, some e), ds) => (.error e, ds)
      | ((l, none), ds) => chunkLoop chunkSize rest [] (some l) (chunkLinks ++ [l]) ds
    else chunkLoop chunkSize rest (mhs ++ [mh]) next chunkLinks ds

/-- The steps of `Chunk` after the chain is stored: the chain is added to the cache, its root
marker is written and the store is synced. A nil `next` makes `dsKey` panic. -/
def publish (ls : CachedEntriesChunker) (next : Option Link) (chunkLinks : List Link) :
    (Option Link × Option Error) × CachedEntriesChunker :=
  match performOnCache ls (fun ls => cacheAdd ls next chunkLinks) with
  | (some e, ls) => ((none, some e), ls)
  | (none, ls) =>
    match next with
    | none => ((none, some .panic), ls)
    | some root =>
      match ls.ds.Put (.root root) (.raw []) with
      | (some e, ds) => ((none, some e), { ls with ds := ds })
      | (none, ds) =>
        match ds.Sync with
        | (err, ds) => ((some root, err), { ls with ds := ds })

/-- The largest capacity `make([]multihash.Multihash, 0, n)` accepts. `make` belongs to the Go
run time, which is not among the sources; it is modelled from its documented behaviour: it
panics when `n` is negative or when the slice would need more than `maxAlloc` bytes, which is
2^48 bytes on the 64-bit platforms; at 24 bytes per multihash (a slice header) that gives
11728124029610. An allocation within that bound is taken to succeed. -/
def maxSliceCap : Int := 11728124029610

/-- The operation `Chunk` on an iterator that yields the given multihashes and then `io.EOF`.
The result is the pair Go returns, the link and the error. A `chunkSize` that is negative or
beyond `maxSliceCap` makes `make` panic. -/
def Chunk (ls : CachedEntriesChunker) (mhi : List Digest) :
    (Option Link × Option Error) × CachedEntriesChunker :=
  if ls.chunkSize < 0 ∨ maxSliceCap < ls.chunkSize then ((none, some .panic), ls)
  else
    match chunkLoop ls.chunkSize mhi [] none [] ls.ds with
    | (.error e, ds) => ((none, some e), { ls with ds := ds })
    | (.ok (mhs, next, chunkLinks), ds) =>
      if mhs.length ≠ 0 then
        match lsysStore ds mhs next with
        | ((_, some e), ds) => ((none, some e), { ls with ds := ds })
        | ((l, none), ds) => publish { ls with ds := ds } (some l) (chunkLinks ++ [l])
      else publish { ls with ds := ds } next chunkLinks

def GetRawCachedChunk (ls : CachedEntriesChunker) (l : Link) :
    (Option Value × Option Error) × CachedEntriesChunker :=
  match ls.ds.Get (.chunk l) with
  | (.error .notFound, ds) => ((none, none), { ls with ds := ds })
  | (.error e, ds) => ((none, some e), { ls with ds := ds })
  | (.ok raw, ds) => ((some raw, none), { ls with ds := ds })

def Clear (ls : CachedEntriesChunker) (picks : List Nat) : Option Error × CachedEntriesChunker :=
  performOnCache ls (fun ls => cacheClear ls picks)

def Close (ls : CachedEntriesChunker) : Option Error × CachedEntriesChunker :=
  match ls.ds.Sync with
  | (err, ds) => (err, { ls with ds := ds })

def Cap (ls : CachedEntriesChunker) : Int := ls.cache.MaxEntries

def Len (ls : CachedEntriesChunker) : Nat := ls.cache.ll.length

/-! ## Restoring the cache -/

def linkFromDsCachePrefixedKey : Key → Except Error Link
  | .root l => .ok l
  | .rootRaw _ => .error .cidDecode
  | _ => .error .notPrefixedKey

/-- The loop of `listEntriesChainLinks`. Every round loads a chunk whose hash was checked, so a
chain is never longer than the depth of its root and the step bound is never reached. -/
def listLoop : Nat → Datastore → Link → List Link → (List Link × Option Error) × Datastore
  | 0, ds, _, links => ((links, some .fuel), ds)
  | fuel + 1, ds, next, links =>
    match lsysLoad ds next with
    | (.error e, ds) => ((links, some e), ds)
    | (.ok chunk, ds) =>
      match chunk.2 with
      | none => ((links ++ [next], none), ds)
      | some n => listLoop fuel ds n (links ++ [next])

def listEntriesChainLinks (ds : Datastore) (root : Link) : (List Link × Option Error) × Datastore :=
  listLoop root.depth ds root []

/-- The first loop of `restoreCache`, over the root keys the query returned; it returns the
number of chains restored. -/
def restoreRoots : List Key → Nat → CachedEntriesChunker → Except Error Nat × CachedEntriesChunker
  | [], count, ls => (.ok count, ls)
  | r :: rest, count, ls =>
    match linkFromDsCachePrefixedKey r with
    | .error e => (.error e, ls)
    | .ok l =>
      match listEntriesChainLinks ls.ds l with
      | ((_, some e), ds) => (.error e, { ls with ds := ds })
      | ((links, none), ds) =>
        match performOnCache { ls with ds := ds } (fun ls => cacheAdd ls (some l) links) with
        | (some e, ls) => (.error e, ls)
        | (none, ls) => restoreRoots rest (count + 1) ls

/-- The second loop of `restoreCache`: every key of a store without root keys is deleted. -/
def pruneAll : List Key → Datastore → Option Error × Datastore
  | [], ds => (none, ds)
  | r :: rest, ds =>
    match ds.Delete r with
    | (some e, ds) => (some e, ds)
    | (none, ds) => pruneAll rest ds

def restoreCache (ls : CachedEntriesChunker) (picks : List Nat) :
    Option Error × CachedEntriesChunker :=
  match ls.ds.Query underRoot picks with
  | (.error e, ds) => (some e, { ls with ds := ds })
  | (.ok results, ds) =>
    match restoreRoots results 0 { ls with ds := ds } with
    | (.error e, ls) => (some e, ls)
    | (.ok count, ls) =>
      if count = 0 then
        match ls.ds.Query (fun _ => true) picks with
        | (.error e, ds) => (some e, { ls with ds := ds })
        | (.ok allKeys, ds) =>
          match pruneAll allKeys ds with
          | (err, ds) => (err, { ls with ds := ds })
      else (none, ls)

/-- The constructor: a chunker over the given datastore, with its cache restored. The result is
`none` next to the error when the restore fails. -/
def NewCachedEntriesChunker (ds : Datastore) (chunkSize capacity : Int) (picks : List Nat) :
    Except Error CachedEntriesChunker :=
  match restoreCache ⟨ds, chunkSize, ⟨capacity, []⟩, none⟩ picks with
  | (some e, _) => .error e
  | (none, ls) => .ok ls

/-! ## The store a reliable datastore is left with

The functions below give the contents of a datastore that never fails after the steps of the
chunker; the lemmas further down show that the operations above compute them. -/

/-- The overlap count of a link: 0 when the overlap key is absent. -/
def cnt (s : List (Key × Value)) (L : Link) : Nat :=
  match lookup s (.overlap L) with
  | none => 0
  | some v => v.counter.getD 0

/-- The number of evictions a chunk survives: 0 when the chunk is absent, one more than its
overlap count otherwise. -/
def avail (s : List (Key × Value)) (L : Link) : Nat :=
  match lookup s (.chunk L) with
  | none => 0
  | some _ => cnt s L + 1

/-- Whether a key is the root marker of a chain that contains the link. -/
def rootOver (L : Link) : Key → Bool
  | .root R => decide (L ∈ R.chain)
  | _ => false

/-- The number of root markers in the store whose chain contains the link. -/
def owners (s : List (Key × Value)) (L : Link) : Nat :=
  (s.map Prod.fst).countP (rootOver L)

/-- The number of entries of the LRU index whose list of links contains the link. -/
def lruOwners (c : List (Option Link × List Link)) (L : Link) : Nat :=
  c.countP (fun e => decide (L ∈ e.2))

/-- The store after the commit of the block a link addresses. -/
def commit1 (s : List (Key × Value)) (L : Link) : List (Key × Value) :=
  match lookup s (.chunk L) with
  | some _ => insert s (.overlap L) (.raw (putUint64 ((cnt s L + 1) % 2 ^ 64)))
  | none => insert s (.chunk L) (.node L.entries L.next)

def commitAll (s : List (Key × Value)) (links : List Link) : List (Key × Value) :=
  links.foldl commit1 s

/-- The store after one round of the loop of the eviction handler. -/
def evict1 (s : List (Key × Value)) (L : Link) : List (Key × Value) :=
  if cnt s L = 0 then remove s (.chunk L)
  else if (cnt s L + 2 ^ 64 - 1) % 2 ^ 64 < 1 then remove s (.overlap L)
  else insert s (.overlap L) (.raw (putUint64 ((cnt s L + 2 ^ 64 - 1) % 2 ^ 64)))

def evictAll (s : List (Key × Value)) (links : List Link) : List (Key × Value) :=
  links.foldl evict1 s

/-- The store after the eviction handler has run on an entry. -/
def evictChain (s : List (Key × Value)) (R : Link) (links : List Link) : List (Key × Value) :=
  remove (evictAll s links) (.root R)

/-- The store after the eviction handler has run on each entry of a list. -/
def evictEntries (s : List (Key × Value)) : List (Option Link × List Link) → List (Key × Value)
  | [] => s
  | (some R, links) :: rest => evictEntries (evictChain s R links) rest
  | (none, _) :: rest => evictEntries s rest

/-- The links `Chunk` emits, in the order of emission, from a point of its loop on. -/
def allLinks (chunkSize : Int) : List Digest → List Digest → Option Link → List Link
  | [], mhs, next => if mhs.length ≠ 0 then [Link.ofNode mhs next] else []
  | mh :: rest, mhs, next =>
    if (((mhs ++ [mh]).length : Nat) : Int) ≥ chunkSize then
      Link.ofNode (mhs ++ [mh]) next :: allLinks chunkSize rest [] (some (Link.ofNode (mhs ++ [mh]) next))
    else allLinks chunkSize rest (mhs ++ [mh]) next

/-- The value of `next` when `Chunk` reaches the cache, from a point of its loop on. -/
def rootOf (chunkSize : Int) : List Digest → List Digest → Option Link → Option Link
  | [], mhs, next => if mhs.length ≠ 0 then some (Link.ofNode mhs next) else next
  | mh :: rest, mhs, next =>
    if (((mhs ++ [mh]).length : Nat) : Int) ≥ chunkSize then
      rootOf chunkSize rest [] (some (Link.ofNode (mhs ++ [mh]) next))
    else rootOf chunkSize rest (mhs ++ [mh]) next

/-- The overlap counters of a store are well formed: eight bytes holding a number. -/
def WFc (s : List (Key × Value)) : Prop :=
  ∀ L v, lookup s (.overlap L) = some v → ∃ n, n < 2 ^ 64 ∧ v = .raw (putUint64 n)

/-- The entries of the LRU index after `cache.Add` with a bound of at least one. -/
def addList (max : Int) (c : List (Option Link × List Link)) (R : Link) (links : List Link) :
    List (Option Link × List Link) :=
  if c.any (fun e => decide (e.1 = some R)) then
    (some R, links) :: c.filter (fun e => decide (e.1 ≠ some R))
  else if max ≠ 0 ∧ (((some R, links) :: c).length : Int) > max then
    ((some R, links) :: c).dropLast
  else (some R, links) :: c

/-- The store after `cache.Add`. -/
def addStore (max : Int) (s : List (Key × Value)) (c : List (Option Link × List Link))
    (R : Link) (links : List Link) : List (Key × Value) :=
  if c.any (fun e => decide (e.1 = some R)) then s
  else if max ≠ 0 ∧ (((some R, links) :: c).length : Int) > max then
    evictEntries s (((some R, links) :: c).getLast?).toList
  else s

/-! ## Invariants -/

/-- What the chunker keeps true of the contents of its store: no key is bound twice, a chunk key
holds the chunk its link addresses, an overlap key holds a count between 1 and `K` and comes with
its chunk, a root marker is empty, and there is no other key. -/
structure StoreWF (K : Nat) (s : List (Key × Value)) : Prop where
  nodup : (s.map Prod.fst).Nodup
  chunk : ∀ L v, lookup s (.chunk L) = some v → v = .node L.entries L.next
  overlap : ∀ L v, lookup s (.overlap L) = some v →
    ∃ n, v = .raw (putUint64 n) ∧ 1 ≤ n ∧ n ≤ K ∧ lookup s (.chunk L) ≠ none
  root : ∀ R v, lookup s (.root R) = some v → v = .raw []
  junk : ∀ name, lookup s (.rootRaw name) = none ∧ lookup s (.other name) = none

/-- Every chunk survives as many evictions as there are root markers over it, and `f` more. -/
def Slack (s : List (Key × Value)) (f : Link → Nat) : Prop :=
  ∀ L, owners s L + f L ≤ avail s L

/-- The entries of the LRU index against the store: every entry is keyed by a root whose marker
is in the store and lists the links of the chain of that root, no root is keyed twice, and
every root marker has its entry. -/
structure LruInv (s : List (Key × Value)) (c : List (Option Link × List Link)) : Prop where
  entry : ∀ e ∈ c, ∃ R, e.1 = some R ∧ e.2.Perm R.chain ∧ lookup s (.root R) ≠ none
  nodup : (c.map Prod.fst).Nodup
  marker : ∀ R, lookup s (.root R) ≠ none → some R ∈ c.map Prod.fst

/-- The invariant of a chunker over a reliable store after at most `K` calls of `Chunk`. -/
structure Inv (K : Nat) (ls : CachedEntriesChunker) : Prop where
  reliable : ls.ds.faults = []
  noErr : ls.onEvictedErr = none
  bound : K < 2 ^ 64
  wf : StoreWF K ls.ds.data
  slack : Slack ls.ds.data (fun _ => 0)
  lru : LruInv ls.ds.data ls.cache.ll

/-- The links of the chain that starts at `next`, none for a nil `next`. -/
def chainOpt : Option Link → List Link
  | none => []
  | some l => l.chain

/-- The chunker a reliable `Chunk` that returns the root `R` leaves behind. -/
def chunked (ls : CachedEntriesChunker) (mhi : List Digest) (R : Link) : CachedEntriesChunker :=
  ⟨⟨insert (addStore ls.cache.MaxEntries
      (commitAll ls.ds.data (allLinks ls.chunkSize mhi [] none)) ls.cache.ll R
      (allLinks ls.chunkSize mhi [] none)) (.root R) (.raw []), []⟩,
    ls.chunkSize,
    ⟨ls.cache.MaxEntries,
      addList ls.cache.MaxEntries ls.cache.ll R (allLinks ls.chunkSize mhi [] none)⟩,
    none⟩

/-- The invariant of the first loop of `restoreCache`; `pend` holds the root keys still to come. -/
structure RestInv (K : Nat) (s : List (Key × Value)) (c : List (Option Link × List Link))
    (pend : List Key) : Prop where
  wf : StoreWF K s
  slack : Slack s (fun _ => 0)
  entry : ∀ e ∈ c, ∃ R, e.1 = some R ∧ e.2.Perm R.chain ∧ lookup s (.root R) ≠ none
  nodup : (c.map Prod.fst).Nodup
  pending : ∀ k ∈ pend, ∃ R, k = .root R ∧ lookup s (.root R) ≠ none ∧ some R ∉ c.map Prod.fst
  pendNodup : pend.Nodup
  marker : ∀ R, lookup s (.root R) ≠ none → some R ∈ c.map Prod.fst ∨ Key.root R ∈ pend

/-! ## Histories -/

/-- A call of one of the public operations. -/
inductive Call where
  | chunk (mhi : List Digest)
  | clear (picks : List Nat)
  | getRaw (l : Link)
  | close
deriving DecidableEq, Repr

/-- The chunker after a call, whatever the call returned. -/
def Call.exec (ls : CachedEntriesChunker) : Call → CachedEntriesChunker
  | .chunk mhi => (Chunk ls mhi).2
  | .clear picks => (Clear ls picks).2
  | .getRaw l => (GetRawCachedChunk ls l).2
  | .close => (Close ls).2

/-- Whether a call returns without an error, and with a link in the case of `Chunk`. -/
def Call.succeeds (ls : CachedEntriesChunker) : Call → Bool
  | .chunk mhi =>
    match (Chunk ls mhi).1 with
    | (some _, none) => true
    | _ => false
  | .clear picks => (Clear ls picks).1.isNone
  | .getRaw l => (GetRawCachedChunk ls l).1.2.isNone
  | .close => (Close ls).1.isNone

/-- The chunker after a sequence of calls, whatever they returned. -/
def execAll (ls : CachedEntriesChunker) (calls : List Call) : CachedEntriesChunker :=
  calls.foldl Call.exec ls

/-- An event in the life of a cache: a call, or a restart in which a new chunker is constructed
over the datastore the old one leaves. -/
inductive Event where
  | call (c : Call)
  | reopen (chunkSize capacity : Int) (picks : List Nat)
deriving DecidableEq, Repr

/-- A restart is given a capacity of at least one. -/
def Event.valid : Event → Bool
  | .call _ => true
  | .reopen _ capacity _ => decide (1 ≤ capacity)

/-- The chunker after an event that succeeds. -/
def Event.step (ls : CachedEntriesChunker) : Event → Option CachedEntriesChunker
  | .call c => if c.succeeds ls then some (c.exec ls) else none
  | .reopen chunkSize capacity picks =>
    match NewCachedEntriesChunker ls.ds chunkSize capacity picks with
    | .ok ls' => some ls'
    | .error _ => none

/-- The chunker after a history of events that all succeed. -/
def run : List Event → CachedEntriesChunker → Option CachedEntriesChunker
  | [], ls => some ls
  | e :: es, ls =>
    match e.step ls with
    | none => none
    | some ls' => run es ls'

/-- The chunker `ls` is reached from a construction over the empty reliable datastore by a
history of successful events. -/
def Reached (chunkSize capacity : Int) (picks : List Nat) (es : List Event)
    (ls : CachedEntriesChunker) : Prop :=
  ∃ ls0, NewCachedEntriesChunker ⟨[], []⟩ chunkSize capacity picks = .ok ls0 ∧
    run es ls0 = some ls

/-- The part of the invariant that does not depend on the overlap counts: it holds after any
number of calls. -/
structure LInv (ls : CachedEntriesChunker) : Prop where
  reliable : ls.ds.faults = []
  noErr : ls.onEvictedErr = none
  wfc : WFc ls.ds.data
  keys : (ls.ds.data.map Prod.fst).Nodup
  rootEmpty : ∀ R v, lookup ls.ds.data (.root R) = some v → v = .raw []
  lru : LruInv ls.ds.data ls.cache.ll

/-- The counter-independent invariant of the first loop of `restoreCache`. -/
structure LRest (s : List (Key × Value)) (c : List (Option Link × List Link))
    (pend : List Key) : Prop where
  wfc : WFc s
  keys : (s.map Prod.fst).Nodup
  rootEmpty : ∀ R v, lookup s (.root R) = some v → v = .raw []
  entry : ∀ e ∈ c, ∃ R, e.1 = some R ∧ e.2.Perm R.chain ∧ lookup s (.root R) ≠ none
  nodup : (c.map Prod.fst).Nodup
  pending : ∀ R, Key.root R ∈ pend → lookup s (.root R) ≠ none ∧ some R ∉ c.map Prod.fst
  pendNodup : pend.Nodup
  marker : ∀ R, lookup s (.root R) ≠ none → some R ∈ c.map Prod.fst ∨ Key.root R ∈ pend

/-! ## Example histories -/

/-- The chunker constructed over the empty reliable datastore. -/
def newCache (chunkSize capacity : Int) : CachedEntriesChunker :=
  ⟨⟨[], []⟩, chunkSize, ⟨capacity, []⟩, none⟩

/-- A history with an overlap, an eviction and a restart with a smaller capacity. -/
def exampleHistory : List Event :=
  [.call (.chunk [[1], [2], [3], [7], [8], [9]]), .call (.chunk [[1], [2], [3], [4]]),
   .call (.getRaw (.tail [[1], [2], [3]])), .call (.chunk [[5]]), .reopen 2 1 [1]]

/-- The chunker at the end of the example history. -/
def exampleCache : CachedEntriesChunker :=
  (run exampleHistory (newCache 3 2)).getD (newCache 3 2)

/-- The LRU index keeps its bound and holds no more entries than the bound. -/
def CapOK (capacity : Int) (ls : CachedEntriesChunker) : Prop :=
  ls.cache.MaxEntries = capacity ∧ (ls.cache.ll.length : Int) ≤ capacity

/-- The traversal of a chain through the store that the specification describes: load the
block at the link, output its entries, and follow `next` until there is none. The loads are
those of `listEntriesChainLinks`, and so is the step bound. -/
def traverseLoop : Nat → Datastore → Link → List Digest → Except Error (List Digest) × Datastore
  | 0, ds, _, _ => (.error .fuel, ds)
  | fuel + 1, ds, l, out =>
    match lsysLoad ds l with
    | (.error e, ds) => (.error e, ds)
    | (.ok chunk, ds) =>
      match chunk.2 with
      | none => (.ok (out ++ chunk.1), ds)
      | some n => traverseLoop fuel ds n (out ++ chunk.1)

def traverse (ds : Datastore) (root : Link) : Except Error (List Digest) × Datastore :=
  traverseLoop root.depth ds root []

/-- Five multihashes, and the root of their chain for a chunk size of 2. -/
def fiveDigests : List Digest := [[1], [2], [3], [4], [5]]

def fiveRoot : Link := .cons [[5]] (.cons [[3], [4]] (.tail [[1], [2]]))

/-- Three multihashes, and the chunker after they are chunked twice in a row on a new cache. -/
def threeDigests : List Digest := [[1], [2], [3]]

def rechunked : CachedEntriesChunker :=
  (Chunk (Chunk (newCache 3 3) threeDigests).2 threeDigests).2

/-- Two inputs that end with the same three multihashes, and the links of their chains. -/
def sameEndA : List Digest := [[1], [2], [3], [7], [8], [9]]

def sameEndB : List Digest := [[4], [5], [6], [7], [8], [9]]

def sameEndRootA : Link := .cons [[7], [8], [9]] (.tail [[1], [2], [3]])

def sameEndRootB : Link := .cons [[7], [8], [9]] (.tail [[4], [5], [6]])

/-- The kinds of keys. -/
def Key.isChunk : Key → Bool
  | .chunk _ => true
  | _ => false

def Key.isOverlap : Key → Bool
  | .overlap _ => true
  | _ => false

def Key.isRoot : Key → Bool
  | .root _ => true
  | _ => false

/-- A store with a chunk key and one more key but no key under `/root/`. -/
def staleStore : List (Key × Value) :=
  [(.chunk (.tail [[1], [2]]), .node [[1], [2]] none), (.other "version", .raw [1])]

/-- A cache of capacity 1 that holds the chain of three multihashes. -/
def fullCache : CachedEntriesChunker := (Chunk (newCache 3 1) threeDigests).2

/-- A cache of capacity 2 with two chains, the first of them chunked twice. -/
def twoChains : CachedEntriesChunker :=
  (Chunk (Chunk (Chunk (newCache 3 2) threeDigests).2 threeDigests).2 [[4], [5], [6]]).2

/-- The full cache over a store whose coming operation fails. -/
def faultyCache : CachedEntriesChunker :=
  { fullCache with ds := ⟨fullCache.ds.data, [true]⟩ }

/-- A store in which the chunk of the chain of three multihashes has a stored overlap count. -/
def countedStore (v : Nat) : List (Key × Value) :=
  [(.chunk (.tail threeDigests), .node threeDigests none),
   (.overlap (.tail threeDigests), .raw (putUint64 v))]

/-- A history on a cache of capacity 2 with an overlap, a `Clear` and two chains at the end. -/
def restartHistory : List Event :=
  [.call (.chunk [[1], [2], [3], [7], [8], [9]]), .call (.chunk [[1], [2], [3], [4]]),
   .call (.clear []), .call (.chunk threeDigests), .call (.chunk [[5]])]

/-- The chunker at the end of that history. -/
def restartCache : CachedEntriesChunker :=
  (run restartHistory (newCache 3 2)).getD (newCache 3 2)

/-- The failure flags used by the store operations that lead from one state of the store to a
later one. -/
def usedFaults (before after : Datastore) : List Bool :=
  before.faults.take (before.faults.length - after.faults.length)

/-- The operations between two states of the store used a stretch of the failure schedule;
none of the flags used was set when `ok` holds; well-formed overlap counters stay so. -/
def Step (ds ds' : Datastore) (ok : Bool) : Prop :=
  (∃ used, ds.faults = used ++ ds'.faults ∧ (ok = true → ∀ b ∈ used, b = false)) ∧
  (WFc ds.data → WFc ds'.data)

/-- What holds of a chunker between calls, whatever the calls returned: no eviction error is
pending, the overlap counters are well formed, and no key of the LRU index is nil. -/
structure Settled (ls : CachedEntriesChunker) : Prop where
  noErr : ls.onEvictedErr = none
  wfc : WFc ls.ds.data
  keys : ∀ e ∈ ls.cache.ll, e.1 ≠ none

/-- The point at which `Chunk` reaches the cache: the chunker with the chain stored, and the
key and the value it hands to `cache.Add`; `none` when `Chunk` returns before. -/
def reachCache (ls : CachedEntriesChunker) (mhi : List Digest) :
    Option (CachedEntriesChunker × Option Link × List Link) :=
  if ls.chunkSize < 0 ∨ maxSliceCap < ls.chunkSize then none
  else
    match chunkLoop ls.chunkSize mhi [] none [] ls.ds with
    | (.error _, _) => none
    | (.ok (mhs, next, chunkLinks), ds) =>
      if mhs.length ≠ 0 then
        match lsysStore ds mhs next with
        | ((_, some _), _) => none
        | ((l, none), ds) => some ({ ls with ds := ds }, some l, chunkLinks ++ [l])
      else some ({ ls with ds := ds }, next, chunkLinks)

/-- The full cache over a store whose third operation from now fails. -/
def evictFailCache : CachedEntriesChunker :=
  { fullCache with ds := ⟨fullCache.ds.data, [false, false, true]⟩ }

/-- A cache of capacity 2 whose second `Chunk` call fails when it writes the root marker: the
chunk of `[4,5,6]` is in the store without a root marker. -/
def interruptedCache : CachedEntriesChunker :=
  (Chunk (Chunk ⟨⟨[], [false, false, false, false, false, false, true]⟩, 3, ⟨2, []⟩, none⟩
    threeDigests).2 [[4], [5], [6]]).2

/-- The entry `cache.Add` removes when it adds the root `R` with its links: none when `R` is
cached already or the bound is not exceeded, the oldest entry otherwise. -/
def victim (max : Int) (c : List (Option Link × List Link)) (R : Link) (links : List Link) :
    Option (Option Link × List Link) :=
  if c.any (fun e => decide (e.1 = some R)) then none
  else if max ≠ 0 ∧ (((some R, links) :: c).length : Int) > max then
    ((some R, links) :: c).getLast?
  else none

/-- Two inputs that agree on their first three multihashes, and the cache of capacity 1 after
the first of them is chunked. -/
def sharedA : List Digest := [[1], [2], [3], [4]]

def sharedB : List Digest := [[1], [2], [3], [5]]

def sharedCache : CachedEntriesChunker := (Chunk (newCache 3 1) sharedA).2

/-- Whether a call is a `Chunk` whose input has the root `R`. -/
def isAddOf (cs : Int) (R : Link) : Call → Bool
  | .chunk mhi => decide (rootOf cs mhi [] none = some R)
  | _ => false

/-- The number of calls made after the most recent `Chunk` call whose input has the root `R`,
in a history listed from the most recent call back; `none` when there is no such call. -/
def age (cs : Int) (R : Link) : List Call → Option Nat
  | [] => none
  | c :: older => if isAddOf cs R c then some 0 else (age cs R older).map (fun i => i + 1)

/-- The link of a key below the root prefix. -/
def Key.rootLink : Key → Option Link
  | .root R => some R
  | _ => none

/-- The roots the restore of a restart adds to the LRU index, in the order of its store
query. -/
def restoreOrder (ds : Datastore) (picks : List Nat) : List Link :=
  (rangeOrder picks ((ds.data.map Prod.fst).filter underRoot)).filterMap Key.rootLink

/-- The roots an event adds to the LRU index, in the order in which it adds them: the root a
`Chunk` call returns, the persisted roots a restart restores. -/
def Event.adds (ls : CachedEntriesChunker) : Event → List Link
  | .call (.chunk mhi) => (rootOf ls.chunkSize mhi [] none).toList
  | .call _ => []
  | .reopen _ _ picks => restoreOrder ls.ds picks

/-- The adds to the LRU index along a history of successful events, put in front of the adds
made before it: the most recent add comes first. -/
def addLog : List Event → CachedEntriesChunker → List Link → List Link
  | [], _, log => log
  | e :: es, ls, log =>
    match e.step ls with
    | none => log
    | some ls' => addLog es ls' ((e.adds ls).reverse ++ log)

/-- The number of adds made after the most recent add of the root `R`, in a log of adds listed
from the most recent back; `none` when `R` was never added. -/
def addAge (R : Link) : List Link → Option Nat
  | [] => none
  | X :: older => if X = R then some 0 else (addAge R older).map (fun i => i + 1)

/-- The root of the first entry was added more recently than the root of the second. -/
def Newer (log : List Link) (a b : Option Link × List Link) : Prop :=
  ∃ X Y i j, a.1 = some X ∧ b.1 = some Y ∧ addAge X log = some i ∧ addAge Y log = some j ∧
    i < j

/-- The entries of the LRU index stand in the order of their most recent add, the most recent
first, and every one of them was added. -/
def Recent (log : List Link) (c : List (Option Link × List Link)) : Prop :=
  c.Pairwise (Newer log) ∧ ∀ e ∈ c, ∃ X i, e.1 = some X ∧ addAge X log = some i

/-- Two chains chunked on a cache of capacity 2, and a restart whose store query yields the root
chunked last first. -/
def reorderHistory : List Event :=
  [.call (.chunk [[1]]), .call (.chunk [[2]]), .reopen 3 2 [1]]

def reorderCache : CachedEntriesChunker :=
  (run reorderHistory (newCache 3 2)).getD (newCache 3 2)

/-- Every block of a store has at most as many multihashes as `make` accepts as a capacity. -/
def Small (s : List (Key × Value)) : Prop :=
  ∀ L, lookup s (.chunk L) ≠ none → (L.entries.length : Int) ≤ maxSliceCap

/-- The chain of `R` as two `Chunk` calls in a row on its input leave it in the store: the root
marker is there, and every link of the chain has its block and an overlap count of 1. -/
def Kept (R : Link) (s : List (Key × Value)) : Prop :=
  lookup s (.root R) ≠ none ∧
    ∀ L ∈ R.chain, lookup s (.overlap L) = some (.raw (putUint64 1)) ∧
      lookup s (.chunk L) = some (.node L.entries L.next)

/-- The chain of `R` has left the cache: no root marker, no overlap key, every block there. -/
def Gone (R : Link) (s : List (Key × Value)) : Prop :=
  lookup s (.root R) = none ∧
    ∀ L ∈ R.chain, lookup s (.overlap L) = none ∧
      lookup s (.chunk L) = some (.node L.entries L.next)

/-- No other chain with a root marker in the store has a block in common with the chain of
`R`. -/
def Apart (R : Link) (s : List (Key × Value)) : Prop :=
  ∀ X, X ≠ R → lookup s (.root X) ≠ none → ∀ L ∈ R.chain, L ∉ X.chain

/-- The keys of the chain of `R` are bound in the second store as in the first. -/
def SameOn (R : Link) (s s' : List (Key × Value)) : Prop :=
  lookup s' (.root R) = lookup s (.root R) ∧
    ∀ L ∈ R.chain, lookup s' (.overlap L) = lookup s (.overlap L) ∧
      lookup s' (.chunk L) = lookup s (.chunk L)

/-- What a step does to the chain of `R`: nothing, or it evicts it. -/
def Moves (R : Link) (s s' : List (Key × Value)) : Prop :=
  SameOn R s s' ∨
    (lookup s (.root R) ≠ none ∧ lookup s' (.root R) = none ∧ (Kept R s → Gone R s'))

/-- The event is not a `Chunk` whose input yields a block of the chain of `R`. -/
def Event.apart (R : Link) (ls : CachedEntriesChunker) : Event → Bool
  | .call (.chunk mhi) => (allLinks ls.chunkSize mhi [] none).all (fun L => decide (L ∉ R.chain))
  | _ => true

/-- No `Chunk` call of the history yields a block of the chain of `R`. -/
def sharesNone (R : Link) : List Event → CachedEntriesChunker → Bool
  | [], _ => true
  | e :: es, ls =>
    e.apart R ls &&
      (match e.step ls with
        | none => true
        | some ls' => sharesNone R es ls')

/-- The chain of `R` is in the store as two `Chunk` calls left it whenever its root marker is
there, and no other marked chain shares a block with it. -/
structure Tracked (R : Link) (ls : CachedEntriesChunker) : Prop where
  linv : LInv ls
  cap : 1 ≤ ls.cache.MaxEntries
  apart : Apart R ls.ds.data
  kept : lookup ls.ds.data (.root R) ≠ none → Kept R ls.ds.data

/-- The chunker of capacity 1 after the three multihashes are chunked twice in a row. -/
def rechunkedOne : CachedEntriesChunker :=
  (Chunk (Chunk (newCache 3 1) threeDigests).2 threeDigests).2

/-! ## Facts about the store -/

theorem lookup_insert (s : List (Key × Value)) (k : Key) (v : Value) (k' : Key) :
    lookup (insert s k v) k' = if k = k' then some v else lookup s k' := by
  induction s with
  | nil => simp [insert, lookup]
  | cons p s ih =>
    obtain ⟨k0, v0⟩ := p
    by_cases h : k0 = k
    · subst h
      by_cases h' : k0 = k' <;> simp [insert, lookup, h']
    · by_cases h' : k0 = k'
      · subst h'
        have : ¬ k = k0 := fun e => h e.symm
        simp [insert, lookup, h, this]
      · simp [insert, lookup, h, h', ih]

theorem lookup_remove (s : List (Key × Value)) (k k' : Key) :
    lookup (remove s k) k' = if k = k' then none else lookup s k' := by
  induction s with
  | nil => simp [remove, lookup]
  | cons p s ih =>
    obtain ⟨k0, v0⟩ := p
    by_cases h : k0 = k
    · subst h
      by_cases h' : k0 = k'
      · subst h'
        simpa [remove] using ih
      · simp [remove, lookup, h', ih]
    · by_cases h' : k0 = k'
      · subst h'
        have : ¬ k = k0 := fun e => h e.symm
        simp [remove, lookup, h, this]
      · simp [remove, lookup, h, h', ih]

theorem lookup_eq_none_iff (s : List (Key × Value)) (k : Key) :
    lookup s k = none ↔ k ∉ s.map Prod.fst := by
  induction s with
  | nil => simp [lookup]
  | cons p s ih =>
    obtain ⟨k0, v0⟩ := p
    by_cases h : k0 = k
    · simp [lookup, h]
    · have : ¬ k = k0 := fun e => h e.symm
      simp [lookup, h, ih, this]

theorem keys_insert (s : List (Key × Value)) (k : Key) (v : Value) :
    (insert s k v).map Prod.fst =
      if lookup s k = none then s.map Prod.fst ++ [k] else s.map Prod.fst := by
  induction s with
  | nil => simp [insert, lookup]
  | cons p s ih =>
    obtain ⟨k0, v0⟩ := p
    by_cases h : k0 = k
    · simp [insert, lookup, h]
    · simp only [insert, lookup, h, if_false, List.map_cons, ih]
      split <;> simp

theorem keys_remove (s : List (Key × Value)) (k : Key) :
    (remove s k).map Prod.fst = (s.map Prod.fst).filter (fun k' => !decide (k' = k)) := by
  induction s with
  | nil => simp [remove]
  | cons p s ih =>
    obtain ⟨k0, v0⟩ := p
    by_cases h : k0 = k <;> simp [remove, List.filter_cons, h, ih]

theorem nodup_keys_insert {s : List (Key × Value)} (h : (s.map Prod.fst).Nodup) (k : Key)
    (v : Value) : ((insert s k v).map Prod.fst).Nodup := by
  rw [keys_insert]
  split
  · rename_i hk
    rw [lookup_eq_none_iff] at hk
    exact List.Nodup.append h (by simp) (by simpa using hk)
  · exact h

theorem nodup_keys_remove {s : List (Key × Value)} (h : (s.map Prod.fst).Nodup) (k : Key) :
    ((remove s k).map Prod.fst).Nodup := by
  rw [keys_remove]
  exact h.filter _

theorem uint64_putUint64 (n : Nat) (h : n < 2 ^ 64) : uint64 (putUint64 n) = some n := by
  simp only [putUint64, uint64, Option.some.injEq]
  omega

/-! ## The operations on a reliable datastore -/

theorem has_reliable (s : List (Key × Value)) (k : Key) :
    Datastore.Has ⟨s, []⟩ k = (.ok (lookup s k).isSome, ⟨s, []⟩) := by
  simp [Datastore.Has, Datastore.failing, Datastore.spend]

theorem get_reliable (s : List (Key × Value)) (k : Key) :
    Datastore.Get ⟨s, []⟩ k =
      (match lookup s k with
        | none => .error .notFound
        | some v => .ok v, ⟨s, []⟩) := by
  simp only [Datastore.Get, Datastore.failing, Datastore.spend, List.headD_nil, List.tail_nil]
  cases lookup s k <;> simp

theorem put_reliable (s : List (Key × Value)) (k : Key) (v : Value) :
    Datastore.Put ⟨s, []⟩ k v = (none, ⟨insert s k v, []⟩) := by
  simp [Datastore.Put, Datastore.failing]

theorem delete_reliable (s : List (Key × Value)) (k : Key) :
    Datastore.Delete ⟨s, []⟩ k = (none, ⟨remove s k, []⟩) := by
  simp [Datastore.Delete, Datastore.failing]

theorem sync_reliable (s : List (Key × Value)) :
    Datastore.Sync ⟨s, []⟩ = (none, ⟨s, []⟩) := by
  simp [Datastore.Sync, Datastore.failing, Datastore.spend]

theorem query_reliable (s : List (Key × Value)) (pre : Key → Bool) (picks : List Nat) :
    Datastore.Query ⟨s, []⟩ pre picks =
      (.ok (rangeOrder picks ((s.map Prod.fst).filter pre)), ⟨s, []⟩) := by
  simp [Datastore.Query, Datastore.failing, Datastore.spend]

theorem cnt_of_lookup {s : List (Key × Value)} {L : Link} {n : Nat} (hn : n < 2 ^ 64)
    (h : lookup s (.overlap L) = some (.raw (putUint64 n))) : cnt s L = n := by
  simp [cnt, h, Value.counter, uint64_putUint64 n hn]

theorem cnt_of_absent {s : List (Key × Value)} {L : Link}
    (h : lookup s (.overlap L) = none) : cnt s L = 0 := by
  simp [cnt, h]

theorem withCounter_putUint64 (n m : Nat) :
    (Value.raw (putUint64 n)).withCounter m = .raw (putUint64 m) := by
  simp [Value.withCounter, putUint64]

theorem incrementOverlap_reliable {s : List (Key × Value)} (h : WFc s) (L : Link) :
    incrementOverlap ⟨s, []⟩ L =
      (none, ⟨insert s (.overlap L) (.raw (putUint64 ((cnt s L + 1) % 2 ^ 64))), []⟩) := by
  unfold incrementOverlap
  rw [get_reliable]
  cases hl : lookup s (.overlap L) with
  | none => simp [put_reliable, cnt_of_absent hl]
  | some v =>
    obtain ⟨n, hn, rfl⟩ := h L v hl
    simp [put_reliable, cnt_of_lookup hn hl, Value.counter, uint64_putUint64 n hn,
      withCounter_putUint64]

theorem countOverlap_reliable {s : List (Key × Value)} (h : WFc s) (L : Link) :
    countOverlap ⟨s, []⟩ L = (.ok (cnt s L), ⟨s, []⟩) := by
  unfold countOverlap
  rw [get_reliable]
  cases hl : lookup s (.overlap L) with
  | none => simp [cnt_of_absent hl]
  | some v =>
    obtain ⟨n, hn, rfl⟩ := h L v hl
    simp [cnt_of_lookup hn hl, Value.counter, uint64_putUint64 n hn]

theorem decrementOverlap_reliable {s : List (Key × Value)} (h : WFc s) (L : Link)
    (hc : cnt s L ≠ 0) :
    decrementOverlap ⟨s, []⟩ L =
      (none, ⟨if (cnt s L + 2 ^ 64 - 1) % 2 ^ 64 < 1 then remove s (.overlap L)
        else insert s (.overlap L) (.raw (putUint64 ((cnt s L + 2 ^ 64 - 1) % 2 ^ 64))), []⟩) := by
  unfold decrementOverlap
  rw [get_reliable]
  cases hl : lookup s (.overlap L) with
  | none => exact absurd (cnt_of_absent hl) hc
  | some v =>
    obtain ⟨n, hn, rfl⟩ := h L v hl
    simp only [cnt_of_lookup hn hl, Value.counter, uint64_putUint64 n hn,
      withCounter_putUint64, put_reliable, delete_reliable]
    split <;> rfl

theorem wfc_insert_overlap {s : List (Key × Value)} (h : WFc s) (L : Link) (n : Nat)
    (hn : n < 2 ^ 64) : WFc (insert s (.overlap L) (.raw (putUint64 n))) := by
  intro L' v hv
  rw [lookup_insert] at hv
  split at hv
  · exact ⟨n, hn, by simpa using hv.symm⟩
  · exact h L' v hv

theorem wfc_insert_other {s : List (Key × Value)} (h : WFc s) (k : Key) (v : Value)
    (hk : ∀ L, k ≠ .overlap L) : WFc (insert s k v) := by
  intro L' v' hv
  rw [lookup_insert, if_neg (hk L')] at hv
  exact h L' v' hv

theorem wfc_remove {s : List (Key × Value)} (h : WFc s) (k : Key) : WFc (remove s k) := by
  intro L' v' hv
  rw [lookup_remove] at hv
  split at hv
  · exact absurd hv (by simp)
  · exact h L' v' hv

theorem wfc_commit1 {s : List (Key × Value)} (h : WFc s) (L : Link) : WFc (commit1 s L) := by
  unfold commit1
  split
  · exact wfc_insert_overlap h L _ (Nat.mod_lt _ (by norm_num))
  · exact wfc_insert_other h _ _ (by intro L'; simp)

theorem wfc_evict1 {s : List (Key × Value)} (h : WFc s) (L : Link) : WFc (evict1 s L) := by
  unfold evict1
  split
  · exact wfc_remove h _
  · split
    · exact wfc_remove h _
    · exact wfc_insert_overlap h L _ (Nat.mod_lt _ (by norm_num))

theorem wfc_commitAll {s : List (Key × Value)} (h : WFc s) (links : List Link) :
    WFc (commitAll s links) := by
  induction links generalizing s with
  | nil => exact h
  | cons L links ih => exact ih (wfc_commit1 h L)

theorem wfc_evictAll {s : List (Key × Value)} (h : WFc s) (links : List Link) :
    WFc (evictAll s links) := by
  induction links generalizing s with
  | nil => exact h
  | cons L links ih => exact ih (wfc_evict1 h L)

theorem wfc_evictChain {s : List (Key × Value)} (h : WFc s) (R : Link) (links : List Link) :
    WFc (evictChain s R links) := wfc_remove (wfc_evictAll h links) _

theorem storageWriteCommit_reliable {s : List (Key × Value)} (h : WFc s) (L : Link) :
    storageWriteCommit ⟨s, []⟩ L (.node L.entries L.next) = (none, ⟨commit1 s L, []⟩) := by
  unfold storageWriteCommit commit1
  rw [has_reliable]
  cases hl : lookup s (.chunk L) with
  | none => simp [put_reliable]
  | some v => simp [incrementOverlap_reliable h]

theorem ofNode_entries (mhs : List Digest) (next : Option Link) :
    (Link.ofNode mhs next).entries = mhs := by
  cases next <;> rfl

theorem ofNode_next (mhs : List Digest) (next : Option Link) :
    (Link.ofNode mhs next).next = next := by
  cases next <;> rfl

theorem ofNode_entries_next (L : Link) : Link.ofNode L.entries L.next = L := by
  cases L <;> rfl

theorem lsysStore_reliable {s : List (Key × Value)} (h : WFc s) (mhs : List Digest)
    (next : Option Link) :
    lsysStore ⟨s, []⟩ mhs next =
      ((Link.ofNode mhs next, none), ⟨commit1 s (Link.ofNode mhs next), []⟩) := by
  have := storageWriteCommit_reliable h (Link.ofNode mhs next)
  rw [ofNode_entries, ofNode_next] at this
  simp [lsysStore, this]

theorem evictLinks_reliable {s : List (Key × Value)} (h : WFc s) (links : List Link) :
    evictLinks links ⟨s, []⟩ = (none, ⟨evictAll s links, []⟩) := by
  induction links generalizing s with
  | nil => rfl
  | cons L links ih =>
    simp only [evictLinks, countOverlap_reliable h, evictAll, List.foldl_cons]
    have hw := wfc_evict1 h L
    by_cases hc : cnt s L = 0
    · have he : evict1 s L = remove s (.chunk L) := by simp [evict1, hc]
      rw [he] at hw
      simp only [hc, if_true, delete_reliable, he]
      exact ih hw
    · have he : evict1 s L = if (cnt s L + 2 ^ 64 - 1) % 2 ^ 64 < 1 then remove s (.overlap L)
          else insert s (.overlap L) (.raw (putUint64 ((cnt s L + 2 ^ 64 - 1) % 2 ^ 64))) := by
        simp [evict1, hc]
      rw [he] at hw
      simp only [hc, if_false, decrementOverlap_reliable h L hc, he]
      exact ih hw

theorem onEvicted_reliable {s : List (Key × Value)} (h : WFc s) (cs : Int) (c : LRU)
    (err : Option Error) (R : Link) (links : List Link) :
    onEvicted ⟨⟨s, []⟩, cs, c, err⟩ (some R) links =
      (false, ⟨⟨evictChain s R links, []⟩, cs, c, err⟩) := by
  simp [onEvicted, evictLinks_reliable h, delete_reliable, evictChain]

/-! ## `Chunk` and `Clear` on a reliable datastore -/

theorem rangeOrder_perm {α : Type} (picks : List Nat) :
    ∀ xs : List α, (rangeOrder picks xs).Perm xs := by
  induction picks with
  | nil => intro xs; exact List.Perm.refl _
  | cons p ps ih =>
    intro xs
    cases hx : xs[p % xs.length]? with
    | none =>
      have : xs = [] := by
        by_contra hne
        have hpos : 0 < xs.length := List.length_pos.2 hne
        have : p % xs.length < xs.length := Nat.mod_lt _ hpos
        rw [List.getElem?_eq_none_iff] at hx
        omega
      subst this
      simp [rangeOrder]
    | some x =>
      simp only [rangeOrder, hx]
      have hlt : p % xs.length < xs.length := by
        rcases List.getElem?_eq_some_iff.1 hx with ⟨h, _⟩
        exact h
      have hx' : xs[p % xs.length] = x := by
        rcases List.getElem?_eq_some_iff.1 hx with ⟨_, h⟩
        exact h
      have h1 := ih (xs.eraseIdx (p % xs.length))
      have h2 : (x :: xs.eraseIdx (p % xs.length)).Perm xs := by
        rw [← hx', List.eraseIdx_eq_take_drop_succ]
        have h3 : xs = xs.take (p % xs.length) ++ xs[p % xs.length] :: xs.drop (p % xs.length + 1) := by
          rw [List.getElem_cons_drop _ _ hlt, List.take_append_drop]
        conv_rhs => rw [h3]
        exact List.perm_middle.symm
      exact (List.Perm.cons x h1).trans h2

theorem mem_of_mem_rangeOrder {α : Type} {picks : List Nat} {xs : List α} {x : α}
    (h : x ∈ rangeOrder picks xs) : x ∈ xs :=
  (rangeOrder_perm picks xs).mem_iff.1 h

theorem wfc_evictEntries {s : List (Key × Value)} (h : WFc s)
    (es : List (Option Link × List Link)) : WFc (evictEntries s es) := by
  induction es generalizing s with
  | nil => exact h
  | cons e es ih =>
    obtain ⟨k, v⟩ := e
    cases k with
    | none => exact ih h
    | some R => exact ih (wfc_evictChain h R v)

theorem evictEach_reliable {s : List (Key × Value)} (h : WFc s) (cs : Int) (c : LRU)
    (err : Option Error) (es : List (Option Link × List Link)) (hk : ∀ e ∈ es, e.1 ≠ none) :
    evictEach es ⟨⟨s, []⟩, cs, c, err⟩ = (false, ⟨⟨evictEntries s es, []⟩, cs, c, err⟩) := by
  induction es generalizing s with
  | nil => rfl
  | cons e es ih =>
    obtain ⟨k, v⟩ := e
    cases k with
    | none => exact absurd rfl (hk (none, v) (by simp))
    | some R =>
      simp only [evictEach, onEvicted_reliable h, evictEntries]
      exact ih (wfc_evictChain h R v) (fun e he => hk e (by simp [he]))

theorem chunkLoop_reliable (cs : Int) (mhi : List Digest) :
    ∀ (mhs : List Digest) (next : Option Link) (cl : List Link) (s : List (Key × Value)),
      WFc s → ∃ m n E,
        chunkLoop cs mhi mhs next cl ⟨s, []⟩ = (.ok (m, n, cl ++ E), ⟨commitAll s E, []⟩) ∧
        allLinks cs mhi mhs next = E ++ (if m.length ≠ 0 then [Link.ofNode m n] else []) ∧
        rootOf cs mhi mhs next = (if m.length ≠ 0 then some (Link.ofNode m n) else n) := by
  induction mhi with
  | nil =>
    intro mhs next cl s _
    exact ⟨mhs, next, [], by simp [chunkLoop, commitAll], by simp [allLinks], by simp [rootOf]⟩
  | cons mh rest ih =>
    intro mhs next cl s h
    by_cases hc : (((mhs ++ [mh]).length : Nat) : Int) ≥ cs
    · obtain ⟨m, n, E, h1, h2, h3⟩ := ih [] (some (Link.ofNode (mhs ++ [mh]) next))
        (cl ++ [Link.ofNode (mhs ++ [mh]) next]) _ (wfc_commit1 h (Link.ofNode (mhs ++ [mh]) next))
      refine ⟨m, n, Link.ofNode (mhs ++ [mh]) next :: E, ?_, ?_, ?_⟩
      · simp only [chunkLoop, hc, if_true, lsysStore_reliable h, h1]
        simp [commitAll]
      · simp only [allLinks, hc, if_true, h2, List.cons_append]
      · simp only [rootOf, hc, if_true, h3]
    · obtain ⟨m, n, E, h1, h2, h3⟩ := ih (mhs ++ [mh]) next cl s h
      refine ⟨m, n, E, ?_, ?_, ?_⟩
      · simp only [chunkLoop, hc, if_false, h1]
      · simp only [allLinks, hc, if_false, h2]
      · simp only [rootOf, hc, if_false, h3]

theorem Chunk_reliable {s : List (Key × Value)} (h : WFc s) (cs : Int) (hcs : 0 ≤ cs)
    (hmx : cs ≤ maxSliceCap) (c : LRU) (err : Option Error) (mhi : List Digest) :
    Chunk ⟨⟨s, []⟩, cs, c, err⟩ mhi =
      publish ⟨⟨commitAll s (allLinks cs mhi [] none), []⟩, cs, c, err⟩
        (rootOf cs mhi [] none) (allLinks cs mhi [] none) := by
  obtain ⟨m, n, E, h1, h2, h3⟩ := chunkLoop_reliable cs mhi [] none [] s h
  have hneg : ¬ (cs < 0 ∨ maxSliceCap < cs) := by omega
  simp only [Chunk, hneg, if_false, h1, List.nil_append]
  by_cases hm : m.length ≠ 0
  · rw [if_pos hm] at h2 h3
    rw [if_pos hm, lsysStore_reliable (wfc_commitAll h E), h2, h3]
    simp [commitAll, List.foldl_append]
  · rw [if_neg hm, List.append_nil] at h2
    rw [if_neg hm] at h3
    rw [if_neg hm, h2, h3]

theorem Chunk_size_ok {ls ls' : CachedEntriesChunker} {mhi : List Digest} {l : Option Link}
    (hres : Chunk ls mhi = ((l, none), ls')) :
    0 ≤ ls.chunkSize ∧ ls.chunkSize ≤ maxSliceCap := by
  by_cases hneg : ls.chunkSize < 0 ∨ maxSliceCap < ls.chunkSize
  · simp [Chunk, hneg] at hres
  · omega

theorem cacheAdd_reliable {s : List (Key × Value)} (h : WFc s) (cs max : Int)
    (c : List (Option Link × List Link)) (err : Option Error) (R : Link) (links : List Link)
    (hk : ∀ e ∈ c, e.1 ≠ none) :
    cacheAdd ⟨⟨s, []⟩, cs, ⟨max, c⟩, err⟩ (some R) links =
      (false, ⟨⟨addStore max s c R links, []⟩, cs, ⟨max, addList max c R links⟩, err⟩) := by
  unfold cacheAdd addStore addList
  by_cases hit : c.any (fun e => decide (e.1 = some R)) = true
  · simp only [hit, if_true]
  · simp only [hit]
    by_cases hov : max ≠ 0 ∧ (((some R, links) :: c).length : Int) > max
    · simp only [hov, if_true, Bool.false_eq_true, if_false]
      simp only [removeOldest]
      cases hl : ((some R, links) :: c).getLast? with
      | none => simp at hl
      | some e =>
        obtain ⟨k, v⟩ := e
        have hmem : (k, v) ∈ (some R, links) :: c := List.mem_of_getLast?_eq_some hl
        cases k with
        | none =>
          rcases List.mem_cons.1 hmem with h1 | h1
          · simp at h1
          · exact absurd rfl (hk _ h1)
        | some V =>
          simp only [onEvicted_reliable h]
          simp [evictEntries, hov.1]
    · simp only [hov, if_false, Bool.false_eq_true]

theorem wfc_addStore {s : List (Key × Value)} (h : WFc s) (max : Int)
    (c : List (Option Link × List Link)) (R : Link) (links : List Link) :
    WFc (addStore max s c R links) := by
  unfold addStore
  split
  · exact h
  · split
    · exact wfc_evictEntries h _
    · exact h

theorem publish_reliable {s : List (Key × Value)} (h : WFc s) (cs max : Int)
    (c : List (Option Link × List Link)) (R : Link) (links : List Link)
    (hk : ∀ e ∈ c, e.1 ≠ none) :
    publish ⟨⟨s, []⟩, cs, ⟨max, c⟩, none⟩ (some R) links =
      ((some R, none), ⟨⟨insert (addStore max s c R links) (.root R) (.raw []), []⟩, cs,
        ⟨max, addList max c R links⟩, none⟩) := by
  simp [publish, performOnCache, cacheAdd_reliable h cs max c none R links hk, put_reliable,
    sync_reliable]

theorem Clear_reliable {s : List (Key × Value)} (h : WFc s) (cs max : Int)
    (c : List (Option Link × List Link)) (picks : List Nat) (hk : ∀ e ∈ c, e.1 ≠ none) :
    Clear ⟨⟨s, []⟩, cs, ⟨max, c⟩, none⟩ picks =
      (none, ⟨⟨evictEntries s (rangeOrder picks c), []⟩, cs, ⟨max, []⟩, none⟩) := by
  have hk' : ∀ e ∈ rangeOrder picks c, e.1 ≠ none := fun e he => hk e (mem_of_mem_rangeOrder he)
  simp [Clear, performOnCache, cacheClear, evictEach_reliable h cs ⟨max, c⟩ none _ hk']

/-! ## Owners, counts and the well-formed store -/

theorem owners_insert_of_not_root (s : List (Key × Value)) (k : Key) (v : Value)
    (hk : ∀ R, k ≠ .root R) (L : Link) : owners (insert s k v) L = owners s L := by
  unfold owners
  rw [keys_insert]
  split
  · have hr : rootOver L k = false := by
      cases k with
      | root R => exact absurd rfl (hk R)
      | _ => rfl
    simp [List.countP_append, List.countP_cons, hr]
  · rfl

theorem owners_insert_root (s : List (Key × Value)) (R : Link) (v : Value) (L : Link) :
    owners (insert s (.root R) v) L =
      owners s L + (if lookup s (.root R) = none ∧ L ∈ R.chain then 1 else 0) := by
  unfold owners
  rw [keys_insert]
  by_cases h : lookup s (.root R) = none
  · by_cases hL : L ∈ R.chain <;>
      simp [h, List.countP_append, List.countP_cons, rootOver, hL]
  · simp [h]

theorem owners_remove_of_not_root (s : List (Key × Value)) (k : Key)
    (hk : ∀ R, k ≠ .root R) (L : Link) : owners (remove s k) L = owners s L := by
  unfold owners
  induction s with
  | nil => rfl
  | cons p s ih =>
    obtain ⟨k0, v0⟩ := p
    by_cases h : k0 = k
    · subst h
      have hr : rootOver L k0 = false := by
        cases k0 with
        | root R => exact absurd rfl (hk R)
        | _ => rfl
      simp [remove, List.countP_cons, hr, ih]
    · simp [remove, h, List.countP_cons, ih]

theorem owners_remove_le (s : List (Key × Value)) (k : Key) (L : Link) :
    owners (remove s k) L ≤ owners s L := by
  unfold owners
  induction s with
  | nil => simp [remove]
  | cons p s ih =>
    obtain ⟨k0, v0⟩ := p
    by_cases h : k0 = k
    · simp only [remove, h, if_true, List.map_cons, List.countP_cons]
      omega
    · simp only [remove, h, if_false, List.map_cons, List.countP_cons]
      omega

theorem owners_remove_root (s : List (Key × Value)) (R : Link) (L : Link)
    (h : lookup s (.root R) ≠ none) :
    owners (remove s (.root R)) L + (if L ∈ R.chain then 1 else 0) ≤ owners s L := by
  induction s with
  | nil => simp [lookup] at h
  | cons p s ih =>
    obtain ⟨k0, v0⟩ := p
    by_cases hk : k0 = .root R
    · subst hk
      have := owners_remove_le s (.root R) L
      unfold owners at this ⊢
      by_cases hL : L ∈ R.chain <;>
        simp only [remove, if_true, List.map_cons, List.countP_cons, rootOver, hL, decide_True,
          decide_False, if_false] <;> omega
    · have h' : lookup s (.root R) ≠ none := by simpa [lookup, hk] using h
      have := ih h'
      unfold owners at this ⊢
      simp only [remove, hk, if_false, List.map_cons, List.countP_cons]
      omega

theorem owners_pos_of_marker (s : List (Key × Value)) (R : Link) (L : Link)
    (h : lookup s (.root R) ≠ none) (hL : L ∈ R.chain) : 1 ≤ owners s L := by
  have := owners_remove_root s R L h
  simp only [hL, if_true] at this
  omega

theorem avail_congr {s s' : List (Key × Value)} {L : Link}
    (h1 : lookup s' (.chunk L) = lookup s (.chunk L))
    (h2 : lookup s' (.overlap L) = lookup s (.overlap L)) : avail s' L = avail s L := by
  simp [avail, cnt, h1, h2]

theorem StoreWF.mono_bound {K K' : Nat} {s : List (Key × Value)} (h : StoreWF K s) (hK : K ≤ K') :
    StoreWF K' s :=
  ⟨h.nodup, h.chunk, fun L v hv => by
    obtain ⟨n, h1, h2, h3, h4⟩ := h.overlap L v hv
    exact ⟨n, h1, h2, by omega, h4⟩, h.root, h.junk⟩

theorem StoreWF.wfc {K : Nat} {s : List (Key × Value)} (h : StoreWF K s) (hK : K < 2 ^ 64) :
    WFc s := fun L v hv => by
  obtain ⟨n, h1, _, h3, _⟩ := h.overlap L v hv
  exact ⟨n, by omega, h1⟩

theorem cnt_eq_of_le {K : Nat} {s : List (Key × Value)} (hK : K < 2 ^ 64)
    {L : Link} {n : Nat} (hv : lookup s (.overlap L) = some (.raw (putUint64 n)))
    (hn : n ≤ K) : cnt s L = n :=
  cnt_of_lookup (by omega) hv

theorem StoreWF.insert_chunk {K : Nat} {s : List (Key × Value)} (h : StoreWF K s) (L : Link) :
    StoreWF K (insert s (.chunk L) (.node L.entries L.next)) := by
  refine ⟨nodup_keys_insert h.nodup _ _, ?_, ?_, ?_, ?_⟩
  · intro L' v hv
    rw [lookup_insert] at hv
    split at hv
    · rename_i he
      simp only [Key.chunk.injEq] at he
      subst he
      simpa using hv.symm
    · exact h.chunk L' v hv
  · intro L' v hv
    simp only [lookup_insert, reduceCtorEq, if_false] at hv
    obtain ⟨n, h1, h2, h3, h4⟩ := h.overlap L' v hv
    refine ⟨n, h1, h2, h3, ?_⟩
    rw [lookup_insert]
    split
    · simp
    · exact h4
  · intro R v hv
    simp only [lookup_insert, reduceCtorEq, if_false] at hv
    exact h.root R v hv
  · intro name
    simp only [lookup_insert, reduceCtorEq, if_false]
    exact h.junk name

theorem StoreWF.insert_overlap {K : Nat} {s : List (Key × Value)} (h : StoreWF K s) (L : Link)
    (n : Nat) (h1 : 1 ≤ n) (h2 : n ≤ K) (hc : lookup s (.chunk L) ≠ none) :
    StoreWF K (insert s (.overlap L) (.raw (putUint64 n))) := by
  refine ⟨nodup_keys_insert h.nodup _ _, ?_, ?_, ?_, ?_⟩
  · intro L' v hv
    simp only [lookup_insert, reduceCtorEq, if_false] at hv
    exact h.chunk L' v hv
  · intro L' v hv
    rw [lookup_insert] at hv
    simp only [lookup_insert, reduceCtorEq, if_false]
    split at hv
    · rename_i he
      simp only [Key.overlap.injEq] at he
      subst he
      exact ⟨n, by simpa using hv.symm, h1, h2, hc⟩
    · exact h.overlap L' v hv
  · intro R v hv
    simp only [lookup_insert, reduceCtorEq, if_false] at hv
    exact h.root R v hv
  · intro name
    simp only [lookup_insert, reduceCtorEq, if_false]
    exact h.junk name

theorem StoreWF.insert_root {K : Nat} {s : List (Key × Value)} (h : StoreWF K s) (R : Link) :
    StoreWF K (insert s (.root R) (.raw [])) := by
  refine ⟨nodup_keys_insert h.nodup _ _, ?_, ?_, ?_, ?_⟩
  · intro L' v hv
    simp only [lookup_insert, reduceCtorEq, if_false] at hv
    exact h.chunk L' v hv
  · intro L' v hv
    simp only [lookup_insert, reduceCtorEq, if_false] at hv ⊢
    exact h.overlap L' v hv
  · intro R' v hv
    rw [lookup_insert] at hv
    split at hv
    · simpa using hv.symm
    · exact h.root R' v hv
  · intro name
    simp only [lookup_insert, reduceCtorEq, if_false]
    exact h.junk name

theorem StoreWF.remove_chunk {K : Nat} {s : List (Key × Value)} (h : StoreWF K s) (L : Link)
    (ho : lookup s (.overlap L) = none) : StoreWF K (remove s (.chunk L)) := by
  refine ⟨nodup_keys_remove h.nodup _, ?_, ?_, ?_, ?_⟩
  · intro L' v hv
    rw [lookup_remove] at hv
    split at hv
    · simp at hv
    · exact h.chunk L' v hv
  · intro L' v hv
    simp only [lookup_remove, reduceCtorEq, if_false] at hv
    obtain ⟨n, h1, h2, h3, h4⟩ := h.overlap L' v hv
    refine ⟨n, h1, h2, h3, ?_⟩
    rw [lookup_remove]
    split
    · rename_i he
      simp only [Key.chunk.injEq] at he
      subst he
      rw [ho] at hv
      simp at hv
    · exact h4
  · intro R v hv
    simp only [lookup_remove, reduceCtorEq, if_false] at hv
    exact h.root R v hv
  · intro name
    simp only [lookup_remove, reduceCtorEq, if_false]
    exact h.junk name

theorem StoreWF.remove_overlap {K : Nat} {s : List (Key × Value)} (h : StoreWF K s) (L : Link) :
    StoreWF K (remove s (.overlap L)) := by
  refine ⟨nodup_keys_remove h.nodup _, ?_, ?_, ?_, ?_⟩
  · intro L' v hv
    simp only [lookup_remove, reduceCtorEq, if_false] at hv
    exact h.chunk L' v hv
  · intro L' v hv
    rw [lookup_remove] at hv
    simp only [lookup_remove, reduceCtorEq, if_false]
    split at hv
    · simp at hv
    · exact h.overlap L' v hv
  · intro R v hv
    simp only [lookup_remove, reduceCtorEq, if_false] at hv
    exact h.root R v hv
  · intro name
    simp only [lookup_remove, reduceCtorEq, if_false]
    exact h.junk name

theorem StoreWF.remove_root {K : Nat} {s : List (Key × Value)} (h : StoreWF K s) (R : Link) :
    StoreWF K (remove s (.root R)) := by
  refine ⟨nodup_keys_remove h.nodup _, ?_, ?_, ?_, ?_⟩
  · intro L' v hv
    simp only [lookup_remove, reduceCtorEq, if_false] at hv
    exact h.chunk L' v hv
  · intro L' v hv
    simp only [lookup_remove, reduceCtorEq, if_false] at hv ⊢
    exact h.overlap L' v hv
  · intro R' v hv
    rw [lookup_remove] at hv
    split at hv
    · simp at hv
    · exact h.root R' v hv
  · intro name
    simp only [lookup_remove, reduceCtorEq, if_false]
    exact h.junk name

/-! ## Commits and evictions on a well-formed store -/

theorem StoreWF.overlap_absent {K : Nat} {s : List (Key × Value)} (h : StoreWF K s) {L : Link}
    (hc : lookup s (.chunk L) = none) : lookup s (.overlap L) = none := by
  cases ho : lookup s (.overlap L) with
  | none => rfl
  | some v =>
    obtain ⟨n, _, _, _, h4⟩ := h.overlap L v ho
    exact absurd hc h4

theorem commit1_spec {K : Nat} {s : List (Key × Value)} (h : StoreWF K s) (hK : K < 2 ^ 64)
    (hK1 : 1 ≤ K) (L : Link)
    (hb : cnt s L + 1 ≤ K) :
    StoreWF K (commit1 s L) ∧
    (∀ L', avail (commit1 s L) L' = avail s L' + if L' = L then 1 else 0) ∧
    (∀ L', owners (commit1 s L) L' = owners s L') ∧
    (∀ R, lookup (commit1 s L) (.root R) = lookup s (.root R)) ∧
    (∀ L', L' ≠ L → lookup (commit1 s L) (.overlap L') = lookup s (.overlap L')) := by
  cases hc : lookup s (.chunk L) with
  | none =>
    have ho := h.overlap_absent hc
    have he : commit1 s L = insert s (.chunk L) (.node L.entries L.next) := by
      simp [commit1, hc]
    rw [he]
    refine ⟨h.insert_chunk L, ?_, ?_, ?_, ?_⟩
    · intro L'
      by_cases hL : L' = L
      · subst hL
        simp [avail, cnt, lookup_insert, hc, ho]
      · have hne : ¬ Key.chunk L = Key.chunk L' := by
          simpa using fun e : L = L' => hL e.symm
        rw [avail_congr (s := s) (by rw [lookup_insert, if_neg hne])
          (by simp [lookup_insert])]
        simp [hL]
    · intro L'
      exact owners_insert_of_not_root s _ _ (by simp) L'
    · intro R
      simp [lookup_insert]
    · intro L' _
      simp [lookup_insert]
  | some v =>
    cases ho : lookup s (.overlap L) with
    | none =>
      have he : commit1 s L = insert s (.overlap L) (.raw (putUint64 1)) := by
        simp [commit1, hc, cnt, ho]
      rw [he]
      refine ⟨h.insert_overlap L 1 (le_refl _) hK1 (by simp [hc]), ?_, ?_, ?_, ?_⟩
      · intro L'
        by_cases hL : L' = L
        · subst hL
          have h1 : cnt (insert s (.overlap L') (.raw (putUint64 1))) L' = 1 :=
            cnt_of_lookup (by norm_num) (by simp [lookup_insert])
          simp [avail, lookup_insert, hc, h1, cnt_of_absent ho]
        · have hne : ¬ Key.overlap L = Key.overlap L' := by
            simpa using fun e : L = L' => hL e.symm
          rw [avail_congr (s := s) (by simp [lookup_insert])
            (by rw [lookup_insert, if_neg hne])]
          simp [hL]
      · intro L'
        exact owners_insert_of_not_root s _ _ (by simp) L'
      · intro R
        simp [lookup_insert]
      · intro L' hL
        have hne : ¬ Key.overlap L = Key.overlap L' := by
          simpa using fun e : L = L' => hL e.symm
        rw [lookup_insert, if_neg hne]
    | some w =>
      obtain ⟨n, rfl, h1, h2, h3⟩ := h.overlap L w ho
      have hcn : cnt s L = n := cnt_of_lookup (by omega) ho
      have hn : n + 1 ≤ K := by omega
      have hmod : (n + 1) % 2 ^ 64 = n + 1 := Nat.mod_eq_of_lt (by omega)
      have he : commit1 s L = insert s (.overlap L) (.raw (putUint64 (n + 1))) := by
        simp only [commit1, hc, hcn, hmod]
      rw [he]
      refine ⟨h.insert_overlap L (n + 1) (by omega) hn h3, ?_, ?_, ?_, ?_⟩
      · intro L'
        by_cases hL : L' = L
        · subst hL
          have h1 : cnt (insert s (.overlap L') (.raw (putUint64 (n + 1)))) L' = n + 1 :=
            cnt_of_lookup (by omega) (by simp [lookup_insert])
          simp [avail, lookup_insert, hc, h1, hcn]
        · have hne : ¬ Key.overlap L = Key.overlap L' := by
            simpa using fun e : L = L' => hL e.symm
          rw [avail_congr (s := s) (by simp [lookup_insert])
            (by rw [lookup_insert, if_neg hne])]
          simp [hL]
      · intro L'
        exact owners_insert_of_not_root s _ _ (by simp) L'
      · intro R
        simp [lookup_insert]
      · intro L' hL
        have hne : ¬ Key.overlap L = Key.overlap L' := by
          simpa using fun e : L = L' => hL e.symm
        rw [lookup_insert, if_neg hne]

theorem commitAll_spec {K : Nat} (hK : K < 2 ^ 64) (hK1 : 1 ≤ K) (links : List Link) :
    ∀ {s : List (Key × Value)}, StoreWF K s → links.Nodup →
    (∀ L ∈ links, cnt s L + 1 ≤ K) →
    StoreWF K (commitAll s links) ∧
    (∀ L', avail (commitAll s links) L' = avail s L' + if L' ∈ links then 1 else 0) ∧
    (∀ L', owners (commitAll s links) L' = owners s L') ∧
    (∀ R, lookup (commitAll s links) (.root R) = lookup s (.root R)) := by
  induction links with
  | nil =>
    intro s h _ _
    exact ⟨h, by simp [commitAll], by simp [commitAll], by simp [commitAll]⟩
  | cons L links ih =>
    intro s h hnd hb
    obtain ⟨hL, hnd'⟩ := List.nodup_cons.1 hnd
    obtain ⟨w1, a1, o1, r1, k1⟩ := commit1_spec h hK hK1 L (hb L (by simp))
    have hb' : ∀ L' ∈ links, cnt (commit1 s L) L' + 1 ≤ K := by
      intro L' hL'
      have hne : L' ≠ L := fun e => hL (e ▸ hL')
      have : cnt (commit1 s L) L' = cnt s L' := by
        simp only [cnt, k1 L' hne]
      rw [this]
      exact hb L' (by simp [hL'])
    obtain ⟨w2, a2, o2, r2⟩ := ih w1 hnd' hb'
    refine ⟨w2, ?_, ?_, ?_⟩
    · intro L'
      have e1 := a2 L'
      have e2 := a1 L'
      simp only [commitAll, List.foldl_cons] at e1 ⊢
      rw [e1, e2]
      by_cases h1 : L' = L
      · subst h1
        simp [hL]
      · simp [h1]
    · intro L'
      have e1 := o2 L'
      simp only [commitAll, List.foldl_cons] at e1 ⊢
      rw [e1, o1]
    · intro R
      have e1 := r2 R
      simp only [commitAll, List.foldl_cons] at e1 ⊢
      rw [e1, r1]

theorem evict1_spec {K : Nat} {s : List (Key × Value)} (h : StoreWF K s) (hK : K < 2 ^ 64)
    (L : Link) :
    StoreWF K (evict1 s L) ∧
    (∀ L', avail (evict1 s L) L' = avail s L' - if L' = L then 1 else 0) ∧
    (∀ L', owners (evict1 s L) L' = owners s L') ∧
    (∀ R, lookup (evict1 s L) (.root R) = lookup s (.root R)) := by
  cases ho : lookup s (.overlap L) with
  | none =>
    have he : evict1 s L = remove s (.chunk L) := by
      simp [evict1, cnt_of_absent ho]
    rw [he]
    refine ⟨h.remove_chunk L ho, ?_, ?_, ?_⟩
    · intro L'
      by_cases hL : L' = L
      · subst hL
        cases hc : lookup s (.chunk L') <;> simp [avail, lookup_remove, hc, cnt_of_absent ho]
      · have hne : ¬ Key.chunk L = Key.chunk L' := by
          simpa using fun e : L = L' => hL e.symm
        rw [avail_congr (s := s) (by rw [lookup_remove, if_neg hne])
          (by simp [lookup_remove])]
        simp [hL]
    · intro L'
      exact owners_remove_of_not_root s _ (by simp) L'
    · intro R
      simp [lookup_remove]
  | some w =>
    obtain ⟨n, rfl, h1, h2, h3⟩ := h.overlap L w ho
    have hcn : cnt s L = n := cnt_of_lookup (by omega) ho
    have hmod : (n + 2 ^ 64 - 1) % 2 ^ 64 = n - 1 := by omega
    obtain ⟨v, hc⟩ := Option.ne_none_iff_exists'.1 h3
    by_cases hn1 : n = 1
    · subst hn1
      have he : evict1 s L = remove s (.overlap L) := by
        simp only [evict1, hcn, hmod]
        simp
      rw [he]
      refine ⟨h.remove_overlap L, ?_, ?_, ?_⟩
      · intro L'
        by_cases hL : L' = L
        · subst hL
          simp [avail, cnt, lookup_remove, hc, ho, Value.counter,
            uint64_putUint64 1 (by omega)]
        · have hne : ¬ Key.overlap L = Key.overlap L' := by
            simpa using fun e : L = L' => hL e.symm
          rw [avail_congr (s := s) (by simp [lookup_remove])
            (by rw [lookup_remove, if_neg hne])]
          simp [hL]
      · intro L'
        exact owners_remove_of_not_root s _ (by simp) L'
      · intro R
        simp [lookup_remove]
    · have hlt : ¬ (n - 1 < 1) := by omega
      have hn0 : n ≠ 0 := by omega
      have he : evict1 s L = insert s (.overlap L) (.raw (putUint64 (n - 1))) := by
        simp only [evict1, hcn, hmod, hlt, hn0, if_false]
      rw [he]
      refine ⟨h.insert_overlap L (n - 1) (by omega) (by omega) h3, ?_, ?_, ?_⟩
      · intro L'
        by_cases hL : L' = L
        · subst hL
          have h1 : cnt (insert s (.overlap L') (.raw (putUint64 (n - 1)))) L' = n - 1 :=
            cnt_of_lookup (by omega) (by simp [lookup_insert])
          simp only [avail, lookup_insert, reduceCtorEq, if_false, hc, h1, hcn, if_true]
          omega
        · have hne : ¬ Key.overlap L = Key.overlap L' := by
            simpa using fun e : L = L' => hL e.symm
          rw [avail_congr (s := s) (by simp [lookup_insert])
            (by rw [lookup_insert, if_neg hne])]
          simp [hL]
      · intro L'
        exact owners_insert_of_not_root s _ _ (by simp) L'
      · intro R
        simp [lookup_insert]

theorem evictAll_spec {K : Nat} (hK : K < 2 ^ 64) (links : List Link) :
    ∀ {s : List (Key × Value)}, StoreWF K s → links.Nodup →
    StoreWF K (evictAll s links) ∧
    (∀ L', avail (evictAll s links) L' = avail s L' - if L' ∈ links then 1 else 0) ∧
    (∀ L', owners (evictAll s links) L' = owners s L') ∧
    (∀ R, lookup (evictAll s links) (.root R) = lookup s (.root R)) := by
  induction links with
  | nil =>
    intro s h _
    exact ⟨h, by simp [evictAll], by simp [evictAll], by simp [evictAll]⟩
  | cons L links ih =>
    intro s h hnd
    obtain ⟨hL, hnd'⟩ := List.nodup_cons.1 hnd
    obtain ⟨w1, a1, o1, r1⟩ := evict1_spec h hK L
    obtain ⟨w2, a2, o2, r2⟩ := ih w1 hnd'
    refine ⟨w2, ?_, ?_, ?_⟩
    · intro L'
      have e1 := a2 L'
      have e2 := a1 L'
      simp only [evictAll, List.foldl_cons] at e1 ⊢
      rw [e1, e2]
      by_cases h1 : L' = L
      · subst h1
        simp [hL]
      · simp [h1]
    · intro L'
      have e1 := o2 L'
      simp only [evictAll, List.foldl_cons] at e1 ⊢
      rw [e1, o1]
    · intro R
      have e1 := r2 R
      simp only [evictAll, List.foldl_cons] at e1 ⊢
      rw [e1, r1]

theorem evictChain_spec {K : Nat} (hK : K < 2 ^ 64) {s : List (Key × Value)} (h : StoreWF K s)
    (R : Link) (links : List Link) (hnd : links.Nodup) :
    StoreWF K (evictChain s R links) ∧
    (∀ L', avail (evictChain s R links) L' = avail s L' - if L' ∈ links then 1 else 0) ∧
    (∀ L', owners (evictChain s R links) L' ≤ owners s L') ∧
    (lookup s (.root R) ≠ none →
      ∀ L', owners (evictChain s R links) L' + (if L' ∈ R.chain then 1 else 0) ≤ owners s L') ∧
    (∀ X, lookup (evictChain s R links) (.root X) = if X = R then none else lookup s (.root X)) := by
  obtain ⟨w, a, o, r⟩ := evictAll_spec hK links h hnd
  refine ⟨w.remove_root R, ?_, ?_, ?_, ?_⟩
  · intro L'
    rw [← a L']
    exact avail_congr (by simp [evictChain, lookup_remove]) (by simp [evictChain, lookup_remove])
  · intro L'
    rw [← o L']
    exact owners_remove_le _ _ _
  · intro hm L'
    rw [← o L']
    exact owners_remove_root _ R L' (by rw [r R]; exact hm)
  · intro X
    simp only [evictChain, lookup_remove, Key.root.injEq, r X]
    by_cases hX : X = R
    · simp [hX]
    · have : ¬ R = X := fun e => hX e.symm
      simp [hX, this]

theorem StoreWF.cnt_le {K : Nat} {s : List (Key × Value)} (h : StoreWF K s) (hK : K < 2 ^ 64)
    (L : Link) : cnt s L ≤ K := by
  cases ho : lookup s (.overlap L) with
  | none => simp [cnt_of_absent ho]
  | some w =>
    obtain ⟨n, rfl, _, h2, _⟩ := h.overlap L w ho
    rw [cnt_of_lookup (by omega) ho]
    exact h2

/-! ## Chains -/

theorem self_mem_chain (L : Link) : L ∈ L.chain := by
  cases L <;> simp [Link.chain]

theorem depth_le_of_mem_chain {L L' : Link} (h : L' ∈ L.chain) : L'.depth ≤ L.depth := by
  induction L with
  | tail es =>
    simp only [Link.chain, List.mem_singleton] at h
    subst h
    exact le_refl _
  | cons es n ih =>
    simp only [Link.chain, List.mem_cons] at h
    rcases h with h | h
    · subst h
      exact le_refl _
    · have := ih h
      simp only [Link.depth]
      omega

theorem chain_nodup (L : Link) : L.chain.Nodup := by
  induction L with
  | tail es => simp [Link.chain]
  | cons es n ih =>
    simp only [Link.chain, List.nodup_cons]
    refine ⟨fun h => ?_, ih⟩
    have := depth_le_of_mem_chain h
    simp only [Link.depth] at this
    omega

theorem chain_ofNode (mhs : List Digest) (next : Option Link) :
    (Link.ofNode mhs next).chain = Link.ofNode mhs next :: chainOpt next := by
  cases next <;> rfl

theorem allLinks_chain (cs : Int) (mhi : List Digest) :
    ∀ (mhs : List Digest) (next : Option Link),
      chainOpt (rootOf cs mhi mhs next) = (allLinks cs mhi mhs next).reverse ++ chainOpt next := by
  induction mhi with
  | nil =>
    intro mhs next
    by_cases hm : mhs.length ≠ 0
    · simp only [rootOf, allLinks, if_pos hm, chainOpt, chain_ofNode]
      simp
    · simp only [rootOf, allLinks, if_neg hm]
      simp
  | cons mh rest ih =>
    intro mhs next
    by_cases hc : (((mhs ++ [mh]).length : Nat) : Int) ≥ cs
    · simp only [rootOf, allLinks, if_pos hc]
      rw [ih]
      simp [chainOpt, chain_ofNode]
    · simp only [rootOf, allLinks, if_neg hc]
      rw [ih]

theorem allLinks_eq_chain {cs : Int} {mhi : List Digest} {R : Link}
    (h : rootOf cs mhi [] none = some R) : allLinks cs mhi [] none = R.chain.reverse := by
  have := allLinks_chain cs mhi [] none
  rw [h] at this
  simp only [chainOpt, List.append_nil] at this
  rw [this, List.reverse_reverse]

theorem allLinks_perm {cs : Int} {mhi : List Digest} {R : Link}
    (h : rootOf cs mhi [] none = some R) : (allLinks cs mhi [] none).Perm R.chain := by
  rw [allLinks_eq_chain h]
  exact List.reverse_perm _

/-! ## The LRU index -/

theorem addSpec (max : Int) (hmax : 1 ≤ max) (s : List (Key × Value))
    (c : List (Option Link × List Link)) (R : Link) (links : List Link)
    (hnd : (c.map Prod.fst).Nodup) :
    ∃ victims : List (Option Link × List Link),
      addStore max s c R links = evictEntries s victims ∧
      (victims.map Prod.fst).Nodup ∧
      (∀ e ∈ victims, e ∈ c ∧ e.1 ≠ some R) ∧
      (∀ e, e ∈ addList max c R links ↔
        (e = (some R, links) ∨ (e ∈ c ∧ e.1 ≠ some R ∧ e ∉ victims))) ∧
      ((addList max c R links).map Prod.fst).Nodup := by
  unfold addStore addList
  by_cases hit : c.any (fun e => decide (e.1 = some R)) = true
  · refine ⟨[], by simp [hit, evictEntries], by simp, by simp, ?_, ?_⟩
    · intro e
      simp only [hit, if_true, List.mem_cons, List.mem_filter, decide_eq_true_eq,
        List.not_mem_nil, not_false_eq_true, and_true]
    · simp only [hit, if_true, List.map_cons, List.nodup_cons]
      refine ⟨?_, hnd.sublist ((List.filter_sublist c).map _)⟩
      simp only [List.mem_map, List.mem_filter, decide_eq_true_eq, not_exists, not_and]
      intro e he h1
      exact he.2 h1
  · have hmiss : ∀ e ∈ c, e.1 ≠ some R := by
      intro e he h1
      apply hit
      simp only [List.any_eq_true, decide_eq_true_eq]
      exact ⟨e, he, h1⟩
    have hRk : some R ∉ c.map Prod.fst := by
      simp only [List.mem_map, not_exists, not_and]
      intro e he h1
      exact hmiss e he h1
    simp only [hit, Bool.false_eq_true, if_false]
    by_cases hov : max ≠ 0 ∧ (((some R, links) :: c).length : Int) > max
    · simp only [if_pos hov]
      have hne : c ≠ [] := by
        intro h0
        subst h0
        simp at hov
        omega
      have hsplit : c.dropLast ++ [c.getLast hne] = c := List.dropLast_append_getLast hne
      have hlast : ((some R, links) :: c).getLast? = some (c.getLast hne) := by
        rw [List.getLast?_eq_getLast _ (by simp), List.getLast_cons hne]
      have hdrop : ((some R, links) :: c).dropLast = (some R, links) :: c.dropLast := by
        cases c with
        | nil => exact absurd rfl hne
        | cons a t => rfl
      have hvmem : c.getLast hne ∈ c := List.getLast_mem hne
      have hnd2 : (c.dropLast ++ [c.getLast hne]).Nodup := by
        rw [hsplit]
        exact List.Nodup.of_map _ hnd
      refine ⟨[c.getLast hne], by simp [hlast], by simp, ?_, ?_, ?_⟩
      · intro e he
        simp only [List.mem_singleton] at he
        subst he
        exact ⟨hvmem, hmiss _ hvmem⟩
      · intro e
        rw [hdrop]
        simp only [List.mem_cons, List.mem_singleton, List.not_mem_nil, or_false]
        constructor
        · rintro (h1 | h1)
          · exact Or.inl h1
          · refine Or.inr ⟨List.mem_of_mem_dropLast h1, hmiss e (List.mem_of_mem_dropLast h1), ?_⟩
            intro h2
            subst h2
            have := List.nodup_append.1 hnd2
            exact this.2.2 h1 (by simp)
        · rintro (h1 | ⟨h1, _, h3⟩)
          · exact Or.inl h1
          · right
            rw [← hsplit] at h1
            rcases List.mem_append.1 h1 with h4 | h4
            · exact h4
            · simp only [List.mem_singleton] at h4
              exact absurd h4 h3
      · rw [hdrop]
        simp only [List.map_cons, List.nodup_cons]
        refine ⟨fun h1 => hRk ?_, hnd.sublist ((List.dropLast_sublist c).map _)⟩
        exact (List.Sublist.subset ((List.dropLast_sublist c).map Prod.fst)) h1
    · simp only [if_neg hov]
      refine ⟨[], by simp [evictEntries], by simp, by simp, ?_, ?_⟩
      · intro e
        simp only [List.mem_cons, List.not_mem_nil, not_false_eq_true, and_true]
        constructor
        · rintro (h1 | h1)
          · exact Or.inl h1
          · exact Or.inr ⟨h1, hmiss e h1⟩
        · rintro (h1 | h1)
          · exact Or.inl h1
          · exact Or.inr h1.1
      · simp only [List.map_cons, List.nodup_cons]
        exact ⟨hRk, hnd⟩

/-! ## Evictions keep the store well formed -/

theorem evictEntries_spec {K : Nat} (hK : K < 2 ^ 64) (f : Link → Nat)
    (es : List (Option Link × List Link)) :
    ∀ {s : List (Key × Value)}, StoreWF K s → Slack s f →
    (∀ e ∈ es, ∃ R, e.1 = some R ∧ e.2.Perm R.chain ∧ lookup s (.root R) ≠ none) →
    (es.map Prod.fst).Nodup →
    StoreWF K (evictEntries s es) ∧ Slack (evictEntries s es) f ∧
    (∀ X, lookup (evictEntries s es) (.root X) =
      if some X ∈ es.map Prod.fst then none else lookup s (.root X)) := by
  induction es with
  | nil =>
    intro s h hs _ _
    exact ⟨h, hs, by simp [evictEntries]⟩
  | cons e es ih =>
    intro s h hs he hnd
    obtain ⟨k, vl⟩ := e
    obtain ⟨V, hk, hperm, hm⟩ := he (k, vl) (by simp)
    simp only at hk hperm
    subst hk
    simp only [List.map_cons, List.nodup_cons] at hnd
    obtain ⟨hV, hnd'⟩ := hnd
    have hvl : vl.Nodup := (List.Perm.nodup_iff hperm).2 (chain_nodup V)
    obtain ⟨w, a, _, om, r⟩ := evictChain_spec hK h V vl hvl
    have hs1 : Slack (evictChain s V vl) f := by
      intro L
      have h1 := om hm L
      have h2 := a L
      have h3 := hs L
      have h4 : L ∈ vl ↔ L ∈ V.chain := hperm.mem_iff
      by_cases hL : L ∈ V.chain
      · simp only [hL, if_true] at h1
        simp only [h4.2 hL, if_true] at h2
        omega
      · simp only [hL, if_false] at h1
        simp only [mt h4.1 hL, if_false] at h2
        omega
    have he1 : ∀ e ∈ es, ∃ R, e.1 = some R ∧ e.2.Perm R.chain ∧
        lookup (evictChain s V vl) (.root R) ≠ none := by
      intro e' he'
      obtain ⟨R, h1, h2, h3⟩ := he e' (by simp [he'])
      refine ⟨R, h1, h2, ?_⟩
      have hne : R ≠ V := by
        intro e0
        subst e0
        exact hV (List.mem_map.2 ⟨e', he', h1⟩)
      rw [r R, if_neg hne]
      exact h3
    obtain ⟨w2, s2, r2⟩ := ih w hs1 he1 hnd'
    refine ⟨w2, s2, ?_⟩
    intro X
    have e1 := r2 X
    simp only [evictEntries] at e1 ⊢
    rw [e1, r X]
    by_cases hX : X = V
    · subst hX
      simp
    · have hne : ¬ some X = some V := by
        simpa using hX
      simp only [if_neg hX, List.map_cons, List.mem_cons, hne, false_or]

theorem LruInv.perm {s : List (Key × Value)} {c es : List (Option Link × List Link)}
    (h : LruInv s c) (hp : es.Perm c) : LruInv s es :=
  ⟨fun e he => h.entry e (hp.mem_iff.1 he),
   (List.Perm.nodup_iff (hp.map Prod.fst)).2 h.nodup,
   fun R hR => ((hp.map Prod.fst).mem_iff).2 (h.marker R hR)⟩

theorem LruInv.key_ne_none {s : List (Key × Value)} {c : List (Option Link × List Link)}
    (h : LruInv s c) : ∀ e ∈ c, e.1 ≠ none := by
  intro e he
  obtain ⟨R, h1, _⟩ := h.entry e he
  simp [h1]

/-! ## `Clear` keeps the invariant -/

theorem Clear_inv {K : Nat} {ls : CachedEntriesChunker} (h : Inv K ls) (picks : List Nat) :
    ∃ ls', Clear ls picks = (none, ls') ∧ Inv K ls' ∧ ls'.cache.ll = [] ∧
      ls'.cache.MaxEntries = ls.cache.MaxEntries ∧ ls'.chunkSize = ls.chunkSize ∧
      ls'.ds.data = evictEntries ls.ds.data (rangeOrder picks ls.cache.ll) := by
  obtain ⟨⟨s, fl⟩, cs, ⟨max, c⟩, err⟩ := ls
  obtain ⟨hr, hn, hb, hw, hs, hl⟩ := h
  simp only at hr hn hw hs hl
  subst hr hn
  have hp := hl.perm (rangeOrder_perm picks c)
  obtain ⟨w, sl, r⟩ := evictEntries_spec hb _ (rangeOrder picks c) hw hs hp.entry hp.nodup
  refine ⟨_, Clear_reliable (hw.wfc hb) cs max c picks hl.key_ne_none, ?_, rfl, rfl, rfl, rfl⟩
  refine ⟨rfl, rfl, hb, w, sl, ?_⟩
  refine ⟨by simp, by simp, ?_⟩
  intro R hR
  simp only at hR
  rw [r R] at hR
  split at hR
  · exact absurd rfl hR
  · rename_i hx
    exact absurd (hp.marker R hR) hx

/-! ## `Chunk` keeps the invariant -/

theorem publish_none (ls : CachedEntriesChunker) (links : List Link) :
    (publish ls none links).1.1 = none := by
  unfold publish
  split
  · rfl
  · rfl

theorem rootOf_ne_none (cs : Int) (mhi : List Digest) :
    ∀ (mhs : List Digest) (next : Option Link),
      (mhi ≠ [] ∨ mhs ≠ [] ∨ next ≠ none) → rootOf cs mhi mhs next ≠ none := by
  induction mhi with
  | nil =>
    intro mhs next h
    by_cases hm : mhs.length ≠ 0
    · simp [rootOf, hm]
    · simp only [rootOf, if_neg hm]
      rcases h with h | h | h
      · exact absurd rfl h
      · exact absurd (List.length_eq_zero.1 (not_not.1 hm)) h
      · exact h
  | cons mh rest ih =>
    intro mhs next _
    by_cases hc : (((mhs ++ [mh]).length : Nat) : Int) ≥ cs
    · simp only [rootOf, if_pos hc]
      exact ih _ _ (Or.inr (Or.inr (by simp)))
    · simp only [rootOf, if_neg hc]
      exact ih _ _ (Or.inr (Or.inl (by simp)))

theorem Chunk_total {K : Nat} {ls : CachedEntriesChunker} (h : Inv K ls)
    (hcs : 0 ≤ ls.chunkSize) (hmx : ls.chunkSize ≤ maxSliceCap) (mhi : List Digest) (R : Link)
    (hR : rootOf ls.chunkSize mhi [] none = some R) :
    Chunk ls mhi = ((some R, none), chunked ls mhi R) := by
  obtain ⟨⟨s, fl⟩, cs, ⟨max, c⟩, err⟩ := ls
  obtain ⟨hr, hn, hb, hw, hs, hl⟩ := h
  simp only at hr hn hw hs hl hcs hmx hR
  subst hr hn
  rw [Chunk_reliable (hw.wfc hb) cs hcs hmx, hR,
    publish_reliable (wfc_commitAll (hw.wfc hb) _) cs max c R _ hl.key_ne_none]
  rfl

theorem Chunk_ok {K : Nat} {ls ls' : CachedEntriesChunker} (h : Inv K ls) {mhi : List Digest}
    {R : Link} (hres : Chunk ls mhi = ((some R, none), ls')) :
    0 ≤ ls.chunkSize ∧ rootOf ls.chunkSize mhi [] none = some R ∧ ls' = chunked ls mhi R := by
  obtain ⟨hcs, hmx⟩ := Chunk_size_ok hres
  · cases hroot : rootOf ls.chunkSize mhi [] none with
    | none =>
      exfalso
      obtain ⟨⟨s, fl⟩, cs, ⟨max, c⟩, err⟩ := ls
      obtain ⟨hr, hn, hb, hw, hs, hl⟩ := h
      simp only at hr hn hw hs hl hcs hmx hroot
      subst hr hn
      rw [Chunk_reliable (hw.wfc hb) cs hcs hmx, hroot] at hres
      have := publish_none ⟨⟨commitAll s (allLinks cs mhi [] none), []⟩, cs, ⟨max, c⟩, none⟩
        (allLinks cs mhi [] none)
      rw [hres] at this
      simp at this
    | some R' =>
      have := Chunk_total h hcs hmx mhi R' hroot
      rw [this] at hres
      simp only [Prod.mk.injEq, Option.some.injEq, and_true] at hres
      obtain ⟨h1, h2⟩ := hres
      subst h1
      exact ⟨hcs, rfl, h2.symm⟩

theorem chunked_inv {K : Nat} {ls : CachedEntriesChunker} (h : Inv K ls) (hK : K + 1 < 2 ^ 64)
    (hmax : 1 ≤ ls.cache.MaxEntries) (mhi : List Digest) (R : Link)
    (hR : rootOf ls.chunkSize mhi [] none = some R) : Inv (K + 1) (chunked ls mhi R) := by
  obtain ⟨⟨s, fl⟩, cs, ⟨max, c⟩, err⟩ := ls
  obtain ⟨hr, hn, hb, hw, hs, hl⟩ := h
  simp only at hr hn hw hs hl hmax hR
  subst hr hn
  have hperm := allLinks_perm hR
  have hnd : (allLinks cs mhi [] none).Nodup := (List.Perm.nodup_iff hperm).2 (chain_nodup R)
  obtain ⟨w1, a1, o1, r1⟩ := commitAll_spec hK (by omega) (allLinks cs mhi [] none)
    (hw.mono_bound (Nat.le_succ K)) hnd (fun L _ => by have := hw.cnt_le hb L; omega)
  have hs1 : Slack (commitAll s (allLinks cs mhi [] none))
      (fun L => if L ∈ R.chain then 1 else 0) := by
    intro L
    have h4 : L ∈ allLinks cs mhi [] none ↔ L ∈ R.chain := hperm.mem_iff
    have h1 := a1 L
    have h2 := o1 L
    have h3 := hs L
    by_cases hL : L ∈ R.chain
    · simp only [h4.2 hL, if_true] at h1
      simp only [hL, if_true]
      omega
    · simp only [mt h4.1 hL, if_false] at h1
      simp only [hL, if_false]
      omega
  obtain ⟨victims, hv1, hv2, hv3, hv4, hv5⟩ :=
    addSpec max hmax (commitAll s (allLinks cs mhi [] none)) c R (allLinks cs mhi [] none)
      hl.nodup
  have hventry : ∀ e ∈ victims, ∃ X, e.1 = some X ∧ e.2.Perm X.chain ∧
      lookup (commitAll s (allLinks cs mhi [] none)) (.root X) ≠ none := by
    intro e he
    obtain ⟨X, h1, h2, h3⟩ := hl.entry e (hv3 e he).1
    exact ⟨X, h1, h2, by rw [r1 X]; exact h3⟩
  obtain ⟨w2, s2, r2⟩ := evictEntries_spec hK _ victims w1 hs1 hventry hv2
  rw [← hv1] at w2 s2 r2
  refine ⟨rfl, rfl, hK, w2.insert_root R, ?_, ?_⟩
  · intro L
    simp only [chunked, Nat.add_zero]
    have h1 := s2 L
    have h2 := owners_insert_root
      (addStore max (commitAll s (allLinks cs mhi [] none)) c R (allLinks cs mhi [] none)) R
      (.raw []) L
    have h3 : avail (insert (addStore max (commitAll s (allLinks cs mhi [] none)) c R
        (allLinks cs mhi [] none)) (.root R) (.raw [])) L =
        avail (addStore max (commitAll s (allLinks cs mhi [] none)) c R
          (allLinks cs mhi [] none)) L :=
      avail_congr (by simp [lookup_insert]) (by simp [lookup_insert])
    rw [h2, h3]
    simp only at h1
    by_cases hL : L ∈ R.chain
    · simp only [hL, if_true] at h1
      split <;> omega
    · simp only [hL, and_false, if_false] at h1 ⊢
      omega
  · simp only [chunked]
    refine ⟨?_, hv5, ?_⟩
    · intro e he
      rcases (hv4 e).1 he with h1 | ⟨h1, h2, h3⟩
      · subst h1
        exact ⟨R, rfl, hperm, by simp [lookup_insert]⟩
      · obtain ⟨X, h4, h5, h6⟩ := hl.entry e h1
        refine ⟨X, h4, h5, ?_⟩
        have hXR : ¬ Key.root R = Key.root X := by
          intro e0
          simp only [Key.root.injEq] at e0
          subst e0
          exact h2 h4
        rw [lookup_insert, if_neg hXR, r2 X, r1 X]
        have : some X ∉ victims.map Prod.fst := by
          intro hm
          obtain ⟨e', he', hk'⟩ := List.mem_map.1 hm
          have hee : e' = e := by
            have hinj := List.inj_on_of_nodup_map hl.nodup (hv3 e' he').1 h1
            exact hinj (by rw [hk', h4])
          subst hee
          exact h3 he'
        rw [if_neg this]
        exact h6
    · intro X hX
      by_cases hXR : X = R
      · subst hXR
        exact List.mem_map.2 ⟨_, (hv4 _).2 (Or.inl rfl), rfl⟩
      · have hne : ¬ Key.root R = Key.root X := by
          simpa using fun e0 : R = X => hXR e0.symm
        rw [lookup_insert, if_neg hne, r2 X] at hX
        split at hX
        · exact absurd rfl hX
        · rename_i hnv
          rw [r1 X] at hX
          obtain ⟨e, he, hk⟩ := List.mem_map.1 (hl.marker X hX)
          refine List.mem_map.2 ⟨e, (hv4 e).2 (Or.inr ⟨he, ?_, ?_⟩), hk⟩
          · rw [hk]
            simpa using hXR
          · intro hev
            exact hnv (List.mem_map.2 ⟨e, hev, hk⟩)

theorem Chunk_inv {K : Nat} {ls ls' : CachedEntriesChunker} (h : Inv K ls) (hK : K + 1 < 2 ^ 64)
    (hmax : 1 ≤ ls.cache.MaxEntries) {mhi : List Digest} {R : Link}
    (hres : Chunk ls mhi = ((some R, none), ls')) : Inv (K + 1) ls' := by
  obtain ⟨_, hR, rfl⟩ := Chunk_ok h hres
  exact chunked_inv h hK hmax mhi R hR

/-! ## Restoring the cache from a well-formed store -/

theorem lsysLoad_reliable (s : List (Key × Value)) (L : Link) :
    lsysLoad ⟨s, []⟩ L =
      (match lookup s (.chunk L) with
        | none => .error .notFound
        | some (.raw _) => .error .decode
        | some (.node es nx) =>
          if Link.ofNode es nx = L then .ok (es, nx) else .error .hashMismatch, ⟨s, []⟩) := by
  unfold lsysLoad storageReadOpener
  rw [get_reliable]
  cases h : lookup s (.chunk L) with
  | none => rfl
  | some v =>
    cases v with
    | raw b => rfl
    | node es nx =>
      simp only
      split <;> rfl

theorem lsysLoad_ok {s : List (Key × Value)} {L : Link} {chunk : List Digest × Option Link}
    {ds : Datastore} (h : lsysLoad ⟨s, []⟩ L = (.ok chunk, ds)) :
    chunk = (L.entries, L.next) ∧ ds = ⟨s, []⟩ ∧
      lookup s (.chunk L) = some (.node L.entries L.next) := by
  rw [lsysLoad_reliable] at h
  cases hl : lookup s (.chunk L) with
  | none => simp [hl] at h
  | some v =>
    cases v with
    | raw b => simp [hl] at h
    | node es nx =>
      simp only [hl] at h
      by_cases he : Link.ofNode es nx = L
      · simp only [he, if_true, Prod.mk.injEq, Except.ok.injEq] at h
        subst he
        simp only [ofNode_entries, ofNode_next]
        exact ⟨h.1.symm, h.2.symm, trivial⟩
      · simp [he] at h

theorem lsysLoad_present {s : List (Key × Value)} {L : Link}
    (h : lookup s (.chunk L) = some (.node L.entries L.next)) :
    lsysLoad ⟨s, []⟩ L = (.ok (L.entries, L.next), ⟨s, []⟩) := by
  rw [lsysLoad_reliable, h]
  simp [ofNode_entries_next]

theorem listLoop_ok (s : List (Key × Value)) :
    ∀ (fuel : Nat) (L : Link) (acc links : List Link) (ds : Datastore),
      listLoop fuel ⟨s, []⟩ L acc = ((links, none), ds) →
        links = acc ++ L.chain ∧ ds = ⟨s, []⟩ := by
  intro fuel
  induction fuel with
  | zero =>
    intro L acc links ds h
    simp [listLoop] at h
  | succ fuel ih =>
    intro L acc links ds h
    simp only [listLoop] at h
    cases hl : lsysLoad ⟨s, []⟩ L with
    | mk r ds1 =>
      rw [hl] at h
      cases r with
      | error e => simp at h
      | ok chunk =>
        obtain ⟨h1, h2, _⟩ := lsysLoad_ok hl
        subst h1 h2
        simp only at h
        cases L with
        | tail es =>
          simp only [Link.next, Prod.mk.injEq, and_true] at h
          simp only [Link.chain]
          exact ⟨h.1.symm, h.2.symm⟩
        | cons es n =>
          simp only [Link.next] at h
          obtain ⟨h3, h4⟩ := ih n _ _ _ h
          simp only [Link.chain]
          exact ⟨by rw [h3]; simp, h4⟩

theorem listEntriesChainLinks_ok {s : List (Key × Value)} {R : Link} {links : List Link}
    {ds : Datastore} (h : listEntriesChainLinks ⟨s, []⟩ R = ((links, none), ds)) :
    links = R.chain ∧ ds = ⟨s, []⟩ := by
  have := listLoop_ok s _ _ _ _ _ h
  simpa using this

theorem pruneAll_reliable (ks : List Key) :
    ∀ s : List (Key × Value), pruneAll ks ⟨s, []⟩ = (none, ⟨ks.foldl remove s, []⟩) := by
  induction ks with
  | nil => intro s; rfl
  | cons k ks ih =>
    intro s
    simp only [pruneAll, delete_reliable, List.foldl_cons]
    exact ih _

theorem lookup_foldl_remove (ks : List Key) :
    ∀ (s : List (Key × Value)) (k : Key),
      lookup (ks.foldl remove s) k = if k ∈ ks then none else lookup s k := by
  induction ks with
  | nil => intro s k; simp
  | cons k0 ks ih =>
    intro s k
    simp only [List.foldl_cons, ih, lookup_remove, List.mem_cons]
    by_cases h1 : k ∈ ks
    · simp [h1]
    · by_cases h2 : k0 = k
      · simp [h2]
      · have : ¬ k = k0 := fun e => h2 e.symm
        simp [h1, h2, this]

theorem eq_nil_of_lookup_none {s : List (Key × Value)} (h : ∀ k, lookup s k = none) : s = [] := by
  cases s with
  | nil => rfl
  | cons p s =>
    obtain ⟨k, v⟩ := p
    have := h k
    simp [lookup] at this

theorem prune_all_keys (s : List (Key × Value)) (picks : List Nat) :
    (rangeOrder picks ((s.map Prod.fst).filter (fun _ => true))).foldl remove s = [] := by
  apply eq_nil_of_lookup_none
  intro k
  rw [lookup_foldl_remove]
  split
  · rfl
  · rename_i hk
    rw [lookup_eq_none_iff]
    intro hmem
    apply hk
    exact (rangeOrder_perm picks _).mem_iff.2 (by simpa using hmem)

theorem inv_empty (K : Nat) (hK : K < 2 ^ 64) (cs cap : Int) :
    Inv K ⟨⟨[], []⟩, cs, ⟨cap, []⟩, none⟩ := by
  refine ⟨rfl, rfl, hK, ⟨by simp, ?_, ?_, ?_, ?_⟩, ?_, ⟨by simp, by simp, ?_⟩⟩
  · intro L v h
    simp [lookup] at h
  · intro L v h
    simp [lookup] at h
  · intro L v h
    simp [lookup] at h
  · intro name
    simp [lookup]
  · intro L
    simp [owners, avail, lookup]
  · intro R h
    simp [lookup] at h

theorem performOnCache_add {s : List (Key × Value)} (h : WFc s) (cs max : Int)
    (c : List (Option Link × List Link)) (R : Link) (links : List Link)
    (hk : ∀ e ∈ c, e.1 ≠ none) :
    performOnCache ⟨⟨s, []⟩, cs, ⟨max, c⟩, none⟩ (fun ls => cacheAdd ls (some R) links) =
      (none, ⟨⟨addStore max s c R links, []⟩, cs, ⟨max, addList max c R links⟩, none⟩) := by
  simp [performOnCache, cacheAdd_reliable h cs max c none R links hk]

theorem RestInv.add_root {K : Nat} (hK : K < 2 ^ 64) {max : Int} (hmax : 1 ≤ max)
    {s : List (Key × Value)} {c : List (Option Link × List Link)} {R : Link} {rest : List Key}
    (h : RestInv K s c (.root R :: rest)) :
    RestInv K (addStore max s c R R.chain) (addList max c R R.chain) rest := by
  obtain ⟨hw, hs, he, hnd, hp, hpn, hm⟩ := h
  obtain ⟨R0, hR0, hRm, hRc⟩ := hp (.root R) (by simp)
  simp only [Key.root.injEq] at hR0
  subst hR0
  obtain ⟨hRrest, hrestnd⟩ := List.nodup_cons.1 hpn
  obtain ⟨victims, hv1, hv2, hv3, hv4, hv5⟩ := addSpec max hmax s c R R.chain hnd
  have hventry : ∀ e ∈ victims, ∃ X, e.1 = some X ∧ e.2.Perm X.chain ∧
      lookup s (.root X) ≠ none := fun e hev => he e (hv3 e hev).1
  obtain ⟨w2, s2, r2⟩ := evictEntries_spec hK _ victims hw hs hventry hv2
  rw [← hv1] at w2 s2 r2
  have hkeep : ∀ X, some X ∉ c.map Prod.fst → lookup s (.root X) ≠ none →
      lookup (addStore max s c R R.chain) (.root X) ≠ none := by
    intro X hX hXm
    have : some X ∉ victims.map Prod.fst := by
      intro hmem
      obtain ⟨e', he', hk'⟩ := List.mem_map.1 hmem
      exact hX (List.mem_map.2 ⟨e', (hv3 e' he').1, hk'⟩)
    rw [r2 X, if_neg this]
    exact hXm
  refine ⟨w2, s2, ?_, hv5, ?_, hrestnd, ?_⟩
  · intro e hmem
    rcases (hv4 e).1 hmem with h1 | ⟨h1, h2, h3⟩
    · subst h1
      exact ⟨R, rfl, List.Perm.refl _, hkeep R hRc hRm⟩
    · obtain ⟨X, h4, h5, h6⟩ := he e h1
      refine ⟨X, h4, h5, ?_⟩
      have : some X ∉ victims.map Prod.fst := by
        intro hmem'
        obtain ⟨e', he', hk'⟩ := List.mem_map.1 hmem'
        have hee : e' = e := by
          have hinj := List.inj_on_of_nodup_map hnd (hv3 e' he').1 h1
          exact hinj (by rw [hk', h4])
        subst hee
        exact h3 he'
      rw [r2 X, if_neg this]
      exact h6
  · intro k hk
    obtain ⟨X, hX1, hX2, hX3⟩ := hp k (by simp [hk])
    subst hX1
    refine ⟨X, rfl, hkeep X hX3 hX2, ?_⟩
    intro hmem
    obtain ⟨e, he1, he2⟩ := List.mem_map.1 hmem
    rcases (hv4 e).1 he1 with h1 | ⟨h1, _, _⟩
    · subst h1
      simp only [Option.some.injEq] at he2
      subst he2
      exact hRrest hk
    · exact hX3 (List.mem_map.2 ⟨e, h1, he2⟩)
  · intro X hX
    rw [r2 X] at hX
    split at hX
    · exact absurd rfl hX
    · rename_i hnv
      by_cases hXR : X = R
      · subst hXR
        exact Or.inl (List.mem_map.2 ⟨_, (hv4 _).2 (Or.inl rfl), rfl⟩)
      · rcases hm X hX with h1 | h1
        · obtain ⟨e, he1, hk⟩ := List.mem_map.1 h1
          refine Or.inl (List.mem_map.2 ⟨e, (hv4 e).2 (Or.inr ⟨he1, ?_, ?_⟩), hk⟩)
          · rw [hk]
            simpa using hXR
          · intro hev
            exact hnv (List.mem_map.2 ⟨e, hev, hk⟩)
        · rcases List.mem_cons.1 h1 with h2 | h2
          · simp only [Key.root.injEq] at h2
            exact absurd h2 hXR
          · exact Or.inr h2

theorem restoreRoots_inv {K : Nat} (hK : K < 2 ^ 64) (cs max : Int) (hmax : 1 ≤ max) :
    ∀ (pend : List Key) (count : Nat) (s : List (Key × Value))
      (c : List (Option Link × List Link)), RestInv K s c pend →
      ∀ (n : Nat) (ls' : CachedEntriesChunker),
        restoreRoots pend count ⟨⟨s, []⟩, cs, ⟨max, c⟩, none⟩ = (.ok n, ls') →
        Inv K ls' ∧ ls'.cache.MaxEntries = max ∧ ls'.chunkSize = cs ∧
          n = count + pend.length := by
  intro pend
  induction pend with
  | nil =>
    intro count s c h n ls' hres
    simp only [restoreRoots, Prod.mk.injEq, Except.ok.injEq] at hres
    obtain ⟨h1, h2⟩ := hres
    subst h1 h2
    refine ⟨⟨rfl, rfl, hK, h.wf, h.slack, ⟨h.entry, h.nodup, ?_⟩⟩, rfl, rfl, by simp⟩
    intro R hR
    rcases h.marker R hR with h1 | h1
    · exact h1
    · simp at h1
  | cons k rest ih =>
    intro count s c h n ls' hres
    obtain ⟨R, hk, _, _⟩ := h.pending k (by simp)
    subst hk
    simp only [restoreRoots, linkFromDsCachePrefixedKey] at hres
    cases hl : listEntriesChainLinks ⟨s, []⟩ R with
    | mk r ds =>
      obtain ⟨links, err⟩ := r
      rw [hl] at hres
      cases err with
      | some e => simp at hres
      | none =>
        obtain ⟨h1, h2⟩ := listEntriesChainLinks_ok hl
        subst h1 h2
        have hkeys : ∀ e ∈ c, e.1 ≠ none := by
          intro e he
          obtain ⟨X, hX, _⟩ := h.entry e he
          simp [hX]
        simp only [performOnCache_add (h.wf.wfc hK) cs max c R R.chain hkeys] at hres
        obtain ⟨i1, i2, i3, i4⟩ := ih (count + 1) _ _ (h.add_root hK hmax) n ls' hres
        exact ⟨i1, i2, i3, by simp only [List.length_cons]; omega⟩

theorem restInv_start {K : Nat} {s : List (Key × Value)} (hw : StoreWF K s)
    (hs : Slack s (fun _ => 0)) (picks : List Nat) :
    RestInv K s [] (rangeOrder picks ((s.map Prod.fst).filter underRoot)) := by
  have hmem : ∀ k, k ∈ rangeOrder picks ((s.map Prod.fst).filter underRoot) ↔
      (k ∈ s.map Prod.fst ∧ underRoot k = true) := by
    intro k
    rw [(rangeOrder_perm picks _).mem_iff, List.mem_filter]
  refine ⟨hw, hs, by simp, by simp, ?_, ?_, ?_⟩
  · intro k hk
    obtain ⟨h1, h2⟩ := (hmem k).1 hk
    cases k with
    | root R =>
      refine ⟨R, rfl, ?_, by simp⟩
      intro h0
      exact (lookup_eq_none_iff s _).1 h0 h1
    | rootRaw name =>
      exact absurd h1 ((lookup_eq_none_iff s _).1 (hw.junk name).1)
    | chunk L => simp [underRoot] at h2
    | overlap L => simp [underRoot] at h2
    | other name => simp [underRoot] at h2
  · exact (List.Perm.nodup_iff (rangeOrder_perm picks _)).2 (hw.nodup.filter _)
  · intro R hR
    right
    refine (hmem _).2 ⟨?_, rfl⟩
    by_contra h0
    exact hR ((lookup_eq_none_iff s _).2 h0)

theorem New_inv {K : Nat} (hK : K < 2 ^ 64) {s : List (Key × Value)} (hw : StoreWF K s)
    (hs : Slack s (fun _ => 0)) (cs cap : Int) (hcap : 1 ≤ cap) (picks : List Nat)
    {ls' : CachedEntriesChunker}
    (hres : NewCachedEntriesChunker ⟨s, []⟩ cs cap picks = .ok ls') :
    Inv K ls' ∧ ls'.cache.MaxEntries = cap ∧ ls'.chunkSize = cs := by
  unfold NewCachedEntriesChunker at hres
  cases hr : restoreCache ⟨⟨s, []⟩, cs, ⟨cap, []⟩, none⟩ picks with
  | mk err ls1 =>
    rw [hr] at hres
    cases err with
    | some e => simp at hres
    | none =>
      simp only [Except.ok.injEq] at hres
      subst hres
      simp only [restoreCache, query_reliable] at hr
      cases h1 : restoreRoots (rangeOrder picks ((s.map Prod.fst).filter underRoot)) 0
          ⟨⟨s, []⟩, cs, ⟨cap, []⟩, none⟩ with
      | mk r ls2 =>
        rw [h1] at hr
        cases r with
        | error e => simp at hr
        | ok n =>
          obtain ⟨i1, i2, i3, i4⟩ := restoreRoots_inv hK cs cap hcap _ 0 s []
            (restInv_start hw hs picks) n ls2 h1
          simp only at hr
          by_cases hn : n = 0
          · have hpend : rangeOrder picks ((s.map Prod.fst).filter underRoot) = [] := by
              apply List.eq_nil_of_length_eq_zero
              omega
            rw [hpend] at h1
            simp only [restoreRoots, Prod.mk.injEq, Except.ok.injEq] at h1
            obtain ⟨_, h3⟩ := h1
            subst h3
            simp only [hn, if_true, query_reliable, pruneAll_reliable, prune_all_keys,
              Prod.mk.injEq, true_and] at hr
            subst hr
            exact ⟨inv_empty K hK cs cap, rfl, rfl⟩
          · simp only [hn, if_false, Prod.mk.injEq, true_and] at hr
            subst hr
            exact ⟨i1, i2, i3⟩

/-! ## The invariant along a history -/

theorem Inv.mono_steps {K K' : Nat} {ls : CachedEntriesChunker} (h : Inv K ls) (hK : K ≤ K')
    (hK' : K' < 2 ^ 64) : Inv K' ls :=
  ⟨h.reliable, h.noErr, hK', h.wf.mono_bound hK, h.slack, h.lru⟩

theorem getRaw_reliable {ls : CachedEntriesChunker} (h : ls.ds.faults = []) (l : Link) :
    (GetRawCachedChunk ls l).2 = ls := by
  obtain ⟨⟨s, fl⟩, cs, c, err⟩ := ls
  simp only at h
  subst h
  simp only [GetRawCachedChunk, get_reliable]
  cases lookup s (.chunk l) <;> rfl

theorem close_reliable {ls : CachedEntriesChunker} (h : ls.ds.faults = []) :
    (Close ls).2 = ls := by
  obtain ⟨⟨s, fl⟩, cs, c, err⟩ := ls
  simp only at h
  subst h
  simp [Close, sync_reliable]

theorem chunk_succeeds {ls : CachedEntriesChunker} {mhi : List Digest}
    (h : (Call.chunk mhi).succeeds ls = true) :
    ∃ R, Chunk ls mhi = ((some R, none), (Chunk ls mhi).2) := by
  simp only [Call.succeeds] at h
  cases hc : Chunk ls mhi with
  | mk r ls' =>
    obtain ⟨l, e⟩ := r
    rw [hc] at h
    cases l with
    | none => simp at h
    | some R =>
      cases e with
      | some e => simp at h
      | none => exact ⟨R, rfl⟩

theorem step_inv {K : Nat} {ls ls' : CachedEntriesChunker} (h : Inv K ls)
    (hK : K + 1 < 2 ^ 64) (hmax : 1 ≤ ls.cache.MaxEntries) (e : Event)
    (hv : e.valid = true) (hs : e.step ls = some ls') :
    Inv (K + 1) ls' ∧ 1 ≤ ls'.cache.MaxEntries := by
  cases e with
  | call c =>
    simp only [Event.step] at hs
    split at hs
    · rename_i hsucc
      simp only [Option.some.injEq] at hs
      subst hs
      cases c with
      | chunk mhi =>
        obtain ⟨R, hR⟩ := chunk_succeeds hsucc
        obtain ⟨_, _, h3⟩ := Chunk_ok h hR
        refine ⟨Chunk_inv h hK hmax hR, ?_⟩
        simp only [Call.exec]
        rw [h3]
        exact hmax
      | clear picks =>
        obtain ⟨ls1, h1, h2, _, h4, _⟩ := Clear_inv h picks
        simp only [Call.exec, h1]
        exact ⟨h2.mono_steps (Nat.le_succ K) hK, by rw [h4]; exact hmax⟩
      | getRaw l =>
        simp only [Call.exec, getRaw_reliable h.reliable]
        exact ⟨h.mono_steps (Nat.le_succ K) hK, hmax⟩
      | close =>
        simp only [Call.exec, close_reliable h.reliable]
        exact ⟨h.mono_steps (Nat.le_succ K) hK, hmax⟩
    · simp at hs
  | reopen cs cap picks =>
    simp only [Event.valid, decide_eq_true_eq] at hv
    simp only [Event.step] at hs
    cases hn : NewCachedEntriesChunker ls.ds cs cap picks with
    | error e => simp [hn] at hs
    | ok ls1 =>
      simp only [hn, Option.some.injEq] at hs
      subst hs
      obtain ⟨⟨s, fl⟩, cs0, c, err⟩ := ls
      have hr := h.reliable
      simp only at hr
      subst hr
      obtain ⟨i1, i2, _⟩ := New_inv h.bound h.wf h.slack cs cap hv picks hn
      exact ⟨i1.mono_steps (Nat.le_succ K) hK, by rw [i2]; exact hv⟩

theorem run_inv (es : List Event) :
    ∀ {K : Nat} {ls ls' : CachedEntriesChunker}, Inv K ls → K + es.length < 2 ^ 64 →
      1 ≤ ls.cache.MaxEntries → (∀ e ∈ es, e.valid = true) → run es ls = some ls' →
      Inv (K + es.length) ls' ∧ 1 ≤ ls'.cache.MaxEntries := by
  induction es with
  | nil =>
    intro K ls ls' h _ hmax _ hr
    simp only [run, Option.some.injEq] at hr
    subst hr
    exact ⟨h, hmax⟩
  | cons e es ih =>
    intro K ls ls' h hK hmax hv hr
    simp only [List.length_cons] at hK
    simp only [run] at hr
    cases hs : e.step ls with
    | none => simp [hs] at hr
    | some ls1 =>
      simp only [hs] at hr
      obtain ⟨i1, i2⟩ := step_inv h (by omega) hmax e (hv e (by simp)) hs
      have := ih i1 (by omega) i2 (fun e' he' => hv e' (by simp [he'])) hr
      simpa [List.length_cons, Nat.add_assoc, Nat.add_comm 1] using this

theorem reached_inv {cs cap : Int} {picks : List Nat} {es : List Event}
    {ls : CachedEntriesChunker} (hcap : 1 ≤ cap) (hv : ∀ e ∈ es, e.valid = true)
    (hlen : es.length < 2 ^ 64) (h : Reached cs cap picks es ls) :
    Inv es.length ls ∧ 1 ≤ ls.cache.MaxEntries := by
  obtain ⟨ls0, h0, hr⟩ := h
  have hw : StoreWF 0 ([] : List (Key × Value)) := (inv_empty 0 (by norm_num) 0 0).wf
  have hs : Slack ([] : List (Key × Value)) (fun _ => 0) := (inv_empty 0 (by norm_num) 0 0).slack
  obtain ⟨i1, i2, _⟩ := New_inv (by norm_num) hw hs cs cap hcap picks h0
  have := run_inv es i1 (by omega) (by rw [i2]; exact hcap) hv hr
  simpa using this

/-! ## The root markers and the LRU index, whatever the overlap counts -/

theorem Inv.toLInv {K : Nat} {ls : CachedEntriesChunker} (h : Inv K ls) : LInv ls :=
  ⟨h.reliable, h.noErr, h.wf.wfc h.bound, h.wf.nodup, h.wf.root, h.lru⟩

theorem commit1_frame (s : List (Key × Value)) (L : Link) :
    (∀ R, lookup (commit1 s L) (.root R) = lookup s (.root R)) ∧
    ((s.map Prod.fst).Nodup → ((commit1 s L).map Prod.fst).Nodup) := by
  unfold commit1
  split
  · exact ⟨fun R => by simp [lookup_insert], fun h => nodup_keys_insert h _ _⟩
  · exact ⟨fun R => by simp [lookup_insert], fun h => nodup_keys_insert h _ _⟩

theorem commitAll_frame (links : List Link) :
    ∀ s : List (Key × Value),
      (∀ R, lookup (commitAll s links) (.root R) = lookup s (.root R)) ∧
      ((s.map Prod.fst).Nodup → ((commitAll s links).map Prod.fst).Nodup) := by
  induction links with
  | nil => intro s; exact ⟨fun _ => rfl, fun h => h⟩
  | cons L links ih =>
    intro s
    obtain ⟨h1, h2⟩ := ih (commit1 s L)
    obtain ⟨h3, h4⟩ := commit1_frame s L
    refine ⟨fun R => ?_, fun h => h2 (h4 h)⟩
    have := h1 R
    simp only [commitAll, List.foldl_cons] at this ⊢
    rw [this, h3]

theorem evict1_frame (s : List (Key × Value)) (L : Link) :
    (∀ R, lookup (evict1 s L) (.root R) = lookup s (.root R)) ∧
    ((s.map Prod.fst).Nodup → ((evict1 s L).map Prod.fst).Nodup) := by
  unfold evict1
  split
  · exact ⟨fun R => by simp [lookup_remove], fun h => nodup_keys_remove h _⟩
  · split
    · exact ⟨fun R => by simp [lookup_remove], fun h => nodup_keys_remove h _⟩
    · exact ⟨fun R => by simp [lookup_insert], fun h => nodup_keys_insert h _ _⟩

theorem evictAll_frame (links : List Link) :
    ∀ s : List (Key × Value),
      (∀ R, lookup (evictAll s links) (.root R) = lookup s (.root R)) ∧
      ((s.map Prod.fst).Nodup → ((evictAll s links).map Prod.fst).Nodup) := by
  induction links with
  | nil => intro s; exact ⟨fun _ => rfl, fun h => h⟩
  | cons L links ih =>
    intro s
    obtain ⟨h1, h2⟩ := ih (evict1 s L)
    obtain ⟨h3, h4⟩ := evict1_frame s L
    refine ⟨fun R => ?_, fun h => h2 (h4 h)⟩
    have := h1 R
    simp only [evictAll, List.foldl_cons] at this ⊢
    rw [this, h3]

theorem evictEntries_frame (es : List (Option Link × List Link)) :
    ∀ s : List (Key × Value),
      (∀ X, lookup (evictEntries s es) (.root X) =
        if some X ∈ es.map Prod.fst then none else lookup s (.root X)) ∧
      ((s.map Prod.fst).Nodup → ((evictEntries s es).map Prod.fst).Nodup) := by
  induction es with
  | nil => intro s; exact ⟨fun X => by simp [evictEntries], fun h => h⟩
  | cons e es ih =>
    intro s
    obtain ⟨k, vl⟩ := e
    cases k with
    | none =>
      obtain ⟨h1, h2⟩ := ih s
      refine ⟨fun X => ?_, fun h => h2 h⟩
      have := h1 X
      simp only [evictEntries, List.map_cons, List.mem_cons, reduceCtorEq, false_or] at this ⊢
      exact this
    | some V =>
      obtain ⟨h1, h2⟩ := ih (evictChain s V vl)
      obtain ⟨h3, h4⟩ := evictAll_frame vl s
      refine ⟨fun X => ?_, fun h => h2 (nodup_keys_remove (h4 h) _)⟩
      have := h1 X
      simp only [evictEntries, List.map_cons, List.mem_cons, Option.some.injEq] at this ⊢
      rw [this]
      simp only [evictChain, lookup_remove, Key.root.injEq, h3 X]
      by_cases hX : X = V
      · subst hX
        simp
      · have hVX : ¬ V = X := fun e0 => hX e0.symm
        simp only [hX, hVX, false_or, if_false]

/-- The LRU index after an entry for `R` is added, its victims are evicted and the marker of
`R` is in the store; `P` holds of the roots whose marker waits for its entry. -/
theorem lru_after_add {max : Int} {s s' : List (Key × Value)}
    {c : List (Option Link × List Link)} {R : Link} {links : List Link}
    {victims : List (Option Link × List Link)} (P : Link → Prop)
    (hentry : ∀ e ∈ c, ∃ X, e.1 = some X ∧ e.2.Perm X.chain ∧ lookup s (.root X) ≠ none)
    (hnd : (c.map Prod.fst).Nodup)
    (hmark : ∀ X, lookup s (.root X) ≠ none → some X ∈ c.map Prod.fst ∨ P X)
    (hperm : links.Perm R.chain)
    (hv3 : ∀ e ∈ victims, e ∈ c ∧ e.1 ≠ some R)
    (hv4 : ∀ e, e ∈ addList max c R links ↔
      (e = (some R, links) ∨ (e ∈ c ∧ e.1 ≠ some R ∧ e ∉ victims)))
    (hroot : ∀ X, lookup s' (.root X) ≠ none ↔
      (X = R ∨ (lookup s (.root X) ≠ none ∧ some X ∉ victims.map Prod.fst))) :
    (∀ e ∈ addList max c R links,
      ∃ X, e.1 = some X ∧ e.2.Perm X.chain ∧ lookup s' (.root X) ≠ none) ∧
    (∀ X, lookup s' (.root X) ≠ none →
      some X ∈ (addList max c R links).map Prod.fst ∨ (P X ∧ X ≠ R)) := by
  constructor
  · intro e he
    rcases (hv4 e).1 he with h1 | ⟨h1, h2, h3⟩
    · subst h1
      exact ⟨R, rfl, hperm, (hroot R).2 (Or.inl rfl)⟩
    · obtain ⟨X, h4, h5, h6⟩ := hentry e h1
      refine ⟨X, h4, h5, (hroot X).2 (Or.inr ⟨h6, ?_⟩)⟩
      intro hm
      obtain ⟨e', he', hk'⟩ := List.mem_map.1 hm
      have hee : e' = e := by
        have hinj := List.inj_on_of_nodup_map hnd (hv3 e' he').1 h1
        exact hinj (by rw [hk', h4])
      subst hee
      exact h3 he'
  · intro X hX
    by_cases hXR : X = R
    · subst hXR
      exact Or.inl (List.mem_map.2 ⟨_, (hv4 _).2 (Or.inl rfl), rfl⟩)
    · rcases (hroot X).1 hX with h0 | ⟨h1, h2⟩
      · exact absurd h0 hXR
      · rcases hmark X h1 with h3 | h3
        · obtain ⟨e, he, hk⟩ := List.mem_map.1 h3
          refine Or.inl (List.mem_map.2 ⟨e, (hv4 e).2 (Or.inr ⟨he, ?_, ?_⟩), hk⟩)
          · rw [hk]
            simpa using hXR
          · intro hev
            exact h2 (List.mem_map.2 ⟨e, hev, hk⟩)
        · exact Or.inr ⟨h3, hXR⟩

theorem Chunk_total_of {ls : CachedEntriesChunker} (h : LInv ls)
    (hcs : 0 ≤ ls.chunkSize) (hmx : ls.chunkSize ≤ maxSliceCap) (mhi : List Digest) (R : Link)
    (hR : rootOf ls.chunkSize mhi [] none = some R) :
    Chunk ls mhi = ((some R, none), chunked ls mhi R) := by
  obtain ⟨⟨s, fl⟩, cs, ⟨max, c⟩, err⟩ := ls
  obtain ⟨hr, hn, hw, _, _, hl⟩ := h
  simp only at hr hn hw hl hcs hmx hR
  subst hr hn
  rw [Chunk_reliable hw cs hcs hmx, hR,
    publish_reliable (wfc_commitAll hw _) cs max c R _ hl.key_ne_none]
  rfl

theorem Chunk_ok_of {ls ls' : CachedEntriesChunker} (h : LInv ls) {mhi : List Digest}
    {R : Link} (hres : Chunk ls mhi = ((some R, none), ls')) :
    0 ≤ ls.chunkSize ∧ rootOf ls.chunkSize mhi [] none = some R ∧ ls' = chunked ls mhi R := by
  obtain ⟨hcs, hmx⟩ := Chunk_size_ok hres
  · cases hroot : rootOf ls.chunkSize mhi [] none with
    | none =>
      exfalso
      obtain ⟨⟨s, fl⟩, cs, ⟨max, c⟩, err⟩ := ls
      obtain ⟨hr, hn, hw, _, _, hl⟩ := h
      simp only at hr hn hw hl hcs hmx hroot
      subst hr hn
      rw [Chunk_reliable hw cs hcs hmx, hroot] at hres
      have := publish_none ⟨⟨commitAll s (allLinks cs mhi [] none), []⟩, cs, ⟨max, c⟩, none⟩
        (allLinks cs mhi [] none)
      rw [hres] at this
      simp at this
    | some R' =>
      have := Chunk_total_of h hcs hmx mhi R' hroot
      rw [this] at hres
      simp only [Prod.mk.injEq, Option.some.injEq, and_true] at hres
      obtain ⟨h1, h2⟩ := hres
      subst h1
      exact ⟨hcs, rfl, h2.symm⟩

theorem chunked_linv {ls : CachedEntriesChunker} (h : LInv ls)
    (hmax : 1 ≤ ls.cache.MaxEntries) (mhi : List Digest) (R : Link)
    (hR : rootOf ls.chunkSize mhi [] none = some R) : LInv (chunked ls mhi R) := by
  obtain ⟨⟨s, fl⟩, cs, ⟨max, c⟩, err⟩ := ls
  obtain ⟨hr, hn, hw, hk, hre, hl⟩ := h
  simp only at hr hn hw hk hre hl hmax hR
  subst hr hn
  have hperm := allLinks_perm hR
  obtain ⟨r1, k1⟩ := commitAll_frame (allLinks cs mhi [] none) s
  obtain ⟨victims, hv1, hv2, hv3, hv4, hv5⟩ :=
    addSpec max hmax (commitAll s (allLinks cs mhi [] none)) c R (allLinks cs mhi [] none)
      hl.nodup
  obtain ⟨r2, k2⟩ := evictEntries_frame victims (commitAll s (allLinks cs mhi [] none))
  rw [← hv1] at r2 k2
  have hroot : ∀ X, lookup (insert (addStore max (commitAll s (allLinks cs mhi [] none)) c R
      (allLinks cs mhi [] none)) (.root R) (.raw [])) (.root X) ≠ none ↔
      (X = R ∨ (lookup s (.root X) ≠ none ∧ some X ∉ victims.map Prod.fst)) := by
    intro X
    rw [lookup_insert]
    by_cases hXR : X = R
    · subst hXR
      simp
    · have hne : ¬ Key.root R = Key.root X := by
        simpa using fun e0 : R = X => hXR e0.symm
      rw [if_neg hne, r2 X, r1 X]
      by_cases hm : some X ∈ victims.map Prod.fst
      · simp [hm, hXR]
      · simp [hm, hXR]
  obtain ⟨e1, e2⟩ := lru_after_add (fun _ => False) hl.entry hl.nodup
    (fun X hX => Or.inl (hl.marker X hX)) hperm hv3 hv4 hroot
  refine ⟨rfl, rfl, ?_, nodup_keys_insert (k2 (k1 hk)) _ _, ?_, ⟨e1, hv5, ?_⟩⟩
  · exact wfc_insert_other (wfc_addStore (wfc_commitAll hw _) _ _ _ _) _ _ (by simp)
  · intro X v hv
    simp only [chunked] at hv
    rw [lookup_insert] at hv
    split at hv
    · simpa using hv.symm
    · rw [r2 X] at hv
      split at hv
      · simp at hv
      · rw [r1 X] at hv
        exact hre X v hv
  · intro X hX
    rcases e2 X hX with h1 | h1
    · exact h1
    · exact absurd h1.1 id

theorem Clear_linv {ls : CachedEntriesChunker} (h : LInv ls) (picks : List Nat) :
    ∃ ls', Clear ls picks = (none, ls') ∧ LInv ls' ∧ ls'.cache.ll = [] ∧
      ls'.cache.MaxEntries = ls.cache.MaxEntries ∧ ls'.chunkSize = ls.chunkSize ∧
      ls'.ds.data = evictEntries ls.ds.data (rangeOrder picks ls.cache.ll) := by
  obtain ⟨⟨s, fl⟩, cs, ⟨max, c⟩, err⟩ := ls
  obtain ⟨hr, hn, hw, hk, hre, hl⟩ := h
  simp only at hr hn hw hk hre hl
  subst hr hn
  have hp := hl.perm (rangeOrder_perm picks c)
  obtain ⟨r, k⟩ := evictEntries_frame (rangeOrder picks c) s
  refine ⟨_, Clear_reliable hw cs max c picks hl.key_ne_none, ?_, rfl, rfl, rfl, rfl⟩
  refine ⟨rfl, rfl, wfc_evictEntries hw _, k hk, ?_, ⟨by simp, by simp, ?_⟩⟩
  · intro X v hv
    simp only at hv
    rw [r X] at hv
    split at hv
    · simp at hv
    · exact hre X v hv
  · intro R hR
    simp only at hR
    rw [r R] at hR
    split at hR
    · exact absurd rfl hR
    · rename_i hx
      exact absurd (hp.marker R hR) hx

theorem LRest.add_entry {max : Int} (hmax : 1 ≤ max)
    {s : List (Key × Value)} {c : List (Option Link × List Link)} {R : Link} {rest : List Key}
    (h : LRest s c (.root R :: rest)) :
    LRest (addStore max s c R R.chain) (addList max c R R.chain) rest := by
  obtain ⟨hw, hk, hre, he, hnd, hp, hpn, hm⟩ := h
  obtain ⟨hRm, hRc⟩ := hp R (by simp)
  obtain ⟨hRrest, hrestnd⟩ := List.nodup_cons.1 hpn
  obtain ⟨victims, hv1, hv2, hv3, hv4, hv5⟩ := addSpec max hmax s c R R.chain hnd
  obtain ⟨r2, k2⟩ := evictEntries_frame victims s
  rw [← hv1] at r2 k2
  have hRv : some R ∉ victims.map Prod.fst := by
    intro hmem
    obtain ⟨e', he', hk'⟩ := List.mem_map.1 hmem
    exact (hv3 e' he').2 hk'
  have hroot : ∀ X, lookup (addStore max s c R R.chain) (.root X) ≠ none ↔
      (X = R ∨ (lookup s (.root X) ≠ none ∧ some X ∉ victims.map Prod.fst)) := by
    intro X
    rw [r2 X]
    by_cases hmv : some X ∈ victims.map Prod.fst
    · have hXR : X ≠ R := by
        intro e0
        subst e0
        exact hRv hmv
      simp [hmv, hXR]
    · simp only [if_neg hmv]
      constructor
      · intro h1
        exact Or.inr ⟨h1, hmv⟩
      · rintro (h1 | h1)
        · subst h1
          exact hRm
        · exact h1.1
  obtain ⟨e1, e2⟩ := lru_after_add (fun X => Key.root X ∈ Key.root R :: rest) he hnd hm
    (List.Perm.refl _) hv3 hv4 hroot
  refine ⟨wfc_addStore hw _ _ _ _, k2 hk, ?_, e1, hv5, ?_, hrestnd, ?_⟩
  · intro X v hv
    rw [r2 X] at hv
    split at hv
    · simp at hv
    · exact hre X v hv
  · intro X hX
    obtain ⟨hX2, hX3⟩ := hp X (by simp [hX])
    have hXR : X ≠ R := by
      intro e0
      subst e0
      exact hRrest hX
    have hXv : some X ∉ victims.map Prod.fst := by
      intro hmem
      obtain ⟨e', he', hk'⟩ := List.mem_map.1 hmem
      exact hX3 (List.mem_map.2 ⟨e', (hv3 e' he').1, hk'⟩)
    refine ⟨(hroot X).2 (Or.inr ⟨hX2, hXv⟩), ?_⟩
    intro hmem
    obtain ⟨e, he1, he2⟩ := List.mem_map.1 hmem
    rcases (hv4 e).1 he1 with h1 | ⟨h1, _, _⟩
    · subst h1
      simp only [Option.some.injEq] at he2
      exact hXR he2.symm
    · exact hX3 (List.mem_map.2 ⟨e, h1, he2⟩)
  · intro X hX
    rcases e2 X hX with h1 | ⟨h1, h2⟩
    · exact Or.inl h1
    · rcases List.mem_cons.1 h1 with h3 | h3
      · simp only [Key.root.injEq] at h3
        exact absurd h3 h2
      · exact Or.inr h3

theorem restoreRoots_linv (cs max : Int) (hmax : 1 ≤ max) :
    ∀ (pend : List Key) (count : Nat) (s : List (Key × Value))
      (c : List (Option Link × List Link)), LRest s c pend →
      ∀ (n : Nat) (ls' : CachedEntriesChunker),
        restoreRoots pend count ⟨⟨s, []⟩, cs, ⟨max, c⟩, none⟩ = (.ok n, ls') →
        LInv ls' ∧ ls'.cache.MaxEntries = max ∧ ls'.chunkSize = cs ∧
          n = count + pend.length := by
  intro pend
  induction pend with
  | nil =>
    intro count s c h n ls' hres
    simp only [restoreRoots, Prod.mk.injEq, Except.ok.injEq] at hres
    obtain ⟨h1, h2⟩ := hres
    subst h1 h2
    refine ⟨⟨rfl, rfl, h.wfc, h.keys, h.rootEmpty, ⟨h.entry, h.nodup, ?_⟩⟩, rfl, rfl, by simp⟩
    intro R hR
    rcases h.marker R hR with h1 | h1
    · exact h1
    · simp at h1
  | cons k rest ih =>
    intro count s c h n ls' hres
    cases k with
    | root R =>
      simp only [restoreRoots, linkFromDsCachePrefixedKey] at hres
      cases hl : listEntriesChainLinks ⟨s, []⟩ R with
      | mk r ds =>
        obtain ⟨links, err⟩ := r
        rw [hl] at hres
        cases err with
        | some e => simp at hres
        | none =>
          obtain ⟨h1, h2⟩ := listEntriesChainLinks_ok hl
          subst h1 h2
          have hkeys : ∀ e ∈ c, e.1 ≠ none := by
            intro e he
            obtain ⟨X, hX, _⟩ := h.entry e he
            simp [hX]
          simp only [performOnCache_add h.wfc cs max c R R.chain hkeys] at hres
          obtain ⟨i1, i2, i3, i4⟩ := ih (count + 1) _ _ (h.add_entry hmax) n ls' hres
          exact ⟨i1, i2, i3, by simp only [List.length_cons]; omega⟩
    | chunk L => simp [restoreRoots, linkFromDsCachePrefixedKey] at hres
    | overlap L => simp [restoreRoots, linkFromDsCachePrefixedKey] at hres
    | rootRaw name => simp [restoreRoots, linkFromDsCachePrefixedKey] at hres
    | other name => simp [restoreRoots, linkFromDsCachePrefixedKey] at hres

theorem lrest_start {s : List (Key × Value)} (hw : WFc s) (hk : (s.map Prod.fst).Nodup)
    (hre : ∀ R v, lookup s (.root R) = some v → v = .raw []) (picks : List Nat) :
    LRest s [] (rangeOrder picks ((s.map Prod.fst).filter underRoot)) := by
  have hmem : ∀ k, k ∈ rangeOrder picks ((s.map Prod.fst).filter underRoot) ↔
      (k ∈ s.map Prod.fst ∧ underRoot k = true) := by
    intro k
    rw [(rangeOrder_perm picks _).mem_iff, List.mem_filter]
  refine ⟨hw, hk, hre, by simp, by simp, ?_, ?_, ?_⟩
  · intro R hR
    obtain ⟨h1, _⟩ := (hmem _).1 hR
    refine ⟨?_, by simp⟩
    intro h0
    exact (lookup_eq_none_iff s _).1 h0 h1
  · exact (List.Perm.nodup_iff (rangeOrder_perm picks _)).2 (hk.filter _)
  · intro R hR
    right
    refine (hmem _).2 ⟨?_, rfl⟩
    by_contra h0
    exact hR ((lookup_eq_none_iff s _).2 h0)

theorem linv_empty (cs cap : Int) : LInv ⟨⟨[], []⟩, cs, ⟨cap, []⟩, none⟩ :=
  (inv_empty 0 (by norm_num) cs cap).toLInv

theorem New_linv {s : List (Key × Value)} (hw : WFc s) (hk : (s.map Prod.fst).Nodup)
    (hre : ∀ R v, lookup s (.root R) = some v → v = .raw [])
    (cs cap : Int) (hcap : 1 ≤ cap) (picks : List Nat) {ls' : CachedEntriesChunker}
    (hres : NewCachedEntriesChunker ⟨s, []⟩ cs cap picks = .ok ls') :
    LInv ls' ∧ ls'.cache.MaxEntries = cap ∧ ls'.chunkSize = cs := by
  unfold NewCachedEntriesChunker at hres
  cases hr : restoreCache ⟨⟨s, []⟩, cs, ⟨cap, []⟩, none⟩ picks with
  | mk err ls1 =>
    rw [hr] at hres
    cases err with
    | some e => simp at hres
    | none =>
      simp only [Except.ok.injEq] at hres
      subst hres
      simp only [restoreCache, query_reliable] at hr
      cases h1 : restoreRoots (rangeOrder picks ((s.map Prod.fst).filter underRoot)) 0
          ⟨⟨s, []⟩, cs, ⟨cap, []⟩, none⟩ with
      | mk r ls2 =>
        rw [h1] at hr
        cases r with
        | error e => simp at hr
        | ok n =>
          obtain ⟨i1, i2, i3, i4⟩ := restoreRoots_linv cs cap hcap _ 0 s []
            (lrest_start hw hk hre picks) n ls2 h1
          simp only at hr
          by_cases hn : n = 0
          · have hpend : rangeOrder picks ((s.map Prod.fst).filter underRoot) = [] := by
              apply List.eq_nil_of_length_eq_zero
              omega
            rw [hpend] at h1
            simp only [restoreRoots, Prod.mk.injEq, Except.ok.injEq] at h1
            obtain ⟨_, h3⟩ := h1
            subst h3
            simp only [hn, if_true, query_reliable, pruneAll_reliable, prune_all_keys,
              Prod.mk.injEq, true_and] at hr
            subst hr
            exact ⟨linv_empty cs cap, rfl, rfl⟩
          · simp only [hn, if_false, Prod.mk.injEq, true_and] at hr
            subst hr
            exact ⟨i1, i2, i3⟩

theorem step_linv {ls ls' : CachedEntriesChunker} (h : LInv ls)
    (hmax : 1 ≤ ls.cache.MaxEntries) (e : Event)
    (hv : e.valid = true) (hs : e.step ls = some ls') :
    LInv ls' ∧ 1 ≤ ls'.cache.MaxEntries := by
  cases e with
  | call c =>
    simp only [Event.step] at hs
    split at hs
    · rename_i hsucc
      simp only [Option.some.injEq] at hs
      subst hs
      cases c with
      | chunk mhi =>
        obtain ⟨R, hR⟩ := chunk_succeeds hsucc
        obtain ⟨_, h2, h3⟩ := Chunk_ok_of h hR
        simp only [Call.exec]
        rw [h3]
        exact ⟨chunked_linv h hmax mhi R h2, hmax⟩
      | clear picks =>
        obtain ⟨ls1, h1, h2, _, h4, _⟩ := Clear_linv h picks
        simp only [Call.exec, h1]
        exact ⟨h2, by rw [h4]; exact hmax⟩
      | getRaw l =>
        simp only [Call.exec, getRaw_reliable h.reliable]
        exact ⟨h, hmax⟩
      | close =>
        simp only [Call.exec, close_reliable h.reliable]
        exact ⟨h, hmax⟩
    · simp at hs
  | reopen cs cap picks =>
    simp only [Event.valid, decide_eq_true_eq] at hv
    simp only [Event.step] at hs
    cases hn : NewCachedEntriesChunker ls.ds cs cap picks with
    | error e => simp [hn] at hs
    | ok ls1 =>
      simp only [hn, Option.some.injEq] at hs
      subst hs
      obtain ⟨⟨s, fl⟩, cs0, c, err⟩ := ls
      have hr := h.reliable
      simp only at hr
      subst hr
      obtain ⟨i1, i2, _⟩ := New_linv h.wfc h.keys h.rootEmpty cs cap hv picks hn
      exact ⟨i1, by rw [i2]; exact hv⟩

theorem run_linv (es : List Event) :
    ∀ {ls ls' : CachedEntriesChunker}, LInv ls →
      1 ≤ ls.cache.MaxEntries → (∀ e ∈ es, e.valid = true) → run es ls = some ls' →
      LInv ls' ∧ 1 ≤ ls'.cache.MaxEntries := by
  induction es with
  | nil =>
    intro ls ls' h hmax _ hr
    simp only [run, Option.some.injEq] at hr
    subst hr
    exact ⟨h, hmax⟩
  | cons e es ih =>
    intro ls ls' h hmax hv hr
    simp only [run] at hr
    cases hs : e.step ls with
    | none => simp [hs] at hr
    | some ls1 =>
      simp only [hs] at hr
      obtain ⟨i1, i2⟩ := step_linv h hmax e (hv e (by simp)) hs
      exact ih i1 i2 (fun e' he' => hv e' (by simp [he'])) hr

theorem reached_linv {cs cap : Int} {picks : List Nat} {es : List Event}
    {ls : CachedEntriesChunker} (hcap : 1 ≤ cap) (hv : ∀ e ∈ es, e.valid = true)
    (h : Reached cs cap picks es ls) :
    LInv ls ∧ 1 ≤ ls.cache.MaxEntries := by
  obtain ⟨ls0, h0, hr⟩ := h
  obtain ⟨i1, i2, _⟩ := New_linv (linv_empty 0 0).wfc (by simp) (linv_empty 0 0).rootEmpty
    cs cap hcap picks h0
  exact run_linv es i1 (by rw [i2]; exact hcap) hv hr

/-! ## The size of the stored blocks -/

theorem small_insert {s : List (Key × Value)} (h : Small s) (k : Key) (v : Value)
    (hk : ∀ L, k = .chunk L → (L.entries.length : Int) ≤ maxSliceCap) :
    Small (insert s k v) := by
  intro L hL
  rw [lookup_insert] at hL
  by_cases e : k = .chunk L
  · exact hk L e
  · rw [if_neg e] at hL
    exact h L hL

theorem small_remove {s : List (Key × Value)} (h : Small s) (k : Key) : Small (remove s k) := by
  intro L hL
  rw [lookup_remove] at hL
  by_cases e : k = .chunk L
  · rw [if_pos e] at hL
    exact absurd rfl hL
  · rw [if_neg e] at hL
    exact h L hL

theorem small_commit1 {s : List (Key × Value)} (h : Small s) (L : Link)
    (hL : (L.entries.length : Int) ≤ maxSliceCap) : Small (commit1 s L) := by
  unfold commit1
  split
  · exact small_insert h _ _ (fun X e => by simp at e)
  · refine small_insert h _ _ (fun X e => ?_)
    simp only [Key.chunk.injEq] at e
    rw [← e]
    exact hL

theorem small_commitAll (links : List Link) :
    ∀ {s : List (Key × Value)}, Small s →
      (∀ L ∈ links, (L.entries.length : Int) ≤ maxSliceCap) → Small (commitAll s links) := by
  induction links with
  | nil => intro s h _; exact h
  | cons L links ih =>
    intro s h hl
    simp only [commitAll, List.foldl_cons]
    exact ih (small_commit1 h L (hl L (by simp))) (fun X hX => hl X (by simp [hX]))

theorem small_evict1 {s : List (Key × Value)} (h : Small s) (L : Link) : Small (evict1 s L) := by
  unfold evict1
  split
  · exact small_remove h _
  · split
    · exact small_remove h _
    · exact small_insert h _ _ (fun X e => by simp at e)

theorem small_evictAll (links : List Link) :
    ∀ {s : List (Key × Value)}, Small s → Small (evictAll s links) := by
  induction links with
  | nil => intro s h; exact h
  | cons L links ih =>
    intro s h
    simp only [evictAll, List.foldl_cons]
    exact ih (small_evict1 h L)

theorem small_evictEntries (es : List (Option Link × List Link)) :
    ∀ {s : List (Key × Value)}, Small s → Small (evictEntries s es) := by
  induction es with
  | nil => intro s h; exact h
  | cons e es ih =>
    intro s h
    obtain ⟨k, links⟩ := e
    cases k with
    | none => exact ih h
    | some R => exact ih (small_remove (small_evictAll links h) _)

theorem small_addStore {s : List (Key × Value)} (h : Small s) (max : Int)
    (c : List (Option Link × List Link)) (R : Link) (links : List Link) :
    Small (addStore max s c R links) := by
  unfold addStore
  split
  · exact h
  · split
    · exact small_evictEntries _ h
    · exact h

theorem allLinks_bound (cs : Int) (mhi : List Digest) :
    ∀ (mhs : List Digest) (next : Option Link), ((mhs.length : Int) < cs ∨ mhs = []) →
      ∀ L ∈ allLinks cs mhi mhs next, (L.entries.length : Int) ≤ max cs 1 := by
  induction mhi with
  | nil =>
    intro mhs next hm L hL
    simp only [allLinks] at hL
    split at hL
    · simp only [List.mem_singleton] at hL
      rw [hL, ofNode_entries]
      rcases hm with hm | hm
      · omega
      · simp [hm]
    · simp at hL
  | cons mh rest ih =>
    intro mhs next hm L hL
    simp only [allLinks] at hL
    split at hL
    · rename_i hc
      rcases List.mem_cons.1 hL with e | hL
      · rw [e, ofNode_entries]
        simp only [List.length_append, List.length_singleton, Nat.cast_add, Nat.cast_one]
        rcases hm with hm | hm
        · omega
        · simp [hm]
      · exact ih [] _ (Or.inr rfl) L hL
    · rename_i hc
      refine ih _ _ (Or.inl ?_) L hL
      omega

theorem small_chunked {ls : CachedEntriesChunker} (h : Small ls.ds.data)
    (hmx : ls.chunkSize ≤ maxSliceCap) (mhi : List Digest) (R : Link) :
    Small (chunked ls mhi R).ds.data := by
  simp only [chunked]
  refine small_insert (small_addStore (small_commitAll _ h ?_) _ _ _ _) _ _
    (fun X e => by simp at e)
  intro L hL
  have := allLinks_bound ls.chunkSize mhi [] none (Or.inr rfl) L hL
  have h1 : (1 : Int) ≤ maxSliceCap := by decide
  omega

theorem restoreRoots_small (cs max : Int) (hmax : 1 ≤ max) :
    ∀ (pend : List Key) (count : Nat) (s : List (Key × Value))
      (c : List (Option Link × List Link)), LRest s c pend → Small s →
      ∀ (n : Nat) (ls' : CachedEntriesChunker),
        restoreRoots pend count ⟨⟨s, []⟩, cs, ⟨max, c⟩, none⟩ = (.ok n, ls') →
        Small ls'.ds.data := by
  intro pend
  induction pend with
  | nil =>
    intro count s c _ hs n ls' hres
    simp only [restoreRoots, Prod.mk.injEq, Except.ok.injEq] at hres
    obtain ⟨_, h2⟩ := hres
    subst h2
    exact hs
  | cons k rest ih =>
    intro count s c h hs n ls' hres
    cases k with
    | root R =>
      simp only [restoreRoots, linkFromDsCachePrefixedKey] at hres
      cases hl : listEntriesChainLinks ⟨s, []⟩ R with
      | mk r ds =>
        obtain ⟨links, err⟩ := r
        rw [hl] at hres
        cases err with
        | some e => simp at hres
        | none =>
          obtain ⟨h1, h2⟩ := listEntriesChainLinks_ok hl
          subst h1 h2
          have hkeys : ∀ e ∈ c, e.1 ≠ none := by
            intro e he
            obtain ⟨X, hX, _⟩ := h.entry e he
            simp [hX]
          simp only [performOnCache_add h.wfc cs max c R R.chain hkeys] at hres
          exact ih (count + 1) _ _ (h.add_entry hmax) (small_addStore hs _ _ _ _) n ls' hres
    | chunk L => simp [restoreRoots, linkFromDsCachePrefixedKey] at hres
    | overlap L => simp [restoreRoots, linkFromDsCachePrefixedKey] at hres
    | rootRaw name => simp [restoreRoots, linkFromDsCachePrefixedKey] at hres
    | other name => simp [restoreRoots, linkFromDsCachePrefixedKey] at hres

theorem New_small {s : List (Key × Value)} (hw : WFc s) (hk : (s.map Prod.fst).Nodup)
    (hre : ∀ R v, lookup s (.root R) = some v → v = .raw []) (hs : Small s)
    (cs cap : Int) (hcap : 1 ≤ cap) (picks : List Nat) {ls' : CachedEntriesChunker}
    (hres : NewCachedEntriesChunker ⟨s, []⟩ cs cap picks = .ok ls') : Small ls'.ds.data := by
  unfold NewCachedEntriesChunker at hres
  cases hr : restoreCache ⟨⟨s, []⟩, cs, ⟨cap, []⟩, none⟩ picks with
  | mk err ls1 =>
    rw [hr] at hres
    cases err with
    | some e => simp at hres
    | none =>
      simp only [Except.ok.injEq] at hres
      subst hres
      simp only [restoreCache, query_reliable] at hr
      cases h1 : restoreRoots (rangeOrder picks ((s.map Prod.fst).filter underRoot)) 0
          ⟨⟨s, []⟩, cs, ⟨cap, []⟩, none⟩ with
      | mk r ls2 =>
        rw [h1] at hr
        cases r with
        | error e => simp at hr
        | ok n =>
          have i0 := restoreRoots_small cs cap hcap _ 0 s []
            (lrest_start hw hk hre picks) hs n ls2 h1
          obtain ⟨_, _, _, i4⟩ := restoreRoots_linv cs cap hcap _ 0 s []
            (lrest_start hw hk hre picks) n ls2 h1
          simp only at hr
          by_cases hn : n = 0
          · have hpend : rangeOrder picks ((s.map Prod.fst).filter underRoot) = [] := by
              apply List.eq_nil_of_length_eq_zero
              omega
            rw [hpend] at h1
            simp only [restoreRoots, Prod.mk.injEq, Except.ok.injEq] at h1
            obtain ⟨_, h3⟩ := h1
            subst h3
            simp only [hn, if_true, query_reliable, pruneAll_reliable, prune_all_keys,
              Prod.mk.injEq, true_and] at hr
            subst hr
            intro L hL
            simp [lookup] at hL
          · simp only [hn, if_false, Prod.mk.injEq, true_and] at hr
            subst hr
            exact i0

theorem step_small {ls ls' : CachedEntriesChunker} (h : LInv ls) (hs : Small ls.ds.data)
    (e : Event) (hv : e.valid = true) (hst : e.step ls = some ls') : Small ls'.ds.data := by
  cases e with
  | call c =>
    simp only [Event.step] at hst
    split at hst
    · rename_i hsucc
      simp only [Option.some.injEq] at hst
      subst hst
      cases c with
      | chunk mhi =>
        obtain ⟨R, hR⟩ := chunk_succeeds hsucc
        obtain ⟨_, _, h3⟩ := Chunk_ok_of h hR
        simp only [Call.exec]
        rw [h3]
        exact small_chunked hs (Chunk_size_ok hR).2 mhi R
      | clear picks =>
        obtain ⟨ls1, h1, _, _, _, _, h6⟩ := Clear_linv h picks
        simp only [Call.exec, h1]
        rw [h6]
        exact small_evictEntries _ hs
      | getRaw l =>
        simp only [Call.exec, getRaw_reliable h.reliable]
        exact hs
      | close =>
        simp only [Call.exec, close_reliable h.reliable]
        exact hs
    · simp at hst
  | reopen cs cap picks =>
    simp only [Event.valid, decide_eq_true_eq] at hv
    simp only [Event.step] at hst
    cases hn : NewCachedEntriesChunker ls.ds cs cap picks with
    | error e => simp [hn] at hst
    | ok ls1 =>
      simp only [hn, Option.some.injEq] at hst
      subst hst
      obtain ⟨⟨s, fl⟩, cs0, c, err⟩ := ls
      have hr := h.reliable
      simp only at hr
      subst hr
      exact New_small h.wfc h.keys h.rootEmpty hs cs cap hv picks hn

theorem run_small (es : List Event) :
    ∀ {ls ls' : CachedEntriesChunker}, LInv ls → Small ls.ds.data →
      1 ≤ ls.cache.MaxEntries → (∀ e ∈ es, e.valid = true) → run es ls = some ls' →
      Small ls'.ds.data := by
  induction es with
  | nil =>
    intro ls ls' _ hs _ _ hr
    simp only [run, Option.some.injEq] at hr
    subst hr
    exact hs
  | cons e es ih =>
    intro ls ls' h hs hmax hv hr
    simp only [run] at hr
    cases hst : e.step ls with
    | none => simp [hst] at hr
    | some ls1 =>
      simp only [hst] at hr
      obtain ⟨i1, i2⟩ := step_linv h hmax e (hv e (by simp)) hst
      exact ih i1 (step_small h hs e (hv e (by simp)) hst) i2
        (fun e' he' => hv e' (by simp [he'])) hr

theorem reached_small {cs cap : Int} {picks : List Nat} {es : List Event}
    {ls : CachedEntriesChunker} (hcap : 1 ≤ cap) (hv : ∀ e ∈ es, e.valid = true)
    (h : Reached cs cap picks es ls) : Small ls.ds.data := by
  obtain ⟨ls0, h0, hr⟩ := h
  have hs0 : Small ([] : List (Key × Value)) := by
    intro L hL
    simp [lookup] at hL
  obtain ⟨i1, i2, _⟩ := New_linv (linv_empty 0 0).wfc (by simp) (linv_empty 0 0).rootEmpty
    cs cap hcap picks h0
  have i0 := New_small (linv_empty 0 0).wfc (by simp) (linv_empty 0 0).rootEmpty hs0
    cs cap hcap picks h0
  exact run_small es i1 i0 (by rw [i2]; exact hcap) hv hr

/-! ## The claims: invariants -/

theorem chunk_present_of_avail {s : List (Key × Value)} {L : Link} (h : 0 < avail s L) :
    lookup s (.chunk L) ≠ none := by
  intro h0
  simp [avail, h0] at h

theorem Inv.chunk_present {K : Nat} {ls : CachedEntriesChunker} (h : Inv K ls)
    {e : Option Link × List Link} (he : e ∈ ls.cache.ll) {L : Link} (hL : L ∈ e.2) :
    lookup ls.ds.data (.chunk L) = some (.node L.entries L.next) := by
  obtain ⟨R, _, hperm, hm⟩ := h.lru.entry e he
  have h1 := owners_pos_of_marker ls.ds.data R L hm (hperm.mem_iff.1 hL)
  have h2 := h.slack L
  have h3 : lookup ls.ds.data (.chunk L) ≠ none := chunk_present_of_avail (by omega)
  obtain ⟨v, hv⟩ := Option.ne_none_iff_exists'.1 h3
  rw [hv, h.wf.chunk L v hv]

/-- C5. Atomic chains: in every state reached from a construction over the empty reliable
store by successful calls and restarts (every capacity at least 1, fewer than 2^64 events, the
range of the overlap counters), every link listed in an entry of the LRU index has its chunk
block in the store, so a block shared by several cached chains is not deleted while one of
them is cached. -/
theorem C5_atomic_chains (chunkSize capacity : Int) (picks : List Nat) (es : List Event)
    (ls : CachedEntriesChunker) (hcap : 1 ≤ capacity) (hv : ∀ e ∈ es, e.valid = true)
    (hlen : es.length < 2 ^ 64) (h : Reached chunkSize capacity picks es ls) :
    ∀ e ∈ ls.cache.ll, ∀ L ∈ e.2,
      lookup ls.ds.data (.chunk L) = some (.node L.entries L.next) := by
  intro e he L hL
  exact (reached_inv hcap hv hlen h).1.chunk_present he hL

theorem C5_atomic_chains_witness :
    ((1 : Int) ≤ 2 ∧ (∀ e ∈ exampleHistory, e.valid = true) ∧
      exampleHistory.length < 2 ^ 64 ∧ Reached 3 2 [] exampleHistory exampleCache) ∧
    ∀ e ∈ exampleCache.cache.ll, ∀ L ∈ e.2,
      lookup exampleCache.ds.data (.chunk L) = some (.node L.entries L.next) :=
  ⟨⟨by decide, by decide, by decide, ⟨newCache 3 2, rfl, rfl⟩⟩,
    C5_atomic_chains 3 2 [] exampleHistory exampleCache (by decide) (by decide) (by decide)
      ⟨newCache 3 2, rfl, rfl⟩⟩

/-- C10. Root marker presence: in every state reached from a construction over the empty
reliable store by successful calls and restarts (every capacity at least 1), the roots that
have a `/root/` key in the store are exactly the keys of the LRU index, no key of the index is
nil or occurs twice, and every root marker has an empty value. -/
theorem C10_root_markers (chunkSize capacity : Int) (picks : List Nat) (es : List Event)
    (ls : CachedEntriesChunker) (hcap : 1 ≤ capacity) (hv : ∀ e ∈ es, e.valid = true)
    (h : Reached chunkSize capacity picks es ls) :
    (∀ R, lookup ls.ds.data (.root R) ≠ none ↔ some R ∈ ls.cache.ll.map Prod.fst) ∧
    (∀ k ∈ ls.cache.ll.map Prod.fst, k ≠ none) ∧
    (ls.cache.ll.map Prod.fst).Nodup ∧
    (∀ R v, lookup ls.ds.data (.root R) = some v → v = .raw []) := by
  obtain ⟨hi, _⟩ := reached_linv hcap hv h
  refine ⟨fun R => ⟨hi.lru.marker R, ?_⟩, ?_, hi.lru.nodup, hi.rootEmpty⟩
  · intro hR
    obtain ⟨e, he, hk⟩ := List.mem_map.1 hR
    obtain ⟨X, hX, _, hm⟩ := hi.lru.entry e he
    rw [hk] at hX
    simp only [Option.some.injEq] at hX
    subst hX
    exact hm
  · intro k hk
    obtain ⟨e, he, hk'⟩ := List.mem_map.1 hk
    subst hk'
    exact hi.lru.key_ne_none e he

theorem C10_root_markers_witness :
    ((1 : Int) ≤ 2 ∧ (∀ e ∈ exampleHistory, e.valid = true) ∧
      Reached 3 2 [] exampleHistory exampleCache) ∧
    ((∀ R, lookup exampleCache.ds.data (.root R) ≠ none ↔
        some R ∈ exampleCache.cache.ll.map Prod.fst) ∧
      (∀ k ∈ exampleCache.cache.ll.map Prod.fst, k ≠ none) ∧
      (exampleCache.cache.ll.map Prod.fst).Nodup ∧
      (∀ R v, lookup exampleCache.ds.data (.root R) = some v → v = .raw [])) :=
  ⟨⟨by decide, by decide, ⟨newCache 3 2, rfl, rfl⟩⟩,
    C10_root_markers 3 2 [] exampleHistory exampleCache (by decide) (by decide)
      ⟨newCache 3 2, rfl, rfl⟩⟩

/-! ## The capacity bound, on any datastore -/

theorem onEvicted_cache (ls : CachedEntriesChunker) (k : Option Link) (v : List Link) :
    (onEvicted ls k v).2.cache = ls.cache := by
  unfold onEvicted
  cases k with
  | none => rfl
  | some R =>
    simp only
    split
    · rfl
    · rfl
    · split <;> rfl

theorem evictEach_cache (es : List (Option Link × List Link)) :
    ∀ ls : CachedEntriesChunker, (evictEach es ls).2.cache = ls.cache := by
  induction es with
  | nil => intro ls; rfl
  | cons e es ih =>
    intro ls
    obtain ⟨k, v⟩ := e
    simp only [evictEach]
    have h1 := onEvicted_cache ls k v
    cases h : onEvicted ls k v with
    | mk b ls1 =>
      rw [h] at h1
      cases b with
      | true => exact h1
      | false =>
        simp only
        rw [ih ls1]
        exact h1

theorem cacheAdd_capOK {cap : Int} (hcap : 1 ≤ cap) {ls : CachedEntriesChunker}
    (h : CapOK cap ls) (k : Option Link) (v : List Link) : CapOK cap (cacheAdd ls k v).2 := by
  obtain ⟨h1, h2⟩ := h
  unfold cacheAdd
  by_cases hit : ls.cache.ll.any (fun e => decide (e.1 = k)) = true
  · simp only [hit, if_true]
    refine ⟨h1, ?_⟩
    simp only [List.length_cons]
    obtain ⟨e, he, hk⟩ := List.any_eq_true.1 hit
    have hlt : (ls.cache.ll.filter (fun e => decide (e.1 ≠ k))).length < ls.cache.ll.length := by
      apply List.length_filter_lt_length_iff_exists.2
      exact ⟨e, he, by simpa using hk⟩
    omega
  · simp only [hit, Bool.false_eq_true, if_false]
    by_cases hov : ls.cache.MaxEntries ≠ 0 ∧
        (((k, v) :: ls.cache.ll).length : Int) > ls.cache.MaxEntries
    · simp only [if_pos hov, removeOldest]
      cases hl : ((k, v) :: ls.cache.ll).getLast? with
      | none => simp at hl
      | some e =>
        obtain ⟨k', v'⟩ := e
        simp only
        rw [CapOK, onEvicted_cache]
        refine ⟨h1, ?_⟩
        simp only [List.length_dropLast, List.length_cons, Nat.add_sub_cancel]
        exact h2
    · simp only [if_neg hov]
      refine ⟨h1, ?_⟩
      simp only [List.length_cons] at hov ⊢
      by_contra hgt
      apply hov
      constructor
      · omega
      · omega

theorem performOnCache_cache (ls : CachedEntriesChunker)
    (action : CachedEntriesChunker → Bool × CachedEntriesChunker) :
    (performOnCache ls action).2.cache = (action ls).2.cache := by
  unfold performOnCache
  cases h : action ls with
  | mk b ls1 => cases b <;> rfl

theorem publish_capOK {cap : Int} (hcap : 1 ≤ cap) {ls : CachedEntriesChunker}
    (h : CapOK cap ls) (next : Option Link) (links : List Link) :
    CapOK cap (publish ls next links).2 := by
  have h1 : CapOK cap (performOnCache ls (fun ls => cacheAdd ls next links)).2 := by
    have := cacheAdd_capOK hcap h next links
    unfold CapOK at this ⊢
    rw [performOnCache_cache]
    exact this
  unfold publish
  cases hp : performOnCache ls (fun ls => cacheAdd ls next links) with
  | mk err ls1 =>
    rw [hp] at h1
    cases err with
    | some e => exact h1
    | none =>
      cases next with
      | none => exact h1
      | some root =>
        simp only
        cases hput : ls1.ds.Put (.root root) (.raw []) with
        | mk e2 ds2 =>
          cases e2 with
          | some e => exact h1
          | none => exact h1

theorem Chunk_capOK {cap : Int} (hcap : 1 ≤ cap) {ls : CachedEntriesChunker}
    (h : CapOK cap ls) (mhi : List Digest) : CapOK cap (Chunk ls mhi).2 := by
  unfold Chunk
  by_cases hneg : ls.chunkSize < 0 ∨ maxSliceCap < ls.chunkSize
  · simp only [hneg, if_true]
    exact h
  · simp only [hneg, if_false]
    cases hl : chunkLoop ls.chunkSize mhi [] none [] ls.ds with
    | mk r ds1 =>
      cases r with
      | error e => exact h
      | ok t =>
        obtain ⟨mhs, next, links⟩ := t
        simp only
        by_cases hm : mhs.length ≠ 0
        · simp only [if_pos hm]
          cases hs : lsysStore ds1 mhs next with
          | mk r2 ds2 =>
            obtain ⟨l, e⟩ := r2
            cases e with
            | some e => exact h
            | none => exact publish_capOK hcap (show CapOK cap { ls with ds := ds2 } from h) _ _
        · simp only [if_neg hm]
          exact publish_capOK hcap (show CapOK cap { ls with ds := ds1 } from h) _ _

theorem Clear_capOK {cap : Int} (hcap : 1 ≤ cap) {ls : CachedEntriesChunker}
    (h : CapOK cap ls) (picks : List Nat) : CapOK cap (Clear ls picks).2 := by
  unfold Clear CapOK
  rw [performOnCache_cache]
  unfold cacheClear
  have h1 := evictEach_cache (rangeOrder picks ls.cache.ll) ls
  cases he : evictEach (rangeOrder picks ls.cache.ll) ls with
  | mk b ls1 =>
    rw [he] at h1
    cases b with
    | true =>
      simp only
      rw [h1]
      exact h
    | false =>
      simp only [List.length_nil]
      rw [h1]
      exact ⟨h.1, by simp only [Nat.cast_zero]; omega⟩

theorem exec_capOK {cap : Int} (hcap : 1 ≤ cap) {ls : CachedEntriesChunker}
    (h : CapOK cap ls) (c : Call) : CapOK cap (c.exec ls) := by
  cases c with
  | chunk mhi => exact Chunk_capOK hcap h mhi
  | clear picks => exact Clear_capOK hcap h picks
  | getRaw l =>
    simp only [Call.exec, GetRawCachedChunk]
    split <;> exact h
  | close => exact h

theorem execAll_capOK {cap : Int} (hcap : 1 ≤ cap) (calls : List Call) :
    ∀ {ls : CachedEntriesChunker}, CapOK cap ls → CapOK cap (execAll ls calls) := by
  induction calls with
  | nil => intro ls h; exact h
  | cons c calls ih => intro ls h; exact ih (exec_capOK hcap h c)

theorem restoreRoots_capOK {cap : Int} (hcap : 1 ≤ cap) (pend : List Key) :
    ∀ (count : Nat) {ls : CachedEntriesChunker}, CapOK cap ls →
      CapOK cap (restoreRoots pend count ls).2 := by
  induction pend with
  | nil => intro count ls h; exact h
  | cons k rest ih =>
    intro count ls h
    simp only [restoreRoots]
    cases hk : linkFromDsCachePrefixedKey k with
    | error e => exact h
    | ok l =>
      simp only
      cases hl : listEntriesChainLinks ls.ds l with
      | mk r ds1 =>
        obtain ⟨links, err⟩ := r
        cases err with
        | some e => exact h
        | none =>
          simp only
          have h1 : CapOK cap (performOnCache { ls with ds := ds1 }
              (fun ls => cacheAdd ls (some l) links)).2 := by
            have := cacheAdd_capOK hcap (show CapOK cap { ls with ds := ds1 } from h) (some l) links
            unfold CapOK at this ⊢
            rw [performOnCache_cache]
            exact this
          cases hp : performOnCache { ls with ds := ds1 }
              (fun ls => cacheAdd ls (some l) links) with
          | mk e2 ls2 =>
            rw [hp] at h1
            cases e2 with
            | some e => exact h1
            | none => exact ih _ h1

theorem restoreCache_capOK {cap : Int} (hcap : 1 ≤ cap) {ls : CachedEntriesChunker}
    (h : CapOK cap ls) (picks : List Nat) : CapOK cap (restoreCache ls picks).2 := by
  unfold restoreCache
  cases hq : ls.ds.Query underRoot picks with
  | mk r ds1 =>
    cases r with
    | error e => exact h
    | ok results =>
      simp only
      have h1 := restoreRoots_capOK hcap results 0 (show CapOK cap { ls with ds := ds1 } from h)
      cases hr : restoreRoots results 0 { ls with ds := ds1 } with
      | mk r2 ls2 =>
        rw [hr] at h1
        cases r2 with
        | error e => exact h1
        | ok count =>
          simp only
          split
          · cases hq2 : ls2.ds.Query (fun _ => true) picks with
            | mk r3 ds3 =>
              cases r3 with
              | error e => exact h1
              | ok allKeys => exact h1
          · exact h1

/-- C4. Capacity bound: for a cache constructed with capacity at least 1 over any datastore
(failing or not), `Len() ≤ Cap()` holds after the construction and after every sequence of
`Chunk`, `Clear`, `GetRawCachedChunk` and `Close` calls, whatever they return, and `Cap()` is
the capacity given at construction throughout. -/
theorem C4_capacity_bound (ds : Datastore) (chunkSize capacity : Int) (picks : List Nat)
    (ls : CachedEntriesChunker) (hcap : 1 ≤ capacity)
    (h : NewCachedEntriesChunker ds chunkSize capacity picks = .ok ls) :
    ((Len ls : Int) ≤ Cap ls ∧ Cap ls = capacity) ∧
    ∀ calls : List Call,
      (Len (execAll ls calls) : Int) ≤ Cap (execAll ls calls) ∧
        Cap (execAll ls calls) = capacity := by
  have h0 : CapOK capacity ls := by
    unfold NewCachedEntriesChunker at h
    have h1 := restoreCache_capOK hcap
      (show CapOK capacity ⟨ds, chunkSize, ⟨capacity, []⟩, none⟩ from
        ⟨rfl, by simp only [List.length_nil, Nat.cast_zero]; omega⟩) picks
    cases hr : restoreCache ⟨ds, chunkSize, ⟨capacity, []⟩, none⟩ picks with
    | mk err ls1 =>
      rw [hr] at h h1
      cases err with
      | some e => simp at h
      | none =>
        simp only [Except.ok.injEq] at h
        subst h
        exact h1
  have key : ∀ ls' : CachedEntriesChunker, CapOK capacity ls' →
      (Len ls' : Int) ≤ Cap ls' ∧ Cap ls' = capacity := by
    intro ls' h'
    unfold Len Cap
    exact ⟨by rw [h'.1]; exact h'.2, h'.1⟩
  exact ⟨key ls h0, fun calls => key _ (execAll_capOK hcap calls h0)⟩

theorem C4_capacity_bound_witness :
    ((1 : Int) ≤ 1 ∧
      NewCachedEntriesChunker ⟨[], [false, false, true]⟩ 2 1 [] =
        .ok ⟨⟨[], [true]⟩, 2, ⟨1, []⟩, none⟩) ∧
    (((Len ⟨⟨[], [true]⟩, 2, ⟨1, []⟩, none⟩ : Int) ≤ Cap ⟨⟨[], [true]⟩, 2, ⟨1, []⟩, none⟩ ∧
        Cap ⟨⟨[], [true]⟩, 2, ⟨1, []⟩, none⟩ = 1) ∧
      ∀ calls : List Call,
        (Len (execAll ⟨⟨[], [true]⟩, 2, ⟨1, []⟩, none⟩ calls) : Int) ≤
            Cap (execAll ⟨⟨[], [true]⟩, 2, ⟨1, []⟩, none⟩ calls) ∧
          Cap (execAll ⟨⟨[], [true]⟩, 2, ⟨1, []⟩, none⟩ calls) = 1) :=
  ⟨⟨by decide, rfl⟩,
    C4_capacity_bound ⟨[], [false, false, true]⟩ 2 1 [] ⟨⟨[], [true]⟩, 2, ⟨1, []⟩, none⟩
      (by decide) rfl⟩

/-! ## The root link is a function of the input -/

theorem chunkLoop_root (cs : Int) (mhi : List Digest) :
    ∀ (mhs : List Digest) (next : Option Link) (cl : List Link) (ds ds' : Datastore)
      (m : List Digest) (n : Option Link) (cl' : List Link),
      chunkLoop cs mhi mhs next cl ds = (.ok (m, n, cl'), ds') →
        rootOf cs mhi mhs next = (if m.length ≠ 0 then some (Link.ofNode m n) else n) ∧
        cl' ++ (if m.length ≠ 0 then [Link.ofNode m n] else []) =
          cl ++ allLinks cs mhi mhs next := by
  induction mhi with
  | nil =>
    intro mhs next cl ds ds' m n cl' h
    simp only [chunkLoop, Prod.mk.injEq, Except.ok.injEq] at h
    obtain ⟨⟨h1, h2, h3⟩, _⟩ := h
    subst h1 h2 h3
    exact ⟨by simp only [rootOf], by simp only [allLinks]⟩
  | cons mh rest ih =>
    intro mhs next cl ds ds' m n cl' h
    by_cases hc : (((mhs ++ [mh]).length : Nat) : Int) ≥ cs
    · simp only [chunkLoop, if_pos hc, lsysStore] at h
      cases hs : storageWriteCommit ds (Link.ofNode (mhs ++ [mh]) next)
          (.node (mhs ++ [mh]) next) with
      | mk e ds1 =>
        rw [hs] at h
        cases e with
        | some e => simp at h
        | none =>
          simp only at h
          obtain ⟨h1, h2⟩ := ih _ _ _ _ _ _ _ _ h
          refine ⟨by simp only [rootOf, if_pos hc]; exact h1, ?_⟩
          simp only [allLinks, if_pos hc]
          rw [h2]
          simp
    · simp only [chunkLoop, if_neg hc] at h
      obtain ⟨h1, h2⟩ := ih _ _ _ _ _ _ _ _ h
      exact ⟨by simp only [rootOf, if_neg hc]; exact h1,
        by simp only [allLinks, if_neg hc]; exact h2⟩

theorem publish_link {ls : CachedEntriesChunker} {next : Option Link} {links : List Link}
    {R : Link} (h : (publish ls next links).1.1 = some R) : next = some R := by
  unfold publish at h
  cases hp : performOnCache ls (fun ls => cacheAdd ls next links) with
  | mk err ls1 =>
    rw [hp] at h
    cases err with
    | some e => simp at h
    | none =>
      cases next with
      | none => simp at h
      | some root =>
        simp only at h
        cases hput : ls1.ds.Put (.root root) (.raw []) with
        | mk e2 ds2 =>
          rw [hput] at h
          cases e2 with
          | some e => simp at h
          | none =>
            simp only [Option.some.injEq] at h
            rw [h]

theorem Chunk_root {ls : CachedEntriesChunker} {mhi : List Digest} {R : Link}
    (h : (Chunk ls mhi).1.1 = some R) : rootOf ls.chunkSize mhi [] none = some R := by
  unfold Chunk at h
  by_cases hneg : ls.chunkSize < 0 ∨ maxSliceCap < ls.chunkSize
  · simp [hneg] at h
  · simp only [hneg, if_false] at h
    cases hl : chunkLoop ls.chunkSize mhi [] none [] ls.ds with
    | mk r ds1 =>
      rw [hl] at h
      cases r with
      | error e => simp at h
      | ok t =>
        obtain ⟨mhs, next, links⟩ := t
        obtain ⟨h1, _⟩ := chunkLoop_root _ _ _ _ _ _ _ _ _ _ hl
        simp only at h
        by_cases hm : mhs.length ≠ 0
        · rw [if_pos hm] at h h1
          simp only [lsysStore] at h
          cases hs : storageWriteCommit ds1 (Link.ofNode mhs next) (.node mhs next) with
          | mk e ds2 =>
            rw [hs] at h
            cases e with
            | some e => simp at h
            | none =>
              simp only at h
              rw [h1]
              exact publish_link h
        · rw [if_neg hm] at h h1
          rw [h1]
          exact publish_link h

/-- C2. `Chunk` is deterministic in its input: two successful `Chunk` calls on the same
sequence of multihashes with the same `chunkSize` return the same root link, whatever the
states of the caches and of their datastores. -/
theorem C2_chunk_deterministic (ls1 ls2 ls1' ls2' : CachedEntriesChunker) (mhi : List Digest)
    (R1 R2 : Link) (hcs : ls1.chunkSize = ls2.chunkSize)
    (h1 : Chunk ls1 mhi = ((some R1, none), ls1'))
    (h2 : Chunk ls2 mhi = ((some R2, none), ls2')) : R1 = R2 := by
  have e1 := Chunk_root (show (Chunk ls1 mhi).1.1 = some R1 by rw [h1])
  have e2 := Chunk_root (show (Chunk ls2 mhi).1.1 = some R2 by rw [h2])
  rw [hcs, e2] at e1
  exact (Option.some.inj e1).symm

theorem C2_chunk_deterministic_witness :
    ((newCache 2 4).chunkSize = exampleCache.chunkSize ∧
      Chunk (newCache 2 4) [[1], [2], [3]] =
        ((some (.cons [[3]] (.tail [[1], [2]])), none),
          (Chunk (newCache 2 4) [[1], [2], [3]]).2) ∧
      Chunk exampleCache [[1], [2], [3]] =
        ((some (.cons [[3]] (.tail [[1], [2]])), none),
          (Chunk exampleCache [[1], [2], [3]]).2)) ∧
    Link.cons [[3]] (.tail [[1], [2]]) = Link.cons [[3]] (.tail [[1], [2]]) :=
  ⟨⟨rfl, rfl, rfl⟩,
    C2_chunk_deterministic (newCache 2 4) exampleCache _ _ [[1], [2], [3]] _ _ rfl
      (rfl : Chunk (newCache 2 4) [[1], [2], [3]] =
        ((some (.cons [[3]] (.tail [[1], [2]])), none),
          (Chunk (newCache 2 4) [[1], [2], [3]]).2))
      (rfl : Chunk exampleCache [[1], [2], [3]] =
        ((some (.cons [[3]] (.tail [[1], [2]])), none),
          (Chunk exampleCache [[1], [2], [3]]).2))⟩

/-! ## The blocks of a chain -/

theorem allLinks_blocks (cs : Int) (mhi : List Digest) :
    ∀ (mhs : List Digest) (next : Option Link), (mhs.length : Int) < cs →
      ((allLinks cs mhi mhs next).map Link.entries).flatten = mhs ++ mhi ∧
      (∀ b ∈ (allLinks cs mhi mhs next).map Link.entries, b ≠ [] ∧ (b.length : Int) ≤ cs) ∧
      (∀ b ∈ ((allLinks cs mhi mhs next).map Link.entries).dropLast, (b.length : Int) = cs) := by
  induction mhi with
  | nil =>
    intro mhs next hlt
    by_cases hm : mhs.length ≠ 0
    · simp only [allLinks, if_pos hm, List.map_cons, List.map_nil, ofNode_entries,
        List.append_nil]
      refine ⟨by simp, ?_, by simp⟩
      intro b hb
      simp only [List.mem_singleton] at hb
      subst hb
      exact ⟨fun h0 => hm (by simp [h0]), by omega⟩
    · have : mhs = [] := List.length_eq_zero.1 (not_not.1 hm)
      subst this
      simp [allLinks]
  | cons mh rest ih =>
    intro mhs next hlt
    by_cases hc : (((mhs ++ [mh]).length : Nat) : Int) ≥ cs
    · have hlen : (((mhs ++ [mh]).length : Nat) : Int) = cs := by
        simp only [List.length_append, List.length_singleton] at hc ⊢
        push_cast at hc ⊢
        omega
      obtain ⟨h1, h2, h3⟩ := ih [] (some (Link.ofNode (mhs ++ [mh]) next))
        (by simp only [List.length_nil, Nat.cast_zero]; omega)
      simp only [allLinks, if_pos hc, List.map_cons, ofNode_entries]
      refine ⟨?_, ?_, ?_⟩
      · simp only [List.flatten_cons, h1]
        simp
      · intro b hb
        rcases List.mem_cons.1 hb with h4 | h4
        · subst h4
          exact ⟨by simp, by omega⟩
        · exact h2 b h4
      · intro b hb
        cases hB : (allLinks cs rest [] (some (Link.ofNode (mhs ++ [mh]) next))).map
            Link.entries with
        | nil =>
          rw [hB] at hb
          simp at hb
        | cons x t =>
          rw [hB] at hb h3
          simp only [List.dropLast_cons₂, List.mem_cons] at hb
          rcases hb with h4 | h4
          · subst h4
            exact hlen
          · exact h3 b h4
    · have hlt' : (((mhs ++ [mh]).length : Nat) : Int) < cs := by omega
      obtain ⟨h1, h2, h3⟩ := ih (mhs ++ [mh]) next hlt'
      simp only [allLinks, if_neg hc]
      exact ⟨by rw [h1]; simp, h2, h3⟩

theorem length_flatten_of_all {α : Type} (n : Nat) (l : List (List α))
    (h : ∀ b ∈ l, b.length = n) : l.flatten.length = n * l.length := by
  induction l with
  | nil => simp
  | cons b l ih =>
    simp only [List.flatten_cons, List.length_append, List.length_cons]
    rw [ih (fun b' hb' => h b' (by simp [hb'])), h b (by simp)]
    ring

/-- The arithmetic of blocks of `n` digests with a last block of 1 to `n` digests. -/
theorem blocks_count {α : Type} (n : Nat) (hn : 1 ≤ n) (B : List (List α)) (hB : B ≠ [])
    (h2 : ∀ b ∈ B, b ≠ [] ∧ b.length ≤ n) (h3 : ∀ b ∈ B.dropLast, b.length = n) :
    B.length = (B.flatten.length + n - 1) / n ∧
    (B.getLast hB).length = (if B.flatten.length % n = 0 then n else B.flatten.length % n) := by
  have hsplit : B.dropLast ++ [B.getLast hB] = B := List.dropLast_append_getLast hB
  have hlen : B.flatten.length = n * (B.length - 1) + (B.getLast hB).length := by
    conv_lhs => rw [← hsplit]
    simp only [List.flatten_append, List.length_append, List.flatten_cons, List.flatten_nil,
      List.append_nil]
    rw [length_flatten_of_all n _ h3, List.length_dropLast]
  obtain ⟨hne, hle⟩ := h2 (B.getLast hB) (List.getLast_mem hB)
  have hpos : 1 ≤ (B.getLast hB).length := List.length_pos.2 hne
  have hBpos : 1 ≤ B.length := List.length_pos.2 hB
  generalize (B.getLast hB).length = r at hlen hle hpos ⊢
  generalize B.flatten.length = N at hlen ⊢
  obtain ⟨k, hk⟩ : ∃ k, B.length = k + 1 := ⟨B.length - 1, by omega⟩
  rw [hk] at hlen ⊢
  simp only [Nat.add_sub_cancel] at hlen
  subst hlen
  constructor
  · have : n * k + r + n - 1 = (r - 1) + n * (k + 1) := by
      have : n * (k + 1) = n * k + n := by ring
      omega
    rw [this, Nat.add_mul_div_left _ _ (by omega : 0 < n), Nat.div_eq_of_lt (by omega)]
    omega
  · by_cases hr : r = n
    · subst hr
      have : (r * k + r) % r = 0 := by
        have : r * k + r = r * (k + 1) := by ring
        rw [this]
        exact Nat.mul_mod_right r (k + 1)
      simp only [this, if_true]
    · have hlt : r < n := by omega
      have : (n * k + r) % n = r := by
        rw [Nat.mul_add_mod, Nat.mod_eq_of_lt hlt]
      rw [this]
      have : r ≠ 0 := by omega
      simp only [this, if_false]

theorem chain_next (L : Link) :
    List.Chain' (fun a b => a.next = some b) L.chain ∧
    ∀ l, L.chain.getLast? = some l → l.next = none := by
  induction L with
  | tail es =>
    refine ⟨by simp [Link.chain], ?_⟩
    intro l hl
    simp only [Link.chain, List.getLast?_singleton, Option.some.injEq] at hl
    subst hl
    rfl
  | cons es n ih =>
    obtain ⟨h1, h2⟩ := ih
    constructor
    · simp only [Link.chain]
      cases hn : n.chain with
      | nil =>
        have := self_mem_chain n
        rw [hn] at this
        simp at this
      | cons x t =>
        rw [hn] at h1
        have hx : x = n := by
          cases n <;> simp [Link.chain] at hn <;> exact hn.1.symm
        subst hx
        exact List.Chain'.cons rfl h1
    · intro l hl
      simp only [Link.chain] at hl
      cases hn : n.chain with
      | nil =>
        have := self_mem_chain n
        rw [hn] at this
        simp at this
      | cons x t =>
        rw [hn] at hl h2
        rw [List.getLast?_cons_cons] at hl
        exact h2 l hl

/-! ## What `Chunk` records in the LRU index -/

theorem cacheAdd_head {ls : CachedEntriesChunker} (hmax : 1 ≤ ls.cache.MaxEntries)
    (k : Option Link) (v : List Link) : (cacheAdd ls k v).2.cache.ll.head? = some (k, v) := by
  unfold cacheAdd
  by_cases hit : ls.cache.ll.any (fun e => decide (e.1 = k)) = true
  · simp only [hit, if_true, List.head?_cons]
  · simp only [hit, Bool.false_eq_true, if_false]
    by_cases hov : ls.cache.MaxEntries ≠ 0 ∧
        (((k, v) :: ls.cache.ll).length : Int) > ls.cache.MaxEntries
    · simp only [if_pos hov, removeOldest]
      cases hl : ((k, v) :: ls.cache.ll).getLast? with
      | none => simp at hl
      | some e =>
        obtain ⟨k', v'⟩ := e
        simp only
        rw [onEvicted_cache]
        simp only
        cases hc : ls.cache.ll with
        | nil =>
          rw [hc] at hov
          simp only [List.length_singleton, Nat.cast_one] at hov
          omega
        | cons a t => rfl
    · simp only [if_neg hov, List.head?_cons]

theorem publish_head {ls : CachedEntriesChunker} (hmax : 1 ≤ ls.cache.MaxEntries)
    (next : Option Link) (links : List Link) {R : Link}
    (h : (publish ls next links).1 = (some R, none)) :
    (publish ls next links).2.cache.ll.head? = some (next, links) := by
  have h1 : (performOnCache ls (fun ls => cacheAdd ls next links)).2.cache.ll.head? =
      some (next, links) := by
    rw [performOnCache_cache]
    exact cacheAdd_head hmax next links
  unfold publish at h ⊢
  cases hp : performOnCache ls (fun ls => cacheAdd ls next links) with
  | mk err ls1 =>
    rw [hp] at h h1
    cases err with
    | some e => simp at h
    | none =>
      cases next with
      | none => simp at h
      | some root =>
        simp only at h ⊢
        cases hput : ls1.ds.Put (.root root) (.raw []) with
        | mk e2 ds2 =>
          rw [hput] at h
          cases e2 with
          | some e => simp at h
          | none => exact h1

theorem Chunk_head {ls ls' : CachedEntriesChunker} (hmax : 1 ≤ ls.cache.MaxEntries)
    {mhi : List Digest} {R : Link} (hres : Chunk ls mhi = ((some R, none), ls')) :
    ls'.cache.ll.head? = some (some R, allLinks ls.chunkSize mhi [] none) := by
  have hroot : rootOf ls.chunkSize mhi [] none = some R := Chunk_root (by rw [hres])
  have h2 : ls' = (Chunk ls mhi).2 := by rw [hres]
  have h1 : (Chunk ls mhi).1 = (some R, none) := by rw [hres]
  rw [h2]
  unfold Chunk at h1 ⊢
  by_cases hneg : ls.chunkSize < 0 ∨ maxSliceCap < ls.chunkSize
  · simp [hneg] at h1
  · simp only [hneg, if_false] at h1 ⊢
    cases hl : chunkLoop ls.chunkSize mhi [] none [] ls.ds with
    | mk r ds1 =>
      rw [hl] at h1
      cases r with
      | error e => simp at h1
      | ok t =>
        obtain ⟨mhs, next, links⟩ := t
        obtain ⟨e1, e2⟩ := chunkLoop_root _ _ _ _ _ _ _ _ _ _ hl
        simp only [List.nil_append] at e2
        simp only at h1 ⊢
        by_cases hm : mhs.length ≠ 0
        · rw [if_pos hm] at h1 e1 e2 ⊢
          simp only [lsysStore] at h1 ⊢
          cases hs : storageWriteCommit ds1 (Link.ofNode mhs next) (.node mhs next) with
          | mk e ds2 =>
            rw [hs] at h1
            cases e with
            | some e => simp at h1
            | none =>
              simp only at h1 ⊢
              rw [publish_head (show 1 ≤ ({ ls with ds := ds2 } : CachedEntriesChunker).cache.MaxEntries from hmax) _ _ h1, e2]
              rw [e1] at hroot
              rw [hroot]
        · rw [if_neg hm] at h1 e1 e2 ⊢
          rw [publish_head (show 1 ≤ ({ ls with ds := ds1 } : CachedEntriesChunker).cache.MaxEntries from hmax) _ _ h1]
          simp only [List.append_nil] at e2
          rw [e2, ← e1, hroot]

/-- C3. Block structure: for a chunker with `chunkSize = n ≥ 1` and an LRU bound of at least 1,
a successful `Chunk` of the multihashes `mhi` emits the links recorded in the first entry of
the LRU index, in the order of emission: there are `⌈|mhi| / n⌉` of them, every block holds
between 1 and `n` multihashes, every block but the last emitted (the root) holds exactly `n`,
the root holds the remainder (`|mhi| mod n`, or `n` when that is 0), the first emitted block has
no `next`, every other block has the link of the block emitted just before it as `next`, and
the blocks in the order of emission hold the input. -/
theorem C3_block_structure (ls ls' : CachedEntriesChunker) (mhi : List Digest) (R : Link)
    (n : Nat) (hn : 1 ≤ n) (hcs : ls.chunkSize = n) (hmax : 1 ≤ ls.cache.MaxEntries)
    (hres : Chunk ls mhi = ((some R, none), ls')) :
    ∃ links, ls'.cache.ll.head? = some (some R, links) ∧
      links.length = (mhi.length + n - 1) / n ∧
      (∀ L ∈ links, 1 ≤ L.entries.length ∧ L.entries.length ≤ n) ∧
      (∀ L ∈ links.dropLast, L.entries.length = n) ∧
      links.getLast? = some R ∧
      R.entries.length = (if mhi.length % n = 0 then n else mhi.length % n) ∧
      (∀ l, links.head? = some l → l.next = none) ∧
      List.Chain' (fun a b => b.next = some a) links ∧
      (links.map Link.entries).flatten = mhi := by
  have hroot : rootOf ls.chunkSize mhi [] none = some R := Chunk_root (by rw [hres])
  have hlinks := allLinks_eq_chain hroot
  have hhead := Chunk_head hmax hres
  obtain ⟨b1, b2, b3⟩ := allLinks_blocks ls.chunkSize mhi [] none
    (by rw [hcs]; simp only [List.length_nil, Nat.cast_zero]; omega)
  simp only [List.nil_append] at b1
  generalize allLinks ls.chunkSize mhi [] none = links at hlinks hhead b1 b2 b3
  have hne : links ≠ [] := by
    rw [hlinks]
    intro h0
    have := self_mem_chain R
    rw [List.reverse_eq_nil_iff.1 h0] at this
    simp at this
  have hlast : links.getLast? = some R := by
    rw [hlinks, List.getLast?_reverse]
    cases R <;> rfl
  have hB : links.map Link.entries ≠ [] := by simpa using hne
  have c2 : ∀ b ∈ links.map Link.entries, b ≠ [] ∧ b.length ≤ n := by
    intro b hb
    obtain ⟨x1, x2⟩ := b2 b hb
    rw [hcs] at x2
    exact ⟨x1, by exact_mod_cast x2⟩
  have c3 : ∀ b ∈ (links.map Link.entries).dropLast, b.length = n := by
    intro b hb
    have := b3 b hb
    rw [hcs] at this
    exact_mod_cast this
  obtain ⟨k1, k2⟩ := blocks_count n hn (links.map Link.entries) hB c2 c3
  rw [b1] at k1 k2
  obtain ⟨q1, q2⟩ := chain_next R
  refine ⟨links, hhead, by simpa using k1, ?_, ?_, hlast, ?_, ?_, ?_, b1⟩
  · intro L hL
    obtain ⟨x1, x2⟩ := c2 L.entries (List.mem_map_of_mem _ hL)
    exact ⟨List.length_pos.2 x1, x2⟩
  · intro L hL
    apply c3
    rw [← List.map_dropLast]
    exact List.mem_map_of_mem _ hL
  · rw [← k2]
    have : (links.map Link.entries).getLast? = some R.entries := by
      rw [List.getLast?_map, hlast]
      rfl
    rw [List.getLast?_eq_getLast _ hB] at this
    exact (congrArg List.length (Option.some.inj this)).symm
  · intro l hl
    apply q2
    rw [hlinks, List.head?_reverse] at hl
    exact hl
  · rw [hlinks, List.chain'_reverse]
    exact q1

theorem C3_block_structure_witness :
    (1 ≤ 2 ∧ (newCache 2 4).chunkSize = (2 : Nat) ∧ 1 ≤ (newCache 2 4).cache.MaxEntries ∧
      Chunk (newCache 2 4) fiveDigests =
        ((some fiveRoot, none), (Chunk (newCache 2 4) fiveDigests).2)) ∧
    ∃ links, (Chunk (newCache 2 4) fiveDigests).2.cache.ll.head? = some (some fiveRoot, links) ∧
      links.length = (fiveDigests.length + 2 - 1) / 2 ∧
      (∀ L ∈ links, 1 ≤ L.entries.length ∧ L.entries.length ≤ 2) ∧
      (∀ L ∈ links.dropLast, L.entries.length = 2) ∧
      links.getLast? = some fiveRoot ∧
      fiveRoot.entries.length =
        (if fiveDigests.length % 2 = 0 then 2 else fiveDigests.length % 2) ∧
      (∀ l, links.head? = some l → l.next = none) ∧
      List.Chain' (fun a b => b.next = some a) links ∧
      (links.map Link.entries).flatten = fiveDigests :=
  ⟨⟨by decide, rfl, by decide, rfl⟩,
    C3_block_structure (newCache 2 4) _ fiveDigests fiveRoot 2 (by decide) rfl (by decide)
      (rfl : Chunk (newCache 2 4) fiveDigests =
        ((some fiveRoot, none), (Chunk (newCache 2 4) fiveDigests).2))⟩

/-! ## Traversal of a chain -/

theorem depth_pos (L : Link) : 1 ≤ L.depth := by
  cases L <;> simp [Link.depth]

theorem traverseLoop_present (s : List (Key × Value)) :
    ∀ (fuel : Nat) (L : Link) (out : List Digest), L.depth ≤ fuel →
      (∀ X ∈ L.chain, lookup s (.chunk X) = some (.node X.entries X.next)) →
      traverseLoop fuel ⟨s, []⟩ L out =
        (.ok (out ++ (L.chain.map Link.entries).flatten), ⟨s, []⟩) := by
  intro fuel
  induction fuel with
  | zero =>
    intro L out hd _
    have := depth_pos L
    omega
  | succ fuel ih =>
    intro L out hd hp
    simp only [traverseLoop, lsysLoad_present (hp L (self_mem_chain L))]
    cases L with
    | tail es => simp [Link.next, Link.chain, Link.entries]
    | cons es n =>
      simp only [Link.next, Link.entries]
      rw [ih n _ (by simp only [Link.depth] at hd; omega)
        (fun X hX => hp X (by simp [Link.chain, hX]))]
      simp [Link.chain, Link.entries]

theorem flatten_reverse_of_short {α : Type} (n : Nat) (B : List (List α))
    (h2 : ∀ b ∈ B, b ≠ [] ∧ b.length ≤ n) (h3 : ∀ b ∈ B.dropLast, b.length = n)
    (hshort : B.flatten.length ≤ n) : B.reverse.flatten = B.flatten := by
  cases B with
  | nil => rfl
  | cons b1 t =>
    cases t with
    | nil => simp
    | cons b2 t =>
      exfalso
      have e1 : b1.length = n := h3 b1 (by simp)
      have e2 : 1 ≤ b2.length := List.length_pos.2 (h2 b2 (by simp)).1
      simp only [List.flatten_cons, List.length_append] at hshort
      omega

/-- C1, as amended. In every state reached from a construction over the empty reliable store
by successful calls and restarts (every capacity at least 1, fewer than 2^64 events with the
call itself), after `Chunk` with `chunkSize = n ≥ 1` succeeds on the multihashes `mhi` and
returns the root `R`, the traversal of the chain from `R` through the store succeeds and yields
the input block by block with the blocks in reverse order: the input is cut into blocks of `n`
multihashes (the last one of 1 to `n`), and the traversal yields the last block first. It yields
the input in the order supplied when the input has at most `n` multihashes. -/
theorem C1_traversal_reversed (chunkSize capacity : Int) (picks : List Nat) (es : List Event)
    (ls ls' : CachedEntriesChunker) (mhi : List Digest) (R : Link) (n : Nat)
    (hcap : 1 ≤ capacity) (hv : ∀ e ∈ es, e.valid = true) (hlen : es.length + 1 < 2 ^ 64)
    (h : Reached chunkSize capacity picks es ls) (hn : 1 ≤ n) (hcs : ls.chunkSize = n)
    (hres : Chunk ls mhi = ((some R, none), ls')) :
    ∃ blocks : List (List Digest), blocks.flatten = mhi ∧
      (∀ b ∈ blocks, b ≠ [] ∧ b.length ≤ n) ∧ (∀ b ∈ blocks.dropLast, b.length = n) ∧
      traverse ls'.ds R = (.ok blocks.reverse.flatten, ls'.ds) ∧
      (mhi.length ≤ n → traverse ls'.ds R = (.ok mhi, ls'.ds)) := by
  obtain ⟨hi, hmax⟩ := reached_inv hcap hv (by omega) h
  have hi' := Chunk_inv hi hlen hmax hres
  have hroot : rootOf ls.chunkSize mhi [] none = some R := Chunk_root (by rw [hres])
  have hlinks := allLinks_eq_chain hroot
  have hhead := Chunk_head hmax hres
  obtain ⟨b1, b2, b3⟩ := allLinks_blocks ls.chunkSize mhi [] none
    (by rw [hcs]; simp only [List.length_nil, Nat.cast_zero]; omega)
  simp only [List.nil_append] at b1
  have c2 : ∀ b ∈ (allLinks ls.chunkSize mhi [] none).map Link.entries,
      b ≠ [] ∧ b.length ≤ n := by
    intro b hb
    obtain ⟨x1, x2⟩ := b2 b hb
    rw [hcs] at x2
    exact ⟨x1, by exact_mod_cast x2⟩
  have c3 : ∀ b ∈ ((allLinks ls.chunkSize mhi [] none).map Link.entries).dropLast,
      b.length = n := by
    intro b hb
    have := b3 b hb
    rw [hcs] at this
    exact_mod_cast this
  have hmem : (some R, allLinks ls.chunkSize mhi [] none) ∈ ls'.cache.ll :=
    List.mem_of_mem_head? hhead
  have hpres : ∀ X ∈ R.chain,
      lookup ls'.ds.data (.chunk X) = some (.node X.entries X.next) := by
    intro X hX
    apply hi'.chunk_present hmem
    simp only
    rw [hlinks]
    exact List.mem_reverse.2 hX
  have hds : ls'.ds = ⟨ls'.ds.data, []⟩ := by
    have := hi'.reliable
    cases hd : ls'.ds with
    | mk d f =>
      rw [hd] at this
      simp only at this
      rw [this]
  have htr : traverse ls'.ds R =
      (.ok ((allLinks ls.chunkSize mhi [] none).map Link.entries).reverse.flatten,
        ls'.ds) := by
    rw [hds]
    unfold traverse
    rw [traverseLoop_present _ _ _ _ (le_refl _) hpres, hlinks]
    simp
  refine ⟨_, b1, c2, c3, htr, ?_⟩
  intro hshort
  rw [htr, flatten_reverse_of_short n _ c2 c3 (by rw [b1]; exact hshort), b1]

theorem C1_traversal_reversed_witness :
    ((1 : Int) ≤ 2 ∧ (∀ e ∈ exampleHistory, e.valid = true) ∧
      exampleHistory.length + 1 < 2 ^ 64 ∧ Reached 3 2 [] exampleHistory exampleCache ∧
      1 ≤ 2 ∧ exampleCache.chunkSize = (2 : Nat) ∧
      Chunk exampleCache fiveDigests =
        ((some fiveRoot, none), (Chunk exampleCache fiveDigests).2)) ∧
    ∃ blocks : List (List Digest), blocks.flatten = fiveDigests ∧
      (∀ b ∈ blocks, b ≠ [] ∧ b.length ≤ 2) ∧ (∀ b ∈ blocks.dropLast, b.length = 2) ∧
      traverse (Chunk exampleCache fiveDigests).2.ds fiveRoot =
        (.ok blocks.reverse.flatten, (Chunk exampleCache fiveDigests).2.ds) ∧
      (fiveDigests.length ≤ 2 →
        traverse (Chunk exampleCache fiveDigests).2.ds fiveRoot =
          (.ok fiveDigests, (Chunk exampleCache fiveDigests).2.ds)) :=
  ⟨⟨by decide, by decide, by decide, ⟨newCache 3 2, rfl, rfl⟩, by decide, rfl, rfl⟩,
    C1_traversal_reversed 3 2 [] exampleHistory exampleCache _ fiveDigests fiveRoot 2
      (by decide) (by decide) (by decide) ⟨newCache 3 2, rfl, rfl⟩ (by decide) rfl
      (rfl : Chunk exampleCache fiveDigests =
        ((some fiveRoot, none), (Chunk exampleCache fiveDigests).2))⟩

/-- C1, the claim as stated fails: with `chunkSize = 2` the chain of five multihashes is
traversed from its root as `d5, d3, d4, d1, d2`, not in the order supplied. -/
theorem C1_counterexample :
    NewCachedEntriesChunker ⟨[], []⟩ 2 4 [] = .ok (newCache 2 4) ∧
    Chunk (newCache 2 4) fiveDigests =
      ((some fiveRoot, none), (Chunk (newCache 2 4) fiveDigests).2) ∧
    (traverse (Chunk (newCache 2 4) fiveDigests).2.ds fiveRoot).1 =
      .ok [[5], [3], [4], [1], [2]] ∧
    (traverse (Chunk (newCache 2 4) fiveDigests).2.ds fiveRoot).1 ≠ .ok fiveDigests :=
  ⟨rfl, rfl, rfl, by
    intro h
    have h2 : (traverse (Chunk (newCache 2 4) fiveDigests).2.ds fiveRoot).1 =
        .ok [[5], [3], [4], [1], [2]] := rfl
    rw [h2] at h
    exact absurd (Except.ok.inj h) (by decide)⟩

/-! ## Eviction cleanup -/

theorem rangeOrder_nil {α : Type} (picks : List Nat) : rangeOrder picks ([] : List α) = [] :=
  List.Perm.eq_nil (rangeOrder_perm picks [])

theorem New_empty (cs cap : Int) (picks : List Nat) :
    NewCachedEntriesChunker ⟨[], []⟩ cs cap picks = .ok (newCache cs cap) := by
  simp [NewCachedEntriesChunker, restoreCache, query_reliable, rangeOrder_nil, restoreRoots,
    pruneAll, newCache]

theorem chunk_absent_of_avail {s : List (Key × Value)} {L : Link} (h : avail s L = 0) :
    lookup s (.chunk L) = none := by
  cases hl : lookup s (.chunk L) with
  | none => rfl
  | some v => simp [avail, hl] at h

/-- C8. Eviction cleanup: for a cache of capacity 1 constructed over the empty reliable store
and two inputs `A` and `B` whose chains have no block in common, after `Chunk(A)` and then
`Chunk(B)` both succeed, no chunk key of the chain of `A` and no `/root/` key for the root of `A`
is left in the store, every chunk of the chain of `B` and the `/root/` key of `B` are in the
store, and `Len() = 1`. -/
theorem C8_eviction_cleanup (chunkSize : Int) (picks : List Nat) (A B : List Digest)
    (ls0 ls1 ls2 : CachedEntriesChunker) (RA RB : Link)
    (h0 : NewCachedEntriesChunker ⟨[], []⟩ chunkSize 1 picks = .ok ls0)
    (hA : Chunk ls0 A = ((some RA, none), ls1)) (hB : Chunk ls1 B = ((some RB, none), ls2))
    (hdisj : ∀ L ∈ RA.chain, L ∉ RB.chain) :
    (∀ L ∈ RA.chain, lookup ls2.ds.data (.chunk L) = none) ∧
    lookup ls2.ds.data (.root RA) = none ∧
    (∀ L ∈ RB.chain, lookup ls2.ds.data (.chunk L) = some (.node L.entries L.next)) ∧
    lookup ls2.ds.data (.root RB) = some (.raw []) ∧
    Len ls2 = 1 := by
  rw [New_empty] at h0
  simp only [Except.ok.injEq] at h0
  subst h0
  have i0 : Inv 0 (newCache chunkSize 1) := inv_empty 0 (by norm_num) chunkSize 1
  obtain ⟨_, rA, e1⟩ := Chunk_ok i0 hA
  have i1 : Inv 1 ls1 := Chunk_inv i0 (by norm_num) (by simp [newCache]) hA
  obtain ⟨_, rB, e2⟩ := Chunk_ok i1 hB
  have hmax1 : ls1.cache.MaxEntries = 1 := by rw [e1]; rfl
  have i2 : Inv 2 ls2 := Chunk_inv i1 (by norm_num) (by rw [hmax1]) hB
  have hcs1 : ls1.chunkSize = chunkSize := by rw [e1]; rfl
  simp only [newCache] at rA
  rw [hcs1] at rB
  have pA := allLinks_perm rA
  have pB := allLinks_perm rB
  have hne : RB ≠ RA := by
    intro e0
    subst e0
    exact hdisj RB (self_mem_chain RB) (self_mem_chain RB)
  -- the LRU index and the store after the first call
  have hll1 : ls1.cache.ll = [(some RA, allLinks chunkSize A [] none)] := by
    rw [e1]
    simp [chunked, newCache, addList]
  have hd1 : ls1.ds.data =
      insert (commitAll [] (allLinks chunkSize A [] none)) (.root RA) (.raw []) := by
    rw [e1]
    simp [chunked, newCache, addStore]
  -- the LRU index and the store after the second call
  have hll2 : ls2.cache.ll = [(some RB, allLinks chunkSize B [] none)] := by
    rw [e2]
    simp only [chunked, hll1, hmax1, hcs1, addList]
    have : ¬ some RA = some RB := by simpa using fun e0 : RA = RB => hne e0.symm
    simp [this]
  have hd2 : ls2.ds.data =
      insert (evictChain (commitAll ls1.ds.data (allLinks chunkSize B [] none)) RA
        (allLinks chunkSize A [] none)) (.root RB) (.raw []) := by
    rw [e2]
    simp only [chunked, hll1, hmax1, hcs1, addStore]
    have : ¬ some RA = some RB := by simpa using fun e0 : RA = RB => hne e0.symm
    simp [this, evictEntries]
  -- the counts along the way
  obtain ⟨wA, aA, _, _⟩ := commitAll_spec (K := 1) (by norm_num) (le_refl _)
    (allLinks chunkSize A [] none) (s := []) (i0.wf.mono_bound (by norm_num))
    ((List.Perm.nodup_iff pA).2 (chain_nodup RA)) (fun L _ => by simp [cnt, lookup])
  obtain ⟨wB, aB, _, rB1⟩ := commitAll_spec (K := 2) (by norm_num) (by norm_num)
    (allLinks chunkSize B [] none) (s := ls1.ds.data) (i1.wf.mono_bound (by norm_num))
    ((List.Perm.nodup_iff pB).2 (chain_nodup RB))
    (fun L _ => by have := i1.wf.cnt_le i1.bound L; omega)
  obtain ⟨_, aE, _, _, rE⟩ := evictChain_spec (K := 2) (by norm_num) wB RA
    (allLinks chunkSize A [] none) ((List.Perm.nodup_iff pA).2 (chain_nodup RA))
  refine ⟨?_, ?_, ?_, ?_, ?_⟩
  · intro L hL
    apply chunk_absent_of_avail
    have h1 : avail ls2.ds.data L = avail (evictChain
        (commitAll ls1.ds.data (allLinks chunkSize B [] none)) RA
        (allLinks chunkSize A [] none)) L := by
      rw [hd2]
      exact avail_congr (by simp [lookup_insert]) (by simp [lookup_insert])
    have h2 : avail ls1.ds.data L = avail (commitAll [] (allLinks chunkSize A [] none)) L := by
      rw [hd1]
      exact avail_congr (by simp [lookup_insert]) (by simp [lookup_insert])
    have mA : L ∈ allLinks chunkSize A [] none := pA.mem_iff.2 hL
    have mB : L ∉ allLinks chunkSize B [] none := fun hm => hdisj L hL (pB.mem_iff.1 hm)
    have h3 := aE L
    have h4 := aB L
    have h5 := aA L
    simp only [mA, if_true] at h3 h5
    simp only [mB, if_false] at h4
    have h6 : avail ([] : List (Key × Value)) L = 0 := by simp [avail, lookup]
    omega
  · rw [hd2, lookup_insert]
    have : ¬ Key.root RB = Key.root RA := by simpa using hne
    rw [if_neg this, rE RA]
    simp
  · intro L hL
    apply i2.chunk_present (e := (some RB, allLinks chunkSize B [] none))
    · rw [hll2]
      simp
    · exact pB.mem_iff.2 hL
  · rw [hd2, lookup_insert]
    simp
  · simp [Len, hll2]

theorem C8_eviction_cleanup_witness :
    (NewCachedEntriesChunker ⟨[], []⟩ 2 1 [] = .ok (newCache 2 1) ∧
      Chunk (newCache 2 1) fiveDigests =
        ((some fiveRoot, none), (Chunk (newCache 2 1) fiveDigests).2) ∧
      Chunk (Chunk (newCache 2 1) fiveDigests).2 [[6], [7]] =
        ((some (.tail [[6], [7]]), none),
          (Chunk (Chunk (newCache 2 1) fiveDigests).2 [[6], [7]]).2) ∧
      (∀ L ∈ fiveRoot.chain, L ∉ (Link.tail [[6], [7]]).chain)) ∧
    ((∀ L ∈ fiveRoot.chain,
        lookup (Chunk (Chunk (newCache 2 1) fiveDigests).2 [[6], [7]]).2.ds.data (.chunk L) =
          none) ∧
      lookup (Chunk (Chunk (newCache 2 1) fiveDigests).2 [[6], [7]]).2.ds.data
        (.root fiveRoot) = none ∧
      (∀ L ∈ (Link.tail [[6], [7]]).chain,
        lookup (Chunk (Chunk (newCache 2 1) fiveDigests).2 [[6], [7]]).2.ds.data (.chunk L) =
          some (.node L.entries L.next)) ∧
      lookup (Chunk (Chunk (newCache 2 1) fiveDigests).2 [[6], [7]]).2.ds.data
        (.root (.tail [[6], [7]])) = some (.raw []) ∧
      Len (Chunk (Chunk (newCache 2 1) fiveDigests).2 [[6], [7]]).2 = 1) :=
  ⟨⟨rfl, rfl, rfl, by decide⟩,
    C8_eviction_cleanup 2 [] fiveDigests [[6], [7]] (newCache 2 1) _ _ fiveRoot
      (.tail [[6], [7]]) rfl
      (rfl : Chunk (newCache 2 1) fiveDigests =
        ((some fiveRoot, none), (Chunk (newCache 2 1) fiveDigests).2))
      (rfl : Chunk (Chunk (newCache 2 1) fiveDigests).2 [[6], [7]] =
        ((some (.tail [[6], [7]]), none),
          (Chunk (Chunk (newCache 2 1) fiveDigests).2 [[6], [7]]).2))
      (by decide)⟩

/-! ## Overlaps -/

/-- C6, the code at the failing input: after `Chunk` of the same three multihashes twice in a
row on a new cache, the chunk block is in the store with an overlap count of 1 although a
single entry of the LRU index contains its link, so the count is not the number of owners
minus one. -/
theorem C6_rechunk_overcount :
    NewCachedEntriesChunker ⟨[], []⟩ 3 3 [] = .ok (newCache 3 3) ∧
    Chunk (newCache 3 3) threeDigests =
      ((some (.tail threeDigests), none), (Chunk (newCache 3 3) threeDigests).2) ∧
    Chunk (Chunk (newCache 3 3) threeDigests).2 threeDigests =
      ((some (.tail threeDigests), none), rechunked) ∧
    lookup rechunked.ds.data (.chunk (.tail threeDigests)) =
      some (.node threeDigests none) ∧
    cnt rechunked.ds.data (.tail threeDigests) = 1 ∧
    lruOwners rechunked.cache.ll (.tail threeDigests) = 1 ∧
    cnt rechunked.ds.data (.tail threeDigests) ≠
      lruOwners rechunked.cache.ll (.tail threeDigests) - 1 :=
  ⟨rfl, rfl, rfl, by decide, by decide, by decide, by decide⟩

/-- C9, the code at the failing input: after `Chunk` of the same three multihashes twice in a
row on a new cache, a successful `Clear` empties the LRU index but leaves the chunk block in
the store. -/
theorem C9_clear_leaves_chunk :
    Clear rechunked [] = (none, (Clear rechunked []).2) ∧
    Len (Clear rechunked []).2 = 0 ∧
    (Clear rechunked []).2.ds.data =
      [(.chunk (.tail threeDigests), .node threeDigests none)] :=
  ⟨rfl, by decide, by decide⟩

theorem allLinks_head_block (cs : Int) (t : List Digest) (next : Option Link) :
    ∀ (p mhs : List Digest), p ≠ [] → ((mhs.length + p.length : Nat) : Int) = cs →
      allLinks cs (p ++ t) mhs next =
        Link.ofNode (mhs ++ p) next ::
          allLinks cs t [] (some (Link.ofNode (mhs ++ p) next)) := by
  intro p
  induction p with
  | nil => intro mhs hp _; exact absurd rfl hp
  | cons x p ih =>
    intro mhs _ hlen
    cases p with
    | nil =>
      have hc : (((mhs ++ [x]).length : Nat) : Int) ≥ cs := by
        simp only [List.length_append, List.length_singleton, List.length_cons,
          List.length_nil] at hlen ⊢
        omega
      show allLinks cs (x :: t) mhs next = _
      simp only [allLinks, if_pos hc]
    | cons y p =>
      have hc : ¬ (((mhs ++ [x]).length : Nat) : Int) ≥ cs := by
        simp only [List.length_append, List.length_singleton, List.length_cons,
          List.length_nil] at hlen ⊢
        omega
      have := ih (mhs ++ [x]) (by simp) (by
        simp only [List.length_append, List.length_singleton, List.length_cons,
          List.length_nil] at hlen ⊢
        omega)
      have e : allLinks cs (x :: (y :: p ++ t)) mhs next =
          allLinks cs (y :: p ++ t) (mhs ++ [x]) next := by
        rw [allLinks, if_neg hc]
      show allLinks cs (x :: (y :: p ++ t)) mhs next = _
      rw [e, this]
      simp

/-- C7, as amended. With `chunkSize = 3` on a new cache of capacity 3, `Chunk` of
`[a,b,c,x,y,z]` and then `Chunk` of `[q,r,s,x,y,z]`, where `[a,b,c]` differs from `[q,r,s]`,
both succeed; the blocks that hold `[x,y,z]` have different links in the two chains, each
having the link of the first block of its own chain as `next`; the store holds exactly four
chunk keys, no `/overlap/` key and exactly two `/root/` keys. In general two inputs that begin
with the same block of `chunkSize` multihashes share the link of that block. -/
theorem C7_shared_first_block (a b c x y z q r s : Digest) (hne : [a, b, c] ≠ [q, r, s]) :
    Chunk (newCache 3 3) [a, b, c, x, y, z] =
      ((some (.cons [x, y, z] (.tail [a, b, c])), none),
        (Chunk (newCache 3 3) [a, b, c, x, y, z]).2) ∧
    Chunk (Chunk (newCache 3 3) [a, b, c, x, y, z]).2 [q, r, s, x, y, z] =
      ((some (.cons [x, y, z] (.tail [q, r, s])), none),
        (Chunk (Chunk (newCache 3 3) [a, b, c, x, y, z]).2 [q, r, s, x, y, z]).2) ∧
    Link.cons [x, y, z] (.tail [a, b, c]) ≠ Link.cons [x, y, z] (.tail [q, r, s]) ∧
    (Chunk (Chunk (newCache 3 3) [a, b, c, x, y, z]).2 [q, r, s, x, y, z]).2.ds.data.map
        Prod.fst =
      [.chunk (.tail [a, b, c]), .chunk (.cons [x, y, z] (.tail [a, b, c])),
       .root (.cons [x, y, z] (.tail [a, b, c])),
       .chunk (.tail [q, r, s]), .chunk (.cons [x, y, z] (.tail [q, r, s])),
       .root (.cons [x, y, z] (.tail [q, r, s]))] ∧
    ((Chunk (Chunk (newCache 3 3) [a, b, c, x, y, z]).2 [q, r, s, x, y, z]).2.ds.data.map
        Prod.fst).Nodup ∧
    (∀ (ls1 ls2 ls1' ls2' : CachedEntriesChunker) (n : Nat) (p t1 t2 : List Digest)
        (R1 R2 : Link), 1 ≤ n → ls1.chunkSize = n → ls2.chunkSize = n →
        1 ≤ ls1.cache.MaxEntries → 1 ≤ ls2.cache.MaxEntries → p.length = n →
        Chunk ls1 (p ++ t1) = ((some R1, none), ls1') →
        Chunk ls2 (p ++ t2) = ((some R2, none), ls2') →
        ∃ l1 l2, ls1'.cache.ll.head? = some (some R1, l1) ∧
          ls2'.cache.ll.head? = some (some R2, l2) ∧
          l1.head? = some (.tail p) ∧ l2.head? = some (.tail p)) := by
  have h1 : ¬ (a = q ∧ b = r ∧ c = s) := by
    intro h
    apply hne
    simp [h.1, h.2.1, h.2.2]
  have hk : (Chunk (Chunk (newCache 3 3) [a, b, c, x, y, z]).2 [q, r, s, x, y, z]).2.ds.data.map
        Prod.fst =
      [.chunk (.tail [a, b, c]), .chunk (.cons [x, y, z] (.tail [a, b, c])),
       .root (.cons [x, y, z] (.tail [a, b, c])),
       .chunk (.tail [q, r, s]), .chunk (.cons [x, y, z] (.tail [q, r, s])),
       .root (.cons [x, y, z] (.tail [q, r, s]))] := by
    simp [Chunk, maxSliceCap, newCache, chunkLoop, lsysStore, storageWriteCommit, Datastore.Has,
      Datastore.Put, Datastore.Sync, Datastore.failing, Datastore.spend, lookup, insert,
      Link.ofNode, publish, performOnCache, cacheAdd, h1]
  refine ⟨?_, ?_, ?_, hk, ?_, ?_⟩
  · simp [Chunk, maxSliceCap, newCache, chunkLoop, lsysStore, storageWriteCommit,
      Datastore.Has,
      Datastore.Put, Datastore.Sync, Datastore.failing, Datastore.spend, lookup, insert,
      Link.ofNode, publish, performOnCache, cacheAdd]
  · simp [Chunk, maxSliceCap, newCache, chunkLoop, lsysStore, storageWriteCommit,
      Datastore.Has,
      Datastore.Put, Datastore.Sync, Datastore.failing, Datastore.spend, lookup, insert,
      Link.ofNode, publish, performOnCache, cacheAdd, h1]
  · simpa using h1
  · rw [hk]
    simp [h1]
  · intro ls1 ls2 ls1' ls2' n p t1 t2 R1 R2 hn hc1 hc2 hm1 hm2 hp hr1 hr2
    have hpne : p ≠ [] := by
      intro h0
      subst h0
      simp at hp
      omega
    refine ⟨_, _, Chunk_head hm1 hr1, Chunk_head hm2 hr2, ?_, ?_⟩
    · rw [allLinks_head_block ls1.chunkSize t1 none p [] hpne (by rw [hc1]; simp [hp])]
      simp [Link.ofNode]
    · rw [allLinks_head_block ls2.chunkSize t2 none p [] hpne (by rw [hc2]; simp [hp])]
      simp [Link.ofNode]

theorem C7_shared_first_block_witness :
    (([[1], [2], [3]] : List Digest) ≠ [[4], [5], [6]]) ∧
    (Chunk (newCache 3 3) [[1], [2], [3], [7], [8], [9]] =
      ((some (.cons [[7], [8], [9]] (.tail [[1], [2], [3]])), none),
        (Chunk (newCache 3 3) [[1], [2], [3], [7], [8], [9]]).2) ∧
    Chunk (Chunk (newCache 3 3) [[1], [2], [3], [7], [8], [9]]).2
        [[4], [5], [6], [7], [8], [9]] =
      ((some (.cons [[7], [8], [9]] (.tail [[4], [5], [6]])), none),
        (Chunk (Chunk (newCache 3 3) [[1], [2], [3], [7], [8], [9]]).2
          [[4], [5], [6], [7], [8], [9]]).2) ∧
    Link.cons [[7], [8], [9]] (.tail [[1], [2], [3]]) ≠
      Link.cons [[7], [8], [9]] (.tail [[4], [5], [6]]) ∧
    (Chunk (Chunk (newCache 3 3) [[1], [2], [3], [7], [8], [9]]).2
        [[4], [5], [6], [7], [8], [9]]).2.ds.data.map Prod.fst =
      [.chunk (.tail [[1], [2], [3]]), .chunk (.cons [[7], [8], [9]] (.tail [[1], [2], [3]])),
       .root (.cons [[7], [8], [9]] (.tail [[1], [2], [3]])),
       .chunk (.tail [[4], [5], [6]]), .chunk (.cons [[7], [8], [9]] (.tail [[4], [5], [6]])),
       .root (.cons [[7], [8], [9]] (.tail [[4], [5], [6]]))] ∧
    ((Chunk (Chunk (newCache 3 3) [[1], [2], [3], [7], [8], [9]]).2
        [[4], [5], [6], [7], [8], [9]]).2.ds.data.map Prod.fst).Nodup ∧
    (∀ (ls1 ls2 ls1' ls2' : CachedEntriesChunker) (n : Nat) (p t1 t2 : List Digest)
        (R1 R2 : Link), 1 ≤ n → ls1.chunkSize = n → ls2.chunkSize = n →
        1 ≤ ls1.cache.MaxEntries → 1 ≤ ls2.cache.MaxEntries → p.length = n →
        Chunk ls1 (p ++ t1) = ((some R1, none), ls1') →
        Chunk ls2 (p ++ t2) = ((some R2, none), ls2') →
        ∃ l1 l2, ls1'.cache.ll.head? = some (some R1, l1) ∧
          ls2'.cache.ll.head? = some (some R2, l2) ∧
          l1.head? = some (.tail p) ∧ l2.head? = some (.tail p))) :=
  ⟨by decide, C7_shared_first_block [1] [2] [3] [7] [8] [9] [4] [5] [6] (by decide)⟩

/-- C7, the claim as stated fails: after `Chunk` of `[1,2,3,7,8,9]` and of `[4,5,6,7,8,9]` with
`chunkSize = 3` on a new cache of capacity 3, the two blocks that hold `[7,8,9]` have different
links, and the store holds four chunk keys and no `/overlap/` key. -/
theorem C7_counterexample :
    NewCachedEntriesChunker ⟨[], []⟩ 3 3 [] = .ok (newCache 3 3) ∧
    Chunk (newCache 3 3) sameEndA =
      ((some sameEndRootA, none), (Chunk (newCache 3 3) sameEndA).2) ∧
    Chunk (Chunk (newCache 3 3) sameEndA).2 sameEndB =
      ((some sameEndRootB, none), (Chunk (Chunk (newCache 3 3) sameEndA).2 sameEndB).2) ∧
    sameEndRootA.entries = [[7], [8], [9]] ∧ sameEndRootB.entries = [[7], [8], [9]] ∧
    sameEndRootA ≠ sameEndRootB ∧
    ((Chunk (Chunk (newCache 3 3) sameEndA).2 sameEndB).2.ds.data.map Prod.fst).countP
      Key.isChunk = 4 ∧
    ((Chunk (Chunk (newCache 3 3) sameEndA).2 sameEndB).2.ds.data.map Prod.fst).countP
      Key.isOverlap = 0 ∧
    ((Chunk (Chunk (newCache 3 3) sameEndA).2 sameEndB).2.ds.data.map Prod.fst).countP
      Key.isRoot = 2 :=
  ⟨rfl, rfl, rfl, rfl, rfl, by decide, by decide, by decide, by decide⟩

/-! ## The step bound of the traversals is never reached -/

theorem lsysLoad_checked {ds ds' : Datastore} {L : Link} {chunk : List Digest × Option Link}
    (h : lsysLoad ds L = (.ok chunk, ds')) : chunk = (L.entries, L.next) := by
  unfold lsysLoad storageReadOpener at h
  cases hg : ds.Get (.chunk L) with
  | mk r ds1 =>
    rw [hg] at h
    cases r with
    | error e => simp at h
    | ok v =>
      cases v with
      | raw b => simp at h
      | node es nx =>
        simp only at h
        by_cases he : Link.ofNode es nx = L
        · simp only [he, if_true, Prod.mk.injEq, Except.ok.injEq] at h
          subst he
          rw [ofNode_entries, ofNode_next]
          exact h.1.symm
        · simp [he] at h

theorem lsysLoad_no_fuel (ds : Datastore) (L : Link) :
    (lsysLoad ds L).1 ≠ .error .fuel := by
  unfold lsysLoad storageReadOpener Datastore.Get
  by_cases hf : ds.failing = true
  · simp [hf]
  · simp only [hf, Bool.false_eq_true, if_false]
    cases lookup ds.data (.chunk L) with
    | none => simp
    | some v =>
      cases v with
      | raw b => simp
      | node es nx =>
        simp only
        split <;> simp

theorem listLoop_no_fuel :
    ∀ (fuel : Nat) (ds : Datastore) (L : Link) (acc : List Link), L.depth ≤ fuel →
      (listLoop fuel ds L acc).1.2 ≠ some .fuel := by
  intro fuel
  induction fuel with
  | zero =>
    intro ds L acc hd
    have := depth_pos L
    omega
  | succ fuel ih =>
    intro ds L acc hd
    simp only [listLoop]
    have hnf := lsysLoad_no_fuel ds L
    cases hl : lsysLoad ds L with
    | mk r ds1 =>
      rw [hl] at hnf
      cases r with
      | error e =>
        simp only
        intro h0
        simp only [Option.some.injEq] at h0
        subst h0
        exact hnf rfl
      | ok chunk =>
        have hc := lsysLoad_checked hl
        subst hc
        cases L with
        | tail es => simp [Link.next]
        | cons es n =>
          simp only [Link.next]
          exact ih ds1 n _ (by simp only [Link.depth] at hd; omega)

/-- The traversal of `listEntriesChainLinks` never stops for lack of fuel: the model's step
bound is not a way in which it fails. -/
theorem listEntriesChainLinks_no_fuel (ds : Datastore) (root : Link) :
    (listEntriesChainLinks ds root).1.2 ≠ some .fuel :=
  listLoop_no_fuel _ ds root [] (le_refl _)

theorem traverseLoop_no_fuel :
    ∀ (fuel : Nat) (ds : Datastore) (L : Link) (out : List Digest), L.depth ≤ fuel →
      (traverseLoop fuel ds L out).1 ≠ .error .fuel := by
  intro fuel
  induction fuel with
  | zero =>
    intro ds L out hd
    have := depth_pos L
    omega
  | succ fuel ih =>
    intro ds L out hd
    simp only [traverseLoop]
    have hnf := lsysLoad_no_fuel ds L
    cases hl : lsysLoad ds L with
    | mk r ds1 =>
      rw [hl] at hnf
      cases r with
      | error e =>
        simp only at hnf ⊢
        intro h0
        apply hnf
        rw [Except.error.inj h0]
      | ok chunk =>
        have hc := lsysLoad_checked hl
        subst hc
        cases L with
        | tail es => simp [Link.next]
        | cons es n =>
          simp only [Link.next]
          exact ih ds1 n _ (by simp only [Link.depth] at hd; omega)

/-! ## Construction over a store without root markers, and the checks construction omits -/

/-- C11. Restore over a stale store: for every reliable store that holds no key under the root
prefix, and every chunk size, capacity and enumeration order, construction succeeds, the store
of the resulting cache is empty and its `Len` is 0. -/
theorem C11_stale_store_pruned (s : List (Key × Value)) (chunkSize capacity : Int)
    (picks : List Nat) (h : ∀ k ∈ s.map Prod.fst, underRoot k = false) :
    ∃ ls, NewCachedEntriesChunker ⟨s, []⟩ chunkSize capacity picks = .ok ls ∧
      ls.ds.data = [] ∧ Len ls = 0 := by
  have hf : (s.map Prod.fst).filter underRoot = [] := by
    rw [List.filter_eq_nil_iff]
    intro k hk
    simp [h k hk]
  have hp := prune_all_keys s picks
  simp only [List.filter_true] at hp
  refine ⟨newCache chunkSize capacity, ?_, rfl, rfl⟩
  simp [NewCachedEntriesChunker, restoreCache, query_reliable, hf, rangeOrder_nil, restoreRoots,
    pruneAll_reliable, hp, newCache]

theorem C11_stale_store_pruned_witness :
    ∃ ls, NewCachedEntriesChunker ⟨staleStore, []⟩ 3 2 [1] = .ok ls ∧
      ls.ds.data = [] ∧ Len ls = 0 :=
  C11_stale_store_pruned staleStore 3 2 [1] (by decide)

/-- C14, the claim as written fails: construction with chunk size 0 and capacity 0 over the
empty store returns a cache and no error. -/
theorem C14_counterexample :
    NewCachedEntriesChunker ⟨[], []⟩ 0 0 [] = .ok ⟨⟨[], []⟩, 0, ⟨0, []⟩, none⟩ := rfl

/-- C14, amended. Construction checks neither the chunk size nor the capacity: over the empty
reliable store it returns a cache, with the chunk size and the capacity it was given, for every
chunk size and every capacity, those below 1 included. -/
theorem C14_no_validation (chunkSize capacity : Int) (picks : List Nat) :
    ∃ ls, NewCachedEntriesChunker ⟨[], []⟩ chunkSize capacity picks = .ok ls ∧
      ls.chunkSize = chunkSize ∧ Cap ls = capacity ∧ Len ls = 0 := by
  refine ⟨newCache chunkSize capacity, ?_, rfl, rfl, rfl⟩
  simp [NewCachedEntriesChunker, restoreCache, query_reliable, rangeOrder_nil, restoreRoots,
    pruneAll, newCache]

/-! ## Reading a chunk -/

/-- C17. `GetRawCachedChunk` changes nothing but the failure schedule of the store (one
operation is used): the store contents, the LRU index with its order, the chunk size and the
pending eviction error are the ones before. When the store operation does not fail it returns
the value under the chunk key of the link with no error, or nil with no error when the key is
absent; when the store operation fails it returns nil and that error. -/
theorem C17_get_raw_frame (ls : CachedEntriesChunker) (l : Link) :
    (GetRawCachedChunk ls l).2 = { ls with ds := ls.ds.spend } ∧
    (GetRawCachedChunk ls l).2.ds.data = ls.ds.data ∧
    (GetRawCachedChunk ls l).2.cache = ls.cache ∧
    (GetRawCachedChunk ls l).1 =
      if ls.ds.failing then (none, some .store) else (lookup ls.ds.data (.chunk l), none) := by
  simp only [GetRawCachedChunk, Datastore.Get]
  by_cases hf : ls.ds.failing = true
  · simp [hf, Datastore.spend]
  · simp only [hf]
    cases hl : lookup ls.ds.data (.chunk l) <;> simp [Datastore.spend]

/-! ## An iterator without multihashes -/

/-- C15, at the failing input. `Chunk` on an iterator that yields no multihash, called on a
cache of capacity 1 that holds one chain: no error is returned, the call panics (in `dsKey`
on the nil link), and before that the LRU index has received an entry with a nil key, which
evicted the cached chain and deleted its chunk and its root marker. -/
theorem C15_empty_input_panics :
    fullCache.cache.ll = [(some (.tail threeDigests), [.tail threeDigests])] ∧
    lookup fullCache.ds.data (.chunk (.tail threeDigests)) ≠ none ∧
    (Chunk fullCache []).1 = (none, some .panic) ∧
    (Chunk fullCache []).2.cache.ll = [(none, [])] ∧
    (Chunk fullCache []).2.ds.data = [] := by
  refine ⟨rfl, by decide, rfl, rfl, rfl⟩

/-! ## A restart with a smaller capacity -/

/-- C12, at the failing input. A cache of capacity 2 chunks `[1,2,3]` twice and `[4,5,6]` once;
its store holds two intact chains. A new cache of capacity 1 over that store keeps the chain of
`[4,5,6]` and evicts the chain of `[1,2,3]`, whose root marker is deleted, yet the chunk of
`[1,2,3]`, which belongs to the evicted chain only, is still in the store. -/
theorem C12_shrink_leaves_chunk :
    twoChains.cache.ll.map Prod.fst = [some (.tail [[4], [5], [6]]), some (.tail threeDigests)] ∧
    ∃ ls, NewCachedEntriesChunker twoChains.ds 3 1 [] = .ok ls ∧
      ls.cache.ll = [(some (.tail [[4], [5], [6]]), [.tail [[4], [5], [6]]])] ∧
      lookup ls.ds.data (.root (.tail threeDigests)) = none ∧
      lookup ls.ds.data (.chunk (.tail threeDigests)) = some (.node threeDigests none) := by
  refine ⟨rfl, _, rfl, rfl, rfl, rfl⟩

/-! ## The overlap decrement and the eviction handler, key by key -/

theorem wfc_cnt_lt {s : List (Key × Value)} (h : WFc s) (L : Link) : cnt s L < 2 ^ 64 := by
  cases hl : lookup s (.overlap L) with
  | none => rw [cnt_of_absent hl]; norm_num
  | some v =>
    obtain ⟨n, hn, rfl⟩ := h L v hl
    rw [cnt_of_lookup hn hl]
    exact hn

theorem pred_mod (c : Nat) (h1 : c ≠ 0) (h2 : c < 2 ^ 64) : (c + 2 ^ 64 - 1) % 2 ^ 64 = c - 1 := by
  omega

theorem evict1_lookup {s : List (Key × Value)} (h : WFc s) (L : Link) (k : Key) :
    lookup (evict1 s L) k =
      if k = .chunk L then (if cnt s L = 0 then none else lookup s k)
      else if k = .overlap L then
        (if cnt s L = 0 then lookup s k
         else if cnt s L = 1 then none else some (.raw (putUint64 (cnt s L - 1))))
      else lookup s k := by
  have hlt := wfc_cnt_lt h L
  unfold evict1
  by_cases hc : cnt s L = 0
  · simp only [hc, if_true, lookup_remove]
    by_cases hk : k = .chunk L
    · simp [hk]
    · have hk' : ¬ Key.chunk L = k := fun e => hk e.symm
      simp only [hk, hk', if_false]
      split <;> rfl
  · rw [if_neg hc, pred_mod _ hc hlt]
    by_cases h1 : cnt s L = 1
    · have : cnt s L - 1 < 1 := by omega
      rw [if_pos this, lookup_remove]
      by_cases hk : k = .overlap L
      · simp [hk, hc, h1]
      · have hk' : ¬ Key.overlap L = k := fun e => hk e.symm
        simp only [hk, hk', if_false]
        split <;> simp [hc]
    · have : ¬ cnt s L - 1 < 1 := by omega
      rw [if_neg this, lookup_insert]
      by_cases hk : k = .overlap L
      · simp [hk, hc, h1]
      · have hk' : ¬ Key.overlap L = k := fun e => hk e.symm
        simp only [hk, hk', if_false]
        split <;> simp [hc]

theorem cnt_evict1_ne {s : List (Key × Value)} (h : WFc s) {L L' : Link} (hne : L' ≠ L) :
    cnt (evict1 s L) L' = cnt s L' := by
  unfold cnt
  rw [evict1_lookup h L (.overlap L')]
  simp [hne]

theorem evictAll_lookup (links : List Link) :
    ∀ {s : List (Key × Value)}, WFc s → links.Nodup → ∀ k : Key,
      lookup (evictAll s links) k =
        match k with
        | .chunk L => if L ∈ links ∧ cnt s L = 0 then none else lookup s k
        | .overlap L =>
          if L ∈ links ∧ cnt s L ≠ 0 then
            (if cnt s L = 1 then none else some (.raw (putUint64 (cnt s L - 1))))
          else lookup s k
        | _ => lookup s k := by
  induction links with
  | nil =>
    intro s _ _ k
    cases k <;> simp [evictAll]
  | cons L links ih =>
    intro s h hnd k
    have hL : L ∉ links := (List.nodup_cons.1 hnd).1
    have hnd' : links.Nodup := (List.nodup_cons.1 hnd).2
    have e : evictAll s (L :: links) = evictAll (evict1 s L) links := rfl
    rw [e, ih (wfc_evict1 h L) hnd' k]
    cases k with
    | chunk X =>
      simp only [List.mem_cons]
      by_cases hX : X = L
      · subst hX
        rw [evict1_lookup h]
        simp [hL]
      · rw [cnt_evict1_ne h hX, evict1_lookup h]
        simp [hX]
    | overlap X =>
      simp only [List.mem_cons]
      by_cases hX : X = L
      · subst hX
        rw [evict1_lookup h]
        simp [hL]
      · rw [cnt_evict1_ne h hX, evict1_lookup h]
        simp [hX]
    | root X => simp only; rw [evict1_lookup h]; simp
    | rootRaw n => simp only; rw [evict1_lookup h]; simp
    | other n => simp only; rw [evict1_lookup h]; simp

theorem wfc_countedStore (v : Nat) (hv : v < 2 ^ 64) : WFc (countedStore v) := by
  intro L x h
  by_cases hL : L = .tail threeDigests
  · subst hL
    simp [countedStore, lookup] at h
    exact ⟨v, hv, h.symm⟩
  · have : ¬ Link.tail threeDigests = L := fun e => hL e.symm
    simp [countedStore, lookup, this] at h

/-- C18. Overlap decrement: on a store whose operations do not fail, `decrementOverlap` is a
no-op when the overlap key of the link is absent. When the key holds a value whose first eight
bytes read as the unsigned number `v`, it returns no error and, with `v - 1` the subtraction Go
does on `uint64` (modulo 2^64, so that it is 2^64 - 1 for `v = 0`), leaves the key absent when
`v - 1 < 1` and otherwise holding the value with `v - 1` written over its first eight bytes; for
a stored value of exactly eight bytes that is the eight bytes of `v - 1`. Whatever the failures
of the store, no other key is changed. -/
theorem C18_decrement_overlap (s : List (Key × Value)) (L : Link) :
    (lookup s (.overlap L) = none → decrementOverlap ⟨s, []⟩ L = (none, ⟨s, []⟩)) ∧
    (∀ val v, lookup s (.overlap L) = some val → val.counter = some v →
      ∃ s', decrementOverlap ⟨s, []⟩ L = (none, ⟨s', []⟩) ∧
        lookup s' (.overlap L) =
          if (v + 2 ^ 64 - 1) % 2 ^ 64 < 1 then none
          else some (val.withCounter ((v + 2 ^ 64 - 1) % 2 ^ 64))) ∧
    (∀ v, v < 2 ^ 64 → lookup s (.overlap L) = some (.raw (putUint64 v)) →
      lookup (decrementOverlap ⟨s, []⟩ L).2.data (.overlap L) =
        if (v + 2 ^ 64 - 1) % 2 ^ 64 < 1 then none
        else some (.raw (putUint64 ((v + 2 ^ 64 - 1) % 2 ^ 64)))) ∧
    (∀ fl k, k ≠ .overlap L → lookup (decrementOverlap ⟨s, fl⟩ L).2.data k = lookup s k) := by
  have hgen : ∀ val v, lookup s (.overlap L) = some val → val.counter = some v →
      ∃ s', decrementOverlap ⟨s, []⟩ L = (none, ⟨s', []⟩) ∧
        lookup s' (.overlap L) =
          if (v + 2 ^ 64 - 1) % 2 ^ 64 < 1 then none
          else some (val.withCounter ((v + 2 ^ 64 - 1) % 2 ^ 64)) := by
    intro val v h hc
    simp only [decrementOverlap, get_reliable, h, hc]
    by_cases h1 : (v + 2 ^ 64 - 1) % 2 ^ 64 < 1
    · refine ⟨remove s (.overlap L), ?_, ?_⟩
      · rw [if_pos h1, delete_reliable]
      · rw [if_pos h1, lookup_remove, if_pos rfl]
    · refine ⟨insert s (.overlap L) (val.withCounter ((v + 2 ^ 64 - 1) % 2 ^ 64)), ?_, ?_⟩
      · rw [if_neg h1, put_reliable]
      · rw [if_neg h1, lookup_insert, if_pos rfl]
  refine ⟨?_, hgen, ?_, ?_⟩
  · intro h
    simp [decrementOverlap, get_reliable, h]
  · intro v hv h
    have hc : (Value.raw (putUint64 v)).counter = some v := by
      simp [Value.counter, uint64_putUint64 v hv]
    obtain ⟨s', e1, e2⟩ := hgen _ v h hc
    rw [e1, e2, withCounter_putUint64]
  · intro fl k hk
    have hk' : ¬ Key.overlap L = k := fun e => hk e.symm
    unfold decrementOverlap Datastore.Get
    by_cases hf : (⟨s, fl⟩ : Datastore).failing = true
    · simp [hf, Datastore.spend]
    · simp only [hf, Bool.false_eq_true, if_false]
      cases hl : lookup s (.overlap L) with
      | none => simp [Datastore.spend]
      | some val =>
        simp only
        cases hc : val.counter with
        | none => simp [Datastore.spend]
        | some c =>
          simp only
          split
          · unfold Datastore.Delete
            split
            · simp [Datastore.spend]
            · simp [Datastore.spend, lookup_remove, hk']
          · unfold Datastore.Put
            split
            · simp [Datastore.spend]
            · simp [Datastore.spend, lookup_insert, hk']

theorem C18_decrement_overlap_witness :
    (∃ s', decrementOverlap ⟨countedStore 3, []⟩ (.tail threeDigests) = (none, ⟨s', []⟩) ∧
        lookup s' (.overlap (.tail threeDigests)) =
          if (3 + 2 ^ 64 - 1) % 2 ^ 64 < 1 then none
          else some ((Value.raw (putUint64 3)).withCounter ((3 + 2 ^ 64 - 1) % 2 ^ 64))) ∧
    lookup (decrementOverlap ⟨countedStore 1, []⟩ (.tail threeDigests)).2.data
        (.overlap (.tail threeDigests)) =
      (if (1 + 2 ^ 64 - 1) % 2 ^ 64 < 1 then none
        else some (.raw (putUint64 ((1 + 2 ^ 64 - 1) % 2 ^ 64)))) ∧
    decrementOverlap ⟨[], []⟩ (.tail threeDigests) = (none, ⟨[], []⟩) ∧
    lookup (decrementOverlap ⟨countedStore 3, [false, true]⟩ (.tail threeDigests)).2.data
        (.chunk (.tail threeDigests)) =
      lookup (countedStore 3) (.chunk (.tail threeDigests)) :=
  ⟨(C18_decrement_overlap (countedStore 3) (.tail threeDigests)).2.1 (.raw (putUint64 3)) 3
      rfl rfl,
   (C18_decrement_overlap (countedStore 1) (.tail threeDigests)).2.2.1 1 (by norm_num) rfl,
   (C18_decrement_overlap [] (.tail threeDigests)).1 rfl,
   (C18_decrement_overlap (countedStore 3) (.tail threeDigests)).2.2.2 [false, true] _
      (by simp)⟩

/-- C19. Eviction handler effect: on a reliable store whose overlap values are eight-byte
counters, and for an entry `(R, links)` with pairwise distinct links, the handler does not
panic, records no error and leaves the store equal to the one before except that: the chunk key
of each `L` in `links` with overlap count 0 is removed; the overlap key of each `L` in `links`
with count `c > 0` is removed when `c = 1` and holds `c - 1` otherwise (its chunk key is kept);
the root key of `R` is removed. -/
theorem C19_eviction_effect (s : List (Key × Value)) (cs : Int) (c : LRU) (err : Option Error)
    (R : Link) (links : List Link) (hw : WFc s) (hnd : links.Nodup) :
    ∃ s', onEvicted ⟨⟨s, []⟩, cs, c, err⟩ (some R) links = (false, ⟨⟨s', []⟩, cs, c, err⟩) ∧
      (∀ L, lookup s' (.chunk L) =
        if L ∈ links ∧ cnt s L = 0 then none else lookup s (.chunk L)) ∧
      (∀ L, lookup s' (.overlap L) =
        if L ∈ links ∧ cnt s L ≠ 0 then
          (if cnt s L = 1 then none else some (.raw (putUint64 (cnt s L - 1))))
        else lookup s (.overlap L)) ∧
      (∀ L, L ∈ links → cnt s' L = cnt s L - 1) ∧
      (∀ X, lookup s' (.root X) = if X = R then none else lookup s (.root X)) ∧
      (∀ n, lookup s' (.rootRaw n) = lookup s (.rootRaw n)) ∧
      (∀ n, lookup s' (.other n) = lookup s (.other n)) := by
  refine ⟨evictChain s R links, onEvicted_reliable hw cs c err R links, ?_, ?_, ?_, ?_, ?_, ?_⟩
  · intro L
    rw [evictChain, lookup_remove, if_neg (by simp), evictAll_lookup links hw hnd]
  · intro L
    rw [evictChain, lookup_remove, if_neg (by simp), evictAll_lookup links hw hnd]
  · intro L hL
    have hlt := wfc_cnt_lt hw L
    have e : lookup (evictChain s R links) (.overlap L) =
        if L ∈ links ∧ cnt s L ≠ 0 then
          (if cnt s L = 1 then none else some (.raw (putUint64 (cnt s L - 1))))
        else lookup s (.overlap L) := by
      rw [evictChain, lookup_remove, if_neg (by simp), evictAll_lookup links hw hnd]
    by_cases h0 : cnt s L = 0
    · have : cnt (evictChain s R links) L = cnt s L := by
        unfold cnt
        rw [e]
        simp [h0]
      omega
    · by_cases h1 : cnt s L = 1
      · have e' : lookup (evictChain s R links) (.overlap L) = none := by
          rw [e]; simp [hL, h0, h1]
        rw [cnt_of_absent e', h1]
      · have e' : lookup (evictChain s R links) (.overlap L) =
            some (.raw (putUint64 (cnt s L - 1))) := by
          rw [e]; simp [hL, h0, h1]
        exact cnt_of_lookup (by omega) e'
  · intro X
    rw [evictChain, lookup_remove, evictAll_lookup links hw hnd]
    by_cases hX : X = R
    · simp [hX]
    · have : ¬ R = X := fun e => hX e.symm
      simp [hX, this]
  · intro n
    rw [evictChain, lookup_remove, if_neg (by simp), evictAll_lookup links hw hnd]
  · intro n
    rw [evictChain, lookup_remove, if_neg (by simp), evictAll_lookup links hw hnd]

theorem C19_eviction_effect_witness :
    ∃ s', onEvicted ⟨⟨countedStore 2, []⟩, 3, ⟨1, []⟩, none⟩ (some (.tail threeDigests))
        [.tail threeDigests] = (false, ⟨⟨s', []⟩, 3, ⟨1, []⟩, none⟩) ∧
      (∀ L, lookup s' (.chunk L) =
        if L ∈ [Link.tail threeDigests] ∧ cnt (countedStore 2) L = 0 then none
        else lookup (countedStore 2) (.chunk L)) ∧
      (∀ L, lookup s' (.overlap L) =
        if L ∈ [Link.tail threeDigests] ∧ cnt (countedStore 2) L ≠ 0 then
          (if cnt (countedStore 2) L = 1 then none
           else some (.raw (putUint64 (cnt (countedStore 2) L - 1))))
        else lookup (countedStore 2) (.overlap L)) ∧
      (∀ L, L ∈ [Link.tail threeDigests] → cnt s' L = cnt (countedStore 2) L - 1) ∧
      (∀ X, lookup s' (.root X) =
        if X = .tail threeDigests then none else lookup (countedStore 2) (.root X)) ∧
      (∀ n, lookup s' (.rootRaw n) = lookup (countedStore 2) (.rootRaw n)) ∧
      (∀ n, lookup s' (.other n) = lookup (countedStore 2) (.other n)) :=
  C19_eviction_effect (countedStore 2) 3 ⟨1, []⟩ none (.tail threeDigests) [.tail threeDigests]
    (wfc_countedStore 2 (by norm_num)) (List.nodup_singleton _)

/-! ## The eviction handler on a store that fails -/

theorem get_data (ds : Datastore) (k : Key) : (ds.Get k).2 = ds.spend := by
  unfold Datastore.Get
  split
  · rfl
  · split <;> rfl

theorem delete_root (ds : Datastore) (k : Key) (R : Link) (hk : k ≠ .root R) :
    lookup (ds.Delete k).2.data (.root R) = lookup ds.data (.root R) := by
  unfold Datastore.Delete
  split
  · rfl
  · simp [lookup_remove, hk]

theorem put_root (ds : Datastore) (k : Key) (v : Value) (R : Link) (hk : k ≠ .root R) :
    lookup (ds.Put k v).2.data (.root R) = lookup ds.data (.root R) := by
  unfold Datastore.Put
  split
  · rfl
  · simp [lookup_insert, hk]

theorem countOverlap_data (ds : Datastore) (L : Link) : (countOverlap ds L).2 = ds.spend := by
  unfold countOverlap
  have h := get_data ds (.overlap L)
  cases hg : ds.Get (.overlap L) with
  | mk r ds1 =>
    rw [hg] at h
    simp only at h
    subst h
    cases r with
    | error e => cases e <;> rfl
    | ok v => simp only; split <;> rfl

theorem decrementOverlap_root (ds : Datastore) (L R : Link) :
    lookup (decrementOverlap ds L).2.data (.root R) = lookup ds.data (.root R) := by
  unfold decrementOverlap
  have h := get_data ds (.overlap L)
  cases hg : ds.Get (.overlap L) with
  | mk r ds1 =>
    rw [hg] at h
    simp only at h
    subst h
    cases r with
    | error e => cases e <;> rfl
    | ok v =>
      simp only
      split
      · rfl
      · split
        · exact delete_root _ _ R (by simp)
        · exact put_root _ _ _ R (by simp)

theorem evictLinks_root (links : List Link) (R : Link) :
    ∀ ds : Datastore, lookup (evictLinks links ds).2.data (.root R) = lookup ds.data (.root R) := by
  induction links with
  | nil => intro ds; rfl
  | cons L links ih =>
    intro ds
    simp only [evictLinks]
    have h := countOverlap_data ds L
    cases hc : countOverlap ds L with
    | mk r ds1 =>
      rw [hc] at h
      simp only at h
      subst h
      cases r with
      | error e => rfl
      | ok count =>
        simp only
        split
        · have hd := delete_root ds.spend (.chunk L) R (by simp)
          cases hx : ds.spend.Delete (.chunk L) with
          | mk e ds2 =>
            rw [hx] at hd
            cases e with
            | some e => exact hd
            | none => simp only; rw [ih]; exact hd
        · have hd := decrementOverlap_root ds.spend L R
          cases hx : decrementOverlap ds.spend L with
          | mk e ds2 =>
            rw [hx] at hd
            cases e with
            | some e => exact hd
            | none => simp only; rw [ih]; exact hd

/-- C20, the claim as written fails: on the cache that holds one chain, over a store whose
coming operation fails, the eviction handler stops at the first link with the error recorded,
and the root marker of the evicted chain is still in the store. -/
theorem C20_counterexample :
    (onEvicted faultyCache (some (.tail threeDigests)) [.tail threeDigests]).2.onEvictedErr =
      some .store ∧
    lookup (onEvicted faultyCache (some (.tail threeDigests)) [.tail threeDigests]).2.ds.data
      (.root (.tail threeDigests)) = some (.raw []) := by
  decide

/-- C20, amended. The eviction handler deletes the root marker of the evicted chain when the
loop over the links ends without an error and the delete of the root key does not fail. When
an operation on one of the links fails, the handler returns at once, with the error recorded
(or a panic), and the root key of `R` is bound as it was before the invocation. -/
theorem C20_root_marker_on_failure (ls : CachedEntriesChunker) (R : Link) (links : List Link) :
    (∀ e ds', evictLinks links ls.ds = (some e, ds') →
      (onEvicted ls (some R) links).2.ds = ds' ∧
      lookup (onEvicted ls (some R) links).2.ds.data (.root R) = lookup ls.ds.data (.root R) ∧
      ((onEvicted ls (some R) links).1 = true ∨
        (onEvicted ls (some R) links).2.onEvictedErr = some e)) ∧
    (∀ ds', evictLinks links ls.ds = (none, ds') → ds'.failing = false →
      lookup (onEvicted ls (some R) links).2.ds.data (.root R) = none ∧
      (onEvicted ls (some R) links).1 = false ∧
      (onEvicted ls (some R) links).2.onEvictedErr = ls.onEvictedErr) := by
  constructor
  · intro e ds' h
    have hr := evictLinks_root links R ls.ds
    rw [h] at hr
    simp only at hr
    simp only [onEvicted, h]
    cases e <;> simp [hr]
  · intro ds' h hf
    simp only [onEvicted, h, Datastore.Delete, hf]
    simp [lookup_remove]

theorem C20_root_marker_on_failure_witness :
    ((onEvicted faultyCache (some (.tail threeDigests)) [.tail threeDigests]).2.ds =
        ⟨fullCache.ds.data, []⟩ ∧
      lookup (onEvicted faultyCache (some (.tail threeDigests)) [.tail threeDigests]).2.ds.data
        (.root (.tail threeDigests)) = lookup faultyCache.ds.data (.root (.tail threeDigests)) ∧
      ((onEvicted faultyCache (some (.tail threeDigests)) [.tail threeDigests]).1 = true ∨
        (onEvicted faultyCache (some (.tail threeDigests)) [.tail threeDigests]).2.onEvictedErr =
          some .store)) ∧
    (lookup (onEvicted fullCache (some (.tail threeDigests)) [.tail threeDigests]).2.ds.data
        (.root (.tail threeDigests)) = none ∧
      (onEvicted fullCache (some (.tail threeDigests)) [.tail threeDigests]).1 = false ∧
      (onEvicted fullCache (some (.tail threeDigests)) [.tail threeDigests]).2.onEvictedErr =
        fullCache.onEvictedErr) :=
  ⟨(C20_root_marker_on_failure faultyCache (.tail threeDigests) [.tail threeDigests]).1
      .store ⟨fullCache.ds.data, []⟩ rfl,
   (C20_root_marker_on_failure fullCache (.tail threeDigests) [.tail threeDigests]).2
      ⟨[(.root (.tail threeDigests), .raw [])], []⟩ rfl rfl⟩

/-! ## A restart with the same capacity -/

theorem listLoop_present (s : List (Key × Value)) :
    ∀ (fuel : Nat) (L : Link) (acc : List Link), L.depth ≤ fuel →
      (∀ X ∈ L.chain, lookup s (.chunk X) = some (.node X.entries X.next)) →
      listLoop fuel ⟨s, []⟩ L acc = ((acc ++ L.chain, none), ⟨s, []⟩) := by
  intro fuel
  induction fuel with
  | zero =>
    intro L acc hd _
    have := depth_pos L
    omega
  | succ fuel ih =>
    intro L acc hd hp
    simp only [listLoop, lsysLoad_present (hp L (self_mem_chain L))]
    cases L with
    | tail es => simp [Link.next, Link.chain]
    | cons es n =>
      simp only [Link.next]
      rw [ih n _ (by simp only [Link.depth] at hd; omega)
        (fun X hX => hp X (by simp [Link.chain, hX]))]
      simp [Link.chain]

theorem listEntriesChainLinks_present {s : List (Key × Value)} {R : Link}
    (hp : ∀ X ∈ R.chain, lookup s (.chunk X) = some (.node X.entries X.next)) :
    listEntriesChainLinks ⟨s, []⟩ R = ((R.chain, none), ⟨s, []⟩) := by
  unfold listEntriesChainLinks
  rw [listLoop_present s _ R [] (le_refl _) hp]
  simp

theorem cacheAdd_fresh (ls : CachedEntriesChunker) (R : Link) (links : List Link)
    (hnew : some R ∉ ls.cache.ll.map Prod.fst)
    (hroom : ((ls.cache.ll.length + 1 : Nat) : Int) ≤ ls.cache.MaxEntries) :
    cacheAdd ls (some R) links =
      (false, { ls with cache := ⟨ls.cache.MaxEntries, (some R, links) :: ls.cache.ll⟩ }) := by
  unfold cacheAdd
  have hit : ls.cache.ll.any (fun e => decide (e.1 = some R)) = false := by
    rw [List.any_eq_false]
    intro e he
    simp only [decide_eq_true_eq]
    intro hk
    exact hnew (List.mem_map.2 ⟨e, he, hk⟩)
  simp only [hit, Bool.false_eq_true, if_false, List.length_cons]
  have : ¬ (ls.cache.MaxEntries ≠ 0 ∧ ((ls.cache.ll.length + 1 : Nat) : Int) > ls.cache.MaxEntries) := by
    intro h
    omega
  rw [if_neg this]

theorem restoreRoots_keep (s : List (Key × Value)) (cs max : Int) :
    ∀ (Rs : List Link) (count : Nat) (c0 : List (Option Link × List Link)),
      (∀ R ∈ Rs, ∀ X ∈ R.chain, lookup s (.chunk X) = some (.node X.entries X.next)) →
      Rs.Nodup → (∀ R ∈ Rs, some R ∉ c0.map Prod.fst) →
      ((c0.length + Rs.length : Nat) : Int) ≤ max →
      restoreRoots (Rs.map Key.root) count ⟨⟨s, []⟩, cs, ⟨max, c0⟩, none⟩ =
        (.ok (count + Rs.length),
          ⟨⟨s, []⟩, cs, ⟨max, Rs.reverse.map (fun R => (some R, R.chain)) ++ c0⟩, none⟩) := by
  intro Rs
  induction Rs with
  | nil => intro count c0 _ _ _ _; simp [restoreRoots]
  | cons R rest ih =>
    intro count c0 hp hnd hnew hroom
    have hR : R ∉ rest := (List.nodup_cons.1 hnd).1
    have hnd' : rest.Nodup := (List.nodup_cons.1 hnd).2
    simp only [List.length_cons] at hroom
    have hadd := cacheAdd_fresh ⟨⟨s, []⟩, cs, ⟨max, c0⟩, none⟩ R R.chain
      (hnew R (by simp)) (by simp only; omega)
    simp only [List.map_cons, restoreRoots, linkFromDsCachePrefixedKey,
      listEntriesChainLinks_present (hp R (by simp)), performOnCache, hadd]
    rw [ih (count + 1) ((some R, R.chain) :: c0) (fun X hX => hp X (by simp [hX])) hnd'
      (by
        intro X hX
        simp only [List.map_cons, List.mem_cons, Option.some.injEq, not_or]
        exact ⟨fun e => hR (e ▸ hX), hnew X (by simp [hX])⟩)
      (by simp only [List.length_cons]; omega)]
    simp only [List.length_cons, List.reverse_cons, List.map_append, List.map_cons, List.map_nil,
      List.append_assoc, List.singleton_append]
    congr 2
    omega

theorem roots_of_keys :
    ∀ l : List Key, (∀ k ∈ l, ∃ R, k = Key.root R) → ∃ Rs : List Link, l = Rs.map Key.root := by
  intro l
  induction l with
  | nil => intro _; exact ⟨[], rfl⟩
  | cons k l ih =>
    intro h
    obtain ⟨R, hR⟩ := h k (by simp)
    obtain ⟨Rs, hRs⟩ := ih (fun k' hk' => h k' (by simp [hk']))
    exact ⟨R :: Rs, by simp [hR, hRs]⟩

theorem step_capOK {ls ls' : CachedEntriesChunker} (h : CapOK ls.cache.MaxEntries ls)
    (hmax : 1 ≤ ls.cache.MaxEntries) (e : Event) (hv : e.valid = true)
    (hs : e.step ls = some ls') :
    CapOK ls'.cache.MaxEntries ls' ∧ 1 ≤ ls'.cache.MaxEntries := by
  cases e with
  | call c =>
    simp only [Event.step] at hs
    split at hs
    · simp only [Option.some.injEq] at hs
      subst hs
      have := exec_capOK hmax h c
      rw [this.1]
      exact ⟨this, hmax⟩
    · simp at hs
  | reopen cs cap picks =>
    simp only [Event.valid, decide_eq_true_eq] at hv
    simp only [Event.step, NewCachedEntriesChunker] at hs
    have h1 := restoreCache_capOK hv
      (show CapOK cap ⟨ls.ds, cs, ⟨cap, []⟩, none⟩ from
        ⟨rfl, by simp only [List.length_nil, Nat.cast_zero]; omega⟩) picks
    cases hr : restoreCache ⟨ls.ds, cs, ⟨cap, []⟩, none⟩ picks with
    | mk err ls1 =>
      rw [hr] at hs h1
      cases err with
      | some e => simp at hs
      | none =>
        simp only [Option.some.injEq] at hs
        subst hs
        rw [h1.1]
        exact ⟨h1, hv⟩

theorem run_capOK (es : List Event) :
    ∀ {ls ls' : CachedEntriesChunker}, CapOK ls.cache.MaxEntries ls →
      1 ≤ ls.cache.MaxEntries → (∀ e ∈ es, e.valid = true) → run es ls = some ls' →
      CapOK ls'.cache.MaxEntries ls' := by
  induction es with
  | nil =>
    intro ls ls' h _ _ hr
    simp only [run, Option.some.injEq] at hr
    subst hr
    exact h
  | cons e es ih =>
    intro ls ls' h hmax hv hr
    simp only [run] at hr
    cases hs : e.step ls with
    | none => simp [hs] at hr
    | some ls1 =>
      rw [hs] at hr
      obtain ⟨h1, h2⟩ := step_capOK h hmax e (hv e (by simp)) hs
      exact ih h1 h2 (fun e' he' => hv e' (by simp [he'])) hr

theorem reached_capOK {cs cap : Int} {picks : List Nat} {es : List Event}
    {ls : CachedEntriesChunker} (hcap : 1 ≤ cap) (hv : ∀ e ∈ es, e.valid = true)
    (h : Reached cs cap picks es ls) : (ls.cache.ll.length : Int) ≤ ls.cache.MaxEntries := by
  obtain ⟨ls0, h0, hr⟩ := h
  rw [New_empty] at h0
  simp only [Except.ok.injEq] at h0
  subst h0
  have h1 : CapOK (newCache cs cap).cache.MaxEntries (newCache cs cap) :=
    ⟨rfl, by simp only [newCache, List.length_nil, Nat.cast_zero]; omega⟩
  exact (run_capOK es h1 hcap hv hr).2

theorem New_same {K : Nat} {ls : CachedEntriesChunker} (h : Inv K ls)
    (hcap : (ls.cache.ll.length : Int) ≤ ls.cache.MaxEntries) (hne : ls.cache.ll ≠ [])
    (cs' : Int) (picks' : List Nat) :
    ∃ Rs : List Link, Rs.Nodup ∧ (∀ R, R ∈ Rs ↔ some R ∈ ls.cache.ll.map Prod.fst) ∧
      Rs.length = ls.cache.ll.length ∧
      NewCachedEntriesChunker ls.ds cs' ls.cache.MaxEntries picks' =
        .ok ⟨ls.ds, cs', ⟨ls.cache.MaxEntries, Rs.reverse.map (fun R => (some R, R.chain))⟩,
          none⟩ := by
  have hI := h
  obtain ⟨⟨s, fl⟩, cs, ⟨max, c⟩, err⟩ := ls
  obtain ⟨hr, hn, hK, hw, hs, hl⟩ := h
  simp only at hr hn hw hs hl hcap hne
  subst hr hn
  have hmem : ∀ k ∈ rangeOrder picks' ((s.map Prod.fst).filter underRoot),
      ∃ R, k = Key.root R := by
    intro k hk
    have hk' := (rangeOrder_perm picks' _).mem_iff.1 hk
    rw [List.mem_filter] at hk'
    obtain ⟨hks, hu⟩ := hk'
    cases k with
    | root R => exact ⟨R, rfl⟩
    | rootRaw n =>
      exfalso
      exact (lookup_eq_none_iff s _).1 (hw.junk n).1 hks
    | chunk L => simp [underRoot] at hu
    | overlap L => simp [underRoot] at hu
    | other n => simp [underRoot] at hu
  obtain ⟨Rs, hRs⟩ := roots_of_keys _ hmem
  have hkn : (rangeOrder picks' ((s.map Prod.fst).filter underRoot)).Nodup :=
    (rangeOrder_perm picks' _).nodup_iff.2 (hw.nodup.filter _)
  have hnd : Rs.Nodup := by
    rw [hRs] at hkn
    exact List.Nodup.of_map _ hkn
  have hiff : ∀ R, R ∈ Rs ↔ some R ∈ c.map Prod.fst := by
    intro R
    have e1 : R ∈ Rs ↔ Key.root R ∈ rangeOrder picks' ((s.map Prod.fst).filter underRoot) := by
      rw [hRs, List.mem_map]
      constructor
      · intro hR; exact ⟨R, hR, rfl⟩
      · rintro ⟨X, hX, hXR⟩
        simp only [Key.root.injEq] at hXR
        exact hXR ▸ hX
    rw [e1, (rangeOrder_perm picks' _).mem_iff, List.mem_filter]
    constructor
    · rintro ⟨hks, _⟩
      apply hl.marker R
      intro h0
      exact (lookup_eq_none_iff s _).1 h0 hks
    · intro hR
      obtain ⟨e, he, hk⟩ := List.mem_map.1 hR
      obtain ⟨X, hX, _, hm⟩ := hl.entry e he
      rw [hk] at hX
      simp only [Option.some.injEq] at hX
      subst hX
      refine ⟨?_, rfl⟩
      by_contra hks
      exact hm ((lookup_eq_none_iff s _).2 hks)
  have hpres : ∀ R ∈ Rs, ∀ X ∈ R.chain,
      lookup s (.chunk X) = some (.node X.entries X.next) := by
    intro R hR X hX
    obtain ⟨e, he, hk⟩ := List.mem_map.1 ((hiff R).1 hR)
    obtain ⟨R0, hR0, hperm, _⟩ := hl.entry e he
    rw [hk] at hR0
    simp only [Option.some.injEq] at hR0
    subst hR0
    exact Inv.chunk_present hI he (hperm.mem_iff.2 hX)
  have hlen : Rs.length = c.length := by
    have hp : (Rs.map some).Perm (c.map Prod.fst) := by
      rw [List.perm_ext_iff_of_nodup (hnd.map (Option.some_injective _)) hl.nodup]
      intro k
      cases k with
      | none =>
        constructor
        · intro hk; simp at hk
        · intro hk
          obtain ⟨e, he, hk'⟩ := List.mem_map.1 hk
          exact absurd hk' (hl.key_ne_none e he)
      | some R =>
        rw [← hiff R]
        simp
    have := hp.length_eq
    simpa using this
  have hpos : Rs.length ≠ 0 := by
    rw [hlen]
    intro h0
    exact hne (List.length_eq_zero.1 h0)
  refine ⟨Rs, hnd, hiff, hlen, ?_⟩
  simp only [NewCachedEntriesChunker, restoreCache, query_reliable]
  rw [hRs, restoreRoots_keep s cs' max Rs 0 [] hpres hnd (by simp)
    (by simp only [List.length_nil, Nat.zero_add]; rw [hlen]; exact hcap)]
  simp [hpos]

/-- C13. Round trip after restart: in every state reached from a construction over the empty
reliable store by a history of successful calls and restarts (every capacity at least 1, fewer
than 2^64 events, the range of the overlap counters) that leaves at least one chain cached,
the construction of a new cache with the same capacity over the same store, for every chunk
size and every enumeration order, succeeds and leaves the store as it is; the keys of the new
LRU index are those of the old one, none twice and as many as before, and every entry of the
new index maps its root to the links of the chain of that root, as the entries of the old index
do up to the order of the list. -/
theorem C13_restart_round_trip (chunkSize capacity : Int) (picks : List Nat) (es : List Event)
    (ls : CachedEntriesChunker) (hcap : 1 ≤ capacity) (hv : ∀ e ∈ es, e.valid = true)
    (hlen : es.length < 2 ^ 64) (h : Reached chunkSize capacity picks es ls)
    (hne : ls.cache.ll ≠ []) (chunkSize' : Int) (picks' : List Nat) :
    ∃ ls', NewCachedEntriesChunker ls.ds chunkSize' (Cap ls) picks' = .ok ls' ∧
      ls'.ds = ls.ds ∧
      (∀ k, k ∈ ls'.cache.ll.map Prod.fst ↔ k ∈ ls.cache.ll.map Prod.fst) ∧
      (ls'.cache.ll.map Prod.fst).Nodup ∧ Len ls' = Len ls ∧ Cap ls' = Cap ls ∧
      (∀ e ∈ ls'.cache.ll, ∃ R, e.1 = some R ∧ e.2 = R.chain) ∧
      (∀ e ∈ ls.cache.ll, ∃ R, e.1 = some R ∧ e.2.Perm R.chain) := by
  obtain ⟨hi, _⟩ := reached_inv hcap hv hlen h
  have hc := reached_capOK hcap hv h
  obtain ⟨Rs, hnd, hiff, hl, hnew⟩ := New_same hi hc hne chunkSize' picks'
  refine ⟨_, hnew, rfl, ?_, ?_, ?_, rfl, ?_, ?_⟩
  · intro k
    simp only [List.map_map, List.mem_map, List.mem_reverse, Function.comp]
    constructor
    · rintro ⟨R, hR, rfl⟩
      exact List.mem_map.1 ((hiff R).1 hR)
    · rintro ⟨e, he, rfl⟩
      obtain ⟨R, hR, _, _⟩ := hi.lru.entry e he
      refine ⟨R, (hiff R).2 (List.mem_map.2 ⟨e, he, hR⟩), hR.symm⟩
  · simp only [List.map_map]
    have : (Rs.reverse.map some).Nodup :=
      (List.nodup_reverse.2 hnd).map (Option.some_injective _)
    exact this
  · simp [Len, hl]
  · intro e he
    simp only [List.mem_map, List.mem_reverse] at he
    obtain ⟨R, _, rfl⟩ := he
    exact ⟨R, rfl, rfl⟩
  · intro e he
    obtain ⟨R, hR, hp, _⟩ := hi.lru.entry e he
    exact ⟨R, hR, hp⟩

theorem C13_restart_round_trip_witness :
    ((1 : Int) ≤ 2 ∧ (∀ e ∈ restartHistory, e.valid = true) ∧ restartHistory.length < 2 ^ 64 ∧
      Reached 3 2 [] restartHistory restartCache ∧ restartCache.cache.ll ≠ []) ∧
    ∃ ls', NewCachedEntriesChunker restartCache.ds 5 (Cap restartCache) [1] = .ok ls' ∧
      ls'.ds = restartCache.ds ∧
      (∀ k, k ∈ ls'.cache.ll.map Prod.fst ↔ k ∈ restartCache.cache.ll.map Prod.fst) ∧
      (ls'.cache.ll.map Prod.fst).Nodup ∧ Len ls' = Len restartCache ∧
      Cap ls' = Cap restartCache ∧
      (∀ e ∈ ls'.cache.ll, ∃ R, e.1 = some R ∧ e.2 = R.chain) ∧
      (∀ e ∈ restartCache.cache.ll, ∃ R, e.1 = some R ∧ e.2.Perm R.chain) :=
  ⟨⟨by decide, by decide, by decide, ⟨newCache 3 2, rfl, rfl⟩, by decide⟩,
    C13_restart_round_trip 3 2 [] restartHistory restartCache (by decide) (by decide)
      (by decide) ⟨newCache 3 2, rfl, rfl⟩ (by decide) 5 [1]⟩

/-! ## The failure schedule along a computation -/

theorem Step.refl (ds : Datastore) (ok : Bool) : Step ds ds ok :=
  ⟨⟨[], by simp, by simp⟩, fun h => h⟩

theorem Step.weaken {ds ds' : Datastore} {ok : Bool} (h : Step ds ds' ok) :
    Step ds ds' false := by
  obtain ⟨⟨u, h1, _⟩, w⟩ := h
  exact ⟨⟨u, h1, by simp⟩, w⟩

theorem Step.trans {a b c : Datastore} {ok : Bool} (h1 : Step a b true) (h2 : Step b c ok) :
    Step a c ok := by
  obtain ⟨⟨u1, e1, f1⟩, w1⟩ := h1
  obtain ⟨⟨u2, e2, f2⟩, w2⟩ := h2
  refine ⟨⟨u1 ++ u2, by rw [e1, e2, List.append_assoc], ?_⟩, fun h => w2 (w1 h)⟩
  intro hok b hb
  rcases List.mem_append.1 hb with hb | hb
  · exact f1 rfl b hb
  · exact f2 hok b hb

theorem Step.trans_false {a b c : Datastore} {o1 o2 : Bool} (h1 : Step a b o1)
    (h2 : Step b c o2) : Step a c false := by
  obtain ⟨⟨u1, e1, _⟩, w1⟩ := h1
  obtain ⟨⟨u2, e2, _⟩, w2⟩ := h2
  exact ⟨⟨u1 ++ u2, by rw [e1, e2, List.append_assoc], by simp⟩, fun h => w2 (w1 h)⟩

theorem step_write (ds : Datastore) (d : List (Key × Value)) (h : WFc ds.data → WFc d) :
    Step ds ⟨d, ds.faults.tail⟩ (!ds.failing) := by
  refine ⟨?_, h⟩
  obtain ⟨s, fl⟩ := ds
  cases fl with
  | nil => exact ⟨[], by simp, by simp⟩
  | cons b t =>
    refine ⟨[b], by simp, ?_⟩
    intro hb x hx
    simp only [Datastore.failing, List.headD_cons, Bool.not_eq_true'] at hb
    simp only [List.mem_singleton] at hx
    rw [hx, hb]

theorem step_write_ok {ds : Datastore} (hf : ¬ ds.failing = true) (d : List (Key × Value))
    (h : WFc ds.data → WFc d) : Step ds ⟨d, ds.faults.tail⟩ true := by
  have := step_write ds d h
  simpa [hf] using this

theorem step_spend_ok {ds : Datastore} (hf : ¬ ds.failing = true) : Step ds ds.spend true :=
  step_write_ok hf ds.data (fun h => h)

theorem step_spend (ds : Datastore) : Step ds ds.spend false :=
  (step_write ds ds.data (fun h => h)).weaken

theorem step_delete (ds : Datastore) (k : Key) :
    Step ds (ds.Delete k).2 (ds.Delete k).1.isNone := by
  unfold Datastore.Delete
  by_cases hf : ds.failing = true
  · rw [if_pos hf]
    exact step_spend ds
  · rw [if_neg hf]
    exact step_write_ok hf _ (fun h => wfc_remove h k)

theorem step_put (ds : Datastore) (k : Key) (v : Value)
    (h : WFc ds.data → WFc (insert ds.data k v)) :
    Step ds (ds.Put k v).2 (ds.Put k v).1.isNone := by
  unfold Datastore.Put
  by_cases hf : ds.failing = true
  · rw [if_pos hf]
    exact step_spend ds
  · rw [if_neg hf]
    exact step_write_ok hf _ h

theorem step_sync (ds : Datastore) : Step ds ds.Sync.2 ds.Sync.1.isNone := by
  unfold Datastore.Sync
  by_cases hf : ds.failing = true
  · rw [if_pos hf]
    exact step_spend ds
  · rw [if_neg hf]
    exact step_spend_ok hf

theorem get_failing {ds : Datastore} (hf : ds.failing = true) (k : Key) :
    ds.Get k = (.error .store, ds.spend) := by
  simp [Datastore.Get, hf]

theorem get_working {ds : Datastore} (hf : ¬ ds.failing = true) (k : Key) :
    ds.Get k = (match lookup ds.data k with
      | none => .error .notFound
      | some v => .ok v, ds.spend) := by
  unfold Datastore.Get
  rw [if_neg hf]
  cases lookup ds.data k <;> rfl

theorem step_countOverlap (ds : Datastore) (L : Link) :
    Step ds (countOverlap ds L).2 (countOverlap ds L).1.isOk := by
  unfold countOverlap
  by_cases hf : ds.failing = true
  · rw [get_failing hf]
    exact step_spend ds
  · rw [get_working hf]
    cases hl : lookup ds.data (.overlap L) with
    | none => exact step_spend_ok hf
    | some v =>
      simp only
      cases v.counter with
      | none => exact step_spend ds
      | some c => exact step_spend_ok hf

theorem wfc_withCounter {s : List (Key × Value)} {L : Link} {v : Value}
    (hl : lookup s (.overlap L) = some v) (n : Nat) (hn : n < 2 ^ 64) (h : WFc s) :
    WFc (insert s (.overlap L) (v.withCounter n)) := by
  obtain ⟨m, _, rfl⟩ := h L v hl
  rw [withCounter_putUint64]
  exact wfc_insert_overlap h L n hn

theorem step_decrementOverlap (ds : Datastore) (L : Link) :
    Step ds (decrementOverlap ds L).2 (decrementOverlap ds L).1.isNone := by
  unfold decrementOverlap
  by_cases hf : ds.failing = true
  · rw [get_failing hf]
    exact step_spend ds
  · rw [get_working hf]
    cases hl : lookup ds.data (.overlap L) with
    | none => exact step_spend_ok hf
    | some v =>
      simp only
      cases v.counter with
      | none => exact step_spend ds
      | some c =>
        simp only
        split
        · exact (step_spend_ok hf).trans (step_delete _ _)
        · exact (step_spend_ok hf).trans
            (step_put _ _ _ (wfc_withCounter hl _ (Nat.mod_lt _ (by norm_num))))

theorem step_incrementOverlap (ds : Datastore) (L : Link) :
    Step ds (incrementOverlap ds L).2 (incrementOverlap ds L).1.isNone := by
  unfold incrementOverlap
  by_cases hf : ds.failing = true
  · rw [get_failing hf]
    exact step_spend ds
  · rw [get_working hf]
    cases hl : lookup ds.data (.overlap L) with
    | none =>
      exact (step_spend_ok hf).trans
        (step_put _ _ _ (fun h => wfc_insert_overlap h L 1 (by norm_num)))
    | some v =>
      simp only
      cases v.counter with
      | none => exact step_spend ds
      | some c =>
        exact (step_spend_ok hf).trans
          (step_put _ _ _ (wfc_withCounter hl _ (Nat.mod_lt _ (by norm_num))))

theorem step_storageWriteCommit (ds : Datastore) (L : Link) (buf : Value) :
    Step ds (storageWriteCommit ds L buf).2 (storageWriteCommit ds L buf).1.isNone := by
  unfold storageWriteCommit Datastore.Has
  by_cases hf : ds.failing = true
  · rw [if_pos hf]
    exact step_spend ds
  · rw [if_neg hf]
    cases (lookup ds.data (.chunk L)).isSome with
    | true => exact (step_spend_ok hf).trans (step_incrementOverlap _ _)
    | false =>
      exact (step_spend_ok hf).trans
        (step_put _ _ _ (fun h => wfc_insert_other h _ _ (by intro L'; simp)))

theorem step_lsysStore (ds : Datastore) (mhs : List Digest) (next : Option Link) :
    Step ds (lsysStore ds mhs next).2 (lsysStore ds mhs next).1.2.isNone := by
  unfold lsysStore
  exact step_storageWriteCommit ds _ _

theorem step_chunkLoop (cs : Int) (mhi : List Digest) :
    ∀ (mhs : List Digest) (next : Option Link) (cl : List Link) (ds : Datastore),
      Step ds (chunkLoop cs mhi mhs next cl ds).2 (chunkLoop cs mhi mhs next cl ds).1.isOk := by
  induction mhi with
  | nil => intro mhs next cl ds; exact Step.refl ds _
  | cons mh rest ih =>
    intro mhs next cl ds
    simp only [chunkLoop]
    split
    · have h := step_lsysStore ds (mhs ++ [mh]) next
      cases hs : lsysStore ds (mhs ++ [mh]) next with
      | mk r ds1 =>
        obtain ⟨l, err⟩ := r
        rw [hs] at h
        cases err with
        | some e => exact h
        | none => exact Step.trans h (ih _ _ _ _)
    · exact ih _ _ _ _

theorem step_evictLinks (links : List Link) :
    ∀ ds : Datastore, Step ds (evictLinks links ds).2 (evictLinks links ds).1.isNone := by
  induction links with
  | nil => intro ds; exact Step.refl ds _
  | cons L links ih =>
    intro ds
    simp only [evictLinks]
    have h := step_countOverlap ds L
    cases hc : countOverlap ds L with
    | mk r ds1 =>
      rw [hc] at h
      cases r with
      | error e => exact h
      | ok count =>
        simp only
        split
        · have hd := step_delete ds1 (.chunk L)
          cases hx : ds1.Delete (.chunk L) with
          | mk e ds2 =>
            rw [hx] at hd
            cases e with
            | some e => exact Step.trans h hd
            | none => exact Step.trans h (Step.trans hd (ih ds2))
        · have hd := step_decrementOverlap ds1 L
          cases hx : decrementOverlap ds1 L with
          | mk e ds2 =>
            rw [hx] at hd
            cases e with
            | some e => exact Step.trans h hd
            | none => exact Step.trans h (Step.trans hd (ih ds2))

/-! ## The failure schedule along the eviction handler, `Clear` and `Chunk` -/

theorem Step.of_true {a b : Datastore} (ok : Bool) (h : Step a b true) : Step a b ok := by
  cases ok with
  | true => exact h
  | false => exact h.weaken

theorem step_onEvicted (ls : CachedEntriesChunker) (k : Option Link) (v : List Link) :
    Step ls.ds (onEvicted ls k v).2.ds
        (!(onEvicted ls k v).1 && (onEvicted ls k v).2.onEvictedErr.isNone) ∧
      ((onEvicted ls k v).2.onEvictedErr = none → ls.onEvictedErr = none) := by
  cases k with
  | none => exact ⟨Step.refl _ _, fun h => by simp [onEvicted] at h⟩
  | some R =>
    simp only [onEvicted]
    have h := step_evictLinks v ls.ds
    cases he : evictLinks v ls.ds with
    | mk err ds1 =>
      rw [he] at h
      cases err with
      | some e =>
        cases e <;>
          first
          | exact ⟨h.weaken, fun h' => h'⟩
          | exact ⟨h.weaken, fun h' => by simp at h'⟩
      | none =>
        simp only
        have hd := step_delete ds1 (.root R)
        cases hx : ds1.Delete (.root R) with
        | mk e ds2 =>
          rw [hx] at hd
          cases e with
          | some e => exact ⟨(Step.trans h hd).weaken, fun h' => by simp at h'⟩
          | none => exact ⟨Step.of_true _ (Step.trans h hd), fun h' => h'⟩

theorem step_evictEach (es : List (Option Link × List Link)) :
    ∀ ls : CachedEntriesChunker,
      Step ls.ds (evictEach es ls).2.ds
          (!(evictEach es ls).1 && (evictEach es ls).2.onEvictedErr.isNone) ∧
        ((evictEach es ls).2.onEvictedErr = none → ls.onEvictedErr = none) := by
  induction es with
  | nil => intro ls; exact ⟨Step.refl _ _, fun h => h⟩
  | cons e es ih =>
    intro ls
    obtain ⟨k, v⟩ := e
    simp only [evictEach]
    have h1 := step_onEvicted ls k v
    cases ho : onEvicted ls k v with
    | mk p ls1 =>
      rw [ho] at h1
      cases p with
      | true => exact ⟨h1.1.weaken, h1.2⟩
      | false =>
        simp only
        obtain ⟨i1, i2⟩ := ih ls1
        refine ⟨?_, fun h => h1.2 (i2 h)⟩
        cases hb : (!(evictEach es ls1).1 && (evictEach es ls1).2.onEvictedErr.isNone) with
        | false => exact Step.trans_false h1.1 i1
        | true =>
          rw [hb] at i1
          simp only [Bool.and_eq_true, Bool.not_eq_true', Option.isNone_iff_eq_none] at hb
          have h0 := i2 hb.2
          have h2 := h1.1
          simp only [h0, Bool.not_false, Option.isNone_none, Bool.and_self] at h2
          exact Step.trans h2 i1

theorem step_cacheClear (ls : CachedEntriesChunker) (picks : List Nat) :
    Step ls.ds (cacheClear ls picks).2.ds
      (!(cacheClear ls picks).1 && (cacheClear ls picks).2.onEvictedErr.isNone) := by
  unfold cacheClear
  have h := (step_evictEach (rangeOrder picks ls.cache.ll) ls).1
  cases he : evictEach (rangeOrder picks ls.cache.ll) ls with
  | mk p ls1 =>
    rw [he] at h
    cases p with
    | true => exact h
    | false => exact h

theorem step_cacheAdd (ls : CachedEntriesChunker) (key : Option Link) (value : List Link) :
    Step ls.ds (cacheAdd ls key value).2.ds
      (!(cacheAdd ls key value).1 && (cacheAdd ls key value).2.onEvictedErr.isNone) := by
  unfold cacheAdd
  split
  · exact Step.refl _ _
  · simp only
    split
    · unfold removeOldest
      simp only
      split
      · exact Step.refl _ _
      · rename_i k v _
        exact (step_onEvicted ⟨ls.ds, ls.chunkSize,
          ⟨ls.cache.MaxEntries, ((key, value) :: ls.cache.ll).dropLast⟩, ls.onEvictedErr⟩ k v).1
    · exact Step.refl _ _

theorem performOnCache_ok (ls : CachedEntriesChunker)
    (action : CachedEntriesChunker → Bool × CachedEntriesChunker) :
    (performOnCache ls action).1.isNone =
        (!(action ls).1 && (action ls).2.onEvictedErr.isNone) ∧
      (performOnCache ls action).2.ds = (action ls).2.ds ∧
      (performOnCache ls action).2.onEvictedErr = none := by
  unfold performOnCache
  cases h : action ls with
  | mk b ls1 => cases b <;> simp

theorem step_Clear (ls : CachedEntriesChunker) (picks : List Nat) :
    Step ls.ds (Clear ls picks).2.ds (Clear ls picks).1.isNone := by
  unfold Clear
  obtain ⟨h1, h2, _⟩ := performOnCache_ok ls (fun ls => cacheClear ls picks)
  rw [h1, h2]
  exact step_cacheClear ls picks

theorem sync_spend (ds : Datastore) : ds.Sync.2 = ds.spend := by
  unfold Datastore.Sync
  split <;> rfl

theorem step_publish (ls : CachedEntriesChunker) (next : Option Link) (links : List Link) :
    Step ls.ds (publish ls next links).2.ds (publish ls next links).1.2.isNone ∧
      (∀ R, (publish ls next links).1.1 = some R →
        ∃ dsb, Step ls.ds dsb true ∧ (publish ls next links).2.ds = dsb.spend) := by
  unfold publish
  obtain ⟨h1, h2, _⟩ := performOnCache_ok ls (fun ls => cacheAdd ls next links)
  have ha := step_cacheAdd ls next links
  rw [← h1, ← h2] at ha
  cases hp : performOnCache ls (fun ls => cacheAdd ls next links) with
  | mk err ls1 =>
    rw [hp] at ha
    cases err with
    | some e => exact ⟨ha, fun R h => by simp at h⟩
    | none =>
      simp only
      cases next with
      | none => exact ⟨ha.weaken, fun R h => by simp at h⟩
      | some root =>
        simp only
        have hput := step_put ls1.ds (.root root) (.raw [])
          (fun h => wfc_insert_other h _ _ (by intro L'; simp))
        cases hx : ls1.ds.Put (.root root) (.raw []) with
        | mk e ds2 =>
          rw [hx] at hput
          cases e with
          | some e => exact ⟨Step.trans ha hput, fun R h => by simp at h⟩
          | none =>
            simp only
            have hs := step_sync ds2
            exact ⟨Step.trans (Step.trans ha hput) hs,
              fun R _ => ⟨ds2, Step.trans ha hput, sync_spend ds2⟩⟩

theorem step_Chunk (ls : CachedEntriesChunker) (mhi : List Digest) :
    Step ls.ds (Chunk ls mhi).2.ds (Chunk ls mhi).1.2.isNone ∧
      (∀ R, (Chunk ls mhi).1.1 = some R →
        ∃ dsb, Step ls.ds dsb true ∧ (Chunk ls mhi).2.ds = dsb.spend) := by
  unfold Chunk
  split
  · exact ⟨Step.refl _ _, fun R h => by simp at h⟩
  · have hl := step_chunkLoop ls.chunkSize mhi [] none [] ls.ds
    cases hc : chunkLoop ls.chunkSize mhi [] none [] ls.ds with
    | mk r ds1 =>
      rw [hc] at hl
      cases r with
      | error e => exact ⟨hl, fun R h => by simp at h⟩
      | ok res =>
        obtain ⟨mhs, next, cl⟩ := res
        simp only
        split
        · have hs := step_lsysStore ds1 mhs next
          cases hx : lsysStore ds1 mhs next with
          | mk r2 ds2 =>
            obtain ⟨l, err⟩ := r2
            rw [hx] at hs
            cases err with
            | some e => exact ⟨Step.trans hl hs, fun R h => by simp at h⟩
            | none =>
              simp only
              obtain ⟨p1, p2⟩ := step_publish { ls with ds := ds2 } (some l) (cl ++ [l])
              refine ⟨Step.trans (Step.trans hl hs) p1, fun R h => ?_⟩
              obtain ⟨dsb, q1, q2⟩ := p2 R h
              exact ⟨dsb, Step.trans (Step.trans hl hs) q1, q2⟩
        · obtain ⟨p1, p2⟩ := step_publish { ls with ds := ds1 } next cl
          refine ⟨Step.trans hl p1, fun R h => ?_⟩
          obtain ⟨dsb, q1, q2⟩ := p2 R h
          exact ⟨dsb, Step.trans hl q1, q2⟩

theorem usedFaults_of_step {ds ds' : Datastore} {ok : Bool} (h : Step ds ds' ok) :
    ds.faults = usedFaults ds ds' ++ ds'.faults ∧
      (ok = true → ∀ b ∈ usedFaults ds ds', b = false) := by
  obtain ⟨⟨u, e, f⟩, _⟩ := h
  have hu : usedFaults ds ds' = u := by
    unfold usedFaults
    rw [e]
    simp
  rw [hu]
  exact ⟨e, f⟩

/-! ## What stays true between calls, whatever they return -/

theorem onEvicted_chunkSize (ls : CachedEntriesChunker) (k : Option Link) (v : List Link) :
    (onEvicted ls k v).2.chunkSize = ls.chunkSize := by
  unfold onEvicted
  cases k with
  | none => rfl
  | some R =>
    simp only
    split
    · rfl
    · rfl
    · split <;> rfl

theorem evictEach_chunkSize (es : List (Option Link × List Link)) :
    ∀ ls : CachedEntriesChunker, (evictEach es ls).2.chunkSize = ls.chunkSize := by
  induction es with
  | nil => intro ls; rfl
  | cons e es ih =>
    intro ls
    obtain ⟨k, v⟩ := e
    simp only [evictEach]
    have h1 := onEvicted_chunkSize ls k v
    cases h : onEvicted ls k v with
    | mk b ls1 =>
      rw [h] at h1
      cases b with
      | true => exact h1
      | false =>
        simp only
        rw [ih ls1]
        exact h1

theorem cacheAdd_chunkSize (ls : CachedEntriesChunker) (key : Option Link) (value : List Link) :
    (cacheAdd ls key value).2.chunkSize = ls.chunkSize := by
  unfold cacheAdd
  split
  · rfl
  · simp only
    split
    · unfold removeOldest
      simp only
      split
      · rfl
      · rename_i k v _
        rw [onEvicted_chunkSize]
    · rfl

theorem performOnCache_chunkSize (ls : CachedEntriesChunker)
    (action : CachedEntriesChunker → Bool × CachedEntriesChunker) :
    (performOnCache ls action).2.chunkSize = (action ls).2.chunkSize := by
  unfold performOnCache
  cases h : action ls with
  | mk b ls1 => cases b <;> rfl

theorem Clear_chunkSize (ls : CachedEntriesChunker) (picks : List Nat) :
    (Clear ls picks).2.chunkSize = ls.chunkSize := by
  unfold Clear
  rw [performOnCache_chunkSize]
  unfold cacheClear
  have hc := evictEach_chunkSize (rangeOrder picks ls.cache.ll) ls
  cases he : evictEach (rangeOrder picks ls.cache.ll) ls with
  | mk p ls1 =>
    rw [he] at hc
    cases p <;> exact hc

theorem cacheAdd_keys (ls : CachedEntriesChunker) (key : Option Link) (value : List Link)
    (hk : ∀ e ∈ ls.cache.ll, e.1 ≠ none) (hkey : key ≠ none) :
    ∀ e ∈ (cacheAdd ls key value).2.cache.ll, e.1 ≠ none := by
  have hall : ∀ e ∈ (key, value) :: ls.cache.ll, e.1 ≠ none := by
    intro e he
    rcases List.mem_cons.1 he with rfl | he
    · exact hkey
    · exact hk e he
  unfold cacheAdd
  split
  · intro e he
    rcases List.mem_cons.1 he with rfl | he
    · exact hkey
    · exact hk e (List.mem_of_mem_filter he)
  · simp only
    split
    · unfold removeOldest
      simp only
      split
      · exact hall
      · rename_i k v _
        rw [onEvicted_cache]
        intro e he
        exact hall e (List.mem_of_mem_dropLast he)
    · exact hall

theorem publish_state (ls : CachedEntriesChunker) (next : Option Link) (links : List Link) :
    (publish ls next links).2.cache = (cacheAdd ls next links).2.cache ∧
      (publish ls next links).2.onEvictedErr = none ∧
      (publish ls next links).2.chunkSize = (cacheAdd ls next links).2.chunkSize := by
  unfold publish performOnCache
  beta_reduce
  cases h : cacheAdd ls next links with
  | mk b ls1 =>
    cases b with
    | true => exact ⟨rfl, rfl, rfl⟩
    | false =>
      simp only
      cases he : ls1.onEvictedErr with
      | some e => exact ⟨rfl, rfl, rfl⟩
      | none =>
        simp only
        cases next with
        | none => exact ⟨rfl, rfl, rfl⟩
        | some root =>
          simp only
          split
          · exact ⟨rfl, rfl, rfl⟩
          · exact ⟨rfl, rfl, rfl⟩

theorem Chunk_settled {ls : CachedEntriesChunker} (h : Settled ls) {mhi : List Digest}
    (hm : mhi ≠ []) : Settled (Chunk ls mhi).2 := by
  refine ⟨?_, (step_Chunk ls mhi).1.2 h.wfc, ?_⟩
  · unfold Chunk
    split
    · exact h.noErr
    · cases hc : chunkLoop ls.chunkSize mhi [] none [] ls.ds with
      | mk r ds1 =>
        cases r with
        | error e => exact h.noErr
        | ok res =>
          obtain ⟨mhs, next, cl⟩ := res
          simp only
          split
          · cases hx : lsysStore ds1 mhs next with
            | mk r2 ds2 =>
              obtain ⟨l, err⟩ := r2
              cases err with
              | some e => exact h.noErr
              | none => exact (publish_state _ _ _).2.1
          · exact (publish_state _ _ _).2.1
  · unfold Chunk
    split
    · exact h.keys
    · cases hc : chunkLoop ls.chunkSize mhi [] none [] ls.ds with
      | mk r ds1 =>
        cases r with
        | error e => exact h.keys
        | ok res =>
          obtain ⟨mhs, next, cl⟩ := res
          simp only
          split
          · cases hx : lsysStore ds1 mhs next with
            | mk r2 ds2 =>
              obtain ⟨l, err⟩ := r2
              cases err with
              | some e => exact h.keys
              | none =>
                simp only
                rw [(publish_state _ _ _).1]
                exact cacheAdd_keys _ _ _ h.keys (by simp)
          · rename_i hlen
            rw [(publish_state _ _ _).1]
            refine cacheAdd_keys _ _ _ h.keys ?_
            have hr := (chunkLoop_root ls.chunkSize mhi [] none [] ls.ds ds1 mhs next cl hc).1
            rw [if_neg hlen] at hr
            rw [← hr]
            exact rootOf_ne_none _ _ _ _ (Or.inl hm)

theorem Clear_settled {ls : CachedEntriesChunker} (h : Settled ls) (picks : List Nat) :
    Settled (Clear ls picks).2 := by
  refine ⟨?_, (step_Clear ls picks).2 h.wfc, ?_⟩
  · exact (performOnCache_ok ls (fun ls => cacheClear ls picks)).2.2
  · unfold Clear
    rw [performOnCache_cache]
    unfold cacheClear
    have hc := evictEach_cache (rangeOrder picks ls.cache.ll) ls
    cases he : evictEach (rangeOrder picks ls.cache.ll) ls with
    | mk p ls1 =>
      rw [he] at hc
      cases p with
      | true =>
        simp only at hc ⊢
        rw [hc]
        exact h.keys
      | false => intro e he'; simp at he'

theorem getRaw_state (ls : CachedEntriesChunker) (l : Link) :
    (GetRawCachedChunk ls l).2 = { ls with ds := ls.ds.spend } := by
  unfold GetRawCachedChunk
  have h := get_data ls.ds (.chunk l)
  cases hg : ls.ds.Get (.chunk l) with
  | mk r ds1 =>
    rw [hg] at h
    simp only at h
    subst h
    cases r with
    | error e => cases e <;> rfl
    | ok v => rfl

theorem close_state (ls : CachedEntriesChunker) : (Close ls).2 = { ls with ds := ls.ds.spend } := by
  unfold Close
  rw [← sync_spend]

theorem exec_settled {ls : CachedEntriesChunker} (h : Settled ls) (c : Call)
    (hc : c ≠ .chunk []) : Settled (c.exec ls) ∧ (c.exec ls).chunkSize = ls.chunkSize := by
  cases c with
  | chunk mhi =>
    refine ⟨Chunk_settled h (fun e => hc (by rw [e])), ?_⟩
    simp only [Call.exec]
    unfold Chunk
    split
    · rfl
    · cases hc : chunkLoop ls.chunkSize mhi [] none [] ls.ds with
      | mk r ds1 =>
        cases r with
        | error e => rfl
        | ok res =>
          obtain ⟨mhs, next, cl⟩ := res
          simp only
          split
          · cases hx : lsysStore ds1 mhs next with
            | mk r2 ds2 =>
              obtain ⟨l, err⟩ := r2
              cases err with
              | some e => rfl
              | none =>
                simp only
                rw [(publish_state _ _ _).2.2, cacheAdd_chunkSize]
          · rw [(publish_state _ _ _).2.2, cacheAdd_chunkSize]
  | clear picks =>
    refine ⟨Clear_settled h picks, ?_⟩
    exact Clear_chunkSize ls picks
  | getRaw l =>
    simp only [Call.exec, getRaw_state]
    exact ⟨⟨h.noErr, h.wfc, h.keys⟩, trivial⟩
  | close =>
    simp only [Call.exec, close_state]
    exact ⟨⟨h.noErr, h.wfc, h.keys⟩, trivial⟩

theorem execAll_settled (calls : List Call) :
    ∀ {ls : CachedEntriesChunker}, Settled ls → (∀ c ∈ calls, c ≠ .chunk []) →
      Settled (execAll ls calls) ∧ (execAll ls calls).chunkSize = ls.chunkSize := by
  induction calls with
  | nil => intro ls h _; exact ⟨h, rfl⟩
  | cons c calls ih =>
    intro ls h hc
    obtain ⟨h1, h2⟩ := exec_settled h c (hc c (by simp))
    obtain ⟨h3, h4⟩ := ih h1 (fun c' hc' => hc c' (by simp [hc']))
    exact ⟨h3, by rw [← h2, ← h4]; rfl⟩

theorem settled_calls {ls : CachedEntriesChunker} (h : Settled ls) (hf : ls.ds.faults = [])
    (hcs : 0 ≤ ls.chunkSize) (hmx : ls.chunkSize ≤ maxSliceCap) :
    (∀ picks, (Clear ls picks).1 = none) ∧
      (∀ mhi, mhi ≠ [] → ∃ R, (Chunk ls mhi).1 = (some R, none)) := by
  obtain ⟨⟨s, fl⟩, cs, ⟨max, c⟩, err⟩ := ls
  obtain ⟨hn, hw, hk⟩ := h
  simp only at hn hw hk hf hcs hmx
  subst hn hf
  constructor
  · intro picks
    rw [Clear_reliable hw cs max c picks hk]
  · intro mhi hm
    obtain ⟨R, hR⟩ := Option.ne_none_iff_exists'.1 (rootOf_ne_none cs mhi [] none (Or.inl hm))
    refine ⟨R, ?_⟩
    rw [Chunk_reliable hw cs hcs hmx, hR, publish_reliable (wfc_commitAll hw _) cs max c R _ hk]

/-! ## Well-formed counters keep the chunker from panicking -/

theorem calm_delete (ds : Datastore) (k : Key) : (ds.Delete k).1 ≠ some .panic := by
  unfold Datastore.Delete
  split <;> simp

theorem calm_put (ds : Datastore) (k : Key) (v : Value) : (ds.Put k v).1 ≠ some .panic := by
  unfold Datastore.Put
  split <;> simp

theorem calm_sync (ds : Datastore) : ds.Sync.1 ≠ some .panic := by
  unfold Datastore.Sync
  split <;> simp

theorem counter_of_wfc {s : List (Key × Value)} (h : WFc s) {L : Link} {v : Value}
    (hl : lookup s (.overlap L) = some v) : ∃ n, v.counter = some n := by
  obtain ⟨n, hn, rfl⟩ := h L v hl
  exact ⟨n, by simp [Value.counter, uint64_putUint64 n hn]⟩

theorem calm_countOverlap {ds : Datastore} (h : WFc ds.data) (L : Link) :
    (countOverlap ds L).1 ≠ .error .panic := by
  unfold countOverlap
  by_cases hf : ds.failing = true
  · rw [get_failing hf]
    simp
  · rw [get_working hf]
    cases hl : lookup ds.data (.overlap L) with
    | none => simp
    | some v =>
      obtain ⟨n, hn⟩ := counter_of_wfc h hl
      simp [hn]

theorem calm_decrementOverlap {ds : Datastore} (h : WFc ds.data) (L : Link) :
    (decrementOverlap ds L).1 ≠ some .panic := by
  unfold decrementOverlap
  by_cases hf : ds.failing = true
  · rw [get_failing hf]
    simp
  · rw [get_working hf]
    cases hl : lookup ds.data (.overlap L) with
    | none => simp
    | some v =>
      obtain ⟨n, hn⟩ := counter_of_wfc h hl
      simp only [hn]
      split
      · exact calm_delete _ _
      · exact calm_put _ _ _

theorem calm_incrementOverlap {ds : Datastore} (h : WFc ds.data) (L : Link) :
    (incrementOverlap ds L).1 ≠ some .panic := by
  unfold incrementOverlap
  by_cases hf : ds.failing = true
  · rw [get_failing hf]
    simp
  · rw [get_working hf]
    cases hl : lookup ds.data (.overlap L) with
    | none => exact calm_put _ _ _
    | some v =>
      obtain ⟨n, hn⟩ := counter_of_wfc h hl
      simp only [hn]
      exact calm_put _ _ _

theorem calm_storageWriteCommit {ds : Datastore} (h : WFc ds.data) (L : Link) (buf : Value) :
    (storageWriteCommit ds L buf).1 ≠ some .panic := by
  unfold storageWriteCommit Datastore.Has
  by_cases hf : ds.failing = true
  · rw [if_pos hf]
    simp
  · rw [if_neg hf]
    cases (lookup ds.data (.chunk L)).isSome with
    | true => exact @calm_incrementOverlap ds.spend h L
    | false => exact calm_put _ _ _

theorem calm_lsysStore {ds : Datastore} (h : WFc ds.data) (mhs : List Digest)
    (next : Option Link) : (lsysStore ds mhs next).1.2 ≠ some .panic := by
  unfold lsysStore
  exact calm_storageWriteCommit h _ _

theorem calm_chunkLoop (cs : Int) (mhi : List Digest) :
    ∀ (mhs : List Digest) (next : Option Link) (cl : List Link) (ds : Datastore),
      WFc ds.data → (chunkLoop cs mhi mhs next cl ds).1 ≠ .error .panic := by
  induction mhi with
  | nil => intro mhs next cl ds _; simp [chunkLoop]
  | cons mh rest ih =>
    intro mhs next cl ds h
    simp only [chunkLoop]
    split
    · have hc := calm_lsysStore h (mhs ++ [mh]) next
      have hs := step_lsysStore ds (mhs ++ [mh]) next
      cases hx : lsysStore ds (mhs ++ [mh]) next with
      | mk r ds1 =>
        obtain ⟨l, err⟩ := r
        rw [hx] at hc hs
        cases err with
        | some e =>
          simp only [ne_eq, Except.error.injEq]
          intro e'
          exact hc (by rw [e'])
        | none => exact ih _ _ _ _ (hs.2 h)
    · exact ih _ _ _ _ h

theorem calm_evictLinks (links : List Link) :
    ∀ ds : Datastore, WFc ds.data → (evictLinks links ds).1 ≠ some .panic := by
  induction links with
  | nil => intro ds _; simp [evictLinks]
  | cons L links ih =>
    intro ds h
    simp only [evictLinks]
    have hc := calm_countOverlap h L
    have hs := step_countOverlap ds L
    cases hx : countOverlap ds L with
    | mk r ds1 =>
      rw [hx] at hc hs
      cases r with
      | error e =>
        simp only [ne_eq, Option.some.injEq]
        intro e'
        exact hc (by rw [e'])
      | ok count =>
        simp only
        have h1 : WFc ds1.data := hs.2 h
        split
        · have hd := step_delete ds1 (.chunk L)
          have hcd := calm_delete ds1 (.chunk L)
          cases hy : ds1.Delete (.chunk L) with
          | mk e ds2 =>
            rw [hy] at hd hcd
            cases e with
            | some e => exact hcd
            | none => exact ih ds2 (hd.2 h1)
        · have hd := step_decrementOverlap ds1 L
          have hcd := calm_decrementOverlap h1 L
          cases hy : decrementOverlap ds1 L with
          | mk e ds2 =>
            rw [hy] at hd hcd
            cases e with
            | some e => exact hcd
            | none => exact ih ds2 (hd.2 h1)

theorem calm_onEvicted {ls : CachedEntriesChunker} (h : WFc ls.ds.data)
    (hn : ls.onEvictedErr ≠ some .panic) (k : Option Link) (v : List Link) :
    (onEvicted ls k v).1 = false ∧ (onEvicted ls k v).2.onEvictedErr ≠ some .panic := by
  cases k with
  | none => simp [onEvicted]
  | some R =>
    simp only [onEvicted]
    have hc := calm_evictLinks v ls.ds h
    cases he : evictLinks v ls.ds with
    | mk err ds1 =>
      rw [he] at hc
      cases err with
      | some e =>
        cases e with
        | panic => exact absurd rfl hc
        | notFound => exact ⟨rfl, by simp⟩
        | store => exact ⟨rfl, by simp⟩
        | decode => exact ⟨rfl, by simp⟩
        | hashMismatch => exact ⟨rfl, by simp⟩
        | invalidCacheKey => exact ⟨rfl, by simp⟩
        | notPrefixedKey => exact ⟨rfl, by simp⟩
        | cidDecode => exact ⟨rfl, by simp⟩
        | fuel => exact ⟨rfl, by simp⟩
      | none =>
        simp only
        have hd := calm_delete ds1 (.root R)
        cases hx : ds1.Delete (.root R) with
        | mk e ds2 =>
          rw [hx] at hd
          cases e with
          | some e => exact ⟨rfl, hd⟩
          | none => exact ⟨rfl, hn⟩

theorem calm_evictEach (es : List (Option Link × List Link)) :
    ∀ ls : CachedEntriesChunker, WFc ls.ds.data → ls.onEvictedErr ≠ some .panic →
      (evictEach es ls).1 = false ∧ (evictEach es ls).2.onEvictedErr ≠ some .panic := by
  induction es with
  | nil => intro ls _ hn; exact ⟨rfl, hn⟩
  | cons e es ih =>
    intro ls h hn
    obtain ⟨k, v⟩ := e
    simp only [evictEach]
    obtain ⟨c1, c2⟩ := calm_onEvicted h hn k v
    have hs := (step_onEvicted ls k v).1.2 h
    cases ho : onEvicted ls k v with
    | mk p ls1 =>
      rw [ho] at c1 c2 hs
      simp only at c1
      subst c1
      exact ih ls1 hs c2

theorem calm_cacheClear {ls : CachedEntriesChunker} (h : WFc ls.ds.data)
    (hn : ls.onEvictedErr ≠ some .panic) (picks : List Nat) :
    (cacheClear ls picks).1 = false ∧ (cacheClear ls picks).2.onEvictedErr ≠ some .panic := by
  unfold cacheClear
  obtain ⟨c1, c2⟩ := calm_evictEach (rangeOrder picks ls.cache.ll) ls h hn
  cases he : evictEach (rangeOrder picks ls.cache.ll) ls with
  | mk p ls1 =>
    rw [he] at c1 c2
    simp only at c1
    subst c1
    exact ⟨rfl, c2⟩

theorem calm_cacheAdd {ls : CachedEntriesChunker} (h : WFc ls.ds.data)
    (hn : ls.onEvictedErr ≠ some .panic) (key : Option Link) (value : List Link) :
    (cacheAdd ls key value).1 = false ∧ (cacheAdd ls key value).2.onEvictedErr ≠ some .panic := by
  unfold cacheAdd
  split
  · exact ⟨rfl, hn⟩
  · simp only
    split
    · unfold removeOldest
      simp only
      split
      · exact ⟨rfl, hn⟩
      · rename_i k v _
        exact @calm_onEvicted ⟨ls.ds, ls.chunkSize,
          ⟨ls.cache.MaxEntries, ((key, value) :: ls.cache.ll).dropLast⟩, ls.onEvictedErr⟩ h hn k v
    · exact ⟨rfl, hn⟩

theorem calm_performOnCache (ls : CachedEntriesChunker)
    (action : CachedEntriesChunker → Bool × CachedEntriesChunker)
    (h : (action ls).1 = false ∧ (action ls).2.onEvictedErr ≠ some .panic) :
    (performOnCache ls action).1 ≠ some .panic := by
  unfold performOnCache
  obtain ⟨h1, h2⟩ := h
  cases ha : action ls with
  | mk b ls1 =>
    rw [ha] at h1 h2
    simp only at h1
    subst h1
    exact h2

theorem calm_Clear {ls : CachedEntriesChunker} (h : WFc ls.ds.data)
    (hn : ls.onEvictedErr ≠ some .panic) (picks : List Nat) :
    (Clear ls picks).1 ≠ some .panic :=
  calm_performOnCache ls _ (calm_cacheClear h hn picks)

theorem calm_publish {ls : CachedEntriesChunker} (h : WFc ls.ds.data)
    (hn : ls.onEvictedErr ≠ some .panic) (R : Link) (links : List Link) :
    (publish ls (some R) links).1.2 ≠ some .panic := by
  unfold publish
  have hp := calm_performOnCache ls (fun ls => cacheAdd ls (some R) links)
    (calm_cacheAdd h hn (some R) links)
  cases hx : performOnCache ls (fun ls => cacheAdd ls (some R) links) with
  | mk err ls1 =>
    rw [hx] at hp
    cases err with
    | some e => exact hp
    | none =>
      simp only
      have hput := calm_put ls1.ds (.root R) (.raw [])
      cases hy : ls1.ds.Put (.root R) (.raw []) with
      | mk e ds2 =>
        rw [hy] at hput
        cases e with
        | some e => exact hput
        | none => exact calm_sync ds2

theorem calm_Chunk {ls : CachedEntriesChunker} (h : WFc ls.ds.data)
    (hn : ls.onEvictedErr ≠ some .panic) (hcs : 0 ≤ ls.chunkSize)
    (hmx : ls.chunkSize ≤ maxSliceCap) {mhi : List Digest} (hm : mhi ≠ []) :
    (Chunk ls mhi).1.2 ≠ some .panic := by
  unfold Chunk
  have hneg : ¬ (ls.chunkSize < 0 ∨ maxSliceCap < ls.chunkSize) := by omega
  rw [if_neg hneg]
  have hc := calm_chunkLoop ls.chunkSize mhi [] none [] ls.ds h
  have hs := step_chunkLoop ls.chunkSize mhi [] none [] ls.ds
  cases hl : chunkLoop ls.chunkSize mhi [] none [] ls.ds with
  | mk r ds1 =>
    rw [hl] at hc hs
    cases r with
    | error e =>
      simp only [ne_eq, Option.some.injEq]
      intro e'
      exact hc (by rw [e'])
    | ok res =>
      obtain ⟨mhs, next, cl⟩ := res
      have h1 : WFc ds1.data := hs.2 h
      obtain ⟨r1, _⟩ := chunkLoop_root _ _ _ _ _ _ _ _ _ _ hl
      simp only
      by_cases hlen : mhs.length ≠ 0
      · rw [if_pos hlen]
        have hc2 := calm_lsysStore h1 mhs next
        have hs2 := step_lsysStore ds1 mhs next
        cases hx : lsysStore ds1 mhs next with
        | mk r2 ds2 =>
          obtain ⟨l, err⟩ := r2
          rw [hx] at hc2 hs2
          cases err with
          | some e => exact hc2
          | none =>
            exact @calm_publish { ls with ds := ds2 } (hs2.2 h1) hn l _
      · rw [if_neg hlen]
        rw [if_neg hlen] at r1
        have hne := rootOf_ne_none ls.chunkSize mhi [] none (Or.inl hm)
        rw [r1] at hne
        obtain ⟨R, hR⟩ := Option.ne_none_iff_exists'.1 hne
        rw [hR]
        exact @calm_publish { ls with ds := ds1 } h1 hn R _

/-! ## Eviction errors surface -/

theorem reachCache_publish {ls st : CachedEntriesChunker} {mhi : List Digest}
    {next : Option Link} {links : List Link}
    (h : reachCache ls mhi = some (st, next, links)) : Chunk ls mhi = publish st next links := by
  unfold reachCache at h
  unfold Chunk
  split at h
  · simp at h
  · rename_i hneg
    rw [if_neg hneg]
    cases hc : chunkLoop ls.chunkSize mhi [] none [] ls.ds with
    | mk r ds1 =>
      rw [hc] at h
      cases r with
      | error e => simp at h
      | ok res =>
        obtain ⟨mhs, nx, cl⟩ := res
        simp only at h ⊢
        split at h
        · rename_i hlen
          rw [if_pos hlen]
          cases hx : lsysStore ds1 mhs nx with
          | mk r2 ds2 =>
            obtain ⟨l, err⟩ := r2
            rw [hx] at h
            cases err with
            | some e => simp at h
            | none =>
              simp only [Option.some.injEq, Prod.mk.injEq] at h
              obtain ⟨h1, h2, h3⟩ := h
              subst h1 h2 h3
              rfl
        · rename_i hlen
          rw [if_neg hlen]
          simp only [Option.some.injEq, Prod.mk.injEq] at h
          obtain ⟨h1, h2, h3⟩ := h
          subst h1 h2 h3
          rfl

theorem publish_add_fault (st : CachedEntriesChunker) (next : Option Link) (links : List Link)
    (h : true ∈ usedFaults st.ds (cacheAdd st next links).2.ds) :
    (publish st next links).1.1 = none ∧ (publish st next links).1.2 ≠ none := by
  have hs := usedFaults_of_step (step_cacheAdd st next links)
  obtain ⟨h1, _, _⟩ := performOnCache_ok st (fun ls => cacheAdd ls next links)
  have hok : (performOnCache st (fun ls => cacheAdd ls next links)).1.isNone = false := by
    rw [h1]
    cases hb : (!(cacheAdd st next links).1 && (cacheAdd st next links).2.onEvictedErr.isNone) with
    | false => rfl
    | true =>
      have := hs.2 hb true h
      simp at this
  unfold publish
  cases hp : performOnCache st (fun ls => cacheAdd ls next links) with
  | mk err ls1 =>
    rw [hp] at hok
    cases err with
    | none => simp at hok
    | some e => simp

theorem fault_error {ds ds' : Datastore} {err : Option Error} (h : Step ds ds' err.isNone) :
    ds.faults = usedFaults ds ds' ++ ds'.faults ∧ (true ∈ usedFaults ds ds' → err ≠ none) := by
  obtain ⟨h1, h2⟩ := usedFaults_of_step h
  refine ⟨h1, fun ht he => ?_⟩
  subst he
  have := h2 rfl true ht
  simp at this

theorem reachCache_size {ls st : CachedEntriesChunker} {mhi : List Digest}
    {next : Option Link} {links : List Link}
    (h : reachCache ls mhi = some (st, next, links)) :
    0 ≤ ls.chunkSize ∧ ls.chunkSize ≤ maxSliceCap := by
  unfold reachCache at h
  split at h
  · simp at h
  · omega

theorem error_of_calm {err : Option Error} (h1 : err ≠ none) (h2 : err ≠ some .panic) :
    ∃ e, err = some e ∧ e ≠ .panic := by
  cases err with
  | none => exact absurd rfl h1
  | some e => exact ⟨e, rfl, fun h => h2 (by rw [h])⟩

theorem settled_start (fl : List Bool) (cs cap : Int) :
    Settled ⟨⟨[], fl⟩, cs, ⟨cap, []⟩, none⟩ :=
  ⟨rfl, fun L v h => by simp [lookup] at h, fun e he => by simp at he⟩

theorem settled_fullCache (fl : List Bool) :
    Settled { fullCache with ds := ⟨fullCache.ds.data, fl⟩ } := by
  have h : Settled fullCache := Chunk_settled (settled_start [] 3 1) (by decide)
  exact ⟨h.noErr, h.wfc, h.keys⟩

/-- C16. Eviction errors surface. The states meant are those a chunker is in between calls: no
eviction error is pending, the overlap counters hold eight bytes, no key of the LRU index is
nil; (5) says that every state reached from a construction over the empty store by calls is
one, whatever the store failed in and whatever the calls returned (`Chunk` on non-empty
inputs). (1) Every store operation of a `Clear` call is one of an invocation of the eviction
handler: when one of the failure flags the call uses is set, `Clear` returns an error and does
not panic. (2) With a chunk size that `make` accepts and a non-empty input, when one of the
failure flags a `Chunk` call uses is set, `Chunk` returns an error and does not panic. (3) When
`Chunk` on a non-empty input reaches the cache and one of the flags used by `cache.Add`, that
is by the eviction handler, is set, `Chunk` returns no link and an error, and does not panic.
(4) Errors do not linger: on a cache constructed over the empty store with any failure schedule
and a chunk size that `make` accepts, after any sequence of calls, whatever they returned, once
the schedule is used up `Clear` returns no error and `Chunk` on a non-empty input returns a link
and no error. -/
theorem C16_eviction_errors_surface :
    (∀ (ls : CachedEntriesChunker) (picks : List Nat), Settled ls →
      ls.ds.faults = usedFaults ls.ds (Clear ls picks).2.ds ++ (Clear ls picks).2.ds.faults ∧
      (true ∈ usedFaults ls.ds (Clear ls picks).2.ds →
        ∃ e, (Clear ls picks).1 = some e ∧ e ≠ .panic)) ∧
    (∀ (ls : CachedEntriesChunker) (mhi : List Digest), Settled ls → 0 ≤ ls.chunkSize →
      ls.chunkSize ≤ maxSliceCap → mhi ≠ [] →
      ls.ds.faults = usedFaults ls.ds (Chunk ls mhi).2.ds ++ (Chunk ls mhi).2.ds.faults ∧
      (true ∈ usedFaults ls.ds (Chunk ls mhi).2.ds →
        ∃ e, (Chunk ls mhi).1.2 = some e ∧ e ≠ .panic)) ∧
    (∀ (ls st : CachedEntriesChunker) (mhi : List Digest) (next : Option Link)
      (links : List Link), Settled ls → mhi ≠ [] →
      reachCache ls mhi = some (st, next, links) →
      true ∈ usedFaults st.ds (cacheAdd st next links).2.ds →
        (Chunk ls mhi).1.1 = none ∧ ∃ e, (Chunk ls mhi).1.2 = some e ∧ e ≠ .panic) ∧
    (∀ (fl : List Bool) (cs cap : Int) (calls : List Call), 0 ≤ cs → cs ≤ maxSliceCap →
      (∀ c ∈ calls, c ≠ .chunk []) →
      (execAll ⟨⟨[], fl⟩, cs, ⟨cap, []⟩, none⟩ calls).ds.faults = [] →
        (∀ picks, (Clear (execAll ⟨⟨[], fl⟩, cs, ⟨cap, []⟩, none⟩ calls) picks).1 = none) ∧
        (∀ mhi, mhi ≠ [] →
          ∃ R, (Chunk (execAll ⟨⟨[], fl⟩, cs, ⟨cap, []⟩, none⟩ calls) mhi).1 =
            (some R, none))) ∧
    (∀ (fl : List Bool) (cs cap : Int) (calls : List Call), (∀ c ∈ calls, c ≠ .chunk []) →
      Settled (execAll ⟨⟨[], fl⟩, cs, ⟨cap, []⟩, none⟩ calls) ∧
        (execAll ⟨⟨[], fl⟩, cs, ⟨cap, []⟩, none⟩ calls).chunkSize = cs) := by
  refine ⟨?_, ?_, ?_, ?_, ?_⟩
  · intro ls picks hs
    obtain ⟨f1, f2⟩ := fault_error (step_Clear ls picks)
    have hn : ls.onEvictedErr ≠ some .panic := by rw [hs.noErr]; simp
    exact ⟨f1, fun ht => error_of_calm (f2 ht) (calm_Clear hs.wfc hn picks)⟩
  · intro ls mhi hs hcs hmx hm
    obtain ⟨f1, f2⟩ := fault_error (step_Chunk ls mhi).1
    have hn : ls.onEvictedErr ≠ some .panic := by rw [hs.noErr]; simp
    exact ⟨f1, fun ht => error_of_calm (f2 ht) (calm_Chunk hs.wfc hn hcs hmx hm)⟩
  · intro ls st mhi next links hs hm hr hf
    obtain ⟨hcs, hmx⟩ := reachCache_size hr
    have hn : ls.onEvictedErr ≠ some .panic := by rw [hs.noErr]; simp
    have hc := calm_Chunk hs.wfc hn hcs hmx hm
    rw [reachCache_publish hr] at hc ⊢
    obtain ⟨p1, p2⟩ := publish_add_fault st next links hf
    exact ⟨p1, error_of_calm p2 hc⟩
  · intro fl cs cap calls hcs hmx hc hf
    obtain ⟨h1, h2⟩ := execAll_settled calls (settled_start fl cs cap) hc
    exact settled_calls h1 hf (by rw [h2]; exact hcs) (by rw [h2]; exact hmx)
  · intro fl cs cap calls hc
    exact execAll_settled calls (settled_start fl cs cap) hc

theorem C16_eviction_errors_surface_witness :
    (Settled faultyCache ∧ true ∈ usedFaults faultyCache.ds (Clear faultyCache []).2.ds ∧
      ∃ e, (Clear faultyCache []).1 = some e ∧ e ≠ .panic) ∧
    (Settled evictFailCache ∧ (0 : Int) ≤ evictFailCache.chunkSize ∧
      evictFailCache.chunkSize ≤ maxSliceCap ∧ [[4]] ≠ ([] : List Digest) ∧
      true ∈ usedFaults evictFailCache.ds (Chunk evictFailCache [[4]]).2.ds ∧
      ∃ e, (Chunk evictFailCache [[4]]).1.2 = some e ∧ e ≠ .panic) ∧
    ((Chunk evictFailCache [[4]]).1.1 = none ∧
      ∃ e, (Chunk evictFailCache [[4]]).1.2 = some e ∧ e ≠ .panic) ∧
    ((0 : Int) ≤ 3 ∧ (3 : Int) ≤ maxSliceCap ∧
      (∀ picks, (Clear (execAll ⟨⟨[], [true]⟩, 3, ⟨1, []⟩, none⟩
        [.chunk threeDigests]) picks).1 = none) ∧
      (∀ mhi, mhi ≠ [] →
        ∃ R, (Chunk (execAll ⟨⟨[], [true]⟩, 3, ⟨1, []⟩, none⟩ [.chunk threeDigests]) mhi).1 =
          (some R, none))) ∧
    Settled (execAll ⟨⟨[], [true]⟩, 3, ⟨1, []⟩, none⟩ [.chunk threeDigests]) :=
  ⟨⟨settled_fullCache [true], by decide,
      (C16_eviction_errors_surface.1 faultyCache [] (settled_fullCache [true])).2 (by decide)⟩,
   ⟨settled_fullCache [false, false, true], by decide, by decide, by decide, by decide,
      (C16_eviction_errors_surface.2.1 evictFailCache [[4]]
        (settled_fullCache [false, false, true]) (by decide) (by decide) (by decide)).2
        (by decide)⟩,
   C16_eviction_errors_surface.2.2.1 evictFailCache
     ⟨⟨[(.chunk (.tail threeDigests), .node threeDigests none),
        (.root (.tail threeDigests), .raw []),
        (.chunk (.tail [[4]]), .node [[4]] none)], [true]⟩, 3,
      ⟨1, [(some (.tail threeDigests), [.tail threeDigests])]⟩, none⟩
     [[4]] (some (.tail [[4]])) [.tail [[4]]] (settled_fullCache [false, false, true])
     (by decide) rfl (by decide),
   ⟨by decide, by decide,
     C16_eviction_errors_surface.2.2.2.1 [true] 3 1 [.chunk threeDigests] (by decide)
       (by decide) (by decide) rfl⟩,
   (C16_eviction_errors_surface.2.2.2.2 [true] 3 1 [.chunk threeDigests] (by decide)).1⟩

/-! ## What a restore leaves in the store -/

/-- C21, at the failing input. A cache of capacity 2 chunks `[1,2,3]`, and a second `Chunk`, of
`[4,5,6]`, fails with a store error when it writes the root marker. The construction of a new
cache over the store succeeds and restores the chain of `[1,2,3]`, and the chunk of `[4,5,6]`
is still in the store although no link with a root marker reaches it. -/
theorem C21_restore_keeps_orphan :
    (Chunk (Chunk ⟨⟨[], [false, false, false, false, false, false, true]⟩, 3, ⟨2, []⟩, none⟩
      threeDigests).2 [[4], [5], [6]]).1 = (none, some .store) ∧
    ∃ ls, NewCachedEntriesChunker interruptedCache.ds 3 2 [] = .ok ls ∧
      ls.cache.ll = [(some (.tail threeDigests), [.tail threeDigests])] ∧
      lookup ls.ds.data (.chunk (.tail [[4], [5], [6]])) = some (.node [[4], [5], [6]] none) ∧
      ∀ R, lookup ls.ds.data (.root R) ≠ none → Link.tail [[4], [5], [6]] ∉ R.chain := by
  refine ⟨rfl,
    ⟨⟨[(.chunk (.tail threeDigests), .node threeDigests none),
        (.root (.tail threeDigests), .raw []),
        (.chunk (.tail [[4], [5], [6]]), .node [[4], [5], [6]] none)], []⟩, 3,
      ⟨2, [(some (.tail threeDigests), [.tail threeDigests])]⟩, none⟩, rfl, rfl, rfl, ?_⟩
  intro R hR
  have hRe : Link.tail threeDigests = R := by
    by_contra hne
    apply hR
    simp [lookup, hne]
  subst hRe
  decide

/-! ## The two orders of the list of links -/

/-- C25. Link-list order. (1) The list of links a successful `Chunk` records in the LRU index
for the chain of root `R` is the reverse of the chain read from the root: emission order, the
tail block first and the root last. (2) The list `listEntriesChainLinks` builds for `R`, as the
restore does, is the chain read from the root, whenever the traversal succeeds, and it
succeeds when every block of the chain is in the store. (3) On a reliable store whose overlap
values are counters, the eviction handler run on `R` with either list returns without error
and the two stores bind every key alike. -/
theorem C25_link_list_order :
    (∀ (ls ls' : CachedEntriesChunker) (mhi : List Digest) (R : Link),
      1 ≤ ls.cache.MaxEntries → Chunk ls mhi = ((some R, none), ls') →
        ls'.cache.ll.head? = some (some R, R.chain.reverse)) ∧
    (∀ (s : List (Key × Value)) (R : Link),
      (∀ links ds, listEntriesChainLinks ⟨s, []⟩ R = ((links, none), ds) → links = R.chain) ∧
      ((∀ X ∈ R.chain, lookup s (.chunk X) = some (.node X.entries X.next)) →
        listEntriesChainLinks ⟨s, []⟩ R = ((R.chain, none), ⟨s, []⟩))) ∧
    (∀ (s : List (Key × Value)) (cs : Int) (c : LRU) (err : Option Error) (R : Link), WFc s →
      ∃ s1 s2,
        onEvicted ⟨⟨s, []⟩, cs, c, err⟩ (some R) R.chain.reverse =
          (false, ⟨⟨s1, []⟩, cs, c, err⟩) ∧
        onEvicted ⟨⟨s, []⟩, cs, c, err⟩ (some R) R.chain = (false, ⟨⟨s2, []⟩, cs, c, err⟩) ∧
        ∀ k, lookup s1 k = lookup s2 k) := by
  refine ⟨?_, ?_, ?_⟩
  · intro ls ls' mhi R hmax hres
    have hroot : rootOf ls.chunkSize mhi [] none = some R :=
      Chunk_root (by rw [hres])
    rw [Chunk_head hmax hres, allLinks_eq_chain hroot]
  · intro s R
    exact ⟨fun links ds h => (listEntriesChainLinks_ok h).1,
      fun hp => listEntriesChainLinks_present hp⟩
  · intro s cs c err R hw
    refine ⟨_, _, onEvicted_reliable hw cs c err R _, onEvicted_reliable hw cs c err R _, ?_⟩
    intro k
    have hnd := chain_nodup R
    have hnd' : R.chain.reverse.Nodup := List.nodup_reverse.2 hnd
    simp only [evictChain, lookup_remove]
    rw [evictAll_lookup _ hw hnd, evictAll_lookup _ hw hnd']
    cases k <;> simp

theorem C25_link_list_order_witness :
    (Chunk (newCache 2 1) fiveDigests).2.cache.ll.head? = some (some fiveRoot, fiveRoot.chain.reverse) ∧
    listEntriesChainLinks ⟨(Chunk (newCache 2 1) fiveDigests).2.ds.data, []⟩ fiveRoot =
      ((fiveRoot.chain, none), ⟨(Chunk (newCache 2 1) fiveDigests).2.ds.data, []⟩) ∧
    ∃ s1 s2,
      onEvicted ⟨⟨countedStore 2, []⟩, 3, ⟨1, []⟩, none⟩ (some (.tail threeDigests))
          (Link.tail threeDigests).chain.reverse = (false, ⟨⟨s1, []⟩, 3, ⟨1, []⟩, none⟩) ∧
      onEvicted ⟨⟨countedStore 2, []⟩, 3, ⟨1, []⟩, none⟩ (some (.tail threeDigests))
          (Link.tail threeDigests).chain = (false, ⟨⟨s2, []⟩, 3, ⟨1, []⟩, none⟩) ∧
      ∀ k, lookup s1 k = lookup s2 k :=
  ⟨C25_link_list_order.1 (newCache 2 1) (Chunk (newCache 2 1) fiveDigests).2 fiveDigests fiveRoot
      (by decide) rfl,
   (C25_link_list_order.2.1 (Chunk (newCache 2 1) fiveDigests).2.ds.data fiveRoot).2 (by decide),
   C25_link_list_order.2.2 (countedStore 2) 3 ⟨1, []⟩ none (.tail threeDigests)
     (wfc_countedStore 2 (by norm_num))⟩

/-! ## The commit of a chain, key by key -/

theorem commit1_lookup (s : List (Key × Value)) (L : Link) (k : Key) :
    lookup (commit1 s L) k =
      if k = .overlap L then
        (if lookup s (.chunk L) = none then lookup s k
         else some (.raw (putUint64 ((cnt s L + 1) % 2 ^ 64))))
      else if k = .chunk L then
        (if lookup s (.chunk L) = none then some (.node L.entries L.next) else lookup s k)
      else lookup s k := by
  unfold commit1
  cases hl : lookup s (.chunk L) with
  | none =>
    simp only [lookup_insert, if_true]
    by_cases hk : k = .chunk L
    · subst hk
      simp
    · have hk' : ¬ Key.chunk L = k := fun e => hk e.symm
      simp only [hk, hk', if_false]
      split <;> rfl
  | some v =>
    simp only [lookup_insert]
    by_cases hk : k = .overlap L
    · subst hk
      simp
    · have hk' : ¬ Key.overlap L = k := fun e => hk e.symm
      simp only [hk, hk', if_false]
      split
      · rename_i hc
        subst hc
        simp [hl]
      · rfl

theorem cnt_commit1_ne (s : List (Key × Value)) {L L' : Link} (hne : L' ≠ L) :
    cnt (commit1 s L) L' = cnt s L' := by
  unfold cnt
  rw [commit1_lookup s L (.overlap L')]
  simp [hne]

theorem commitAll_lookup (links : List Link) :
    ∀ (s : List (Key × Value)), links.Nodup → ∀ k : Key,
      lookup (commitAll s links) k =
        match k with
        | .chunk L =>
          if L ∈ links ∧ lookup s (.chunk L) = none then some (.node L.entries L.next)
          else lookup s k
        | .overlap L =>
          if L ∈ links ∧ lookup s (.chunk L) ≠ none then
            some (.raw (putUint64 ((cnt s L + 1) % 2 ^ 64)))
          else lookup s k
        | _ => lookup s k := by
  induction links with
  | nil =>
    intro s _ k
    cases k <;> simp [commitAll]
  | cons L links ih =>
    intro s hnd k
    have hL : L ∉ links := (List.nodup_cons.1 hnd).1
    have hnd' : links.Nodup := (List.nodup_cons.1 hnd).2
    have e : commitAll s (L :: links) = commitAll (commit1 s L) links := rfl
    rw [e, ih (commit1 s L) hnd' k]
    cases k with
    | chunk X =>
      simp only [List.mem_cons]
      by_cases hX : X = L
      · subst hX
        rw [commit1_lookup]
        simp [hL]
      · rw [commit1_lookup s L (.chunk X)]
        simp [hX]
    | overlap X =>
      simp only [List.mem_cons]
      by_cases hX : X = L
      · subst hX
        simp only [hL, false_and, if_false]
        rw [commit1_lookup]
        by_cases hc : lookup s (.chunk X) = none <;> simp [hc]
      · rw [cnt_commit1_ne s hX, commit1_lookup s L (.chunk X), commit1_lookup s L (.overlap X)]
        simp [hX]
    | root X => simp only; rw [commit1_lookup]; simp
    | rootRaw n => simp only; rw [commit1_lookup]; simp
    | other n => simp only; rw [commit1_lookup]; simp

/-! ## Chunking a cached input again -/

theorem rechunk_state (cs cap : Int) (hcap : 1 ≤ cap) (A : List Digest) (R : Link) :
    chunked (chunked (newCache cs cap) A R) A R =
      ⟨⟨insert (commitAll (insert (commitAll [] (allLinks cs A [] none)) (.root R) (.raw []))
          (allLinks cs A [] none)) (.root R) (.raw []), []⟩, cs,
        ⟨cap, [(some R, allLinks cs A [] none)]⟩, none⟩ := by
  have h1 : ¬ (cap ≠ 0 ∧ 1 > cap) := by omega
  simp [chunked, newCache, addStore, addList, h1]

theorem rechunk_lookups (cs : Int) (A : List Digest) (R : Link)
    (hR : rootOf cs A [] none = some R) (L : Link) (hL : L ∈ R.chain) :
    lookup (insert (commitAll (insert (commitAll [] (allLinks cs A [] none)) (.root R) (.raw []))
        (allLinks cs A [] none)) (.root R) (.raw [])) (.chunk L) =
      some (.node L.entries L.next) ∧
    lookup (insert (commitAll (insert (commitAll [] (allLinks cs A [] none)) (.root R) (.raw []))
        (allLinks cs A [] none)) (.root R) (.raw [])) (.overlap L) =
      some (.raw (putUint64 1)) := by
  have hperm := allLinks_perm hR
  have hnd : (allLinks cs A [] none).Nodup := hperm.nodup_iff.2 (chain_nodup R)
  have hm : L ∈ allLinks cs A [] none := hperm.mem_iff.2 hL
  have c1 : lookup (insert (commitAll [] (allLinks cs A [] none)) (.root R) (.raw []))
      (.chunk L) = some (.node L.entries L.next) := by
    rw [lookup_insert, if_neg (by simp), commitAll_lookup _ _ hnd]
    simp [hm, lookup]
  have o1 : cnt (insert (commitAll [] (allLinks cs A [] none)) (.root R) (.raw [])) L = 0 := by
    apply cnt_of_absent
    rw [lookup_insert, if_neg (by simp), commitAll_lookup _ _ hnd]
    simp [lookup]
  constructor
  · rw [lookup_insert, if_neg (by simp), commitAll_lookup _ _ hnd]
    simp [c1]
  · rw [lookup_insert, if_neg (by simp), commitAll_lookup _ _ hnd]
    simp [hm, c1, o1]

theorem evictChain_counted {s : List (Key × Value)} (hw : WFc s) {links : List Link}
    (hnd : links.Nodup) (R : Link) :
    lookup (evictChain s R links) (.root R) = none ∧
    ∀ L ∈ links, cnt s L = 1 →
      lookup (evictChain s R links) (.overlap L) = none ∧
      lookup (evictChain s R links) (.chunk L) = lookup s (.chunk L) := by
  constructor
  · simp [evictChain, lookup_remove]
  · intro L hL hc
    constructor
    · rw [evictChain, lookup_remove, if_neg (by simp), evictAll_lookup links hw hnd]
      simp [hL, hc]
    · rw [evictChain, lookup_remove, if_neg (by simp), evictAll_lookup links hw hnd]
      simp [hc]

theorem rangeOrder_singleton {α : Type} (picks : List Nat) (x : α) :
    rangeOrder picks [x] = [x] :=
  List.perm_singleton.1 (rangeOrder_perm picks [x])

/-! ## Inputs with a common beginning -/

theorem take_links (n : Nat) (hn : 1 ≤ n) :
    ∀ (k : Nat) (A B : List Digest) (next : Option Link), k * n ≤ A.length →
      k * n ≤ B.length → A.take (k * n) = B.take (k * n) →
      (allLinks n A [] next).take k = (allLinks n B [] next).take k ∧
        ((allLinks n B [] next).take k).length = k := by
  intro k
  induction k with
  | zero => intro A B next _ _ _; simp
  | succ k ih =>
    intro A B next hA hB hAB
    have e1 : (k + 1) * n = n + k * n := by ring
    rw [e1] at hA hB hAB
    have hAn : (A.take n).length = n := by rw [List.length_take]; omega
    have hBn : (B.take n).length = n := by rw [List.length_take]; omega
    have hpA : A.take n ≠ [] := by
      intro h; rw [h] at hAn; simp at hAn; omega
    have hpB : B.take n ≠ [] := by
      intro h; rw [h] at hBn; simp at hBn; omega
    have hhead : A.take n = B.take n := by
      have := congrArg (List.take n) hAB
      simpa [List.take_take] using this
    have htail : (A.drop n).take (k * n) = (B.drop n).take (k * n) := by
      have := congrArg (List.drop n) hAB
      simpa [List.drop_take] using this
    have eA := allLinks_head_block n (A.drop n) next (A.take n) [] hpA
      (by simp only [List.length_nil, Nat.zero_add, hAn])
    have eB := allLinks_head_block n (B.drop n) next (B.take n) [] hpB
      (by simp only [List.length_nil, Nat.zero_add, hBn])
    rw [List.take_append_drop] at eA eB
    rw [hhead] at eA
    obtain ⟨i1, i2⟩ := ih (A.drop n) (B.drop n) (some (Link.ofNode ([] ++ B.take n) next))
      (by rw [List.length_drop]; omega) (by rw [List.length_drop]; omega) htail
    rw [eA, eB, List.take_succ_cons, List.take_succ_cons, i1]
    exact ⟨rfl, by rw [List.length_cons, i2]⟩

theorem addStore_victim (max : Int) (s : List (Key × Value))
    (c : List (Option Link × List Link)) (R : Link) (links : List Link) :
    addStore max s c R links = evictEntries s (victim max c R links).toList := by
  unfold addStore victim
  split
  · rfl
  · split <;> rfl

theorem cnt_evictChain {s : List (Key × Value)} (hw : WFc s) {links : List Link}
    (hnd : links.Nodup) (R L : Link) :
    cnt (evictChain s R links) L = cnt s L - if L ∈ links then 1 else 0 := by
  have hlt := wfc_cnt_lt hw L
  have e : lookup (evictChain s R links) (.overlap L) =
      if L ∈ links ∧ cnt s L ≠ 0 then
        (if cnt s L = 1 then none else some (.raw (putUint64 (cnt s L - 1))))
      else lookup s (.overlap L) := by
    rw [evictChain, lookup_remove, if_neg (by simp), evictAll_lookup links hw hnd]
  by_cases hL : L ∈ links
  · rw [if_pos hL]
    by_cases h0 : cnt s L = 0
    · have : cnt (evictChain s R links) L = cnt s L := by
        unfold cnt
        rw [e]
        simp [h0]
      omega
    · by_cases h1 : cnt s L = 1
      · have e' : lookup (evictChain s R links) (.overlap L) = none := by
          rw [e]; simp [hL, h0, h1]
        rw [cnt_of_absent e', h1]
      · have e' : lookup (evictChain s R links) (.overlap L) =
            some (.raw (putUint64 (cnt s L - 1))) := by
          rw [e]; simp [hL, h0, h1]
        exact cnt_of_lookup (by omega) e'
  · rw [if_neg hL, Nat.sub_zero]
    unfold cnt
    rw [e]
    simp [hL]

theorem chunk_evictChain {s : List (Key × Value)} (hw : WFc s) {links : List Link}
    (hnd : links.Nodup) (R L : Link) (hc : cnt s L ≠ 0) :
    lookup (evictChain s R links) (.chunk L) = lookup s (.chunk L) := by
  rw [evictChain, lookup_remove, if_neg (by simp), evictAll_lookup links hw hnd]
  simp [hc]

theorem victim_mem {max : Int} (hmax : 1 ≤ max) {c : List (Option Link × List Link)} {R : Link}
    {links : List Link} {e : Option Link × List Link} (h : victim max c R links = some e) :
    e ∈ c ∧ e.1 ≠ some R := by
  unfold victim at h
  split at h
  · simp at h
  · rename_i hit
    split at h
    · rename_i hov
      cases c with
      | nil =>
        simp only [List.length_cons, List.length_nil] at hov
        omega
      | cons x c' =>
        rw [List.getLast?_cons_cons] at h
        have hm : e ∈ x :: c' := List.mem_of_getLast?_eq_some h
        refine ⟨hm, ?_⟩
        intro hk
        apply hit
        rw [List.any_eq_true]
        exact ⟨e, hm, by simpa using hk⟩
    · simp at h

theorem cnt_insert_root (s : List (Key × Value)) (R : Link) (v : Value) (L : Link) :
    cnt (insert s (.root R) v) L = cnt s L := by
  unfold cnt
  rw [lookup_insert, if_neg (by simp)]

/-- C23, the claim as written fails: with chunk size 3 and capacity 1, `[1,2,3,4]` and
`[1,2,3,5]` agree on their first three multihashes and share their first block; chunking the
second while the first is cached succeeds, evicts the first chain, and leaves the overlap count
of the shared block at 0, as it was before the call. -/
theorem C23_counterexample :
    sharedA.take (1 * 3) = sharedB.take (1 * 3) ∧
    sharedCache.cache.ll.map Prod.fst = [some (.cons [[4]] (.tail threeDigests))] ∧
    (allLinks 3 sharedB [] none).take 1 = [.tail threeDigests] ∧
    (Chunk sharedCache sharedB).1 = (some (.cons [[5]] (.tail threeDigests)), none) ∧
    cnt sharedCache.ds.data (.tail threeDigests) = 0 ∧
    cnt (Chunk sharedCache sharedB).2.ds.data (.tail threeDigests) = 0 := by
  decide

/-- C23, amended. Sharing arises from common beginnings: for every chunk size `n ≥ 1` and
`k ≥ 1`, two inputs that agree on their first `k * n` multihashes have the same first `k`
links. In a state reached from a construction over the empty reliable store by successful
calls and restarts (fewer than 2^64 - 1 events) with chunk size `n` in which the chain of the
first input is cached, `Chunk` of the second succeeds; each of those `k` blocks is in the store
before the call and holds the same value after it, and its overlap count after the call is one
higher than before, unless the call evicts a chain whose list of links contains it (the entry
`cache.Add` removes), in which case the count is the one before the call. -/
theorem C23_shared_beginning (n k : Nat) (hn : 1 ≤ n) (hk : 1 ≤ k) (A B : List Digest)
    (hA : k * n ≤ A.length) (hB : k * n ≤ B.length) (hAB : A.take (k * n) = B.take (k * n))
    (chunkSize capacity : Int) (picks : List Nat) (es : List Event) (ls : CachedEntriesChunker)
    (hcap : 1 ≤ capacity) (hv : ∀ e ∈ es, e.valid = true) (hlen : es.length + 1 < 2 ^ 64)
    (h : Reached chunkSize capacity picks es ls) (hcs : ls.chunkSize = (n : Int))
    (RA : Link) (hRA : rootOf n A [] none = some RA)
    (hcached : some RA ∈ ls.cache.ll.map Prod.fst) :
    (allLinks n A [] none).take k = (allLinks n B [] none).take k ∧
    ((allLinks n B [] none).take k).length = k ∧
    ∃ RB ls', Chunk ls B = ((some RB, none), ls') ∧
      ∀ L ∈ (allLinks n B [] none).take k,
        lookup ls.ds.data (.chunk L) = some (.node L.entries L.next) ∧
        lookup ls'.ds.data (.chunk L) = some (.node L.entries L.next) ∧
        (victim ls.cache.MaxEntries ls.cache.ll RB (allLinks n B [] none) = none →
          cnt ls'.ds.data L = cnt ls.ds.data L + 1) ∧
        (∀ e, victim ls.cache.MaxEntries ls.cache.ll RB (allLinks n B [] none) = some e →
          cnt ls'.ds.data L = if L ∈ e.2 then cnt ls.ds.data L else cnt ls.ds.data L + 1) := by
  obtain ⟨hi, hmax⟩ := reached_inv hcap hv (by omega) h
  have hli := hi.toLInv
  obtain ⟨t1, t2⟩ := take_links n hn k A B none hA hB hAB
  have hBne : B ≠ [] := by
    intro e
    rw [e] at hB
    simp only [List.length_nil, Nat.le_zero, Nat.mul_eq_zero] at hB
    omega
  obtain ⟨RB, hRB⟩ := Option.ne_none_iff_exists'.1
    (rootOf_ne_none (n : Int) B [] none (Or.inl hBne))
  obtain ⟨⟨s, fl⟩, cs, ⟨max, c⟩, err⟩ := ls
  simp only at hcs hcached hmax
  subst hcs
  have hmx : (n : Int) ≤ maxSliceCap := by
    have hsm := reached_small hcap hv h
    have hnA : n ≤ A.length := Nat.le_trans (Nat.le_mul_of_pos_left n hk) hA
    have hAn : (A.take n).length = n := by rw [List.length_take]; omega
    have hne : A.take n ≠ [] := by
      intro e0
      rw [e0] at hAn
      simp only [List.length_nil] at hAn
      omega
    have hhead := allLinks_head_block (n : Int) (A.drop n) none (A.take n) [] hne
      (by simp [hAn])
    rw [List.take_append_drop, List.nil_append] at hhead
    have hmem : Link.ofNode (A.take n) none ∈ allLinks (n : Int) A [] none := by
      rw [hhead]
      exact List.mem_cons_self _ _
    obtain ⟨e0, he0, hk0⟩ := List.mem_map.1 hcached
    obtain ⟨R0, hR0, hperm0, _⟩ := hi.lru.entry e0 he0
    have hR0' : R0 = RA := by
      rw [hk0] at hR0
      exact (Option.some.inj hR0).symm
    subst hR0'
    have hp0 := Inv.chunk_present hi he0
      (hperm0.mem_iff.2 ((allLinks_perm hRA).mem_iff.1 hmem))
    have := hsm (Link.ofNode (A.take n) none) (by simp only at hp0; rw [hp0]; simp)
    rw [ofNode_entries, hAn] at this
    exact this
  have hchunk := Chunk_total_of hli (by simp) hmx B RB hRB
  refine ⟨t1, t2, RB, _, hchunk, ?_⟩
  intro L hLt
  have hpB := allLinks_perm hRB
  have hpA := allLinks_perm hRA
  have hndB : (allLinks (n : Int) B [] none).Nodup := hpB.nodup_iff.2 (chain_nodup RB)
  have hLB : L ∈ allLinks (n : Int) B [] none := List.mem_of_mem_take hLt
  have hLA : L ∈ allLinks (n : Int) A [] none := by
    rw [← t1] at hLt
    exact List.mem_of_mem_take hLt
  obtain ⟨e, he, hk1⟩ := List.mem_map.1 hcached
  obtain ⟨R0, hR0, hperm, _⟩ := hi.lru.entry e he
  have hR0' : R0 = RA := by
    rw [hk1] at hR0
    exact (Option.some.inj hR0).symm
  subst hR0'
  have hpres : lookup s (.chunk L) = some (.node L.entries L.next) :=
    Inv.chunk_present hi he (hperm.mem_iff.2 (hpA.mem_iff.1 hLA))
  have hw' : WFc (commitAll s (allLinks (n : Int) B [] none)) := wfc_commitAll hli.wfc _
  have c1 : lookup (commitAll s (allLinks (n : Int) B [] none)) (.chunk L) =
      some (.node L.entries L.next) := by
    rw [commitAll_lookup _ _ hndB]
    simp [hpres]
  have hle : cnt s L ≤ es.length := hi.wf.cnt_le hi.bound L
  have o1 : cnt (commitAll s (allLinks (n : Int) B [] none)) L = cnt s L + 1 := by
    have : lookup (commitAll s (allLinks (n : Int) B [] none)) (.overlap L) =
        some (.raw (putUint64 (cnt s L + 1))) := by
      rw [commitAll_lookup _ _ hndB]
      simp only [hLB, hpres, ne_eq, not_false_eq_true, and_self, if_true, reduceCtorEq]
      rw [Nat.mod_eq_of_lt (by omega)]
    exact cnt_of_lookup (by omega) this
  have hdata : (chunked ⟨⟨s, fl⟩, (n : Int), ⟨max, c⟩, err⟩ B RB).ds.data =
      insert (evictEntries (commitAll s (allLinks (n : Int) B [] none))
        (victim max c RB (allLinks (n : Int) B [] none)).toList) (.root RB) (.raw []) := by
    simp only [chunked, addStore_victim]
  refine ⟨hpres, ?_, ?_, ?_⟩
  · rw [hdata, lookup_insert, if_neg (by simp)]
    cases hvic : victim max c RB (allLinks (n : Int) B [] none) with
    | none => simpa [evictEntries] using c1
    | some v =>
      have hm : v ∈ c := (victim_mem hmax hvic).1
      obtain ⟨V, hV, hpV, _⟩ := hi.lru.entry v hm
      obtain ⟨ko, Vl⟩ := v
      simp only at hV hpV
      subst hV
      simp only [Option.toList, evictEntries]
      rw [chunk_evictChain hw' (hpV.nodup_iff.2 (chain_nodup V)) V L (by omega)]
      exact c1
  · intro hvic
    simp only at hvic
    rw [hdata, hvic, cnt_insert_root]
    simp only [Option.toList, evictEntries]
    exact o1
  · intro v hvic
    simp only at hvic
    have hm : v ∈ c := (victim_mem hmax hvic).1
    obtain ⟨V, hV, hpV, _⟩ := hi.lru.entry v hm
    obtain ⟨ko, Vl⟩ := v
    simp only at hV hpV
    subst hV
    rw [hdata, hvic, cnt_insert_root]
    simp only [Option.toList, evictEntries]
    rw [cnt_evictChain hw' (hpV.nodup_iff.2 (chain_nodup V)) V L, o1]
    split <;> omega

theorem C23_shared_beginning_witness :
    (1 ≤ 3 ∧ 1 ≤ 1 ∧ 1 * 3 ≤ sharedA.length ∧ 1 * 3 ≤ sharedB.length ∧
      sharedA.take (1 * 3) = sharedB.take (1 * 3) ∧ (1 : Int) ≤ 1 ∧
      (∀ e ∈ [Event.call (.chunk sharedA)], e.valid = true) ∧
      [Event.call (.chunk sharedA)].length + 1 < 2 ^ 64 ∧
      Reached 3 1 [] [.call (.chunk sharedA)] sharedCache ∧
      sharedCache.chunkSize = ((3 : Nat) : Int) ∧
      rootOf ((3 : Nat) : Int) sharedA [] none = some (.cons [[4]] (.tail threeDigests)) ∧
      some (Link.cons [[4]] (.tail threeDigests)) ∈ sharedCache.cache.ll.map Prod.fst) ∧
    ((allLinks ((3 : Nat) : Int) sharedA [] none).take 1 =
        (allLinks ((3 : Nat) : Int) sharedB [] none).take 1 ∧
      ((allLinks ((3 : Nat) : Int) sharedB [] none).take 1).length = 1 ∧
      ∃ RB ls', Chunk sharedCache sharedB = ((some RB, none), ls') ∧
        ∀ L ∈ (allLinks ((3 : Nat) : Int) sharedB [] none).take 1,
          lookup sharedCache.ds.data (.chunk L) = some (.node L.entries L.next) ∧
          lookup ls'.ds.data (.chunk L) = some (.node L.entries L.next) ∧
          (victim sharedCache.cache.MaxEntries sharedCache.cache.ll RB
              (allLinks ((3 : Nat) : Int) sharedB [] none) = none →
            cnt ls'.ds.data L = cnt sharedCache.ds.data L + 1) ∧
          (∀ e, victim sharedCache.cache.MaxEntries sharedCache.cache.ll RB
              (allLinks ((3 : Nat) : Int) sharedB [] none) = some e →
            cnt ls'.ds.data L =
              if L ∈ e.2 then cnt sharedCache.ds.data L else cnt sharedCache.ds.data L + 1)) :=
  ⟨⟨by decide, by decide, by decide, by decide, by decide, by decide, by decide, by decide,
      ⟨newCache 3 1, rfl, rfl⟩, rfl, rfl, by decide⟩,
    C23_shared_beginning 3 1 (by decide) (by decide) sharedA sharedB (by decide) (by decide)
      (by decide) 3 1 [] [.call (.chunk sharedA)] sharedCache (by decide) (by decide)
      (by decide) ⟨newCache 3 1, rfl, rfl⟩ rfl (.cons [[4]] (.tail threeDigests)) rfl
      (by decide)⟩

/-! ## The order of the LRU index and the log of adds -/

theorem addAge_head (R : Link) (log : List Link) : addAge R (R :: log) = some 0 := by
  simp [addAge]

theorem addAge_push {X Z : Link} (h : X ≠ Z) {log : List Link} {i : Nat}
    (hi : addAge X log = some i) : addAge X (Z :: log) = some (i + 1) := by
  have : ¬ Z = X := fun e => h e.symm
  simp [addAge, this, hi]

theorem newer_push {log : List Link} {Z : Link} {a b : Option Link × List Link}
    (ha : a.1 ≠ some Z) (hb : b.1 ≠ some Z) (h : Newer log a b) : Newer (Z :: log) a b := by
  obtain ⟨X, Y, i, j, h1, h2, h3, h4, h5⟩ := h
  have hX : X ≠ Z := fun e => ha (by rw [h1, e])
  have hY : Y ≠ Z := fun e => hb (by rw [h2, e])
  exact ⟨X, Y, i + 1, j + 1, h1, h2, addAge_push hX h3, addAge_push hY h4, by omega⟩

theorem recent_push {log : List Link} {Z : Link} {c : List (Option Link × List Link)}
    (h : Recent log c) (hc : ∀ e ∈ c, e.1 ≠ some Z) : Recent (Z :: log) c := by
  obtain ⟨h1, h2⟩ := h
  refine ⟨h1.imp_of_mem (fun ha hb hn => newer_push (hc _ ha) (hc _ hb) hn), ?_⟩
  intro e he
  obtain ⟨X, i, hX, hi⟩ := h2 e he
  have hXZ : X ≠ Z := fun e' => hc e he (by rw [hX, e'])
  exact ⟨X, i + 1, hX, addAge_push hXZ hi⟩

theorem recent_sublist {log : List Link} {c c' : List (Option Link × List Link)}
    (h : Recent log c) (hs : c'.Sublist c) : Recent log c' :=
  ⟨h.1.sublist hs, fun e he => h.2 e (hs.subset he)⟩

theorem recent_nil (log : List Link) : Recent log [] :=
  ⟨List.Pairwise.nil, fun e he => by simp at he⟩

theorem recent_add {log : List Link} {c rest : List (Option Link × List Link)}
    (h : Recent log c) (R : Link) (links : List Link) (hs : rest.Sublist c)
    (hne : ∀ e ∈ rest, e.1 ≠ some R) :
    Recent (R :: log) ((some R, links) :: rest) := by
  have hold := recent_sublist h hs
  have hr : Recent (R :: log) rest := recent_push hold hne
  refine ⟨List.pairwise_cons.2 ⟨?_, hr.1⟩, ?_⟩
  · intro e he
    obtain ⟨X, i, hX, hi⟩ := hr.2 e he
    have hXR : X ≠ R := fun e' => hne e he (by rw [hX, e'])
    obtain ⟨X', i', hX', hi'⟩ := hold.2 e he
    have hXX : X' = X := by
      rw [hX] at hX'
      exact (Option.some.inj hX').symm
    subst hXX
    exact ⟨R, X', 0, i' + 1, rfl, hX, addAge_head R log, addAge_push hXR hi', by omega⟩
  · intro e he
    rcases List.mem_cons.1 he with rfl | he
    · exact ⟨R, 0, rfl, addAge_head R log⟩
    · exact hr.2 e he

theorem addList_shape {max : Int} (hmax : 1 ≤ max) (c : List (Option Link × List Link))
    (R : Link) (links : List Link) :
    ∃ rest, addList max c R links = (some R, links) :: rest ∧ rest.Sublist c ∧
      ∀ e ∈ rest, e.1 ≠ some R := by
  unfold addList
  split
  · exact ⟨_, rfl, List.filter_sublist _, fun e he => by
      simpa using (List.mem_filter.1 he).2⟩
  · rename_i hit
    have hk : ∀ e ∈ c, e.1 ≠ some R := by
      intro e he hk
      apply hit
      rw [List.any_eq_true]
      exact ⟨e, he, by simpa using hk⟩
    split
    · rename_i hov
      cases c with
      | nil =>
        simp only [List.length_cons, List.length_nil] at hov
        omega
      | cons x c' =>
        refine ⟨(x :: c').dropLast, by simp [List.dropLast], List.dropLast_sublist _, ?_⟩
        intro e he
        exact hk e (List.mem_of_mem_dropLast he)
    · exact ⟨c, rfl, List.Sublist.refl c, hk⟩

theorem recent_addList {max : Int} (hmax : 1 ≤ max) {log : List Link}
    {c : List (Option Link × List Link)} (h : Recent log c) (R : Link) (links : List Link) :
    Recent (R :: log) (addList max c R links) := by
  obtain ⟨rest, e1, e2, e3⟩ := addList_shape hmax c R links
  rw [e1]
  exact recent_add h R links e2 e3

theorem recent_restoreRoots (cs max : Int) (hmax : 1 ≤ max) :
    ∀ (pend : List Key) (count : Nat) (s : List (Key × Value))
      (c : List (Option Link × List Link)) (log : List Link), LRest s c pend → Recent log c →
      ∀ (n : Nat) (ls' : CachedEntriesChunker),
        restoreRoots pend count ⟨⟨s, []⟩, cs, ⟨max, c⟩, none⟩ = (.ok n, ls') →
        Recent ((pend.filterMap Key.rootLink).reverse ++ log) ls'.cache.ll := by
  intro pend
  induction pend with
  | nil =>
    intro count s c log _ hr n ls' hres
    simp only [restoreRoots, Prod.mk.injEq, Except.ok.injEq] at hres
    obtain ⟨_, h2⟩ := hres
    subst h2
    simpa using hr
  | cons k rest ih =>
    intro count s c log h hr n ls' hres
    cases k with
    | root X =>
      simp only [restoreRoots, linkFromDsCachePrefixedKey] at hres
      cases hl : listEntriesChainLinks ⟨s, []⟩ X with
      | mk r ds =>
        obtain ⟨links, err⟩ := r
        rw [hl] at hres
        cases err with
        | some e => simp at hres
        | none =>
          obtain ⟨h1, h2⟩ := listEntriesChainLinks_ok hl
          subst h1 h2
          have hkeys : ∀ e ∈ c, e.1 ≠ none := by
            intro e he
            obtain ⟨Y, hY, _⟩ := h.entry e he
            simp [hY]
          simp only [performOnCache_add h.wfc cs max c X X.chain hkeys] at hres
          have := ih (count + 1) _ _ (X :: log) (h.add_entry hmax)
            (recent_addList hmax hr X X.chain) n ls' hres
          simpa [Key.rootLink, List.filterMap_cons] using this
    | chunk L => simp [restoreRoots, linkFromDsCachePrefixedKey] at hres
    | overlap L => simp [restoreRoots, linkFromDsCachePrefixedKey] at hres
    | rootRaw name => simp [restoreRoots, linkFromDsCachePrefixedKey] at hres
    | other name => simp [restoreRoots, linkFromDsCachePrefixedKey] at hres

theorem recent_New {s : List (Key × Value)} (hw : WFc s) (hk : (s.map Prod.fst).Nodup)
    (hre : ∀ X v, lookup s (.root X) = some v → v = .raw []) (log : List Link)
    (cs cap : Int) (hcap : 1 ≤ cap) (picks : List Nat) {ls' : CachedEntriesChunker}
    (hres : NewCachedEntriesChunker ⟨s, []⟩ cs cap picks = .ok ls') :
    Recent ((restoreOrder ⟨s, []⟩ picks).reverse ++ log) ls'.cache.ll := by
  unfold NewCachedEntriesChunker at hres
  cases hr : restoreCache ⟨⟨s, []⟩, cs, ⟨cap, []⟩, none⟩ picks with
  | mk err ls1 =>
    rw [hr] at hres
    cases err with
    | some e => simp at hres
    | none =>
      simp only [Except.ok.injEq] at hres
      subst hres
      simp only [restoreCache, query_reliable] at hr
      cases h1 : restoreRoots (rangeOrder picks ((s.map Prod.fst).filter underRoot)) 0
          ⟨⟨s, []⟩, cs, ⟨cap, []⟩, none⟩ with
      | mk r ls2 =>
        rw [h1] at hr
        cases r with
        | error e => simp at hr
        | ok n =>
          have i0 := recent_restoreRoots cs cap hcap _ 0 s [] log
            (lrest_start hw hk hre picks) (recent_nil log) n ls2 h1
          obtain ⟨_, _, _, i4⟩ := restoreRoots_linv cs cap hcap _ 0 s []
            (lrest_start hw hk hre picks) n ls2 h1
          simp only at hr
          by_cases hn : n = 0
          · have hpend : rangeOrder picks ((s.map Prod.fst).filter underRoot) = [] := by
              apply List.eq_nil_of_length_eq_zero
              omega
            rw [hpend] at h1
            simp only [restoreRoots, Prod.mk.injEq, Except.ok.injEq] at h1
            obtain ⟨_, h3⟩ := h1
            subst h3
            simp only [hn, if_true, query_reliable, pruneAll_reliable, prune_all_keys,
              Prod.mk.injEq, true_and] at hr
            subst hr
            exact recent_nil _
          · simp only [hn, if_false, Prod.mk.injEq, true_and] at hr
            subst hr
            exact i0

theorem recent_step {ls ls' : CachedEntriesChunker} (h : LInv ls)
    (hmax : 1 ≤ ls.cache.MaxEntries) {log : List Link} (hr : Recent log ls.cache.ll)
    (e : Event) (hv : e.valid = true) (hst : e.step ls = some ls') :
    Recent ((e.adds ls).reverse ++ log) ls'.cache.ll := by
  cases e with
  | call c =>
    simp only [Event.step] at hst
    split at hst
    · rename_i hsucc
      simp only [Option.some.injEq] at hst
      subst hst
      cases c with
      | chunk mhi =>
        obtain ⟨R, hR⟩ := chunk_succeeds hsucc
        obtain ⟨_, h2, h3⟩ := Chunk_ok_of h hR
        simp only [Call.exec, Event.adds]
        rw [h3, h2]
        simp only [chunked, Option.toList, List.reverse_singleton, List.singleton_append]
        exact recent_addList hmax hr R _
      | clear picks =>
        obtain ⟨ls1, h1, _, h3, _⟩ := Clear_linv h picks
        simp only [Call.exec, h1, h3, Event.adds]
        exact recent_nil _
      | getRaw l =>
        simp only [Call.exec, getRaw_state, Event.adds]
        simpa using hr
      | close =>
        simp only [Call.exec, close_state, Event.adds]
        simpa using hr
    · simp at hst
  | reopen cs cap picks =>
    simp only [Event.valid, decide_eq_true_eq] at hv
    simp only [Event.step] at hst
    cases hn : NewCachedEntriesChunker ls.ds cs cap picks with
    | error e => simp [hn] at hst
    | ok ls1 =>
      simp only [hn, Option.some.injEq] at hst
      subst hst
      obtain ⟨⟨s, fl⟩, cs0, c, err⟩ := ls
      have hrel := h.reliable
      simp only at hrel
      subst hrel
      exact recent_New h.wfc h.keys h.rootEmpty log cs cap hv picks hn

theorem recent_run (es : List Event) :
    ∀ {ls ls' : CachedEntriesChunker} (log : List Link), LInv ls →
      1 ≤ ls.cache.MaxEntries → (∀ e ∈ es, e.valid = true) → Recent log ls.cache.ll →
      run es ls = some ls' → Recent (addLog es ls log) ls'.cache.ll := by
  induction es with
  | nil =>
    intro ls ls' log _ _ _ hr hrun
    simp only [run, Option.some.injEq] at hrun
    subst hrun
    exact hr
  | cons e es ih =>
    intro ls ls' log h hmax hv hr hrun
    simp only [run] at hrun
    cases hst : e.step ls with
    | none => simp [hst] at hrun
    | some ls1 =>
      simp only [hst] at hrun
      simp only [addLog, hst]
      obtain ⟨i1, i2⟩ := step_linv h hmax e (hv e (by simp)) hst
      exact ih _ i1 i2 (fun e' he' => hv e' (by simp [he']))
        (recent_step h hmax hr e (hv e (by simp)) hst) hrun

theorem length_filter_key {c : List (Option Link × List Link)} {R : Link}
    (hnd : (c.map Prod.fst).Nodup) (hm : some R ∈ c.map Prod.fst) :
    (c.filter (fun e => decide (e.1 ≠ some R))).length + 1 = c.length := by
  induction c with
  | nil => simp at hm
  | cons e c ih =>
    simp only [List.map_cons, List.nodup_cons] at hnd
    by_cases he : e.1 = some R
    · have hnot : some R ∉ c.map Prod.fst := he ▸ hnd.1
      have hall : c.filter (fun e => decide (e.1 ≠ some R)) = c := by
        rw [List.filter_eq_self]
        intro x hx
        simp only [ne_eq, decide_not, Bool.not_eq_true', decide_eq_false_iff_not]
        intro hk
        exact hnot (List.mem_map.2 ⟨x, hx, hk⟩)
      have hp : decide (e.1 ≠ some R) = false := by simp [he]
      rw [List.filter_cons, hp]
      simp only [Bool.false_eq_true, if_false]
      rw [hall, List.length_cons]
    · have hm' : some R ∈ c.map Prod.fst := by
        simp only [List.map_cons, List.mem_cons] at hm
        rcases hm with hm | hm
        · exact absurd hm.symm he
        · exact hm
      have hp : decide (e.1 ≠ some R) = true := by simp [he]
      have := ih hnd.2 hm'
      rw [List.filter_cons, hp]
      simp only [if_true, List.length_cons]
      omega

/-- C22, the claim as written fails: on a cache of capacity 2, `[1]` is chunked, then `[2]`; a
restart follows whose store query yields the root of `[2]` before the root of `[1]`, so the
restore adds them in that order. The cache then holds two chains, and the `Chunk` call whose
most recent return of the root is the oldest is the one of `[1]`; but `Chunk` of `[3]` evicts
the chain of `[2]`. -/
theorem C22_counterexample :
    run reorderHistory (newCache 3 2) = some reorderCache ∧
    (Len reorderCache : Int) = Cap reorderCache ∧ Cap reorderCache = 2 ∧
    reorderCache.cache.ll.map Prod.fst = [some (.tail [[1]]), some (.tail [[2]])] ∧
    some (Link.tail [[3]]) ∉ reorderCache.cache.ll.map Prod.fst ∧
    (Chunk reorderCache [[3]]).1 = (some (.tail [[3]]), none) ∧
    (Chunk reorderCache [[3]]).2.cache.ll.map Prod.fst =
      [some (.tail [[3]]), some (.tail [[1]])] ∧
    age 3 (.tail [[1]]) [.chunk [[2]], .chunk [[1]]] = some 1 ∧
    age 3 (.tail [[2]]) [.chunk [[2]], .chunk [[1]]] = some 0 := by
  decide

/-- C22, amended. LRU victim: an add is the add of the root a successful `Chunk` call returns,
or the add of a persisted root by the restore of a restart, which adds the roots in the order
of its store query; `addLog` lists the adds of a history, the most recent first. Take a cache
constructed over the empty reliable store with a capacity of at least 1, a history of
successful calls and restarts (capacities of at least 1), and a further `Chunk` call that
succeeds with root `R`. (1) When `R` is not cached and the cache holds exactly capacity chains,
the LRU index loses exactly its last entry and gains `R` at the front; the root marker of the
evicted root `V` is gone, the other roots keep theirs, and every other cached root has a more
recent add than `V` has. (2) When `R` is cached, the new index is the old one with the entry of
`R` moved to the front: as many entries as before, and the same root markers. (3) Before the
call the entries of the index stand in the order of their most recent add; the call adds `R`,
and `R` is the first entry after it. -/
theorem C22_lru_victim (chunkSize capacity : Int) (picks : List Nat) (es : List Event)
    (ls ls' : CachedEntriesChunker) (mhi : List Digest) (R : Link) (hcap : 1 ≤ capacity)
    (hv : ∀ e ∈ es, e.valid = true) (h : Reached chunkSize capacity picks es ls)
    (hres : Chunk ls mhi = ((some R, none), ls')) :
    (some R ∉ ls.cache.ll.map Prod.fst → (Len ls : Int) = Cap ls →
      ∃ init last V, ls.cache.ll = init ++ [last] ∧ last.1 = some V ∧
        ls'.cache.ll = (some R, allLinks ls.chunkSize mhi [] none) :: init ∧
        lookup ls'.ds.data (.root V) = none ∧
        ∀ e ∈ init, ∃ X i j, e.1 = some X ∧ lookup ls'.ds.data (.root X) ≠ none ∧
          addAge X (addLog es (newCache chunkSize capacity) []) = some i ∧
          addAge V (addLog es (newCache chunkSize capacity) []) = some j ∧ i < j) ∧
    (some R ∈ ls.cache.ll.map Prod.fst →
      ls'.cache.ll = (some R, allLinks ls.chunkSize mhi [] none) ::
        ls.cache.ll.filter (fun e => decide (e.1 ≠ some R)) ∧
      Len ls' = Len ls ∧
      ∀ X, lookup ls'.ds.data (.root X) ≠ none ↔ lookup ls.ds.data (.root X) ≠ none) ∧
    Recent (addLog es (newCache chunkSize capacity) []) ls.cache.ll ∧
    (Event.call (.chunk mhi)).adds ls = [R] ∧
    ls'.cache.ll.head? = some (some R, allLinks ls.chunkSize mhi [] none) := by
  obtain ⟨hli, hmax⟩ := reached_linv hcap hv h
  obtain ⟨ls0, h0, hr⟩ := h
  rw [New_empty] at h0
  simp only [Except.ok.injEq] at h0
  subst h0
  have hrec := recent_run es [] (linv_empty chunkSize capacity)
    (show 1 ≤ (newCache chunkSize capacity).cache.MaxEntries from hcap) hv (recent_nil [])
    hr
  obtain ⟨_, hroot, hls'⟩ := Chunk_ok_of hli hres
  have hli' : LInv ls' := hls' ▸ chunked_linv hli hmax mhi R hroot
  obtain ⟨⟨s, fl⟩, cs, ⟨max, c⟩, err⟩ := ls
  simp only at hmax hroot hrec
  have hll : ls'.cache.ll = addList max c R (allLinks cs mhi [] none) := by
    rw [hls']; rfl
  have hkeys : ∀ X, lookup ls'.ds.data (.root X) ≠ none ↔ some X ∈ ls'.cache.ll.map Prod.fst := by
    intro X
    refine ⟨hli'.lru.marker X, ?_⟩
    intro hX
    obtain ⟨e, he, hk⟩ := List.mem_map.1 hX
    obtain ⟨Y, hY, _, hm⟩ := hli'.lru.entry e he
    rw [hk] at hY
    simp only [Option.some.injEq] at hY
    subst hY
    exact hm
  have hkeys0 : ∀ X, lookup s (.root X) ≠ none ↔ some X ∈ c.map Prod.fst := by
    intro X
    refine ⟨hli.lru.marker X, ?_⟩
    intro hX
    obtain ⟨e, he, hk⟩ := List.mem_map.1 hX
    obtain ⟨Y, hY, _, hm⟩ := hli.lru.entry e he
    rw [hk] at hY
    simp only [Option.some.injEq] at hY
    subst hY
    exact hm
  refine ⟨?_, ?_, hrec, by simp [Event.adds, hroot], ?_⟩
  · intro hnot hfull
    simp only [Len, Cap] at hfull
    have hne : c ≠ [] := by
      intro e
      rw [e] at hfull
      simp only [List.length_nil, Nat.cast_zero] at hfull
      omega
    have hsplit : c = c.dropLast ++ [c.getLast hne] := (List.dropLast_append_getLast hne).symm
    have hlast : c.getLast hne ∈ c := List.getLast_mem hne
    obtain ⟨V, hV, _, _⟩ := hli.lru.entry _ hlast
    have hit : c.any (fun e => decide (e.1 = some R)) = false := by
      rw [List.any_eq_false]
      intro e he
      simp only [decide_eq_true_eq]
      intro hk
      exact hnot (List.mem_map.2 ⟨e, he, hk⟩)
    have hov : max ≠ 0 ∧ (((some R, allLinks cs mhi [] none) :: c).length : Int) > max := by
      simp only [List.length_cons, Nat.cast_add, Nat.cast_one]
      omega
    have hnew : ls'.cache.ll = (some R, allLinks cs mhi [] none) :: c.dropLast := by
      rw [hll]
      unfold addList
      simp only [hit, Bool.false_eq_true, if_false, if_pos hov]
      exact List.dropLast_cons_of_ne_nil hne
    have hndk : ((c.dropLast ++ [c.getLast hne]).map Prod.fst).Nodup := by
      rw [← hsplit]; exact hli.lru.nodup
    refine ⟨c.dropLast, c.getLast hne, V, hsplit, hV, hnew, ?_, ?_⟩
    · by_contra hm
      have hmem := (hkeys V).1 hm
      rw [hnew] at hmem
      simp only [List.map_cons, List.mem_cons, Option.some.injEq] at hmem
      rcases hmem with hVR | hVi
      · apply hnot
        rw [← hVR, ← hV]
        exact List.mem_map.2 ⟨_, hlast, rfl⟩
      · rw [List.map_append, List.nodup_append] at hndk
        apply hndk.2.2 hVi
        simp [hV]
    · intro e he
      have hpw := hrec.1
      rw [hsplit, List.pairwise_append] at hpw
      obtain ⟨X, Y, i, j, hX, hY, hi, hj, hlt⟩ := hpw.2.2 e he _ (List.mem_singleton.2 rfl)
      rw [hV] at hY
      simp only [Option.some.injEq] at hY
      subst hY
      refine ⟨X, i, j, hX, ?_, hi, hj, hlt⟩
      apply (hkeys X).2
      rw [hnew]
      simp only [List.map_cons, List.mem_cons]
      right
      exact List.mem_map.2 ⟨e, he, hX⟩
  · intro hin
    have hit : c.any (fun e => decide (e.1 = some R)) = true := by
      rw [List.any_eq_true]
      obtain ⟨e, he, hk⟩ := List.mem_map.1 hin
      exact ⟨e, he, by simpa using hk⟩
    have hnew : ls'.cache.ll = (some R, allLinks cs mhi [] none) ::
        c.filter (fun e => decide (e.1 ≠ some R)) := by
      rw [hll]
      unfold addList
      simp only [hit, if_true]
    refine ⟨hnew, ?_, ?_⟩
    · simp only [Len]
      rw [hnew, List.length_cons]
      exact length_filter_key hli.lru.nodup hin
    · intro X
      rw [hkeys X, hkeys0 X, hnew]
      simp only [List.map_cons, List.mem_cons, Option.some.injEq, List.mem_map, List.mem_filter]
      constructor
      · rintro (hXR | ⟨e, ⟨he, _⟩, hk⟩)
        · rw [hXR]
          exact List.mem_map.1 hin
        · exact ⟨e, he, hk⟩
      · rintro ⟨e, he, hk⟩
        by_cases hXR : X = R
        · exact Or.inl hXR
        · right
          refine ⟨e, ⟨he, ?_⟩, hk⟩
          simp only [ne_eq, decide_not, Bool.not_eq_true', decide_eq_false_iff_not]
          intro hk'
          rw [hk] at hk'
          exact hXR (Option.some.inj hk')
  · obtain ⟨rest, e1, _, _⟩ := addList_shape hmax c R (allLinks cs mhi [] none)
    rw [hll, e1]
    rfl

theorem C22_lru_victim_witness :
    ((1 : Int) ≤ 2 ∧ (∀ e ∈ reorderHistory, e.valid = true) ∧
      Reached 3 2 [] reorderHistory reorderCache ∧
      Chunk reorderCache [[3]] = ((some (.tail [[3]]), none), (Chunk reorderCache [[3]]).2) ∧
      some (Link.tail [[3]]) ∉ reorderCache.cache.ll.map Prod.fst ∧
      (Len reorderCache : Int) = Cap reorderCache) ∧
    ((some (Link.tail [[3]]) ∉ reorderCache.cache.ll.map Prod.fst →
      (Len reorderCache : Int) = Cap reorderCache →
      ∃ init last V, reorderCache.cache.ll = init ++ [last] ∧ last.1 = some V ∧
        (Chunk reorderCache [[3]]).2.cache.ll =
          (some (.tail [[3]]), allLinks reorderCache.chunkSize [[3]] [] none) :: init ∧
        lookup (Chunk reorderCache [[3]]).2.ds.data (.root V) = none ∧
        ∀ e ∈ init, ∃ X i j, e.1 = some X ∧
          lookup (Chunk reorderCache [[3]]).2.ds.data (.root X) ≠ none ∧
          addAge X (addLog reorderHistory (newCache 3 2) []) = some i ∧
          addAge V (addLog reorderHistory (newCache 3 2) []) = some j ∧ i < j) ∧
    (some (Link.tail [[3]]) ∈ reorderCache.cache.ll.map Prod.fst →
      (Chunk reorderCache [[3]]).2.cache.ll =
        (some (.tail [[3]]), allLinks reorderCache.chunkSize [[3]] [] none) ::
          reorderCache.cache.ll.filter (fun e => decide (e.1 ≠ some (.tail [[3]]))) ∧
      Len (Chunk reorderCache [[3]]).2 = Len reorderCache ∧
      ∀ X, lookup (Chunk reorderCache [[3]]).2.ds.data (.root X) ≠ none ↔
        lookup reorderCache.ds.data (.root X) ≠ none) ∧
    Recent (addLog reorderHistory (newCache 3 2) []) reorderCache.cache.ll ∧
    (Event.call (.chunk [[3]])).adds reorderCache = [.tail [[3]]] ∧
    (Chunk reorderCache [[3]]).2.cache.ll.head? =
      some (some (.tail [[3]]), allLinks reorderCache.chunkSize [[3]] [] none)) :=
  ⟨⟨by decide, by decide, ⟨newCache 3 2, rfl, rfl⟩, rfl, by decide, by decide⟩,
    C22_lru_victim 3 2 [] reorderHistory reorderCache (Chunk reorderCache [[3]]).2 [[3]]
      (.tail [[3]]) (by decide) (by decide) ⟨newCache 3 2, rfl, rfl⟩ rfl⟩

/-! ## A chain chunked twice, followed through the later calls -/

theorem sameOn_refl (R : Link) (s : List (Key × Value)) : SameOn R s s :=
  ⟨rfl, fun _ _ => ⟨rfl, rfl⟩⟩

theorem sameOn_trans {R : Link} {a b c : List (Key × Value)} (h1 : SameOn R a b)
    (h2 : SameOn R b c) : SameOn R a c :=
  ⟨h2.1.trans h1.1, fun L hL =>
    ⟨(h2.2 L hL).1.trans (h1.2 L hL).1, (h2.2 L hL).2.trans (h1.2 L hL).2⟩⟩

theorem kept_same {R : Link} {s s' : List (Key × Value)} (h : Kept R s) (hs : SameOn R s s') :
    Kept R s' :=
  ⟨by rw [hs.1]; exact h.1, fun L hL =>
    ⟨by rw [(hs.2 L hL).1]; exact (h.2 L hL).1, by rw [(hs.2 L hL).2]; exact (h.2 L hL).2⟩⟩

theorem gone_same {R : Link} {s s' : List (Key × Value)} (h : Gone R s) (hs : SameOn R s s') :
    Gone R s' :=
  ⟨by rw [hs.1]; exact h.1, fun L hL =>
    ⟨by rw [(hs.2 L hL).1]; exact (h.2 L hL).1, by rw [(hs.2 L hL).2]; exact (h.2 L hL).2⟩⟩

theorem moves_refl (R : Link) (s : List (Key × Value)) : Moves R s s :=
  Or.inl (sameOn_refl R s)

theorem moves_trans {R : Link} {a b c : List (Key × Value)} (h1 : Moves R a b)
    (h2 : Moves R b c) : Moves R a c := by
  rcases h1 with h1 | ⟨p1, p2, p3⟩
  · rcases h2 with h2 | ⟨q1, q2, q3⟩
    · exact Or.inl (sameOn_trans h1 h2)
    · exact Or.inr ⟨by rw [← h1.1]; exact q1, q2, fun hk => q3 (kept_same hk h1)⟩
  · rcases h2 with h2 | ⟨q1, q2, q3⟩
    · exact Or.inr ⟨p1, by rw [h2.1]; exact p2, fun hk => gone_same (p3 hk) h2⟩
    · exact absurd p2 q1

theorem moves_kept {R : Link} {s s' : List (Key × Value)} (h : Moves R s s') (hk : Kept R s) :
    Kept R s' ∨ Gone R s' := by
  rcases h with h | ⟨_, _, p3⟩
  · exact Or.inl (kept_same hk h)
  · exact Or.inr (p3 hk)

theorem moves_absent {R : Link} {s s' : List (Key × Value)} (h : Moves R s s')
    (hn : lookup s (.root R) = none) : lookup s' (.root R) = none := by
  rcases h with h | ⟨p1, _, _⟩
  · rw [h.1]; exact hn
  · exact absurd hn p1

theorem evictChain_root (s : List (Key × Value)) (X : Link) (links : List Link) (Y : Link) :
    lookup (evictChain s X links) (.root Y) = if Y = X then none else lookup s (.root Y) := by
  rw [evictChain, lookup_remove, (evictAll_frame links s).1]
  by_cases h : Y = X
  · simp [h]
  · have : ¬ X = Y := fun e => h e.symm
    simp [h, this]

theorem track_evictChain {R X : Link} {s : List (Key × Value)} {links : List Link}
    (hw : WFc s) (hp : links.Perm X.chain) (hm : lookup s (.root X) ≠ none) (ha : Apart R s) :
    Apart R (evictChain s X links) ∧ Moves R s (evictChain s X links) := by
  have hnd : links.Nodup := hp.nodup_iff.2 (chain_nodup X)
  constructor
  · intro Y hY hmY
    rw [evictChain_root] at hmY
    split at hmY
    · exact absurd rfl hmY
    · exact ha Y hY hmY
  · by_cases hX : X = R
    · subst hX
      refine Or.inr ⟨hm, by rw [evictChain_root, if_pos rfl], fun hk => ?_⟩
      refine ⟨by rw [evictChain_root, if_pos rfl], fun L hL => ?_⟩
      have hc : cnt s L = 1 := cnt_of_lookup (by norm_num) (hk.2 L hL).1
      obtain ⟨e1, e2⟩ := (evictChain_counted hw hnd X).2 L (hp.mem_iff.2 hL) hc
      exact ⟨e1, by rw [e2]; exact (hk.2 L hL).2⟩
    · refine Or.inl ⟨?_, fun L hL => ?_⟩
      · rw [evictChain_root, if_neg (fun e => hX e.symm)]
      · have hnot : L ∉ links := fun h => ha X hX hm L hL (hp.mem_iff.1 h)
        constructor
        · rw [evictChain, lookup_remove, if_neg (by simp), evictAll_lookup links hw hnd]
          simp [hnot]
        · rw [evictChain, lookup_remove, if_neg (by simp), evictAll_lookup links hw hnd]
          simp [hnot]

theorem track_evictEntries (R : Link) (es : List (Option Link × List Link)) :
    ∀ s : List (Key × Value), WFc s → Apart R s →
      (∀ e ∈ es, ∃ X, e.1 = some X ∧ e.2.Perm X.chain ∧ lookup s (.root X) ≠ none) →
      (es.map Prod.fst).Nodup →
      Apart R (evictEntries s es) ∧ Moves R s (evictEntries s es) := by
  induction es with
  | nil => intro s _ ha _ _; exact ⟨ha, moves_refl R s⟩
  | cons e es ih =>
    intro s hw ha he hnd
    obtain ⟨X, hX, hp, hm⟩ := he e (by simp)
    obtain ⟨k, links⟩ := e
    simp only at hX hp
    subst hX
    simp only [List.map_cons, List.nodup_cons] at hnd
    obtain ⟨a1, m1⟩ := track_evictChain hw hp hm ha
    have he' : ∀ e ∈ es, ∃ Y, e.1 = some Y ∧ e.2.Perm Y.chain ∧
        lookup (evictChain s X links) (.root Y) ≠ none := by
      intro e' he'
      obtain ⟨Y, hY, hpY, hmY⟩ := he e' (by simp [he'])
      refine ⟨Y, hY, hpY, ?_⟩
      have hne : Y ≠ X := by
        intro e0
        apply hnd.1
        rw [← e0, ← hY]
        exact List.mem_map_of_mem _ he'
      rw [evictChain_root, if_neg hne]
      exact hmY
    obtain ⟨a2, m2⟩ := ih _ (wfc_evictChain hw X links) a1 he' hnd.2
    exact ⟨a2, moves_trans m1 m2⟩

theorem track_addStore {R : Link} {max : Int} (hmax : 1 ≤ max) {s : List (Key × Value)}
    {c : List (Option Link × List Link)} (hw : WFc s) (ha : Apart R s)
    (he : ∀ e ∈ c, ∃ X, e.1 = some X ∧ e.2.Perm X.chain ∧ lookup s (.root X) ≠ none)
    (X : Link) (links : List Link) :
    Apart R (addStore max s c X links) ∧ Moves R s (addStore max s c X links) ∧
      ∀ Y, lookup (addStore max s c X links) (.root Y) ≠ none → lookup s (.root Y) ≠ none := by
  rw [addStore_victim]
  cases hv : victim max c X links with
  | none => exact ⟨ha, moves_refl R s, fun _ h => h⟩
  | some e =>
    obtain ⟨hm, _⟩ := victim_mem hmax hv
    obtain ⟨t1, t2⟩ := track_evictEntries R [e] s hw ha
      (fun e' he' => by
        simp only [List.mem_singleton] at he'
        subst he'
        exact he e' hm) (by simp)
    refine ⟨t1, t2, fun Y hY => ?_⟩
    simp only [Option.toList] at hY
    rw [(evictEntries_frame [e] s).1] at hY
    split at hY
    · exact absurd rfl hY
    · exact hY

theorem track_commitAll {R : Link} {s : List (Key × Value)} {links : List Link}
    (hnd : links.Nodup) (hd : ∀ L ∈ links, L ∉ R.chain) (ha : Apart R s) :
    Apart R (commitAll s links) ∧ SameOn R s (commitAll s links) := by
  refine ⟨?_, (commitAll_frame links s).1 R, fun L hL => ?_⟩
  · intro Y hY hmY
    rw [(commitAll_frame links s).1] at hmY
    exact ha Y hY hmY
  · have hnot : L ∉ links := fun h => hd L h hL
    constructor
    · rw [commitAll_lookup links s hnd]
      simp [hnot]
    · rw [commitAll_lookup links s hnd]
      simp [hnot]

theorem track_chunked {R : Link} {ls : CachedEntriesChunker} (h : LInv ls)
    (hmax : 1 ≤ ls.cache.MaxEntries) {mhi : List Digest} {X : Link}
    (hX : rootOf ls.chunkSize mhi [] none = some X)
    (hd : ∀ L ∈ allLinks ls.chunkSize mhi [] none, L ∉ R.chain) (ha : Apart R ls.ds.data) :
    Apart R (chunked ls mhi X).ds.data ∧ Moves R ls.ds.data (chunked ls mhi X).ds.data := by
  have hperm := allLinks_perm hX
  have hnd : (allLinks ls.chunkSize mhi [] none).Nodup := hperm.nodup_iff.2 (chain_nodup X)
  obtain ⟨a1, m1⟩ := track_commitAll hnd hd ha
  have he : ∀ e ∈ ls.cache.ll, ∃ Y, e.1 = some Y ∧ e.2.Perm Y.chain ∧
      lookup (commitAll ls.ds.data (allLinks ls.chunkSize mhi [] none)) (.root Y) ≠ none := by
    intro e he
    obtain ⟨Y, hY, hpY, hmY⟩ := h.lru.entry e he
    exact ⟨Y, hY, hpY, by rw [(commitAll_frame _ _).1]; exact hmY⟩
  obtain ⟨a2, m2, _⟩ := track_addStore hmax (wfc_commitAll h.wfc _) a1 he X
    (allLinks ls.chunkSize mhi [] none)
  have hXR : X ≠ R := by
    intro e
    exact hd X (hperm.mem_iff.2 (self_mem_chain X)) (e ▸ self_mem_chain X)
  have hXR' : ¬ Key.root X = Key.root R := by simpa using hXR
  simp only [chunked]
  constructor
  · intro Y hY hmY
    rw [lookup_insert] at hmY
    by_cases e : Y = X
    · subst e
      intro L hL hLY
      exact hd L (hperm.mem_iff.2 hLY) hL
    · have e' : ¬ Key.root X = Key.root Y := by
        simp only [Key.root.injEq]
        exact fun e0 => e e0.symm
      rw [if_neg e'] at hmY
      exact a2 Y hY hmY
  · refine moves_trans (moves_trans (Or.inl m1) m2) (Or.inl ⟨?_, fun L _ => ⟨?_, ?_⟩⟩)
    · rw [lookup_insert, if_neg hXR']
    · rw [lookup_insert, if_neg (by simp)]
    · rw [lookup_insert, if_neg (by simp)]

theorem track_Clear {R : Link} {ls : CachedEntriesChunker} (h : LInv ls) (picks : List Nat)
    (ha : Apart R ls.ds.data) :
    Apart R (Clear ls picks).2.ds.data ∧ Moves R ls.ds.data (Clear ls picks).2.ds.data := by
  obtain ⟨S, h1, _, _, _, _, h6⟩ := Clear_linv h picks
  rw [h1]
  simp only
  rw [h6]
  refine track_evictEntries R _ _ h.wfc ha ?_ ?_
  · intro e he
    exact h.lru.entry e (mem_of_mem_rangeOrder he)
  · exact ((rangeOrder_perm picks ls.cache.ll).map Prod.fst).nodup_iff.2 h.lru.nodup

theorem track_restoreRoots (R : Link) (cs max : Int) (hmax : 1 ≤ max) :
    ∀ (pend : List Key) (count : Nat) (s : List (Key × Value))
      (c : List (Option Link × List Link)), LRest s c pend → Apart R s →
      ∀ (n : Nat) (ls' : CachedEntriesChunker),
        restoreRoots pend count ⟨⟨s, []⟩, cs, ⟨max, c⟩, none⟩ = (.ok n, ls') →
        Apart R ls'.ds.data ∧ Moves R s ls'.ds.data := by
  intro pend
  induction pend with
  | nil =>
    intro count s c _ ha n ls' hres
    simp only [restoreRoots, Prod.mk.injEq, Except.ok.injEq] at hres
    obtain ⟨_, h2⟩ := hres
    subst h2
    exact ⟨ha, moves_refl R s⟩
  | cons k rest ih =>
    intro count s c h ha n ls' hres
    cases k with
    | root X =>
      simp only [restoreRoots, linkFromDsCachePrefixedKey] at hres
      cases hl : listEntriesChainLinks ⟨s, []⟩ X with
      | mk r ds =>
        obtain ⟨links, err⟩ := r
        rw [hl] at hres
        cases err with
        | some e => simp at hres
        | none =>
          obtain ⟨h1, h2⟩ := listEntriesChainLinks_ok hl
          subst h1 h2
          have hkeys : ∀ e ∈ c, e.1 ≠ none := by
            intro e he
            obtain ⟨Y, hY, _⟩ := h.entry e he
            simp [hY]
          simp only [performOnCache_add h.wfc cs max c X X.chain hkeys] at hres
          obtain ⟨a1, m1, _⟩ := track_addStore hmax h.wfc ha h.entry X X.chain
          obtain ⟨a2, m2⟩ := ih (count + 1) _ _ (h.add_entry hmax) a1 n ls' hres
          exact ⟨a2, moves_trans m1 m2⟩
    | chunk L => simp [restoreRoots, linkFromDsCachePrefixedKey] at hres
    | overlap L => simp [restoreRoots, linkFromDsCachePrefixedKey] at hres
    | rootRaw name => simp [restoreRoots, linkFromDsCachePrefixedKey] at hres
    | other name => simp [restoreRoots, linkFromDsCachePrefixedKey] at hres

theorem track_New {R : Link} {s : List (Key × Value)} (hw : WFc s)
    (hk : (s.map Prod.fst).Nodup) (hre : ∀ X v, lookup s (.root X) = some v → v = .raw [])
    (ha : Apart R s) (cs cap : Int) (hcap : 1 ≤ cap) (picks : List Nat)
    {ls' : CachedEntriesChunker}
    (hres : NewCachedEntriesChunker ⟨s, []⟩ cs cap picks = .ok ls') :
    Apart R ls'.ds.data ∧
      (Moves R s ls'.ds.data ∨
        (lookup s (.root R) = none ∧ lookup ls'.ds.data (.root R) = none)) := by
  unfold NewCachedEntriesChunker at hres
  cases hr : restoreCache ⟨⟨s, []⟩, cs, ⟨cap, []⟩, none⟩ picks with
  | mk err ls1 =>
    rw [hr] at hres
    cases err with
    | some e => simp at hres
    | none =>
      simp only [Except.ok.injEq] at hres
      subst hres
      simp only [restoreCache, query_reliable] at hr
      cases h1 : restoreRoots (rangeOrder picks ((s.map Prod.fst).filter underRoot)) 0
          ⟨⟨s, []⟩, cs, ⟨cap, []⟩, none⟩ with
      | mk r ls2 =>
        rw [h1] at hr
        cases r with
        | error e => simp at hr
        | ok n =>
          obtain ⟨a1, m1⟩ := track_restoreRoots R cs cap hcap _ 0 s []
            (lrest_start hw hk hre picks) ha n ls2 h1
          obtain ⟨_, _, _, i4⟩ := restoreRoots_linv cs cap hcap _ 0 s []
            (lrest_start hw hk hre picks) n ls2 h1
          simp only at hr
          by_cases hn : n = 0
          · have hpend : rangeOrder picks ((s.map Prod.fst).filter underRoot) = [] := by
              apply List.eq_nil_of_length_eq_zero
              omega
            have habs : lookup s (.root R) = none := by
              rw [lookup_eq_none_iff]
              intro hmem
              have : Key.root R ∈ rangeOrder picks ((s.map Prod.fst).filter underRoot) :=
                (rangeOrder_perm picks _).mem_iff.2 (List.mem_filter.2 ⟨hmem, rfl⟩)
              rw [hpend] at this
              simp at this
            rw [hpend] at h1
            simp only [restoreRoots, Prod.mk.injEq, Except.ok.injEq] at h1
            obtain ⟨_, h3⟩ := h1
            subst h3
            simp only [hn, if_true, query_reliable, pruneAll_reliable, prune_all_keys,
              Prod.mk.injEq, true_and] at hr
            subst hr
            refine ⟨?_, Or.inr ⟨habs, by simp [lookup]⟩⟩
            intro Y _ hY
            simp [lookup] at hY
          · simp only [hn, if_false, Prod.mk.injEq, true_and] at hr
            subst hr
            exact ⟨a1, Or.inl m1⟩

theorem step_track {R : Link} {ls ls' : CachedEntriesChunker} (h : LInv ls)
    (hmax : 1 ≤ ls.cache.MaxEntries) (e : Event) (hv : e.valid = true)
    (hap : e.apart R ls = true) (hst : e.step ls = some ls') (ha : Apart R ls.ds.data) :
    Apart R ls'.ds.data ∧
      (Moves R ls.ds.data ls'.ds.data ∨
        (lookup ls.ds.data (.root R) = none ∧ lookup ls'.ds.data (.root R) = none)) := by
  cases e with
  | call c =>
    simp only [Event.step] at hst
    split at hst
    · rename_i hsucc
      simp only [Option.some.injEq] at hst
      subst hst
      cases c with
      | chunk mhi =>
        obtain ⟨X, hX⟩ := chunk_succeeds hsucc
        obtain ⟨_, h2, h3⟩ := Chunk_ok_of h hX
        simp only [Call.exec]
        rw [h3]
        simp only [Event.apart, List.all_eq_true, decide_eq_true_eq] at hap
        obtain ⟨t1, t2⟩ := track_chunked h hmax h2 hap ha
        exact ⟨t1, Or.inl t2⟩
      | clear picks =>
        obtain ⟨t1, t2⟩ := track_Clear h picks ha
        exact ⟨t1, Or.inl t2⟩
      | getRaw l =>
        simp only [Call.exec, getRaw_reliable h.reliable]
        exact ⟨ha, Or.inl (moves_refl R _)⟩
      | close =>
        simp only [Call.exec, close_reliable h.reliable]
        exact ⟨ha, Or.inl (moves_refl R _)⟩
    · simp at hst
  | reopen cs cap picks =>
    simp only [Event.valid, decide_eq_true_eq] at hv
    simp only [Event.step] at hst
    cases hn : NewCachedEntriesChunker ls.ds cs cap picks with
    | error e => simp [hn] at hst
    | ok ls1 =>
      simp only [hn, Option.some.injEq] at hst
      subst hst
      obtain ⟨⟨s, fl⟩, cs0, c, err⟩ := ls
      have hr := h.reliable
      simp only at hr
      subst hr
      exact track_New h.wfc h.keys h.rootEmpty ha cs cap hv picks hn

theorem step_tracked {R : Link} {ls ls' : CachedEntriesChunker} (h : Tracked R ls) (e : Event)
    (hv : e.valid = true) (hap : e.apart R ls = true) (hst : e.step ls = some ls') :
    Tracked R ls' ∧
      (lookup ls.ds.data (.root R) ≠ none → lookup ls'.ds.data (.root R) = none →
        Gone R ls'.ds.data) := by
  obtain ⟨i1, i2⟩ := step_linv h.linv h.cap e hv hst
  obtain ⟨a1, m1⟩ := step_track h.linv h.cap e hv hap hst h.apart
  refine ⟨⟨i1, i2, a1, ?_⟩, ?_⟩
  · intro hm
    rcases m1 with m1 | ⟨_, m2⟩
    · by_cases h0 : lookup ls.ds.data (.root R) = none
      · exact absurd (moves_absent m1 h0) hm
      · rcases moves_kept m1 (h.kept h0) with k | g
        · exact k
        · exact absurd g.1 hm
    · exact absurd m2 hm
  · intro hm hn
    rcases m1 with m1 | ⟨m2, _⟩
    · rcases moves_kept m1 (h.kept hm) with k | g
      · exact absurd hn k.1
      · exact g
    · exact absurd m2 hm

theorem run_tracked (R : Link) (es : List Event) :
    ∀ {ls ls' : CachedEntriesChunker}, Tracked R ls → (∀ e ∈ es, e.valid = true) →
      sharesNone R es ls = true → run es ls = some ls' → Tracked R ls' := by
  induction es with
  | nil =>
    intro ls ls' h _ _ hr
    simp only [run, Option.some.injEq] at hr
    subst hr
    exact h
  | cons e es ih =>
    intro ls ls' h hv hs hr
    simp only [run] at hr
    cases hst : e.step ls with
    | none => simp [hst] at hr
    | some ls1 =>
      simp only [hst] at hr
      simp only [sharesNone, hst, Bool.and_eq_true] at hs
      exact ih (step_tracked h e (hv e (by simp)) hs.1 hst).1
        (fun e' he' => hv e' (by simp [he'])) hs.2 hr

/-- C24, the claim as written fails: with chunk size 3 and capacity 1, `[1,2,3]` is chunked
twice in a row, both calls succeed with the same root; `Chunk` of `[1,2,3,4]`, whose first
block is the block of that chain, then succeeds and evicts the chain, and the overlap key of
the block is still in the store, with the count 1. -/
theorem C24_counterexample :
    (Chunk (newCache 3 1) threeDigests).1 = (some (.tail threeDigests), none) ∧
    (Chunk (Chunk (newCache 3 1) threeDigests).2 threeDigests).1 =
      (some (.tail threeDigests), none) ∧
    Len rechunkedOne = 1 ∧ cnt rechunkedOne.ds.data (.tail threeDigests) = 1 ∧
    (Chunk rechunkedOne sharedA).1 = (some (.cons [[4]] (.tail threeDigests)), none) ∧
    (Chunk rechunkedOne sharedA).2.cache.ll.map Prod.fst =
      [some (.cons [[4]] (.tail threeDigests))] ∧
    lookup (Chunk rechunkedOne sharedA).2.ds.data (.root (.tail threeDigests)) = none ∧
    lookup (Chunk rechunkedOne sharedA).2.ds.data (.overlap (.tail threeDigests)) =
      some (.raw (putUint64 1)) := by
  decide

/-- C24, amended. Re-chunking a cached input: for every chunk size that `make` accepts, every
capacity of at least 1 and every non-empty input `A`, on the chunker constructed over the empty
reliable store `Chunk(A)` succeeds twice in a row with the same root `R`. After two such calls
`Len() = 1`, and every link of the chain of `R` has its chunk in the store and an overlap count
of 1. Let then a history of successful calls and restarts (capacities of at least 1) follow in
which no `Chunk` input yields a block of the chain of `R`: as long as `R` is cached, its root
marker is in the store and every link of its chain still has its chunk and the overlap count 1;
and when the next such event removes `R` from the cache (an eviction by `Chunk` or by the
restore of a restart, or `Clear`), the root marker of `R` and the overlap keys of its links are
gone after it and every chunk of the chain is still in the store. -/
theorem C24_rechunk_leaves_blocks (cs cap : Int) (A : List Digest) (hcs : 0 ≤ cs)
    (hmx : cs ≤ maxSliceCap) (hcap : 1 ≤ cap) (hA : A ≠ []) :
    (∃ R S1 S2, Chunk (newCache cs cap) A = ((some R, none), S1) ∧
      Chunk S1 A = ((some R, none), S2)) ∧
    ∀ R S1 S2, Chunk (newCache cs cap) A = ((some R, none), S1) →
      Chunk S1 A = ((some R, none), S2) →
      Len S2 = 1 ∧
      (∀ L ∈ R.chain, cnt S2.ds.data L = 1 ∧
        lookup S2.ds.data (.chunk L) = some (.node L.entries L.next)) ∧
      ∀ (es : List Event) (e : Event) (ls ls' : CachedEntriesChunker),
        (∀ x ∈ es, x.valid = true) → e.valid = true → sharesNone R es S2 = true →
        run es S2 = some ls → e.apart R ls = true → e.step ls = some ls' →
        some R ∈ ls.cache.ll.map Prod.fst →
          lookup ls.ds.data (.root R) ≠ none ∧
          (∀ L ∈ R.chain, cnt ls.ds.data L = 1 ∧
            lookup ls.ds.data (.chunk L) = some (.node L.entries L.next)) ∧
          (some R ∉ ls'.cache.ll.map Prod.fst →
            lookup ls'.ds.data (.root R) = none ∧
            ∀ L ∈ R.chain, lookup ls'.ds.data (.overlap L) = none ∧
              lookup ls'.ds.data (.chunk L) = some (.node L.entries L.next)) := by
  obtain ⟨R, hR⟩ := Option.ne_none_iff_exists'.1 (rootOf_ne_none cs A [] none (Or.inl hA))
  have i0 : LInv (newCache cs cap) := linv_empty cs cap
  have i1 : LInv (chunked (newCache cs cap) A R) := chunked_linv i0 hcap A R hR
  have i2 : LInv (chunked (chunked (newCache cs cap) A R) A R) := chunked_linv i1 hcap A R hR
  have c1 := Chunk_total_of i0 hcs hmx A R hR
  have c2 := Chunk_total_of i1 hcs hmx A R hR
  refine ⟨⟨R, _, _, c1, c2⟩, ?_⟩
  intro R' S1 S2 h1 h2
  rw [c1] at h1
  simp only [Prod.mk.injEq, Option.some.injEq, and_true] at h1
  obtain ⟨e1, e2⟩ := h1
  subst e1 e2
  rw [c2] at h2
  simp only [Prod.mk.injEq, Option.some.injEq, and_true, true_and] at h2
  subst h2
  have hst := rechunk_state cs cap hcap A R
  have hlk : ∀ L ∈ R.chain,
      lookup (chunked (chunked (newCache cs cap) A R) A R).ds.data (.chunk L) =
        some (.node L.entries L.next) ∧
      lookup (chunked (chunked (newCache cs cap) A R) A R).ds.data (.overlap L) =
        some (.raw (putUint64 1)) := by
    intro L hL
    rw [hst]
    exact rechunk_lookups cs A R hR L hL
  have hkeys : (chunked (chunked (newCache cs cap) A R) A R).cache.ll.map Prod.fst =
      [some R] := by
    rw [hst]
    rfl
  have hmark : lookup (chunked (chunked (newCache cs cap) A R) A R).ds.data (.root R) ≠
      none := by
    rw [hst]
    simp [lookup_insert]
  have ht : Tracked R (chunked (chunked (newCache cs cap) A R) A R) := by
    refine ⟨i2, by rw [hst]; exact hcap, ?_, fun _ => ⟨hmark, fun L hL =>
      ⟨(hlk L hL).2, (hlk L hL).1⟩⟩⟩
    intro X hX hm
    have := i2.lru.marker X hm
    rw [hkeys] at this
    simp only [List.mem_singleton, Option.some.injEq] at this
    exact absurd this hX
  refine ⟨by rw [hst]; rfl, fun L hL => ⟨cnt_of_lookup (by norm_num) (hlk L hL).2,
    (hlk L hL).1⟩, ?_⟩
  intro es e ls ls' hv hve hs hr hap hstep hc
  have t1 := run_tracked R es ht hv hs hr
  obtain ⟨t2, g⟩ := step_tracked t1 e hve hap hstep
  obtain ⟨x, hx, hk1⟩ := List.mem_map.1 hc
  obtain ⟨X, hX, _, hmX⟩ := t1.linv.lru.entry x hx
  have hXR : X = R := by
    rw [hk1] at hX
    exact (Option.some.inj hX).symm
  subst hXR
  have hk := t1.kept hmX
  refine ⟨hmX, fun L hL => ⟨cnt_of_lookup (by norm_num) (hk.2 L hL).1, (hk.2 L hL).2⟩, ?_⟩
  intro hnc
  have hn : lookup ls'.ds.data (.root X) = none := by
    by_contra h0
    exact hnc (t2.linv.lru.marker X h0)
  exact g hmX hn

theorem C24_rechunk_leaves_blocks_witness :
    ((0 : Int) ≤ 3 ∧ (3 : Int) ≤ maxSliceCap ∧ (1 : Int) ≤ 1 ∧ threeDigests ≠ [] ∧
      Chunk (newCache 3 1) threeDigests =
        ((some (.tail threeDigests), none), (Chunk (newCache 3 1) threeDigests).2) ∧
      Chunk (Chunk (newCache 3 1) threeDigests).2 threeDigests =
        ((some (.tail threeDigests), none), rechunkedOne) ∧
      (∀ x ∈ ([] : List Event), x.valid = true) ∧
      (Event.call (.chunk [[4]])).valid = true ∧
      sharesNone (.tail threeDigests) [] rechunkedOne = true ∧
      run [] rechunkedOne = some rechunkedOne ∧
      (Event.call (.chunk [[4]])).apart (.tail threeDigests) rechunkedOne = true ∧
      (Event.call (.chunk [[4]])).step rechunkedOne = some (Chunk rechunkedOne [[4]]).2 ∧
      some (Link.tail threeDigests) ∈ rechunkedOne.cache.ll.map Prod.fst ∧
      some (Link.tail threeDigests) ∉ (Chunk rechunkedOne [[4]]).2.cache.ll.map Prod.fst) ∧
    (lookup (Chunk rechunkedOne [[4]]).2.ds.data (.root (.tail threeDigests)) = none ∧
      ∀ L ∈ (Link.tail threeDigests).chain,
        lookup (Chunk rechunkedOne [[4]]).2.ds.data (.overlap L) = none ∧
        lookup (Chunk rechunkedOne [[4]]).2.ds.data (.chunk L) =
          some (.node L.entries L.next)) :=
  ⟨⟨by decide, by decide, by decide, by decide, by decide, by decide, by decide, by decide,
      by decide, by decide, by decide, by decide, by decide, by decide⟩,
    ((C24_rechunk_leaves_blocks 3 1 threeDigests (by decide) (by decide) (by decide)
      (by decide)).2 (.tail threeDigests) (Chunk (newCache 3 1) threeDigests).2 rechunkedOne
      (by decide) (by decide)).2.2 [] (.call (.chunk [[4]])) rechunkedOne
      (Chunk rechunkedOne [[4]]).2 (by decide) (by decide) (by decide) (by decide) (by decide)
      (by decide) (by decide) |>.2.2 (by decide)⟩

end Chunker
